import Mathlib

/-!
Two-tape to one-tape Turing machine reduction.

A shallow embedding of `src/turing_machine.cpp` and a verification of the
properties stated about it.

Modelling conventions.

* `std::string` is a list of characters (`Str`), `std::vector<string>` a list
  of `Str`.
* `int` is `Int`; a loop `for (int i = 0; i <= N; i++)` runs `(N + 1).toNat`
  times.
* `std::map` (`transitions_t`) is an association list with `map_assign` for
  `m[k] = v` (overwrite) and `map_insert_range` for `m.insert(first, last)`
  (an existing key is kept).  `std::set<string>` is a duplicate free list.
  Entries are kept in insertion order; the properties below are about the
  mapping, not about iteration order.
* The globals `NUMBER_OF_PARENTHESES`, `TAPE_BORDER`, `TAPE_END` are the
  fields of an explicit state `Globals` threaded through the functions.
* `assert` failures and out of range indexing are values of `Failure`.
* The constants of the header `turing_machine.h`, which is not among the
  sources, are the fields of a parameter `Header`.
* A file is the list of its characters; `fgetc` takes them from the front and
  an output stream is the text written to it.  Loops of the reader that depend
  on the file take fuel, set from the length of the rest of the file.
* The sources have no interpreter.  The step semantics is the deterministic
  one on blank-filled tapes.  What a move to the left from the first cell of a
  tape does is not fixed by the spec, and there are two models: `step_free`,
  `run_free`, `accepts_free` halt only when no transition applies and take the
  reading of that move (`LeftEdge`: the head stays, or the tape is infinite to
  the left as well) as a parameter; `step`, `run`, `accepts` are the variant in
  which that move is not possible and halts the machine.  The two agree on
  every step that makes no such move (`step_free_of_step`).
-/

namespace TMReducer

/-- A `std::string`. -/
abbrev Str := List Char

/-- The constants declared in `turing_machine.h` (`BLANK`, the three reserved
states and the three head directions), taken as a parameter. -/
structure Header where
  BLANK : Str
  INITIAL_STATE : Str
  ACCEPTING_STATE : Str
  REJECTING_STATE : Str
  HEAD_LEFT : Char
  HEAD_RIGHT : Char
  HEAD_STAY : Char

/-- The customary values of the header constants. -/
def stdHeader : Header where
  BLANK := "_".toList
  INITIAL_STATE := "(start)".toList
  ACCEPTING_STATE := "(accept)".toList
  REJECTING_STATE := "(reject)".toList
  HEAD_LEFT := '<'
  HEAD_RIGHT := '>'
  HEAD_STAY := '-'

/-- Key of a transition: `pair<string, vector<string>>`. -/
abbrev Key := Str × List Str

/-- Value of a transition: `tuple<string, vector<string>, string>`. -/
abbrev Val := Str × List Str × Str

/-- The type `transitions_t`, a `std::map` from `Key` to `Val`. -/
abbrev transitions_t := List (Key × Val)

/-- Lookup `m.find(k)`. -/
def map_find : transitions_t → Key → Option Val
  | [], _ => none
  | (k1, v1) :: m, k => if k1 = k then some v1 else map_find m k

/-- Assignment `m[k] = v`: an existing entry is overwritten. -/
def map_assign : transitions_t → Key → Val → transitions_t
  | [], k, v => [(k, v)]
  | (k1, v1) :: m, k, v => if k1 = k then (k, v) :: m else (k1, v1) :: map_assign m k v

/-- Single element `m.insert({k, v})`: an existing entry is kept. -/
def map_insert (m : transitions_t) (k : Key) (v : Val) : transitions_t :=
  match map_find m k with
  | some _ => m
  | none => m ++ [(k, v)]

/-- Range insertion `m.insert(b.begin(), b.end())`. -/
def map_insert_range (m b : transitions_t) : transitions_t :=
  b.foldl (fun acc e => map_insert acc e.1 e.2) m

/-- The map obtained by executing the assignments `res[k] = v` of the list
in order, starting from the empty map. -/
def map_of_writes (ws : List (Key × Val)) : transitions_t :=
  ws.foldl (fun res e => map_assign res e.1 e.2) []

/-- The keys of a map. -/
def map_keys (m : transitions_t) : List Key := m.map Prod.fst

/-- Insertion into a `std::set<string>`. -/
def set_insert (s : List Str) (x : Str) : List Str :=
  if x ∈ s then s else s ++ [x]

/-- Range insertion into a `std::set<string>`. -/
def set_insert_range (s xs : List Str) : List Str :=
  xs.foldl set_insert s

/-- The ways in which the reduction can abort. -/
inductive Failure where
  | assert_num_tapes_is_two
  | index_out_of_range
  | constructor_assert
  deriving DecidableEq, Repr

/-- The fields of class `TuringMachine`. -/
structure TuringMachine where
  num_tapes : Int
  input_alphabet : List Str
  transitions : transitions_t
  deriving DecidableEq

/-- The function `is_valid_char`. -/
def is_valid_char (ch : Char) : Bool :=
  (decide ('a' ≤ ch) && decide (ch ≤ 'z'))
    || (decide ('A' ≤ ch) && decide (ch ≤ 'Z'))
    || (decide ('0' ≤ ch) && decide (ch ≤ '9'))
    || ch == '_' || ch == '-'

/-- The function `is_direction`. -/
def is_direction (hd : Header) (ch : Char) : Bool :=
  ch == hd.HEAD_LEFT || ch == hd.HEAD_RIGHT || ch == hd.HEAD_STAY

mutual
/-- The function `check_identifier(ident, pos)`.  The argument is the part of
`ident` from `pos` on.  `some (some r)` is the result `true` with `r` the part
of `ident` from the new `pos` on, `some none` is the result `false`, and `none`
means that the recursion budget (first argument) was too small. -/
def check_identifier : Nat → Str → Option (Option Str)
  | 0, _ => none
  | _ + 1, [] => some none
  | fuel + 1, c :: rest =>
    if is_valid_char c then some (some rest)
    else if c != '(' then some none
    else
      match skip_identifiers fuel rest with
      | none => none
      | some r =>
        if r.length == rest.length then some none
        else
          match r with
          | ')' :: r2 => some (some r2)
          | _ => some none
/-- The loop `while (check_identifier(ident, pos2));`: returns the part of
`ident` from the final `pos2` on. -/
def skip_identifiers : Nat → Str → Option Str
  | 0, _ => none
  | fuel + 1, s =>
    match check_identifier fuel s with
    | none => none
    | some none => some s
    | some (some r) => skip_identifiers fuel r
end

/-- The function `is_identifier`.  The budget `2 * length + 1` is always
enough (`check_identifier_enough`). -/
def is_identifier (ident : Str) : Bool :=
  check_identifier (2 * ident.length + 1) ident == some (some [])

/-- The assertions of the `TuringMachine` constructor about one transition. -/
def transition_asserts (hd : Header) (num_tapes : Int) (t : Key × Val) : Bool :=
  let state_before := t.1.1
  let letters_before := t.1.2
  let state_after := t.2.1
  let letters_after := t.2.2.1
  let directions := t.2.2.2
  (is_identifier state_before && state_before != hd.ACCEPTING_STATE
      && state_before != hd.REJECTING_STATE && is_identifier state_after)
    && (letters_before.length == num_tapes.toNat && letters_after.length == num_tapes.toNat
      && directions.length == num_tapes.toNat)
    && (List.range num_tapes.toNat).all (fun a =>
      match letters_before.get? a, letters_after.get? a, directions.get? a with
      | some x, some y, some d => is_identifier x && is_identifier y && is_direction hd d
      | _, _, _ => false)

/-- All assertions of the `TuringMachine` constructor. -/
def constructor_asserts (hd : Header) (num_tapes : Int) (input_alphabet : List Str)
    (transitions : transitions_t) : Bool :=
  decide (num_tapes > 0)
    && !input_alphabet.isEmpty
    && input_alphabet.all (fun letter => is_identifier letter && letter != hd.BLANK)
    && transitions.all (transition_asserts hd num_tapes)

/-- The constructor `TuringMachine::TuringMachine`. -/
def TuringMachine.construct (hd : Header) (num_tapes : Int) (input_alphabet : List Str)
    (transitions : transitions_t) : Except Failure TuringMachine :=
  if constructor_asserts hd num_tapes input_alphabet transitions then
    .ok ⟨num_tapes, input_alphabet, transitions⟩
  else .error .constructor_assert

/-- A machine that the constructor accepts, with a transition table that is a
map (no key occurs twice). -/
def TuringMachine.Valid (hd : Header) (M : TuringMachine) : Prop :=
  constructor_asserts hd M.num_tapes M.input_alphabet M.transitions = true
    ∧ (map_keys M.transitions).Nodup

/-- The method `TuringMachine::working_alphabet`. -/
def TuringMachine.working_alphabet (hd : Header) (M : TuringMachine) : List Str :=
  let letters := set_insert_range [] M.input_alphabet
  let letters := set_insert letters hd.BLANK
  M.transitions.foldl
    (fun letters transition =>
      let letters_before := transition.1.2
      let letters_after := transition.2.2.1
      set_insert_range (set_insert_range letters letters_before) letters_after)
    letters

/-- The global variables of `turing_machine.cpp`. -/
structure Globals where
  NUMBER_OF_PARENTHESES : Int
  TAPE_BORDER : Str
  TAPE_END : Str
  deriving DecidableEq

/-- The globals at program start. -/
def Globals.initial : Globals := ⟨0, [], []⟩

/-- The inner loop of `set_number_of_parentheses`: the number of `(` in a
letter. -/
def count_paren (letter : Str) : Int :=
  letter.foldl (fun paren c => if c == '(' then paren + 1 else paren) 0

/-- The function `set_number_of_parentheses`. -/
def set_number_of_parentheses (g : Globals) (working_alphabet : List Str) : Globals :=
  working_alphabet.foldl
    (fun g letter =>
      let paren := count_paren letter
      if paren > g.NUMBER_OF_PARENTHESES then { g with NUMBER_OF_PARENTHESES := paren } else g)
    g

/-- The text `body` between `NUMBER_OF_PARENTHESES + 1` opening and as many
closing parentheses: the loops shared by `make_logical_head`,
`set_tape_border` and `set_tape_end`. -/
def wrap (n : Int) (body : Str) : Str :=
  List.replicate (n + 1).toNat '(' ++ body ++ List.replicate (n + 1).toNat ')'

/-- The function `make_logical_head`. -/
def make_logical_head (g : Globals) (letter : Str) : Str :=
  wrap g.NUMBER_OF_PARENTHESES (letter ++ "-H".toList)

/-- The function `make_in`. -/
def make_in (state letter : Str) : Key := (state, [letter])

/-- The function `make_out`. -/
def make_out (state letter : Str) (dir : Char) : Val := (state, [letter], [dir])

/-- The function `std::to_string(int)`. -/
def to_string (n : Int) : Str :=
  if n < 0 then '-' :: Nat.toDigits 10 n.natAbs else Nat.toDigits 10 n.toNat

/-- The function `make_user_state`. -/
def make_user_state (original_state move : Str) (tape : Int) : Str :=
  "(U-".toList ++ original_state ++ "-".toList ++ move ++ "-".toList ++ to_string tape
    ++ ")".toList

def INIT_FIND_SECOND_TAPE : Str := "(init-findSecondTape)".toList
def INIT_PUT_SECOND_HEAD : Str := "(init-putSecondHead)".toList
def INIT_PUT_END_OF_SECOND_HEAD : Str := "(init-putEndOfSecondTape)".toList
def INIT_BACK_TO_BORDER : Str := "(init-backToBorder)".toList
def INIT_BACK_TO_FRONT : Str := "(init-backToFront)".toList

/-- The function `set_tape_border`. -/
def set_tape_border (g : Globals) : Globals :=
  { g with TAPE_BORDER := wrap g.NUMBER_OF_PARENTHESES "tape-border".toList }

/-- The function `set_tape_end`. -/
def set_tape_end (g : Globals) : Globals :=
  { g with TAPE_END := wrap g.NUMBER_OF_PARENTHESES "tape-end".toList }

def MOVE_HEAD_RIGHT : Str := "headRight".toList
def MOVE_HEAD_LEFT : Str := "headLeft".toList
def TO_SECOND_TAPE : Str := "toSecondTape".toList
def EXT_TAPE_TAPE_BORDER : Str := "extendTape-tapeBorder".toList
def EXT_TAPE_TAPE_END : Str := "extendTape-tapeEnd".toList
def EXT_TAPE_MOVE_BACK : Str := "extendTape-moveBack".toList

/-- The function `extend_tape_with_letter`. -/
def extend_tape_with_letter (letter : Str) : Str := "extendTape-".toList ++ letter

/-- The function `extend_tape_back_to_first_tape`. -/
def extend_tape_back_to_first_tape (letter : Str) : Str := "backToFirstTape-".toList ++ letter

/-- The sequence of assignments `res[...] = ...` that `make_init_states`
executes, in program order. -/
def make_init_states_writes (hd : Header) (g : Globals) (input_alphabet : List Str) :
    List (Key × Val) :=
  let H := make_logical_head g
  input_alphabet.map (fun letter =>
      (make_in hd.INITIAL_STATE letter, make_out INIT_FIND_SECOND_TAPE (H letter) hd.HEAD_RIGHT))
    ++ [(make_in hd.INITIAL_STATE hd.BLANK,
          make_out INIT_FIND_SECOND_TAPE (H hd.BLANK) hd.HEAD_RIGHT)]
    ++ input_alphabet.map (fun letter =>
      (make_in INIT_FIND_SECOND_TAPE letter,
        make_out INIT_FIND_SECOND_TAPE letter hd.HEAD_RIGHT))
    ++ [(make_in INIT_FIND_SECOND_TAPE hd.BLANK,
          make_out INIT_PUT_SECOND_HEAD g.TAPE_BORDER hd.HEAD_RIGHT),
        (make_in INIT_PUT_SECOND_HEAD hd.BLANK,
          make_out INIT_PUT_END_OF_SECOND_HEAD (H hd.BLANK) hd.HEAD_RIGHT),
        (make_in INIT_PUT_END_OF_SECOND_HEAD hd.BLANK,
          make_out INIT_BACK_TO_BORDER g.TAPE_END hd.HEAD_LEFT),
        (make_in INIT_BACK_TO_BORDER (H hd.BLANK),
          make_out INIT_BACK_TO_BORDER (H hd.BLANK) hd.HEAD_LEFT),
        (make_in INIT_BACK_TO_BORDER g.TAPE_BORDER,
          make_out INIT_BACK_TO_FRONT g.TAPE_BORDER hd.HEAD_LEFT)]
    ++ input_alphabet.map (fun letter =>
      (make_in INIT_BACK_TO_FRONT letter, make_out INIT_BACK_TO_FRONT letter hd.HEAD_LEFT))

/-- The function `make_init_states`. -/
def make_init_states (hd : Header) (g : Globals) (input_alphabet : List Str) : transitions_t :=
  map_of_writes (make_init_states_writes hd g input_alphabet)

/-- The string `state_in` (and `state_out`) of
`make_one_tape_transitions_from_two`. -/
def compose_state (state letter_1 letter_2 : Str) : Str :=
  state ++ "-(".toList ++ letter_1 ++ ")-(".toList ++ letter_2 ++ ")".toList

/-- The assignments of the block "Add transition from internal initial state
to user-defined start state" of `make_one_tape_transitions_from_two`. -/
def writes_entry (hd : Header) (g : Globals) (in_first state_in : Str)
    (letter_in_tape_1 letter_in_tape_2 : Str) : List (Key × Val) :=
  if in_first = hd.INITIAL_STATE then
    (if letter_in_tape_2 = hd.BLANK then
      [(make_in INIT_BACK_TO_FRONT (make_logical_head g letter_in_tape_1),
        make_out (make_user_state state_in [] 1) (make_logical_head g letter_in_tape_1)
          hd.HEAD_STAY)]
    else [])
  else []

/-- The assignments of the block `if (dir_tape_1 == HEAD_LEFT)`. -/
def writes_tape_1_left (hd : Header) (g : Globals) (state_in : Str)
    (letter_in_tape_1 letter_out_tape_1 : Str) (dir_tape_1 : Char) (alphabet : List Str) :
    List (Key × Val) :=
  if dir_tape_1 = hd.HEAD_LEFT then
    [(make_in (make_user_state state_in [] 1) (make_logical_head g letter_in_tape_1),
      make_out (make_user_state state_in MOVE_HEAD_LEFT 1) letter_out_tape_1 hd.HEAD_LEFT)]
    ++ alphabet.map (fun letter =>
      (make_in (make_user_state state_in MOVE_HEAD_LEFT 1) letter,
        make_out (make_user_state state_in TO_SECOND_TAPE 1) (make_logical_head g letter)
          hd.HEAD_RIGHT))
  else []

/-- The first assignments of the block `if (dir_tape_1 == HEAD_RIGHT)`: the
move of the logical head. -/
def writes_tape_1_right_move (hd : Header) (g : Globals) (state_in : Str)
    (letter_in_tape_1 letter_out_tape_1 : Str) (alphabet : List Str) : List (Key × Val) :=
  [(make_in (make_user_state state_in [] 1) (make_logical_head g letter_in_tape_1),
    make_out (make_user_state state_in MOVE_HEAD_RIGHT 1) letter_out_tape_1 hd.HEAD_RIGHT)]
  ++ alphabet.map (fun letter =>
    (make_in (make_user_state state_in MOVE_HEAD_RIGHT 1) letter,
      make_out (make_user_state state_in TO_SECOND_TAPE 1) (make_logical_head g letter)
        hd.HEAD_RIGHT))

/-- The assignments under "Extend first tape if necessary". -/
def writes_tape_1_extend (hd : Header) (g : Globals) (state_in : Str) (alphabet : List Str) :
    List (Key × Val) :=
  let U := make_user_state state_in
  let H := make_logical_head g
  let ext := extend_tape_with_letter
  [(make_in (U MOVE_HEAD_RIGHT 1) g.TAPE_BORDER,
    make_out (U EXT_TAPE_TAPE_BORDER 1) hd.BLANK hd.HEAD_RIGHT)]
  ++ alphabet.flatMap (fun letter1 =>
    [(make_in (U EXT_TAPE_TAPE_BORDER 1) letter1,
        make_out (U (ext letter1) 1) g.TAPE_BORDER hd.HEAD_RIGHT),
      (make_in (U EXT_TAPE_TAPE_BORDER 1) (H letter1),
        make_out (U (ext (H letter1)) 1) g.TAPE_BORDER hd.HEAD_RIGHT)]
    ++ alphabet.flatMap (fun letter2 =>
      [(make_in (U (ext letter1) 1) letter2,
          make_out (U (ext letter2) 1) letter1 hd.HEAD_RIGHT),
        (make_in (U (ext letter1) 1) (H letter2),
          make_out (U (ext (H letter2)) 1) letter1 hd.HEAD_RIGHT),
        (make_in (U (ext (H letter1)) 1) letter2,
          make_out (U (ext letter2) 1) (H letter1) hd.HEAD_RIGHT)])
    ++ [(make_in (U (ext letter1) 1) g.TAPE_END,
          make_out (U EXT_TAPE_TAPE_END 1) letter1 hd.HEAD_RIGHT),
        (make_in (U (ext (H letter1)) 1) g.TAPE_END,
          make_out (U EXT_TAPE_TAPE_END 1) (H letter1) hd.HEAD_RIGHT)])

/-- The assignments under "Back to moving logical head to the right". -/
def writes_tape_1_extend_back (hd : Header) (g : Globals) (state_in : Str)
    (alphabet : List Str) : List (Key × Val) :=
  let U := make_user_state state_in
  let H := make_logical_head g
  [(make_in (U EXT_TAPE_TAPE_END 1) hd.BLANK,
    make_out (U EXT_TAPE_MOVE_BACK 1) g.TAPE_END hd.HEAD_LEFT)]
  ++ alphabet.flatMap (fun letter =>
    [(make_in (U EXT_TAPE_MOVE_BACK 1) letter,
        make_out (U EXT_TAPE_MOVE_BACK 1) letter hd.HEAD_LEFT),
      (make_in (U EXT_TAPE_MOVE_BACK 1) (H letter),
        make_out (U EXT_TAPE_MOVE_BACK 1) (H letter) hd.HEAD_LEFT)])
  ++ [(make_in (U EXT_TAPE_MOVE_BACK 1) g.TAPE_BORDER,
        make_out (U MOVE_HEAD_RIGHT 1) g.TAPE_BORDER hd.HEAD_LEFT)]

/-- The assignments of the block `if (dir_tape_1 == HEAD_RIGHT)`. -/
def writes_tape_1_right (hd : Header) (g : Globals) (state_in : Str)
    (letter_in_tape_1 letter_out_tape_1 : Str) (dir_tape_1 : Char) (alphabet : List Str) :
    List (Key × Val) :=
  if dir_tape_1 = hd.HEAD_RIGHT then
    writes_tape_1_right_move hd g state_in letter_in_tape_1 letter_out_tape_1 alphabet
    ++ writes_tape_1_extend hd g state_in alphabet
    ++ writes_tape_1_extend_back hd g state_in alphabet
  else []

/-- The assignment of the block `if (dir_tape_1 == HEAD_STAY)`. -/
def writes_tape_1_stay (hd : Header) (g : Globals) (state_in : Str)
    (letter_in_tape_1 letter_out_tape_1 : Str) (dir_tape_1 : Char) : List (Key × Val) :=
  if dir_tape_1 = hd.HEAD_STAY then
    [(make_in (make_user_state state_in [] 1) (make_logical_head g letter_in_tape_1),
      make_out (make_user_state state_in TO_SECOND_TAPE 1)
        (make_logical_head g letter_out_tape_1) hd.HEAD_RIGHT)]
  else []

/-- The assignments under "Move physical head to the logical head on the
second tape". -/
def writes_to_second_tape (hd : Header) (g : Globals) (state_in : Str) (alphabet : List Str) :
    List (Key × Val) :=
  let U := make_user_state state_in
  alphabet.flatMap (fun letter =>
    [(make_in (U TO_SECOND_TAPE 1) letter, make_out (U TO_SECOND_TAPE 1) letter hd.HEAD_RIGHT),
      (make_in (U TO_SECOND_TAPE 1) g.TAPE_BORDER,
        make_out (U TO_SECOND_TAPE 2) g.TAPE_BORDER hd.HEAD_RIGHT),
      (make_in (U TO_SECOND_TAPE 2) letter,
        make_out (U TO_SECOND_TAPE 2) letter hd.HEAD_RIGHT)])

/-- The assignments of the block `if (dir_tape_2 == HEAD_LEFT)`. -/
def writes_tape_2_left (hd : Header) (g : Globals) (state_in : Str)
    (letter_in_tape_2 letter_out_tape_2 : Str) (dir_tape_2 : Char) (alphabet : List Str) :
    List (Key × Val) :=
  let U := make_user_state state_in
  if dir_tape_2 = hd.HEAD_LEFT then
    [(make_in (U TO_SECOND_TAPE 2) (make_logical_head g letter_in_tape_2),
      make_out (U MOVE_HEAD_LEFT 2) letter_out_tape_2 hd.HEAD_LEFT)]
    ++ alphabet.map (fun letter =>
      (make_in (U MOVE_HEAD_LEFT 2) letter,
        make_out (U (extend_tape_back_to_first_tape letter) 2) (make_logical_head g letter)
          hd.HEAD_LEFT))
  else []

/-- The assignments of the block `if (dir_tape_2 == HEAD_RIGHT)`. -/
def writes_tape_2_right (hd : Header) (g : Globals) (state_in : Str)
    (letter_in_tape_2 letter_out_tape_2 : Str) (dir_tape_2 : Char) (alphabet : List Str) :
    List (Key × Val) :=
  let U := make_user_state state_in
  if dir_tape_2 = hd.HEAD_RIGHT then
    [(make_in (U TO_SECOND_TAPE 2) (make_logical_head g letter_in_tape_2),
      make_out (U MOVE_HEAD_RIGHT 2) letter_out_tape_2 hd.HEAD_RIGHT)]
    ++ alphabet.map (fun letter =>
      (make_in (U MOVE_HEAD_RIGHT 2) letter,
        make_out (U (extend_tape_back_to_first_tape letter) 2) (make_logical_head g letter)
          hd.HEAD_LEFT))
    ++ [(make_in (U MOVE_HEAD_RIGHT 2) g.TAPE_END,
          make_out (U EXT_TAPE_TAPE_END 2) hd.BLANK hd.HEAD_RIGHT),
        (make_in (U EXT_TAPE_TAPE_END 2) hd.BLANK,
          make_out (U MOVE_HEAD_RIGHT 2) g.TAPE_END hd.HEAD_LEFT)]
  else []

/-- The assignment of the block `if (dir_tape_2 == HEAD_STAY)`. -/
def writes_tape_2_stay (hd : Header) (g : Globals) (state_in : Str)
    (letter_in_tape_2 letter_out_tape_2 : Str) (dir_tape_2 : Char) : List (Key × Val) :=
  if dir_tape_2 = hd.HEAD_STAY then
    [(make_in (make_user_state state_in TO_SECOND_TAPE 2)
        (make_logical_head g letter_in_tape_2),
      make_out (make_user_state state_in (extend_tape_back_to_first_tape letter_out_tape_2) 2)
        (make_logical_head g letter_out_tape_2) hd.HEAD_LEFT)]
  else []

/-- The assignments under "Move physical head back to the logical head on the
first tape". -/
def writes_back_to_first_tape (hd : Header) (g : Globals) (state_in : Str)
    (alphabet : List Str) : List (Key × Val) :=
  let U := make_user_state state_in
  let back := extend_tape_back_to_first_tape
  alphabet.flatMap (fun letter1 =>
    alphabet.flatMap (fun letter2 =>
      [(make_in (U (back letter1) 2) letter2,
          make_out (U (back letter1) 2) letter2 hd.HEAD_LEFT),
        (make_in (U (back letter1) 2) g.TAPE_BORDER,
          make_out (U (back letter1) 1) g.TAPE_BORDER hd.HEAD_LEFT),
        (make_in (U (back letter1) 1) letter2,
          make_out (U (back letter1) 1) letter2 hd.HEAD_LEFT)]))

/-- The assignments under "Add Out state, which connects different states". -/
def writes_out (hd : Header) (g : Globals) (state_in out_first : Str) (alphabet : List Str) :
    List (Key × Val) :=
  let U := make_user_state state_in
  let H := make_logical_head g
  let back := extend_tape_back_to_first_tape
  alphabet.flatMap (fun letter1 =>
    alphabet.map (fun letter2 =>
      if out_first = hd.ACCEPTING_STATE then
        (make_in (U (back letter1) 1) (H letter2),
          make_out hd.ACCEPTING_STATE (H letter2) hd.HEAD_STAY)
      else
        let state_out := compose_state out_first letter2 letter1
        (make_in (U (back letter1) 1) (H letter2),
          make_out (make_user_state state_out [] 1) (H letter2) hd.HEAD_STAY)))

/-- The sequence of assignments `res[...] = ...` that
`make_one_tape_transitions_from_two` executes, in program order, given the
components of `in` and `out`. -/
def two_to_one_writes (hd : Header) (g : Globals) (in_first out_first : Str)
    (letter_in_tape_1 letter_in_tape_2 letter_out_tape_1 letter_out_tape_2 : Str)
    (dir_tape_1 dir_tape_2 : Char) (alphabet : List Str) : List (Key × Val) :=
  let state_in := compose_state in_first letter_in_tape_1 letter_in_tape_2
  writes_entry hd g in_first state_in letter_in_tape_1 letter_in_tape_2
  ++ writes_tape_1_left hd g state_in letter_in_tape_1 letter_out_tape_1 dir_tape_1 alphabet
  ++ writes_tape_1_right hd g state_in letter_in_tape_1 letter_out_tape_1 dir_tape_1 alphabet
  ++ writes_tape_1_stay hd g state_in letter_in_tape_1 letter_out_tape_1 dir_tape_1
  ++ writes_to_second_tape hd g state_in alphabet
  ++ writes_tape_2_left hd g state_in letter_in_tape_2 letter_out_tape_2 dir_tape_2 alphabet
  ++ writes_tape_2_right hd g state_in letter_in_tape_2 letter_out_tape_2 dir_tape_2 alphabet
  ++ writes_tape_2_stay hd g state_in letter_in_tape_2 letter_out_tape_2 dir_tape_2
  ++ writes_back_to_first_tape hd g state_in alphabet
  ++ writes_out hd g state_in out_first alphabet

/-- The function `make_one_tape_transitions_from_two`.  The unchecked
indexing `in.second[0]`, `in.second[1]`, `get<1>(out)[0]`, ... is an error
when out of range. -/
def make_one_tape_transitions_from_two (hd : Header) (g : Globals) (in_ : Key) (out : Val)
    (alphabet : List Str) : Except Failure transitions_t :=
  match in_.2.get? 0, in_.2.get? 1, out.2.1.get? 0, out.2.1.get? 1,
      out.2.2.get? 0, out.2.2.get? 1 with
  | some letter_in_tape_1, some letter_in_tape_2, some letter_out_tape_1,
      some letter_out_tape_2, some dir_tape_1, some dir_tape_2 =>
    .ok (map_of_writes (two_to_one_writes hd g in_.1 out.1 letter_in_tape_1 letter_in_tape_2
      letter_out_tape_1 letter_out_tape_2 dir_tape_1 dir_tape_2 alphabet))
  | _, _, _, _, _, _ => .error .index_out_of_range

/-- The loop `for (auto transition: transitions)` of
`reduce_two_tapes_to_one`, started with the table accumulated so far. -/
def reduce_loop (hd : Header) (g : Globals) (M : TuringMachine) :
    List (Key × Val) → transitions_t → Except Failure transitions_t
  | [], new_transitions => .ok new_transitions
  | transition :: rest, new_transitions =>
    match make_one_tape_transitions_from_two hd g transition.1 transition.2
        (M.working_alphabet hd) with
    | .error e => .error e
    | .ok nt => reduce_loop hd g M rest (map_insert_range new_transitions nt)

/-- The globals after the three setup calls of `reduce_two_tapes_to_one`. -/
def setup_globals (hd : Header) (M : TuringMachine) (g : Globals) : Globals :=
  set_tape_end (set_tape_border (set_number_of_parentheses g (M.working_alphabet hd)))

/-- The method `TuringMachine::reduce_two_tapes_to_one`, with the globals as
explicit state: the result is the new machine and the globals afterwards. -/
def TuringMachine.reduce_two_tapes_to_one (hd : Header) (M : TuringMachine) (g : Globals) :
    Except Failure (TuringMachine × Globals) :=
  if M.num_tapes ≠ 2 then .error .assert_num_tapes_is_two
  else
    let g := setup_globals hd M g
    let init_states := make_init_states hd g M.input_alphabet
    let new_transitions := map_insert_range [] init_states
    match reduce_loop hd g M M.transitions new_transitions with
    | .error e => .error e
    | .ok new_transitions =>
      match TuringMachine.construct hd 1 M.input_alphabet new_transitions with
      | .error e => .error e
      | .ok M1 => .ok (M1, g)

/-- The strings that are a concatenation of zero or more identifiers of the
grammar `Id ::= valid character | "(" Id+ ")"`. -/
inductive Idents : Str → Prop
  | nil : Idents []
  | char (c : Char) (v : Str) : is_valid_char c = true → Idents v → Idents (c :: v)
  | group (w v : Str) : Idents w → w ≠ [] → Idents v → Idents ('(' :: w ++ ')' :: v)

/-- The strings of the grammar `Id ::= valid character | "(" Id+ ")"`. -/
def Ident (s : Str) : Prop :=
  (∃ c, is_valid_char c = true ∧ s = [c]) ∨ (∃ w, Idents w ∧ w ≠ [] ∧ s = '(' :: w ++ [')'])

/-- A string on which `check_identifier` fails at once: it is empty or starts
with a character that is neither valid nor `(`. -/
def Stops (rest : Str) : Prop :=
  ∀ c r, rest = c :: r → is_valid_char c = false ∧ c ≠ '('

/-- The scan behind `nesting_depth`: `cur` is the number of parentheses open
at the current position, `best` the largest value it has had. -/
def nesting_depth_scan : Int → Int → Str → Int
  | _, best, [] => best
  | cur, best, c :: s =>
    if c = '(' then nesting_depth_scan (cur + 1) (max best (cur + 1)) s
    else if c = ')' then nesting_depth_scan (cur - 1) best s
    else nesting_depth_scan cur best s

/-- The parenthesis-nesting depth of a string, the notion the specification
uses for the safety depth: the largest number of parentheses that are open at
the same position. -/
def nesting_depth (s : Str) : Int := nesting_depth_scan 0 0 s

/-- The maximum parenthesis-nesting depth among the letters of an alphabet. -/
def max_nesting_depth (W : List Str) : Int :=
  W.foldl (fun d x => max d (nesting_depth x)) 0

/-- The maximum number of `(` characters among the letters of an alphabet. -/
def max_count_paren (W : List Str) : Int :=
  W.foldl (fun d x => max d (count_paren x)) 0

/-- The value of a decimal digit character. -/
def digit_value (c : Char) : Nat := c.toNat - 48

/-- The number that a string of decimal digits denotes. -/
def decimal_value (s : Str) : Nat := s.foldl (fun a c => 10 * a + digit_value c) 0

/-- A state name that the reduction does not generate: it starts neither
with `(U-` nor with `(init-`. -/
def NotGenerated (x : Str) : Prop :=
  x.take 3 ≠ "(U-".toList ∧ x.take 6 ≠ "(init-".toList

/-- What is assumed of the constants of `turing_machine.h`: the blank and the
reserved states are identifiers, the reserved states are distinct from one
another and from the state names that the reduction generates, and the three
directions are distinct.  The customary values satisfy this
(`stdHeader_wellFormed`). -/
structure Header.WellFormed (hd : Header) : Prop where
  blank_ident : is_identifier hd.BLANK = true
  initial_ident : is_identifier hd.INITIAL_STATE = true
  accepting_ident : is_identifier hd.ACCEPTING_STATE = true
  initial_ne_accepting : hd.INITIAL_STATE ≠ hd.ACCEPTING_STATE
  initial_ne_rejecting : hd.INITIAL_STATE ≠ hd.REJECTING_STATE
  initial_fresh : NotGenerated hd.INITIAL_STATE
  accepting_fresh : NotGenerated hd.ACCEPTING_STATE
  rejecting_fresh : NotGenerated hd.REJECTING_STATE
  left_ne_right : hd.HEAD_LEFT ≠ hd.HEAD_RIGHT
  left_ne_stay : hd.HEAD_LEFT ≠ hd.HEAD_STAY
  right_ne_stay : hd.HEAD_RIGHT ≠ hd.HEAD_STAY

/-- The block that `make_one_tape_transitions_from_two` returns for a
transition, the empty table if it fails. -/
def block_of (hd : Header) (g : Globals) (alphabet : List Str) (t : Key × Val) :
    transitions_t :=
  match make_one_tape_transitions_from_two hd g t.1 t.2 alphabet with
  | .ok nt => nt
  | .error _ => []

/-- The table that `reduce_two_tapes_to_one` accumulates, given the globals
after the setup calls: the block of `make_init_states` followed by the
blocks of the transitions, merged by range insertion. -/
def merged_table (hd : Header) (g : Globals) (M : TuringMachine) : transitions_t :=
  M.transitions.foldl
    (fun acc t => map_insert_range acc (block_of hd g (M.working_alphabet hd) t))
    (map_insert_range [] (make_init_states hd g M.input_alphabet))

/-- The two-tape machine of the concrete scenario: over the input alphabet
`0, 1` it rewrites each `0` to `1` moving right on tape 1 and accepts on the
blank. -/
def scenario_machine : TuringMachine where
  num_tapes := 2
  input_alphabet := ["0".toList, "1".toList]
  transitions :=
    [(("(start)".toList, ["0".toList, "_".toList]),
        ("(start)".toList, ["1".toList, "_".toList], ['>', '-'])),
      (("(start)".toList, ["_".toList, "_".toList]),
        ("(accept)".toList, ["_".toList, "_".toList], ['-', '-']))]

/-- A key whose state is a composite state built on `st` for tape 1 or 2. -/
def UserKey (st : Str) (k : Key) : Prop :=
  ∃ p t, (t = 1 ∨ t = 2) ∧ k.1 = make_user_state st p t

/-- The two kinds of key in the block compiled for the transition keyed
`(s, [a, b])`: the entry from `INIT_BACK_TO_FRONT`, present only when `s` is
the initial state and `b` the blank, and the keys whose state is a composite
state built on `s-(a)-(b)`. -/
def BlockKey (hd : Header) (g : Globals) (s a b : Str) (k : Key) : Prop :=
  (k = make_in INIT_BACK_TO_FRONT (make_logical_head g a) ∧ s = hd.INITIAL_STATE
      ∧ b = hd.BLANK)
    ∨ UserKey (compose_state s a b) k

/-- The two kinds of key in the block of `make_init_states`: the keys of the
first five states, and the keys from `INIT_BACK_TO_FRONT` reading a letter of
the input alphabet. -/
def InitKey (hd : Header) (ia : List Str) (k : Key) : Prop :=
  k.1 ∈ [hd.INITIAL_STATE, INIT_FIND_SECOND_TAPE, INIT_PUT_SECOND_HEAD,
      INIT_PUT_END_OF_SECOND_HEAD, INIT_BACK_TO_BORDER]
    ∨ (k.1 = INIT_BACK_TO_FRONT ∧ ∃ x ∈ ia, k.2 = [x])

/-- Modelled from the spec: the repository has no interpreter, so the step
semantics is the one the equivalence claim names.  A tape is filled with
blanks: `left` are the cells to the left of the head (the nearest first), `cur`
is the cell under the head and `right` are the cells to its right that have been
visited or hold input; every cell further right holds the blank.  The head
starts on the first cell, with `left` empty. -/
structure Tape where
  left : List Str
  cur : Str
  right : List Str
  deriving DecidableEq

/-- Modelled from the spec: a tape holding the word `w` with the head on its
first cell. -/
def Tape.initial (hd : Header) : List Str → Tape
  | [] => ⟨[], hd.BLANK, []⟩
  | x :: r => ⟨[], x, r⟩

/-- Modelled from the spec: write `letter` under the head and move the head in
direction `dir`.  The spec does not say what a move to the left from the first
cell of a tape does.  This is the variant in which that move is not possible:
the result is `none` there, and `step` halts although a transition applies.
`Tape.write_move_free` has the variants in which the move is made. -/
def Tape.write_move (hd : Header) (t : Tape) (letter : Str) (dir : Char) : Option Tape :=
  if dir = hd.HEAD_LEFT then
    match t.left with
    | [] => none
    | x :: l => some ⟨l, x, letter :: t.right⟩
  else if dir = hd.HEAD_RIGHT then
    match t.right with
    | [] => some ⟨letter :: t.left, hd.BLANK, []⟩
    | x :: r => some ⟨letter :: t.left, x, r⟩
  else some ⟨t.left, letter, t.right⟩

/-- Modelled from the spec: a configuration of a machine, its state and its
tapes. -/
structure Config where
  state : Str
  tapes : List Tape
  deriving DecidableEq

/-- Modelled from the spec: write and move on every tape, in the variant that
halts at the left edge; `none` if the numbers of tapes, letters and directions
differ or a move is not possible. -/
def write_move_all (hd : Header) : List Tape → List Str → Str → Option (List Tape)
  | [], [], [] => some []
  | t :: ts, letter :: letters, dir :: dirs =>
    match t.write_move hd letter dir, write_move_all hd ts letters dirs with
    | some t1, some ts1 => some (t1 :: ts1)
    | _, _ => none
  | _, _, _ => none

/-- Modelled from the spec: one step of a deterministic machine, in the
variant that halts at the left edge.  The transition for the current state and
the letters under the heads is looked up; the machine halts (`none`) when no
transition applies, and also when the transition moves a head to the left
from the first cell of its tape (`Tape.write_move`). -/
def step (hd : Header) (M : TuringMachine) (c : Config) : Option Config :=
  match map_find M.transitions (c.state, c.tapes.map Tape.cur) with
  | none => none
  | some (state, letters, directions) =>
    match write_move_all hd c.tapes letters directions with
    | none => none
    | some tapes => some ⟨state, tapes⟩

/-- Modelled from the spec: the configuration after `n` steps, if the machine
makes that many. -/
def run (hd : Header) (M : TuringMachine) : Nat → Config → Option Config
  | 0, c => some c
  | n + 1, c =>
    match step hd M c with
    | none => none
    | some c1 => run hd M n c1

/-- Modelled from the spec: the start configuration on the word `w`: state
`INITIAL_STATE`, `w` on the first tape, the other tapes empty, all heads on the
first cell. -/
def initial_config (hd : Header) (M : TuringMachine) (w : List Str) : Config :=
  ⟨hd.INITIAL_STATE,
    Tape.initial hd w :: List.replicate (M.num_tapes.toNat - 1) (Tape.initial hd [])⟩

/-- Modelled from the spec: the machine, started on `w`, reaches
`ACCEPTING_STATE`. -/
def accepts (hd : Header) (M : TuringMachine) (w : List Str) : Prop :=
  ∃ n c, run hd M n (initial_config hd M w) = some c ∧ c.state = hd.ACCEPTING_STATE

/-- The facts about the generated letters that make the keys of a block
distinguishable: relative to the alphabet `W`, head markers and the two
sentinels are fresh and pairwise distinct, and no letter is a phase name. -/
structure Fresh (g : Globals) (W : List Str) : Prop where
  head_not_mem : ∀ x, make_logical_head g x ∉ W
  border_not_mem : g.TAPE_BORDER ∉ W
  end_not_mem : g.TAPE_END ∉ W
  head_ne_border : ∀ x, make_logical_head g x ≠ g.TAPE_BORDER
  head_ne_end : ∀ x, make_logical_head g x ≠ g.TAPE_END
  border_ne_end : g.TAPE_BORDER ≠ g.TAPE_END
  letters_ident : ∀ x ∈ W, is_identifier x = true
  heads_ident : ∀ x ∈ W, is_identifier (make_logical_head g x) = true

/-- The configuration `c1` is reached from `c` in some number of steps. -/
def Reach (hd : Header) (M : TuringMachine) (c c1 : Config) : Prop :=
  ∃ n, run hd M n c = some c1

/-- The tape with the cells `l` to the left of the head and the cells `zs`
from the head on; beyond `zs` the tape is blank. -/
def tape_at (hd : Header) (l : List Str) : List Str → Tape
  | [] => ⟨l, hd.BLANK, []⟩
  | z :: r => ⟨l, z, r⟩

/-- The machine that `reduce_two_tapes_to_one` returns for a valid two-tape
machine (`reduce_ok`). -/
def reduced (hd : Header) (M : TuringMachine) (g0 : Globals) : TuringMachine :=
  ⟨1, M.input_alphabet, merged_table hd (setup_globals hd M g0) M⟩

/-- The layout of two tapes on the single tape of the reduced machine: the
first tape with its head cell marked, the border, the second tape with its
head cell marked, the end marker.  The physical head is on the marked cell of
the first tape. -/
def encode_tapes (g : Globals) (T1 T2 : Tape) : Tape :=
  ⟨T1.left, make_logical_head g T1.cur,
    T1.right ++ g.TAPE_BORDER ::
      (T2.left.reverse ++ make_logical_head g T2.cur :: (T2.right ++ [g.TAPE_END]))⟩

/-- All cells of a tape are letters of the alphabet `W`. -/
def Tape.Over (W : List Str) (T : Tape) : Prop :=
  (∀ x ∈ T.left, x ∈ W) ∧ T.cur ∈ W ∧ ∀ x ∈ T.right, x ∈ W

/-- The tape with the cells `ls` from the head on leftwards (the head cell
first) and the cells `zs` to the right of the head.  Only used with `ls`
non-empty. -/
def tape_left_at (hd : Header) : List Str → List Str → Tape
  | [], zs => ⟨[], hd.BLANK, zs⟩
  | c :: l, zs => ⟨l, c, zs⟩

/-- The setting of the simulation argument: a valid two-tape machine and one
of its transitions, `(s, [a, b]) -> (n, [o1, o2], [d1, d2])`. -/
structure BlockCtx (hd : Header) (M : TuringMachine) (s a b n o1 o2 : Str) (d1 d2 : Char) :
    Prop where
  wf : hd.WellFormed
  valid : M.Valid hd
  two : M.num_tapes = 2
  mem : ((s, [a, b]), (n, [o1, o2], [d1, d2])) ∈ M.transitions

/-- A cell of the second-tape region: a letter of `W` or a marked letter. -/
def Cell (g : Globals) (W : List Str) (c : Str) : Prop :=
  c ∈ W ∨ ∃ z ∈ W, c = make_logical_head g z

/-- Two neighbouring cells of the second-tape region: at most one of them is
marked. -/
def CellPair (g : Globals) (W : List Str) (u v : Str) : Prop :=
  (u ∈ W ∧ Cell g W v) ∨ (Cell g W u ∧ v ∈ W)

/-- At least one step leads from `c` to `c1`. -/
def ReachPos (hd : Header) (M : TuringMachine) (c c1 : Config) : Prop :=
  ∃ c0, step hd M c = some c0 ∧ Reach hd M c0 c1

/-- The simulation relation between a configuration `c` of a two-tape
machine and a configuration `e` of its reduced machine: the tape of `e` is the
encoding of the two tapes of `c`, and the state of `e` is the entry state of the
block for the state of `c` and the letters under its heads, or
`INIT_BACK_TO_FRONT` when `c` is in the initial state with a blank under the
second head. -/
def Simulates (hd : Header) (M : TuringMachine) (g0 : Globals) (c e : Config) : Prop :=
  ∃ T1 T2, c.tapes = [T1, T2]
    ∧ T1.Over (M.working_alphabet hd) ∧ T2.Over (M.working_alphabet hd)
    ∧ is_identifier c.state = true
    ∧ e.tapes = [encode_tapes (setup_globals hd M g0) T1 T2]
    ∧ (e.state = make_user_state (compose_state c.state T1.cur T2.cur) [] 1
      ∨ (c.state = hd.INITIAL_STATE ∧ T2.cur = hd.BLANK ∧ e.state = INIT_BACK_TO_FRONT))

/-- The character class of the specification's identifiers: `A-Z`, `a-z`,
`0-9`, `_` and `-`. -/
def SpecChar (c : Char) : Prop :=
  ('A' ≤ c ∧ c ≤ 'Z') ∨ ('a' ≤ c ∧ c ≤ 'z') ∨ ('0' ≤ c ∧ c ≤ '9') ∨ c = '_' ∨ c = '-'

/-- The language `Id` as the specification words it: a non-empty string over
the character class, or `(` followed by one or more `Id` followed by `)`. -/
inductive SpecId : Str → Prop
  | token (s : Str) : s ≠ [] → (∀ c ∈ s, SpecChar c) → SpecId s
  | group (parts : List Str) : parts ≠ [] → (∀ p ∈ parts, SpecId p) →
      SpecId ('(' :: parts.flatten ++ [')'])

/-- The language that `is_identifier` accepts: a single character of the
class, or `(` followed by one or more strings of the language followed by
`)`. -/
inductive CodeId : Str → Prop
  | char (c : Char) : SpecChar c → CodeId [c]
  | group (parts : List Str) : parts ≠ [] → (∀ p ∈ parts, CodeId p) →
      CodeId ('(' :: parts.flatten ++ [')'])

/-- A valid two-tape machine without transitions whose only input letter,
`(a)`, has a parenthesis. -/
def parenthesis_machine : TuringMachine where
  num_tapes := 2
  input_alphabet := ["(a)".toList]
  transitions := []

/-- The one-tape machine whose table is exactly `make_init_states(A)`. -/
def init_machine (hd : Header) (g : Globals) (A : List Str) : TuringMachine :=
  ⟨1, A, make_init_states hd g A⟩

/-- How `read_tm_from_file` ends when it returns no machine: the macro
`syntax_error` (a message and `exit(1)`), a failed `assert` of `Reader` or of
the `TuringMachine` constructor, or a loop of the model that ran out of
fuel. -/
inductive ReadError where
  | syntax_error
  | assert_failed
  | out_of_fuel
  deriving DecidableEq, Repr

/-- The state of class `Reader`, with the file as the list of characters that
`fgetc` has not returned yet; `next_char = none` is `EOF`.  The line counter,
which only appears in error messages, is left out. -/
structure Reader where
  input : List Char
  next_char : Option Char
  deriving DecidableEq

/-- The library function `fgetc` on the rest of the file. -/
def fgetc : List Char → Option Char × List Char
  | [] => (none, [])
  | c :: rest => (some c, rest)

/-- The method `Reader::is_next_token_available`. -/
def Reader.is_next_token_available (rd : Reader) : Bool :=
  rd.next_char != some '\n' && rd.next_char != none

/-- The method `Reader::get_next_char`: the character returned and the new
state.  After a `#` the inner loop reads up to and including the next `\n`, or
to the end of the file. -/
def Reader.get_next_char (rd : Reader) : Option Char × Reader :=
  let prev := rd.next_char
  let r := fgetc rd.input
  if r.1 = some '#' then
    let r1 := fgetc (r.2.dropWhile (fun c => c != '\n'))
    (prev, ⟨r1.2, r1.1⟩)
  else (prev, ⟨r.2, r.1⟩)

/-- The loop of `Reader::skip_spaces`. -/
def Reader.skip_spaces_loop : Nat → Reader → Except ReadError Reader
  | 0, _ => .error .out_of_fuel
  | fuel + 1, rd =>
    if rd.next_char = some ' ' ∨ rd.next_char = some '\t' then
      Reader.skip_spaces_loop fuel rd.get_next_char.2
    else .ok rd

/-- The method `Reader::skip_spaces`.  Every iteration of its loop reads a
character of the file, so the fuel is not used up. -/
def Reader.skip_spaces (rd : Reader) : Except ReadError Reader :=
  Reader.skip_spaces_loop (rd.input.length + 2) rd

/-- The loop of `Reader::next_token`. -/
def Reader.next_token_loop : Nat → Reader → Str → Except ReadError (Str × Reader)
  | 0, _, _ => .error .out_of_fuel
  | fuel + 1, rd, res =>
    match rd.next_char with
    | none => .ok (res, rd)
    | some c =>
      if c = ' ' ∨ c = '\t' ∨ c = '\n' then .ok (res, rd)
      else Reader.next_token_loop fuel rd.get_next_char.2 (res ++ [c])

/-- The method `Reader::next_token`. -/
def Reader.next_token (rd : Reader) : Except ReadError (Str × Reader) :=
  if !rd.is_next_token_available then .error .assert_failed
  else
    match Reader.next_token_loop (rd.input.length + 2) rd [] with
    | .error e => .error e
    | .ok (res, rd) =>
      match rd.skip_spaces with
      | .error e => .error e
      | .ok rd => .ok (res, rd)

/-- The loop of `Reader::go_to_next_line`. -/
def Reader.go_to_next_line_loop : Nat → Reader → Except ReadError Reader
  | 0, _ => .error .out_of_fuel
  | fuel + 1, rd =>
    if rd.next_char = some '\n' then
      match rd.get_next_char.2.skip_spaces with
      | .error e => .error e
      | .ok rd => Reader.go_to_next_line_loop fuel rd
    else .ok rd

/-- The method `Reader::go_to_next_line`. -/
def Reader.go_to_next_line (rd : Reader) : Except ReadError Reader :=
  if rd.is_next_token_available then .error .assert_failed
  else Reader.go_to_next_line_loop (rd.input.length + 2) rd

/-- The constructor `Reader::Reader` on the text of the file.  The value of
`next_char` before the first `get_next_char` is not used. -/
def Reader.create (file : List Char) : Except ReadError Reader :=
  match (Reader.get_next_char ⟨file, none⟩).2.skip_spaces with
  | .error e => .error e
  | .ok rd => if !rd.is_next_token_available then rd.go_to_next_line else .ok rd

/-- The function `read_identifier`. -/
def read_identifier (rd : Reader) : Except ReadError (Str × Reader) :=
  if !rd.is_next_token_available then .error .syntax_error
  else
    match rd.next_token with
    | .error e => .error e
    | .ok (ident, rd) =>
      if is_identifier ident then .ok (ident, rd) else .error .syntax_error

/-- The loops `for (int a = 0; a < num_tapes; ++a)
letters.emplace_back(read_identifier(reader))` of `read_tm_from_file`. -/
def read_identifiers : Nat → Reader → Except ReadError (List Str × Reader)
  | 0, rd => .ok ([], rd)
  | n + 1, rd =>
    match read_identifier rd with
    | .error e => .error e
    | .ok (ident, rd) =>
      match read_identifiers n rd with
      | .error e => .error e
      | .ok (rest, rd) => .ok (ident :: rest, rd)

/-- The loop of `read_tm_from_file` that reads the directions of a
transition. -/
def read_directions (hd : Header) : Nat → Reader → Except ReadError (Str × Reader)
  | 0, rd => .ok ([], rd)
  | n + 1, rd =>
    if !rd.is_next_token_available then .error .syntax_error
    else
      match rd.next_token with
      | .error e => .error e
      | .ok ([c], rd) =>
        if is_direction hd c then
          match read_directions hd n rd with
          | .error e => .error e
          | .ok (rest, rd) => .ok (c :: rest, rd)
        else .error .syntax_error
      | .ok (_, _) => .error .syntax_error

/-- The characters that `isspace` accepts. -/
def is_space (c : Char) : Bool :=
  c = ' ' || c = '\t' || c = '\n' || c = '\x0b' || c = '\x0c' || c = '\r'

/-- The decimal digits. -/
def is_digit (c : Char) : Bool := decide ('0' ≤ c) && decide (c ≤ '9')

/-- The library function `std::stoi(str, &last)` in base 10: leading white
space, an optional sign and the longest run of digits; `none` when it throws
(no digit, or a value outside the range of `int`). -/
def stoi (str : Str) : Option (Int × Nat) :=
  let s1 := str.dropWhile is_space
  let neg := s1.head? = some '-'
  let s2 := if s1.head? = some '-' ∨ s1.head? = some '+' then s1.tail else s1
  let digits := s2.takeWhile is_digit
  if digits = [] then none
  else
    let v : Int := if neg then -(decimal_value digits : Int) else (decimal_value digits : Int)
    if v < -2147483648 ∨ 2147483647 < v then none
    else some (v, str.length - (s2.length - digits.length))

/-- The loop of `read_tm_from_file` that reads the input alphabet. -/
def read_input_alphabet (hd : Header) :
    Nat → Reader → List Str → Except ReadError (List Str × Reader)
  | 0, _, _ => .error .out_of_fuel
  | fuel + 1, rd, input_alphabet =>
    if rd.is_next_token_available then
      match read_identifier rd with
      | .error e => .error e
      | .ok (ident, rd) =>
        if ident = hd.BLANK then .error .syntax_error
        else read_input_alphabet hd fuel rd (input_alphabet ++ [ident])
    else .ok (input_alphabet, rd)

/-- The loop of `read_tm_from_file` that reads the transitions. -/
def read_transitions (hd : Header) (num_tapes : Nat) :
    Nat → Reader → transitions_t → Except ReadError transitions_t
  | 0, _, _ => .error .out_of_fuel
  | fuel + 1, rd, transitions =>
    if !rd.is_next_token_available then .ok transitions
    else
      match read_identifier rd with
      | .error e => .error e
      | .ok (state_before, rd) =>
        if state_before = "(accept)".toList ∨ state_before = "(reject)".toList then
          .error .syntax_error
        else
          match read_identifiers num_tapes rd with
          | .error e => .error e
          | .ok (letters_before, rd) =>
            if (map_find transitions (state_before, letters_before)).isSome then
              .error .syntax_error
            else
              match read_identifier rd with
              | .error e => .error e
              | .ok (state_after, rd) =>
                match read_identifiers num_tapes rd with
                | .error e => .error e
                | .ok (letters_after, rd) =>
                  match read_directions hd num_tapes rd with
                  | .error e => .error e
                  | .ok (directions, rd) =>
                    if rd.is_next_token_available then .error .syntax_error
                    else
                      match rd.go_to_next_line with
                      | .error e => .error e
                      | .ok rd =>
                        read_transitions hd num_tapes fuel rd
                          (map_assign transitions (state_before, letters_before)
                            (state_after, letters_after, directions))

/-- The function `read_tm_from_file` on the text of the file. -/
def read_tm_from_file (hd : Header) (file : List Char) : Except ReadError TuringMachine :=
  match Reader.create file with
  | .error e => .error e
  | .ok rd =>
    if !rd.is_next_token_available then .error .syntax_error
    else
      match rd.next_token with
      | .error e => .error e
      | .ok (tok, rd) =>
        if tok ≠ "num-tapes:".toList then .error .syntax_error
        else if !rd.is_next_token_available then .error .syntax_error
        else
          match rd.next_token with
          | .error e => .error e
          | .ok (num_tapes_str, rd) =>
            match stoi num_tapes_str with
            | none => .error .syntax_error
            | some (num_tapes, last) =>
              if last ≠ num_tapes_str.length ∨ num_tapes ≤ 0 then .error .syntax_error
              else if rd.is_next_token_available then .error .syntax_error
              else
                match rd.go_to_next_line with
                | .error e => .error e
                | .ok rd =>
                  if !rd.is_next_token_available then .error .syntax_error
                  else
                    match rd.next_token with
                    | .error e => .error e
                    | .ok (tok, rd) =>
                      if tok ≠ "input-alphabet:".toList then .error .syntax_error
                      else
                        match read_input_alphabet hd (rd.input.length + 2) rd [] with
                        | .error e => .error e
                        | .ok (input_alphabet, rd) =>
                          if input_alphabet.isEmpty then .error .syntax_error
                          else
                            match rd.go_to_next_line with
                            | .error e => .error e
                            | .ok rd =>
                              match read_transitions hd num_tapes.toNat (rd.input.length + 2)
                                  rd [] with
                              | .error e => .error e
                              | .ok transitions =>
                                match TuringMachine.construct hd num_tapes input_alphabet
                                    transitions with
                                | .error _ => .error .assert_failed
                                | .ok M => .ok M

/-- The function `output_vector`: the text it writes. -/
def output_vector (v : List Str) : Str :=
  v.flatMap (fun el => ' ' :: el)

/-- The body of the loop of `save_to_file`: the line written for one
transition.  `directions[a]` is read for `a < num_tapes`, which is out of range
when there are fewer directions. -/
def save_transition (num_tapes : Int) (transition : Key × Val) : Except Failure Str :=
  let directions := transition.2.2.2
  if directions.length < num_tapes.toNat then .error .index_out_of_range
  else
    .ok (transition.1.1 ++ output_vector transition.1.2 ++ ' ' :: transition.2.1
      ++ output_vector transition.2.2.1
      ++ (directions.take num_tapes.toNat).flatMap (fun d => [' ', d]) ++ ['\n'])

/-- The loop of `save_to_file`. -/
def save_transitions (num_tapes : Int) : transitions_t → Except Failure Str
  | [] => .ok []
  | transition :: rest =>
    match save_transition num_tapes transition with
    | .error e => .error e
    | .ok line =>
      match save_transitions num_tapes rest with
      | .error e => .error e
      | .ok lines => .ok (line ++ lines)

/-- The method `TuringMachine::save_to_file`: the text it writes to the
stream. -/
def TuringMachine.save_to_file (M : TuringMachine) : Except Failure Str :=
  match save_transitions M.num_tapes M.transitions with
  | .error e => .error e
  | .ok lines =>
    .ok ("num-tapes:".toList ++ ' ' :: to_string M.num_tapes ++ '\n' :: "input-alphabet:".toList
      ++ output_vector M.input_alphabet ++ '\n' :: lines)

/-- A character that can be part of a token of the file format: no blank, no
end of line, and not the start of a comment. -/
def TokenChar (c : Char) : Prop :=
  c ≠ ' ' ∧ c ≠ '\t' ∧ c ≠ '\n' ∧ c ≠ '#'

/-- A non-empty string of token characters. -/
def Token (t : Str) : Prop :=
  t ≠ [] ∧ ∀ c ∈ t, TokenChar c

/-- The state of a `Reader` in front of the text `s`: its first character
is in `next_char`, the others are still in the file. -/
def Reader.of_stream (s : List Char) : Reader :=
  ⟨s.tail, s.head?⟩

/-- The tokens `ts`, separated by single spaces and followed by `s`. -/
def join_tokens : List Str → Str → Str
  | [], s => s
  | [t], s => t ++ s
  | t :: t1 :: ts, s => t ++ ' ' :: join_tokens (t1 :: ts) s

/-- The tokens of the line that `save_to_file` writes for a transition. -/
def line_tokens (transition : Key × Val) : List Str :=
  transition.1.1 :: (transition.1.2 ++ transition.2.1 :: (transition.2.2.1
    ++ transition.2.2.2.map (fun d => [d])))

/-- The lines that `save_to_file` writes for a list of transitions. -/
def lines_text : transitions_t → Str
  | [] => []
  | transition :: rest => join_tokens (line_tokens transition) ('\n' :: lines_text rest)

/-- What the round trip through a file assumes of the constants of
`turing_machine.h`: the accepting and the rejecting state are the literals
`(accept)` and `(reject)` that `read_tm_from_file` compares with, and the three
directions are token characters. -/
structure Header.Lexical (hd : Header) : Prop where
  accepting : hd.ACCEPTING_STATE = "(accept)".toList
  rejecting : hd.REJECTING_STATE = "(reject)".toList
  left : TokenChar hd.HEAD_LEFT
  right : TokenChar hd.HEAD_RIGHT
  stay : TokenChar hd.HEAD_STAY

/-- The target states that the reduction writes: the accepting state and the
names it generates, which start with `(U-` or with `(init-`. -/
def GeneratedTarget (hd : Header) (x : Str) : Prop :=
  x = hd.ACCEPTING_STATE ∨ x.take 3 = "(U-".toList ∨ x.take 6 = "(init-".toList

/-- A valid two-tape machine with a transition into the rejecting state: on
`0` it rejects, on the blank it accepts. -/
def rejecting_machine : TuringMachine where
  num_tapes := 2
  input_alphabet := ["0".toList, "1".toList]
  transitions :=
    [(("(start)".toList, ["0".toList, "_".toList]),
        ("(reject)".toList, ["0".toList, "_".toList], ['-', '-'])),
      (("(start)".toList, ["_".toList, "_".toList]),
        ("(accept)".toList, ["_".toList, "_".toList], ['-', '-']))]

/-- The loop of `TuringMachine::parse_input`: `input` is the part of the
string from `pos` on, `res` the letters found so far.  The result is `none` when
the fuel runs out; every iteration consumes a character, so `parse_input` gives
enough.  `check_identifier` gets the budget that is always enough
(`check_identifier_total`). -/
def parse_input_loop (input_alphabet : List Str) : Nat → Str → List Str → Option (List Str)
  | 0, _, _ => none
  | fuel + 1, input, res =>
    if input.length = 0 then some res
    else
      match check_identifier (2 * input.length + 1) input with
      | none => none
      | some none => some []
      | some (some rest) =>
        let letter := input.take (input.length - rest.length)
        if letter ∈ input_alphabet then
          parse_input_loop input_alphabet fuel rest (res ++ [letter])
        else some []

/-- The method `TuringMachine::parse_input`. -/
def TuringMachine.parse_input (M : TuringMachine) (input : Str) : Option (List Str) :=
  parse_input_loop M.input_alphabet (input.length + 1) input []

/-- Modelled from the spec: what a move to the left from the first cell of a
tape does when the machine does not halt there.  The spec does not fix it; the
two usual readings are that the head stays on the first cell, and that the tape
is infinite to the left as well and the head moves to a blank cell. -/
inductive LeftEdge where
  | stay_put
  | two_way
  deriving DecidableEq

/-- Modelled from the spec: write `letter` under the head and move the head in
direction `dir`; the move is always made.  On a move to the left from the
first cell the head stays there (`stay_put`) or moves to a new blank cell
(`two_way`).  Every other case is as in `Tape.write_move`. -/
def Tape.write_move_free (e : LeftEdge) (hd : Header) (t : Tape) (letter : Str) (dir : Char) :
    Tape :=
  if dir = hd.HEAD_LEFT then
    match t.left with
    | [] =>
      match e with
      | .stay_put => ⟨[], letter, t.right⟩
      | .two_way => ⟨[], hd.BLANK, letter :: t.right⟩
    | x :: l => ⟨l, x, letter :: t.right⟩
  else if dir = hd.HEAD_RIGHT then
    match t.right with
    | [] => ⟨letter :: t.left, hd.BLANK, []⟩
    | x :: r => ⟨letter :: t.left, x, r⟩
  else ⟨t.left, letter, t.right⟩

/-- Modelled from the spec: write and move on every tape.  A tape for which
the transition has no letter or no direction is left as it is (a valid machine
has one of each per tape). -/
def write_move_all_free (e : LeftEdge) (hd : Header) : List Tape → List Str → Str → List Tape
  | t :: ts, letter :: letters, dir :: dirs =>
    t.write_move_free e hd letter dir :: write_move_all_free e hd ts letters dirs
  | ts, _, _ => ts

/-- Modelled from the spec: one step of a deterministic machine.  The
transition for the current state and the letters under the heads is looked up
and applied; the machine halts (`none`) when, and only when, no transition
applies. -/
def step_free (e : LeftEdge) (hd : Header) (M : TuringMachine) (c : Config) : Option Config :=
  match map_find M.transitions (c.state, c.tapes.map Tape.cur) with
  | none => none
  | some (state, letters, directions) =>
    some ⟨state, write_move_all_free e hd c.tapes letters directions⟩

/-- Modelled from the spec: the configuration after `n` steps of `step_free`,
if the machine makes that many. -/
def run_free (e : LeftEdge) (hd : Header) (M : TuringMachine) : Nat → Config → Option Config
  | 0, c => some c
  | n + 1, c =>
    match step_free e hd M c with
    | none => none
    | some c1 => run_free e hd M n c1

/-- Modelled from the spec: the machine, started on `w` and run with
`step_free`, reaches `ACCEPTING_STATE`. -/
def accepts_free (e : LeftEdge) (hd : Header) (M : TuringMachine) (w : List Str) : Prop :=
  ∃ n c, run_free e hd M n (initial_config hd M w) = some c ∧ c.state = hd.ACCEPTING_STATE

/-- The transition that applies in the configuration `c` moves the head of the
second tape to the left while that head is on the first cell of its tape. -/
def second_head_leaves (hd : Header) (M : TuringMachine) (c : Config) : Bool :=
  match map_find M.transitions (c.state, c.tapes.map Tape.cur), c.tapes.get? 1 with
  | some (_, _, directions), some T2 =>
    decide (directions.get? 1 = some hd.HEAD_LEFT) && T2.left.isEmpty
  | _, _ => false

/-- A two-tape machine over `{0, 1}` with moves to the left.  On the word `0`
it moves the head of tape 1 to the left from the first cell and the head of
tape 2 to the right and back; on the empty word its only step moves the head
of tape 2 to the left from the first cell and accepts. -/
def left_edge_machine : TuringMachine where
  num_tapes := 2
  input_alphabet := ["0".toList, "1".toList]
  transitions :=
    [(("(start)".toList, ["0".toList, "_".toList]),
        ("(back)".toList, ["1".toList, "_".toList], ['<', '>'])),
      (("(back)".toList, ["1".toList, "_".toList]),
        ("(accept)".toList, ["1".toList, "_".toList], ['-', '<'])),
      (("(back)".toList, ["_".toList, "_".toList]),
        ("(accept)".toList, ["_".toList, "_".toList], ['-', '<'])),
      (("(start)".toList, ["_".toList, "_".toList]),
        ("(accept)".toList, ["_".toList, "_".toList], ['-', '<']))]

/-- The configuration `c1` is reached from `c` in some number of steps of
`step_free`. -/
def ReachFree (e : LeftEdge) (hd : Header) (M : TuringMachine) (c c1 : Config) : Prop :=
  ∃ n, run_free e hd M n c = some c1

/-- At least one step of `step_free` leads from `c` to `c1`. -/
def ReachPosFree (e : LeftEdge) (hd : Header) (M : TuringMachine) (c c1 : Config) : Prop :=
  ∃ c0, step_free e hd M c = some c0 ∧ ReachFree e hd M c0 c1

/-- No configuration on the run of `step_free` from `c` applies a transition
that moves the head of the second tape to the left from its first cell. -/
def SecondHeadStays (e : LeftEdge) (hd : Header) (M : TuringMachine) (c : Config) : Prop :=
  ∀ n c1, run_free e hd M n c = some c1 → second_head_leaves hd M c1 = false

/-- A check of `SecondHeadStays` for a run that halts within `n` steps: no
configuration of the run from `c` applies a transition that moves the head of
the second tape to the left from its first cell, and the run ends before the
fuel does. -/
def second_head_stays_within (e : LeftEdge) (hd : Header) (M : TuringMachine) :
    Nat → Config → Bool
  | 0, _ => false
  | n + 1, c =>
    !second_head_leaves hd M c &&
      match step_free e hd M c with
      | none => true
      | some c1 => second_head_stays_within e hd M n c1

/-! ## Theorems -/

/-! ### The identifier checker -/

theorem check_identifier_succ : ∀ (fuel : Nat),
    (∀ s x, check_identifier fuel s = some x → check_identifier (fuel + 1) s = some x)
    ∧ (∀ s r, skip_identifiers fuel s = some r → skip_identifiers (fuel + 1) s = some r) := by
  intro fuel
  induction fuel with
  | zero =>
    constructor
    · intro s x h; simp [check_identifier] at h
    · intro s r h; simp [skip_identifiers] at h
  | succ n ih =>
    obtain ⟨ihc, ihs⟩ := ih
    constructor
    · intro s x h
      cases s with
      | nil => simpa [check_identifier] using h
      | cons c rest =>
        rw [check_identifier] at h ⊢
        split
        · rename_i hv; simpa [hv] using h
        · rename_i hv
          rw [if_neg hv] at h
          split
          · rename_i hc; simpa [hc] using h
          · rename_i hc
            rw [if_neg hc] at h
            cases hs : skip_identifiers n rest with
            | none => simp [hs] at h
            | some r => rw [ihs rest r hs]; simpa [hs] using h
    · intro s r h
      rw [skip_identifiers] at h ⊢
      cases hc : check_identifier n s with
      | none => simp [hc] at h
      | some x =>
        rw [ihc s x hc]
        cases x with
        | none => simpa [hc] using h
        | some r1 =>
          simp only [hc] at h
          exact ihs r1 r h

theorem check_identifier_mono {f f1 : Nat} (hle : f ≤ f1) {s : Str} {x : Option Str}
    (h : check_identifier f s = some x) : check_identifier f1 s = some x := by
  induction hle with
  | refl => exact h
  | step _ ih => exact (check_identifier_succ _).1 s x ih

theorem skip_identifiers_mono {f f1 : Nat} (hle : f ≤ f1) {s r : Str}
    (h : skip_identifiers f s = some r) : skip_identifiers f1 s = some r := by
  induction hle with
  | refl => exact h
  | step _ ih => exact (check_identifier_succ _).2 s r ih

theorem Idents.append {u v : Str} (hu : Idents u) (hv : Idents v) : Idents (u ++ v) := by
  induction hu with
  | nil => simpa using hv
  | char c w hc _ ih => exact Idents.char c _ hc ih
  | group w w1 hw hne _ _ ih2 =>
    have := Idents.group w (w1 ++ v) hw hne ih2
    simpa using this

theorem Ident.idents {u : Str} (hu : Ident u) : Idents u := by
  rcases hu with ⟨c, hc, rfl⟩ | ⟨w, hw, hne, rfl⟩
  · exact Idents.char c [] hc Idents.nil
  · exact Idents.group w [] hw hne Idents.nil

theorem Ident.ne_nil {u : Str} (hu : Ident u) : u ≠ [] := by
  rcases hu with ⟨c, _, rfl⟩ | ⟨w, _, _, rfl⟩ <;> simp

theorem Ident.group {w : Str} (hw : Idents w) (hne : w ≠ []) : Ident ('(' :: w ++ [')']) :=
  Or.inr ⟨w, hw, hne, rfl⟩

/-- What a successful `check_identifier` consumed is an identifier of the
grammar, and what the loop consumed is a sequence of identifiers. -/
theorem check_identifier_sound : ∀ (fuel : Nat),
    (∀ s r, check_identifier fuel s = some (some r) → ∃ u, Ident u ∧ s = u ++ r)
    ∧ (∀ s r, skip_identifiers fuel s = some r → ∃ w, Idents w ∧ s = w ++ r) := by
  intro fuel
  induction fuel with
  | zero =>
    constructor
    · intro s r h; simp [check_identifier] at h
    · intro s r h; simp [skip_identifiers] at h
  | succ n ih =>
    obtain ⟨ihc, ihs⟩ := ih
    constructor
    · intro s r h
      cases s with
      | nil => simp [check_identifier] at h
      | cons c rest =>
        rw [check_identifier] at h
        by_cases hv : is_valid_char c = true
        · simp only [hv, if_true, Option.some.injEq] at h
          subst h
          exact ⟨[c], Or.inl ⟨c, hv, rfl⟩, rfl⟩
        · rw [if_neg hv] at h
          by_cases hc : (c != '(') = true
          · simp [hc] at h
          · rw [if_neg hc] at h
            have hc1 : c = '(' := by simpa using hc
            cases hs : skip_identifiers n rest with
            | none => simp [hs] at h
            | some r1 =>
              simp only [hs] at h
              obtain ⟨w, hw, hrest⟩ := ihs rest r1 hs
              by_cases hl : (r1.length == rest.length) = true
              · simp [hl] at h
              · rw [if_neg hl] at h
                have hne : w ≠ [] := by
                  rintro rfl
                  apply hl
                  simp [hrest]
                cases r1 with
                | nil => simp at h
                | cons d r2 =>
                  by_cases hd : d = ')'
                  · subst hd
                    simp only [Option.some.injEq] at h
                    subst h
                    refine ⟨'(' :: w ++ [')'], Ident.group hw hne, ?_⟩
                    simp [hc1, hrest]
                  · exfalso
                    revert h
                    split
                    · rename_i heq
                      simp only [List.cons.injEq] at heq
                      exact absurd heq.1 hd
                    · simp
    · intro s r h
      rw [skip_identifiers] at h
      cases hc : check_identifier n s with
      | none => simp [hc] at h
      | some x =>
        cases x with
        | none =>
          simp only [hc, Option.some.injEq] at h
          exact ⟨[], Idents.nil, by simp [h]⟩
        | some r1 =>
          simp only [hc] at h
          obtain ⟨u, hu, hs⟩ := ihc s r1 hc
          obtain ⟨w, hw, hr1⟩ := ihs r1 r h
          exact ⟨u ++ w, hu.idents.append hw, by simp [hs, hr1]⟩

theorem stops_close (rest : Str) : Stops (')' :: rest) := by
  intro c r h
  simp only [List.cons.injEq] at h
  rw [← h.1]
  decide

theorem stops_nil : Stops [] := by
  intro c r h
  simp at h

theorem skip_identifiers_stops {rest : Str} (h : Stops rest) (f : Nat) :
    skip_identifiers (f + 2) rest = some rest := by
  rw [skip_identifiers]
  cases rest with
  | nil => simp [check_identifier]
  | cons c r =>
    obtain ⟨h1, h2⟩ := h c r rfl
    simp [check_identifier, h1, h2]

/-- The loop consumes a whole sequence of identifiers, provided the checker
fails on what follows. -/
theorem skip_identifiers_complete {w : Str} (hw : Idents w) :
    ∀ rest, Stops rest → ∃ f, skip_identifiers f (w ++ rest) = some rest := by
  induction hw with
  | nil =>
    intro rest hrest
    exact ⟨2, by simpa using skip_identifiers_stops hrest 0⟩
  | char c v hc _ ih =>
    intro rest hrest
    obtain ⟨f, hf⟩ := ih rest hrest
    refine ⟨f + 2, ?_⟩
    rw [skip_identifiers]
    have h1 : check_identifier (f + 1) (c :: v ++ rest) = some (some (v ++ rest)) := by
      simp [check_identifier, hc]
    rw [h1]
    exact skip_identifiers_mono (Nat.le_succ f) hf
  | group w v _ hne _ ihw ihv =>
    intro rest hrest
    obtain ⟨f1, hf1⟩ := ihw (')' :: (v ++ rest)) (stops_close _)
    obtain ⟨f2, hf2⟩ := ihv rest hrest
    refine ⟨max f1 f2 + 2, ?_⟩
    rw [skip_identifiers]
    have hlen : ¬ ((')' :: (v ++ rest)).length = (w ++ ')' :: (v ++ rest)).length) := by
      have : 0 < w.length := List.length_pos.mpr hne
      simp only [List.length_append, List.length_cons]
      omega
    have h1 : check_identifier (max f1 f2 + 1) ('(' :: w ++ ')' :: v ++ rest)
        = some (some (v ++ rest)) := by
      have hv : is_valid_char '(' = false := by decide
      have hs := skip_identifiers_mono (le_max_left f1 f2) hf1
      simp only [List.cons_append, List.append_assoc, check_identifier, hv, bne_self_eq_false,
        Bool.false_eq_true, if_false, hs, beq_iff_eq, hlen]
    rw [h1]
    exact skip_identifiers_mono (le_trans (le_max_right f1 f2) (Nat.le_succ _)) hf2

/-- The checker consumes exactly an identifier of the grammar, whatever
follows it. -/
theorem check_identifier_complete {u : Str} (hu : Ident u) (rest : Str) :
    ∃ f, check_identifier f (u ++ rest) = some (some rest) := by
  rcases hu with ⟨c, hc, rfl⟩ | ⟨w, hw, hne, rfl⟩
  · exact ⟨1, by simp [check_identifier, hc]⟩
  · obtain ⟨f, hf⟩ := skip_identifiers_complete hw (')' :: rest) (stops_close _)
    refine ⟨f + 1, ?_⟩
    have hlen : ¬ ((')' :: rest).length = (w ++ ')' :: rest).length) := by
      have : 0 < w.length := List.length_pos.mpr hne
      simp only [List.length_append, List.length_cons]
      omega
    have hv : is_valid_char '(' = false := by decide
    simp only [List.cons_append, List.append_assoc, check_identifier, hv, bne_self_eq_false,
      Bool.false_eq_true, if_false, List.singleton_append, List.nil_append, hf, beq_iff_eq, hlen]

theorem check_identifier_length {f : Nat} {s r : Str}
    (h : check_identifier f s = some (some r)) : r.length < s.length := by
  obtain ⟨u, hu, rfl⟩ := (check_identifier_sound f).1 s r h
  have : 0 < u.length := List.length_pos.mpr hu.ne_nil
  simp only [List.length_append]
  omega

/-- With budget `2 * n + 1` the checker, and with `2 * n + 2` the loop, never
runs out of budget on a string of length at most `n`. -/
theorem check_identifier_total : ∀ (n : Nat) (s : Str), s.length ≤ n →
    (∃ x, check_identifier (2 * n + 1) s = some x)
    ∧ (∃ r, skip_identifiers (2 * n + 2) s = some r) := by
  intro n
  induction n with
  | zero =>
    intro s hs
    have : s = [] := List.length_eq_zero.mp (Nat.le_zero.mp hs)
    subst this
    exact ⟨⟨none, by simp [check_identifier]⟩, ⟨[], by simp [skip_identifiers, check_identifier]⟩⟩
  | succ n ih =>
    intro s hs
    have hc : ∃ x, check_identifier (2 * (n + 1) + 1) s = some x := by
      cases s with
      | nil => exact ⟨none, by simp [check_identifier]⟩
      | cons c rest =>
        have hrest : rest.length ≤ n := by simpa using hs
        obtain ⟨r, hr⟩ := (ih rest hrest).2
        have e : 2 * (n + 1) + 1 = (2 * n + 2) + 1 := by ring
        rw [e, check_identifier, hr]
        simp only []
        split
        · exact ⟨_, rfl⟩
        · split
          · exact ⟨_, rfl⟩
          · split
            · exact ⟨_, rfl⟩
            · split <;> exact ⟨_, rfl⟩
    refine ⟨hc, ?_⟩
    obtain ⟨x, hx⟩ := hc
    have e : 2 * (n + 1) + 2 = (2 * (n + 1) + 1) + 1 := by ring
    rw [e, skip_identifiers, hx]
    cases x with
    | none => exact ⟨_, rfl⟩
    | some r1 =>
      have hlt := check_identifier_length hx
      have hr1 : r1.length ≤ n := by omega
      obtain ⟨r, hr⟩ := (ih r1 hr1).2
      exact ⟨r, skip_identifiers_mono (by omega) hr⟩

/-- The budget used by `is_identifier` is enough: a larger budget gives the
same result. -/
theorem check_identifier_enough (s : Str) (f : Nat) (hf : 2 * s.length + 1 ≤ f) :
    check_identifier f s = check_identifier (2 * s.length + 1) s := by
  obtain ⟨x, hx⟩ := (check_identifier_total s.length s le_rfl).1
  rw [hx, check_identifier_mono hf hx]

/-- The model of `is_identifier` accepts exactly the grammar
`Id ::= valid character | "(" Id+ ")"`. -/
theorem is_identifier_iff (s : Str) : is_identifier s = true ↔ Ident s := by
  constructor
  · intro h
    have h1 : check_identifier (2 * s.length + 1) s = some (some []) := by
      simpa [is_identifier] using h
    obtain ⟨u, hu, hs⟩ := (check_identifier_sound _).1 s [] h1
    simpa [hs] using hu
  · intro h
    obtain ⟨f, hf⟩ := check_identifier_complete h []
    rw [List.append_nil] at hf
    have h1 := check_identifier_mono (le_max_left f (2 * s.length + 1)) hf
    rw [check_identifier_enough s _ (le_max_right _ _)] at h1
    simp [is_identifier, h1]

/-- Identifiers form a code: no identifier is a proper initial part of
another one. -/
theorem Ident.cancel {u v x y : Str} (hu : Ident u) (hv : Ident v) (h : u ++ x = v ++ y) :
    u = v ∧ x = y := by
  obtain ⟨f1, h1⟩ := check_identifier_complete hu x
  obtain ⟨f2, h2⟩ := check_identifier_complete hv y
  have e1 := check_identifier_mono (le_max_left f1 f2) h1
  have e2 := check_identifier_mono (le_max_right f1 f2) h2
  rw [h, e2] at e1
  have hxy : x = y := by simpa using e1.symm
  subst hxy
  exact ⟨List.append_cancel_right h, rfl⟩

/-! ### Generated names -/

theorem wrap_inj {n : Int} {a b : Str} (h : wrap n a = wrap n b) : a = b := by
  unfold wrap at h
  rw [List.append_assoc, List.append_assoc] at h
  exact List.append_cancel_right (List.append_cancel_left h)

theorem count_paren_eq (s : Str) : count_paren s = (s.count '(' : Nat) := by
  unfold count_paren
  suffices h : ∀ (k : Int), s.foldl (fun paren c => if c == '(' then paren + 1 else paren) k
      = k + (s.count '(' : Nat) by simpa using h 0
  induction s with
  | nil => intro k; simp
  | cons c s ih =>
    intro k
    rw [List.foldl_cons, ih, List.count_cons]
    split <;> rename_i h <;> simp [h]
    ring

theorem set_number_of_parentheses_ge (W : List Str) : ∀ (g : Globals),
    g.NUMBER_OF_PARENTHESES ≤ (set_number_of_parentheses g W).NUMBER_OF_PARENTHESES
    ∧ ∀ x ∈ W, count_paren x ≤ (set_number_of_parentheses g W).NUMBER_OF_PARENTHESES := by
  induction W with
  | nil => intro g; simp [set_number_of_parentheses]
  | cons y W ih =>
    intro g
    simp only [set_number_of_parentheses, List.foldl_cons, List.mem_cons, forall_eq_or_imp]
    split
    · rename_i h
      have := ih { g with NUMBER_OF_PARENTHESES := count_paren y }
      simp only [set_number_of_parentheses] at this
      exact ⟨le_trans (le_of_lt h) this.1, this.1, this.2⟩
    · rename_i h
      have := ih g
      simp only [set_number_of_parentheses] at this
      exact ⟨this.1, le_trans (not_lt.mp h) this.1, this.2⟩

theorem count_wrap (n : Int) (body : Str) :
    (wrap n body).count '(' = (n + 1).toNat + body.count '(' := by
  simp [wrap, List.count_append, List.count_replicate]

theorem setup_globals_number (hd : Header) (M : TuringMachine) (g : Globals) :
    (setup_globals hd M g).NUMBER_OF_PARENTHESES
      = (set_number_of_parentheses g (M.working_alphabet hd)).NUMBER_OF_PARENTHESES := rfl

theorem setup_globals_border (hd : Header) (M : TuringMachine) (g : Globals) :
    (setup_globals hd M g).TAPE_BORDER
      = wrap (setup_globals hd M g).NUMBER_OF_PARENTHESES "tape-border".toList := rfl

theorem setup_globals_end (hd : Header) (M : TuringMachine) (g : Globals) :
    (setup_globals hd M g).TAPE_END
      = wrap (setup_globals hd M g).NUMBER_OF_PARENTHESES "tape-end".toList := rfl

/-- A wrapped text is not a member of a list all of whose members have at most
`n` opening parentheses. -/
theorem wrap_not_mem {W : List Str} {n : Int} (h : ∀ x ∈ W, count_paren x ≤ n) (body : Str) :
    wrap n body ∉ W := by
  intro hmem
  have h1 := h _ hmem
  rw [count_paren_eq, count_wrap] at h1
  have h2 : n + 1 ≤ ((n + 1).toNat : Int) := Int.self_le_toNat _
  push_cast at h1
  omega

/-- After the setup steps of `reduce_two_tapes_to_one` (from any value of
the parenthesis counter, in particular from 0) no generated letter belongs to
the working alphabet `W` of the machine: `TAPE_BORDER ∉ W`, `TAPE_END ∉ W` and
`make_logical_head x ∉ W` for every `x`, in particular for every `x ∈ W`. -/
theorem generated_letters_fresh_aux (hd : Header) (M : TuringMachine) (g0 : Globals) :
    (setup_globals hd M g0).TAPE_BORDER ∉ M.working_alphabet hd
    ∧ (setup_globals hd M g0).TAPE_END ∉ M.working_alphabet hd
    ∧ ∀ x, make_logical_head (setup_globals hd M g0) x ∉ M.working_alphabet hd := by
  have h := (set_number_of_parentheses_ge (M.working_alphabet hd) g0).2
  rw [← setup_globals_number] at h
  refine ⟨?_, ?_, fun x => ?_⟩
  · rw [setup_globals_border]; exact wrap_not_mem h _
  · rw [setup_globals_end]; exact wrap_not_mem h _
  · exact wrap_not_mem h _

/-- C6: after the setup steps of `reduce_two_tapes_to_one` (from any value of
the parenthesis counter, in particular from 0) no generated letter belongs to
the working alphabet `W` of the machine: `TAPE_BORDER ∉ W`, `TAPE_END ∉ W` and
`make_logical_head x ∉ W` for every `x`, in particular for every `x ∈ W`. -/
theorem generated_letters_fresh (hd : Header) (M : TuringMachine) (g0 : Globals) :
    (setup_globals hd M g0).TAPE_BORDER ∉ M.working_alphabet hd
    ∧ (setup_globals hd M g0).TAPE_END ∉ M.working_alphabet hd
    ∧ ∀ x, make_logical_head (setup_globals hd M g0) x ∉ M.working_alphabet hd :=
  generated_letters_fresh_aux hd M g0

theorem str_tape_border : "tape-border".toList
    = ['t', 'a', 'p', 'e', '-', 'b', 'o', 'r', 'd', 'e', 'r'] := rfl

theorem str_tape_end : "tape-end".toList = ['t', 'a', 'p', 'e', '-', 'e', 'n', 'd'] := rfl

theorem str_head_mark : "-H".toList = ['-', 'H'] := rfl

theorem head_ne_border (x : Str) : x ++ "-H".toList ≠ "tape-border".toList := by
  intro h
  have := congrArg List.reverse h
  simp [str_tape_border, str_head_mark] at this

theorem head_ne_end (x : Str) : x ++ "-H".toList ≠ "tape-end".toList := by
  intro h
  have := congrArg List.reverse h
  simp [str_tape_end, str_head_mark] at this

theorem make_logical_head_inj {g : Globals} {x y : Str}
    (h : make_logical_head g x = make_logical_head g y) : x = y :=
  List.append_cancel_right (wrap_inj h)

/-- C8: for every value of `NUMBER_OF_PARENTHESES` (with the sentinels set
from it by `set_tape_border` and `set_tape_end`) and all strings `x`, `y`:
`make_logical_head x` differs from `TAPE_BORDER` and from `TAPE_END`,
`TAPE_BORDER` differs from `TAPE_END`, and `make_logical_head` is injective. -/
theorem generated_letters_distinct (g0 : Globals) (x y : Str) :
    make_logical_head (set_tape_end (set_tape_border g0)) x
        ≠ (set_tape_end (set_tape_border g0)).TAPE_BORDER
    ∧ make_logical_head (set_tape_end (set_tape_border g0)) x
        ≠ (set_tape_end (set_tape_border g0)).TAPE_END
    ∧ (set_tape_end (set_tape_border g0)).TAPE_BORDER
        ≠ (set_tape_end (set_tape_border g0)).TAPE_END
    ∧ (make_logical_head (set_tape_end (set_tape_border g0)) x
        = make_logical_head (set_tape_end (set_tape_border g0)) y → x = y) := by
  refine ⟨?_, ?_, ?_, make_logical_head_inj⟩
  · intro h
    exact head_ne_border x (wrap_inj h)
  · intro h
    exact head_ne_end x (wrap_inj h)
  · intro h
    have h1 : "tape-border".toList = "tape-end".toList := wrap_inj h
    simp [str_tape_border, str_tape_end] at h1

/-! ### Nesting depth of the generated letters -/

theorem nesting_depth_scan_shift (k : Int) (s : Str) : ∀ (c b : Int),
    nesting_depth_scan (c + k) (b + k) s = nesting_depth_scan c b s + k := by
  induction s with
  | nil => intro c b; simp [nesting_depth_scan]
  | cons a s ih =>
    intro c b
    simp only [nesting_depth_scan]
    split
    · have e1 : c + k + 1 = (c + 1) + k := by ring
      have e2 : max (b + k) (c + 1 + k) = max b (c + 1) + k := (max_add_add_right _ _ _)
      rw [e1, e2, ih]
    · split
      · have e1 : c + k - 1 = (c - 1) + k := by ring
        rw [e1, ih]
      · rw [ih]

theorem nesting_depth_scan_open (m : Nat) (t : Str) : ∀ (c b : Int), c ≤ b →
    nesting_depth_scan c b (List.replicate m '(' ++ t)
      = nesting_depth_scan (c + m) (max b (c + m)) t := by
  induction m with
  | zero => intro c b h; simp [max_eq_left h]
  | succ m ih =>
    intro c b h
    rw [List.replicate_succ, List.cons_append, nesting_depth_scan, if_pos rfl,
      ih (c + 1) (max b (c + 1)) (le_max_right _ _)]
    have e1 : c + 1 + (m : Int) = c + ((m + 1 : Nat) : Int) := by push_cast; ring
    rw [e1]
    congr 1
    rw [max_assoc]
    congr 1
    apply max_eq_right
    push_cast
    omega

theorem nesting_depth_scan_close (m : Nat) (t : Str) : ∀ (c b : Int),
    nesting_depth_scan c b (t ++ List.replicate m ')') = nesting_depth_scan c b t := by
  induction t with
  | nil =>
    induction m with
    | zero => intro c b; simp
    | succ m ih =>
      intro c b
      have h1 : ¬ (')' = '(') := by decide
      simp only [List.nil_append, List.replicate_succ, nesting_depth_scan, h1, if_false, if_true]
      simpa [nesting_depth_scan] using ih (c - 1) b
  | cons a t ih =>
    intro c b
    simp only [List.cons_append, nesting_depth_scan]
    split
    · exact ih _ _
    · split
      · exact ih _ _
      · exact ih _ _

theorem nesting_depth_wrap (n : Int) (hn : 0 ≤ n) (body : Str) :
    nesting_depth (wrap n body) = n + 1 + nesting_depth body := by
  unfold nesting_depth wrap
  rw [List.append_assoc, nesting_depth_scan_open _ _ 0 0 le_rfl, nesting_depth_scan_close]
  have e : (((n + 1).toNat : Nat) : Int) = n + 1 := Int.toNat_of_nonneg (by omega)
  rw [e, max_eq_right (by omega)]
  rw [nesting_depth_scan_shift (n + 1) body 0 0]
  ring

theorem nesting_depth_scan_le (s : Str) : ∀ (c b : Int),
    nesting_depth_scan c b s ≤ max b (c + (s.count '(' : Nat)) := by
  induction s with
  | nil => intro c b; simp [nesting_depth_scan]
  | cons a s ih =>
    intro c b
    simp only [nesting_depth_scan]
    split
    · rename_i h
      subst h
      refine le_trans (ih _ _) ?_
      rw [List.count_cons_self]
      push_cast
      apply max_le
      · apply max_le
        · exact le_max_left _ _
        · refine le_trans ?_ (le_max_right _ _); omega
      · refine le_trans ?_ (le_max_right _ _); omega
    · rename_i h
      have hc : List.count '(' (a :: s) = List.count '(' s := by
        rw [List.count_cons]
        simp [h]
      rw [hc]
      split
      · refine le_trans (ih _ _) ?_
        apply max_le
        · exact le_max_left _ _
        · refine le_trans ?_ (le_max_right _ _); omega
      · exact ih _ _

theorem nesting_depth_le_count (s : Str) : nesting_depth s ≤ count_paren s := by
  have h := nesting_depth_scan_le s 0 0
  rw [count_paren_eq]
  unfold nesting_depth
  refine le_trans h ?_
  simp

theorem foldl_max_mono (f1 f2 : Str → Int) (hf : ∀ x, f1 x ≤ f2 x) (W : List Str) :
    ∀ (a b : Int), a ≤ b →
      W.foldl (fun d x => max d (f1 x)) a ≤ W.foldl (fun d x => max d (f2 x)) b := by
  induction W with
  | nil => intro a b h; simpa using h
  | cons y W ih =>
    intro a b h
    simp only [List.foldl_cons]
    exact ih _ _ (max_le_max h (hf y))

theorem set_number_of_parentheses_eq (W : List Str) : ∀ (g : Globals),
    (set_number_of_parentheses g W).NUMBER_OF_PARENTHESES
      = W.foldl (fun d x => max d (count_paren x)) g.NUMBER_OF_PARENTHESES := by
  induction W with
  | nil => intro g; simp [set_number_of_parentheses]
  | cons y W ih =>
    intro g
    simp only [set_number_of_parentheses, List.foldl_cons]
    split
    · rename_i h
      have := ih { g with NUMBER_OF_PARENTHESES := count_paren y }
      simp only [set_number_of_parentheses] at this
      rw [this, max_eq_right (le_of_lt h)]
    · rename_i h
      have := ih g
      simp only [set_number_of_parentheses] at this
      rw [this, max_eq_left (not_lt.mp h)]

theorem nesting_depth_scan_head_mark (x : Str) : ∀ (c b : Int),
    nesting_depth_scan c b (x ++ "-H".toList) = nesting_depth_scan c b x := by
  have h1 : ¬ ('-' = '(') := by decide
  have h2 : ¬ ('-' = ')') := by decide
  have h3 : ¬ ('H' = '(') := by decide
  have h4 : ¬ ('H' = ')') := by decide
  induction x with
  | nil => intro c b; simp [str_head_mark, nesting_depth_scan, h1, h2, h3, h4]
  | cons a x ih =>
    intro c b
    simp only [List.cons_append, nesting_depth_scan]
    split
    · exact ih _ _
    · split
      · exact ih _ _
      · exact ih _ _

/-- C7, refuted as stated.  For the alphabet `{(a)}` of maximum nesting depth
`D = 1` the head marker of `(a)` has nesting depth 3, not `D + 1`; for the
alphabet `{((a)(b))}` of maximum nesting depth `D = 2` the sentinel
`TAPE_BORDER` has nesting depth 4, not `D + 1`. -/
theorem nesting_depth_counterexample :
    (is_identifier "(a)".toList = true
      ∧ max_nesting_depth ["(a)".toList] = 1
      ∧ nesting_depth (make_logical_head
          (set_tape_end (set_tape_border
            (set_number_of_parentheses Globals.initial ["(a)".toList]))) "(a)".toList)
          ≠ max_nesting_depth ["(a)".toList] + 1)
    ∧ (is_identifier "((a)(b))".toList = true
      ∧ max_nesting_depth ["((a)(b))".toList] = 2
      ∧ nesting_depth (set_tape_end (set_tape_border
            (set_number_of_parentheses Globals.initial ["((a)(b))".toList]))).TAPE_BORDER
          ≠ max_nesting_depth ["((a)(b))".toList] + 1) := by
  decide

/-- C7, amended.  After `set_number_of_parentheses W` from 0 the counter
`NUMBER_OF_PARENTHESES` is the maximum number `N` of `(` characters in a letter
of `W`, which is at least the maximum nesting depth `D` of `W`; `TAPE_BORDER`
and `TAPE_END` have nesting depth exactly `N + 1`, and `make_logical_head x`
has nesting depth `N + 1 + depth x` for every string `x`. -/
theorem nesting_depth_generated (W : List Str) (x : Str) :
    (set_number_of_parentheses Globals.initial W).NUMBER_OF_PARENTHESES = max_count_paren W
    ∧ max_nesting_depth W ≤ max_count_paren W
    ∧ nesting_depth (set_tape_end (set_tape_border
        (set_number_of_parentheses Globals.initial W))).TAPE_BORDER = max_count_paren W + 1
    ∧ nesting_depth (set_tape_end (set_tape_border
        (set_number_of_parentheses Globals.initial W))).TAPE_END = max_count_paren W + 1
    ∧ nesting_depth (make_logical_head (set_tape_end (set_tape_border
        (set_number_of_parentheses Globals.initial W))) x)
        = max_count_paren W + 1 + nesting_depth x := by
  have hN : (set_number_of_parentheses Globals.initial W).NUMBER_OF_PARENTHESES
      = max_count_paren W := set_number_of_parentheses_eq W Globals.initial
  have h0 : 0 ≤ max_count_paren W := by
    rw [← hN]
    exact (set_number_of_parentheses_ge W Globals.initial).1
  refine ⟨hN, foldl_max_mono _ _ nesting_depth_le_count W 0 0 le_rfl, ?_, ?_, ?_⟩
  · show nesting_depth (wrap _ _) = _
    rw [hN, nesting_depth_wrap _ h0]
    have : nesting_depth "tape-border".toList = 0 := by decide
    rw [this, add_zero]
  · show nesting_depth (wrap (set_number_of_parentheses Globals.initial W).NUMBER_OF_PARENTHESES
      _) = _
    rw [hN, nesting_depth_wrap _ h0]
    have : nesting_depth "tape-end".toList = 0 := by decide
    rw [this, add_zero]
  · show nesting_depth (wrap (set_number_of_parentheses Globals.initial W).NUMBER_OF_PARENTHESES
      _) = _
    rw [hN, nesting_depth_wrap _ h0]
    rw [show nesting_depth (x ++ "-H".toList) = nesting_depth x from
      nesting_depth_scan_head_mark x 0 0]

/-! ### Decimal numerals -/

theorem toDigitsCore_append (f : Nat) : ∀ (n : Nat) (ds : List Char),
    Nat.toDigitsCore 10 f n ds = Nat.toDigitsCore 10 f n [] ++ ds := by
  induction f with
  | zero => intro n ds; simp [Nat.toDigitsCore]
  | succ f ih =>
    intro n ds
    simp only [Nat.toDigitsCore]
    split
    · simp
    · rw [ih (n / 10) (_ :: ds), ih (n / 10) [_]]
      simp

theorem digitChar_value (k : Nat) (hk : k < 10) :
    digit_value (Nat.digitChar k) = k ∧ Nat.digitChar k ≠ '-' := by
  interval_cases k <;> exact ⟨rfl, by decide⟩

theorem decimal_value_append (xs : Str) (d : Char) :
    decimal_value (xs ++ [d]) = 10 * decimal_value xs + digit_value d := by
  simp [decimal_value, List.foldl_append]

theorem toDigitsCore_value (f : Nat) : ∀ (n : Nat), n < f →
    decimal_value (Nat.toDigitsCore 10 f n []) = n
    ∧ ∀ c ∈ Nat.toDigitsCore 10 f n [], c ≠ '-' := by
  induction f with
  | zero => intro n h; omega
  | succ f ih =>
    intro n h
    have hd := digitChar_value (n % 10) (Nat.mod_lt _ (by norm_num))
    simp only [Nat.toDigitsCore]
    split
    · rename_i h0
      constructor
      · have := decimal_value_append [] (Nat.digitChar (n % 10))
        simp only [List.nil_append] at this
        rw [this, hd.1]
        simp only [decimal_value, List.foldl_nil]
        omega
      · intro c hc
        simp only [List.mem_singleton] at hc
        rw [hc]; exact hd.2
    · rename_i h0
      have hlt : n / 10 < f := by omega
      obtain ⟨h1, h2⟩ := ih (n / 10) hlt
      rw [toDigitsCore_append]
      constructor
      · rw [decimal_value_append, h1, hd.1]
        omega
      · intro c hc
        simp only [List.mem_append, List.mem_singleton] at hc
        rcases hc with hc | hc
        · exact h2 c hc
        · rw [hc]; exact hd.2

theorem to_string_value (t : Int) (ht : 0 ≤ t) :
    decimal_value (to_string t) = t.toNat ∧ '-' ∉ to_string t := by
  have h := toDigitsCore_value (t.toNat + 1) t.toNat (Nat.lt_succ_self _)
  have e : to_string t = Nat.toDigitsCore 10 (t.toNat + 1) t.toNat [] := by
    simp [to_string, Nat.toDigits, not_lt.mpr ht]
  rw [e]
  exact ⟨h.1, fun hm => h.2 _ hm rfl⟩

theorem to_string_inj {t t1 : Int} (ht : 0 ≤ t) (ht1 : 0 ≤ t1)
    (h : to_string t = to_string t1) : t = t1 := by
  have h1 := (to_string_value t ht).1
  have h2 := (to_string_value t1 ht1).1
  rw [h, h2] at h1
  have := congrArg (Int.ofNat) h1
  simp only [Int.ofNat_eq_coe, Int.toNat_of_nonneg ht, Int.toNat_of_nonneg ht1] at this
  exact this.symm

/-! ### Composite states -/

theorem split_first {c : Char} : ∀ {l1 l2 r1 r2 : Str}, c ∉ l1 → c ∉ l2 →
    l1 ++ c :: r1 = l2 ++ c :: r2 → l1 = l2 ∧ r1 = r2 := by
  intro l1
  induction l1 with
  | nil =>
    intro l2 r1 r2 _ h2 h
    cases l2 with
    | nil => simpa using h
    | cons a l2 =>
      simp only [List.nil_append, List.cons_append, List.cons.injEq] at h
      exact absurd (by simp [h.1]) h2
  | cons a l1 ih =>
    intro l2 r1 r2 h1 h2 h
    cases l2 with
    | nil =>
      simp only [List.nil_append, List.cons_append, List.cons.injEq] at h
      exact absurd (by simp [h.1]) h1
    | cons b l2 =>
      simp only [List.cons_append, List.cons.injEq] at h
      have h1a : c ∉ l1 := fun hm => h1 (List.mem_cons_of_mem _ hm)
      have h2a : c ∉ l2 := fun hm => h2 (List.mem_cons_of_mem _ hm)
      obtain ⟨e1, e2⟩ := ih h1a h2a h.2
      exact ⟨by rw [h.1, e1], e2⟩

theorem split_last {c : Char} {l1 l2 r1 r2 : Str} (h1 : c ∉ r1) (h2 : c ∉ r2)
    (h : l1 ++ c :: r1 = l2 ++ c :: r2) : l1 = l2 ∧ r1 = r2 := by
  have hr := congrArg List.reverse h
  simp only [List.reverse_append, List.reverse_cons, List.append_assoc, List.singleton_append]
    at hr
  obtain ⟨e1, e2⟩ := split_first (by simpa using h1) (by simpa using h2) hr
  exact ⟨List.reverse_injective e2, List.reverse_injective e1⟩

theorem str_user_open : "(U-".toList = ['(', 'U', '-'] := rfl
theorem str_dash : "-".toList = ['-'] := rfl
theorem str_close : ")".toList = [')'] := rfl
theorem str_dash_open : "-(".toList = ['-', '('] := rfl
theorem str_close_dash_open : ")-(".toList = [')', '-', '('] := rfl

theorem make_user_state_eq (s p : Str) (t : Int) :
    make_user_state s p t = '(' :: 'U' :: '-' :: (s ++ '-' :: p) ++ '-' :: (to_string t ++ [')']) := by
  simp [make_user_state, str_user_open, str_dash, str_close]

/-- The three arguments of `make_user_state` are determined by its result up
to the position of the separator between state and phase. -/
theorem make_user_state_cancel {s p s1 p1 : Str} {t t1 : Int} (ht : 0 ≤ t) (ht1 : 0 ≤ t1)
    (h : make_user_state s p t = make_user_state s1 p1 t1) :
    s ++ '-' :: p = s1 ++ '-' :: p1 ∧ t = t1 := by
  rw [make_user_state_eq, make_user_state_eq] at h
  simp only [List.cons_append, List.cons.injEq, true_and] at h
  have hm : ∀ (u : Int), 0 ≤ u → '-' ∉ to_string u ++ [')'] := by
    intro u hu hmem
    simp only [List.mem_append, List.mem_singleton] at hmem
    rcases hmem with hmem | hmem
    · exact (to_string_value u hu).2 hmem
    · exact absurd hmem (by decide)
  obtain ⟨e1, e2⟩ := split_last (hm t ht) (hm t1 ht1) h
  exact ⟨e1, to_string_inj ht ht1 (List.append_cancel_right e2)⟩

/-- C9, refuted as stated: the states `a-` with phase empty and `a` with phase
`-` give the same composite state. -/
theorem make_user_state_counterexample :
    make_user_state "a-".toList "".toList 1 = make_user_state "a".toList "-".toList 1
    ∧ ¬ ("a-".toList = "a".toList ∧ "".toList = "-".toList ∧ (1 : Int) = 1) := by
  decide

/-- C9, amended.  For tape indices `t, t1 ≥ 0`, two calls of `make_user_state`
give the same result if and only if the tape indices are equal and the texts
`state-phase` (state, `-`, phase) are equal; when the two states have the same
length this is the case if and only if all three arguments are equal. -/
theorem make_user_state_eq_iff (s p s1 p1 : Str) (t t1 : Int) (ht : 0 ≤ t) (ht1 : 0 ≤ t1) :
    (make_user_state s p t = make_user_state s1 p1 t1
      ↔ s ++ "-".toList ++ p = s1 ++ "-".toList ++ p1 ∧ t = t1)
    ∧ (s.length = s1.length →
      (make_user_state s p t = make_user_state s1 p1 t1 ↔ s = s1 ∧ p = p1 ∧ t = t1)) := by
  have key : make_user_state s p t = make_user_state s1 p1 t1
      ↔ s ++ "-".toList ++ p = s1 ++ "-".toList ++ p1 ∧ t = t1 := by
    constructor
    · intro h
      have := make_user_state_cancel ht ht1 h
      simpa [str_dash] using this
    · rintro ⟨h1, rfl⟩
      have e : ∀ (a b : Str), make_user_state a b t
          = "(U-".toList ++ (a ++ "-".toList ++ b) ++ "-".toList ++ to_string t ++ ")".toList := by
        intro a b
        simp [make_user_state]
      rw [e, e, h1]
  refine ⟨key, fun hlen => ?_⟩
  rw [key]
  constructor
  · rintro ⟨h1, h2⟩
    rw [List.append_assoc, List.append_assoc] at h1
    have e := List.append_inj h1 hlen
    exact ⟨e.1, List.append_cancel_left e.2, h2⟩
  · rintro ⟨rfl, rfl, rfl⟩
    exact ⟨rfl, rfl⟩

theorem make_user_state_eq_iff_witness :
    (make_user_state "q".toList "headLeft".toList 1
        = make_user_state "r".toList "headLeft".toList 2
      ↔ "q".toList ++ "-".toList ++ "headLeft".toList
          = "r".toList ++ "-".toList ++ "headLeft".toList ∧ (1 : Int) = 2)
    ∧ ("q".toList.length = "r".toList.length →
      (make_user_state "q".toList "headLeft".toList 1
          = make_user_state "r".toList "headLeft".toList 2
        ↔ "q".toList = "r".toList ∧ "headLeft".toList = "headLeft".toList ∧ (1 : Int) = 2)) :=
  make_user_state_eq_iff "q".toList "headLeft".toList "r".toList "headLeft".toList 1 2
    (by decide) (by decide)

theorem compose_state_eq (s a b : Str) :
    compose_state s a b = s ++ '-' :: '(' :: (a ++ ')' :: '-' :: '(' :: (b ++ [')'])) := by
  simp [compose_state, str_dash_open, str_close_dash_open, str_close]

/-- The three components of a composite `state-(letter)-(letter)` are
determined by any text that starts with it. -/
theorem compose_state_cancel {s a b s1 a1 b1 x y : Str} (hs : Ident s) (ha : Ident a)
    (hb : Ident b) (hs1 : Ident s1) (ha1 : Ident a1) (hb1 : Ident b1)
    (h : compose_state s a b ++ x = compose_state s1 a1 b1 ++ y) :
    s = s1 ∧ a = a1 ∧ b = b1 ∧ x = y := by
  rw [compose_state_eq, compose_state_eq] at h
  simp only [List.append_assoc, List.cons_append] at h
  obtain ⟨e1, h⟩ := Ident.cancel hs hs1 h
  simp only [List.cons.injEq, true_and] at h
  obtain ⟨e2, h⟩ := Ident.cancel ha ha1 h
  simp only [List.cons.injEq, true_and] at h
  obtain ⟨e3, h⟩ := Ident.cancel hb hb1 h
  simp only [List.cons.injEq, true_and, List.nil_append] at h
  exact ⟨e1, e2, e3, h⟩

/-- C10: for identifiers `s, a, b, s1, a1, b1`, arbitrary phases `p, p1` and
tape indices `t, t1` in `{1, 2}`, equal composite states
`make_user_state (s-(a)-(b)) p t = make_user_state (s1-(a1)-(b1)) p1 t1` force
`s = s1`, `a = a1`, `b = b1`, `p = p1` and `t = t1`. -/
theorem composite_state_inj (s a b s1 a1 b1 p p1 : Str) (t t1 : Int)
    (hs : is_identifier s = true) (ha : is_identifier a = true) (hb : is_identifier b = true)
    (hs1 : is_identifier s1 = true) (ha1 : is_identifier a1 = true)
    (hb1 : is_identifier b1 = true) (ht : t = 1 ∨ t = 2) (ht1 : t1 = 1 ∨ t1 = 2)
    (h : make_user_state (compose_state s a b) p t
      = make_user_state (compose_state s1 a1 b1) p1 t1) :
    s = s1 ∧ a = a1 ∧ b = b1 ∧ p = p1 ∧ t = t1 := by
  have h0 : 0 ≤ t := by rcases ht with rfl | rfl <;> decide
  have h1 : 0 ≤ t1 := by rcases ht1 with rfl | rfl <;> decide
  obtain ⟨e, et⟩ := make_user_state_cancel h0 h1 h
  obtain ⟨e1, e2, e3, e4⟩ := compose_state_cancel ((is_identifier_iff s).1 hs)
    ((is_identifier_iff a).1 ha) ((is_identifier_iff b).1 hb) ((is_identifier_iff s1).1 hs1)
    ((is_identifier_iff a1).1 ha1) ((is_identifier_iff b1).1 hb1) e
  simp only [List.cons.injEq, true_and] at e4
  exact ⟨e1, e2, e3, e4, et⟩

theorem composite_state_inj_witness :
    "q".toList = "q".toList ∧ "0".toList = "0".toList ∧ "_".toList = "_".toList
      ∧ "headLeft".toList = "headLeft".toList ∧ (1 : Int) = 1 :=
  composite_state_inj "q".toList "0".toList "_".toList "q".toList "0".toList "_".toList
    "headLeft".toList "headLeft".toList 1 1 (by decide) (by decide) (by decide) (by decide)
    (by decide) (by decide) (by decide) (by decide) rfl

/-! ### The precondition on the number of tapes -/

/-- C4: `reduce_two_tapes_to_one` fails with the assertion on the number of
tapes, its first statement, whenever `num_tapes` is not 2: nothing is
generated and the globals are not touched. -/
theorem reduce_requires_two_tapes (hd : Header) (M : TuringMachine) (g : Globals)
    (h : M.num_tapes ≠ 2) :
    M.reduce_two_tapes_to_one hd g = .error .assert_num_tapes_is_two := by
  simp [TuringMachine.reduce_two_tapes_to_one, h]

theorem reduce_requires_two_tapes_witness :
    TuringMachine.reduce_two_tapes_to_one stdHeader
        ⟨1, ["0".toList], [(("(start)".toList, ["0".toList]),
          ("(accept)".toList, ["0".toList], ['-']))]⟩ Globals.initial
      = .error .assert_num_tapes_is_two :=
  reduce_requires_two_tapes stdHeader _ Globals.initial (by decide)

/-! ### Maps -/

theorem mem_map_assign {m : transitions_t} {k : Key} {v : Val} {e : Key × Val}
    (h : e ∈ map_assign m k v) : e = (k, v) ∨ e ∈ m := by
  induction m with
  | nil => simpa [map_assign] using h
  | cons a m ih =>
    obtain ⟨k1, v1⟩ := a
    simp only [map_assign] at h
    split at h
    · simp only [List.mem_cons] at h ⊢
      rcases h with h | h
      · exact Or.inl h
      · exact Or.inr (Or.inr h)
    · simp only [List.mem_cons] at h ⊢
      rcases h with h | h
      · exact Or.inr (Or.inl h)
      · rcases ih h with h | h
        · exact Or.inl h
        · exact Or.inr (Or.inr h)

theorem map_find_assign (m : transitions_t) (k : Key) (v : Val) (k1 : Key) :
    map_find (map_assign m k v) k1 = if k = k1 then some v else map_find m k1 := by
  induction m with
  | nil => simp [map_assign, map_find]
  | cons a m ih =>
    obtain ⟨k2, v2⟩ := a
    simp only [map_assign]
    split
    · rename_i h
      subst h
      simp only [map_find]
      split <;> rfl
    · rename_i h
      simp only [map_find, ih]
      split
      · rename_i h1
        subst h1
        simp [Ne.symm h]
      · rfl

theorem map_find_mem {m : transitions_t} {k : Key} {v : Val} (h : map_find m k = some v) :
    (k, v) ∈ m := by
  induction m with
  | nil => simp [map_find] at h
  | cons a m ih =>
    obtain ⟨k1, v1⟩ := a
    simp only [map_find] at h
    split at h
    · rename_i hk
      simp only [Option.some.injEq] at h
      simp [hk, h]
    · exact List.mem_cons_of_mem _ (ih h)

theorem map_find_eq_none {m : transitions_t} {k : Key} :
    map_find m k = none ↔ k ∉ map_keys m := by
  induction m with
  | nil => simp [map_find, map_keys]
  | cons a m ih =>
    obtain ⟨k1, v1⟩ := a
    simp only [map_find, map_keys, List.map_cons, List.mem_cons, not_or]
    split
    · rename_i h
      simp [h]
    · rename_i h
      simp only [map_keys] at ih
      rw [ih]
      simp [Ne.symm h]

theorem map_find_of_nodup {m : transitions_t} (hm : (map_keys m).Nodup) {k : Key} {v : Val}
    (h : (k, v) ∈ m) : map_find m k = some v := by
  induction m with
  | nil => simp at h
  | cons a m ih =>
    obtain ⟨k1, v1⟩ := a
    simp only [map_keys, List.map_cons, List.nodup_cons] at hm
    simp only [List.mem_cons, Prod.mk.injEq] at h
    simp only [map_find]
    rcases h with ⟨rfl, rfl⟩ | h
    · simp
    · have hne : k1 ≠ k := by
        rintro rfl
        exact hm.1 (List.mem_map_of_mem Prod.fst h)
      rw [if_neg hne]
      exact ih hm.2 h

theorem foldl_assign_mem (ws : List (Key × Val)) : ∀ (acc : transitions_t) (e : Key × Val),
    e ∈ ws.foldl (fun res e => map_assign res e.1 e.2) acc → e ∈ acc ∨ e ∈ ws := by
  induction ws with
  | nil => intro acc e h; exact Or.inl h
  | cons w ws ih =>
    intro acc e h
    rw [List.foldl_cons] at h
    rcases ih _ _ h with h | h
    · rcases mem_map_assign h with h | h
      · exact Or.inr (by simp [h])
      · exact Or.inl h
    · exact Or.inr (List.mem_cons_of_mem _ h)

/-- Every entry of a map built by assignments is one of the assignments. -/
theorem mem_map_of_writes {ws : List (Key × Val)} {e : Key × Val}
    (h : e ∈ map_of_writes ws) : e ∈ ws := by
  rcases foldl_assign_mem ws [] e h with h | h
  · simp at h
  · exact h

theorem foldl_assign_find_other (k : Key) (ws : List (Key × Val)) :
    ∀ (acc : transitions_t), (∀ e ∈ ws, e.1 ≠ k) →
      map_find (ws.foldl (fun res e => map_assign res e.1 e.2) acc) k = map_find acc k := by
  induction ws with
  | nil => intro acc _; rfl
  | cons w ws ih =>
    intro acc h
    rw [List.foldl_cons, ih _ (fun e he => h e (List.mem_cons_of_mem _ he)),
      map_find_assign, if_neg (h w (List.mem_cons_self _ _))]

theorem foldl_assign_find (k : Key) (v : Val) (ws : List (Key × Val)) :
    ∀ (acc : transitions_t), (∀ e ∈ ws, e.1 = k → e.2 = v) →
      ((∃ e ∈ ws, e.1 = k) ∨ map_find acc k = some v) →
      map_find (ws.foldl (fun res e => map_assign res e.1 e.2) acc) k = some v := by
  induction ws with
  | nil =>
    intro acc _ h
    rcases h with ⟨e, he, _⟩ | h
    · simp at he
    · exact h
  | cons w ws ih =>
    intro acc hv h
    rw [List.foldl_cons]
    apply ih _ (fun e he => hv e (List.mem_cons_of_mem _ he))
    by_cases hw : w.1 = k
    · right
      rw [map_find_assign, if_pos hw, hv w (List.mem_cons_self _ _) hw]
    · rcases h with ⟨e, he, hek⟩ | h
      · simp only [List.mem_cons] at he
        rcases he with rfl | he
        · exact absurd hek hw
        · exact Or.inl ⟨e, he, hek⟩
      · right
        rw [map_find_assign, if_neg hw, h]

/-- A key that is assigned, and only ever with the value `v`, is mapped to
`v`. -/
theorem map_find_of_writes {ws : List (Key × Val)} {k : Key} {v : Val}
    (hmem : (k, v) ∈ ws) (hv : ∀ e ∈ ws, e.1 = k → e.2 = v) :
    map_find (map_of_writes ws) k = some v :=
  foldl_assign_find k v ws [] hv (Or.inl ⟨(k, v), hmem, rfl⟩)

/-- A key that is never assigned is absent. -/
theorem map_find_of_writes_none {ws : List (Key × Val)} {k : Key}
    (h : ∀ e ∈ ws, e.1 ≠ k) : map_find (map_of_writes ws) k = none := by
  have := foldl_assign_find_other k ws [] h
  simpa [map_find] using this

theorem map_keys_of_writes {ws : List (Key × Val)} {k : Key}
    (h : k ∈ map_keys (map_of_writes ws)) : ∃ e ∈ ws, e.1 = k := by
  simp only [map_keys, List.mem_map] at h
  obtain ⟨e, he, hk⟩ := h
  exact ⟨e, mem_map_of_writes he, hk⟩

theorem stdHeader_wellFormed : stdHeader.WellFormed :=
  ⟨by decide, by decide, by decide, by decide, by decide, ⟨by decide, by decide⟩,
    ⟨by decide, by decide⟩, ⟨by decide, by decide⟩, by decide, by decide, by decide⟩

/-! ### Range insertion -/

theorem mem_map_insert {m : transitions_t} {k : Key} {v : Val} {e : Key × Val}
    (h : e ∈ map_insert m k v) : e ∈ m ∨ e = (k, v) := by
  unfold map_insert at h
  split at h
  · exact Or.inl h
  · simpa using h

theorem map_find_append (m b : transitions_t) (k : Key) :
    map_find (m ++ b) k = (map_find m k).orElse (fun _ => map_find b k) := by
  induction m with
  | nil => simp [map_find]
  | cons a m ih =>
    obtain ⟨k1, v1⟩ := a
    simp only [List.cons_append, map_find]
    split
    · simp
    · exact ih

theorem map_find_insert (m : transitions_t) (k : Key) (v : Val) (k1 : Key) :
    map_find (map_insert m k v) k1
      = (map_find m k1).orElse (fun _ => if k = k1 then some v else none) := by
  unfold map_insert
  split
  · rename_i w hw
    cases h1 : map_find m k1 with
    | some x => simp
    | none =>
      have : k ≠ k1 := by
        rintro rfl
        rw [hw] at h1
        exact absurd h1 (by simp)
      simp [this]
  · rw [map_find_append]
    simp [map_find]

theorem map_keys_insert_nodup {m : transitions_t} (k : Key) (v : Val)
    (hm : (map_keys m).Nodup) : (map_keys (map_insert m k v)).Nodup := by
  unfold map_insert
  split
  · exact hm
  · rename_i h
    have hk := map_find_eq_none.1 h
    simp only [map_keys, List.map_append, List.map_cons, List.map_nil] at hk ⊢
    rw [List.nodup_append]
    refine ⟨hm, List.nodup_singleton _, ?_⟩
    intro a ha hb
    simp only [List.mem_singleton] at hb
    subst hb
    exact hk ha

theorem mem_map_insert_range (b : transitions_t) : ∀ (m : transitions_t) (e : Key × Val),
    e ∈ map_insert_range m b → e ∈ m ∨ e ∈ b := by
  induction b with
  | nil => intro m e h; exact Or.inl h
  | cons a b ih =>
    intro m e h
    simp only [map_insert_range, List.foldl_cons] at h
    rcases ih _ _ h with h | h
    · rcases mem_map_insert h with h | h
      · exact Or.inl h
      · exact Or.inr (by simp [h])
    · exact Or.inr (List.mem_cons_of_mem _ h)

/-- Range insertion keeps the entries already present and adds, for every
other key, the first entry of the inserted range. -/
theorem map_find_insert_range (b : transitions_t) : ∀ (m : transitions_t) (k : Key),
    map_find (map_insert_range m b) k = (map_find m k).orElse (fun _ => map_find b k) := by
  induction b with
  | nil =>
    intro m k
    cases h : map_find m k <;> simp [map_insert_range, map_find, h]
  | cons a b ih =>
    intro m k
    obtain ⟨k1, v1⟩ := a
    have e : map_insert_range m ((k1, v1) :: b) = map_insert_range (map_insert m k1 v1) b := rfl
    rw [e, ih, map_find_insert]
    cases h : map_find m k with
    | some x => simp
    | none =>
      by_cases hk : k1 = k
      · simp [Option.orElse, map_find, hk]
      · simp [Option.orElse, map_find, hk]

theorem map_keys_insert_range_nodup (b : transitions_t) : ∀ (m : transitions_t),
    (map_keys m).Nodup → (map_keys (map_insert_range m b)).Nodup := by
  induction b with
  | nil => intro m h; exact h
  | cons a b ih =>
    intro m h
    exact ih _ (map_keys_insert_nodup a.1 a.2 h)

/-! ### The working alphabet -/

theorem mem_set_insert {s : List Str} {x y : Str} : y ∈ set_insert s x ↔ y ∈ s ∨ y = x := by
  unfold set_insert
  split
  · rename_i h
    constructor
    · exact Or.inl
    · rintro (h1 | rfl)
      · exact h1
      · exact h
  · simp

theorem mem_set_insert_range (xs : List Str) : ∀ (s : List Str) (y : Str),
    y ∈ set_insert_range s xs ↔ y ∈ s ∨ y ∈ xs := by
  induction xs with
  | nil => intro s y; simp [set_insert_range]
  | cons x xs ih =>
    intro s y
    have e : set_insert_range s (x :: xs) = set_insert_range (set_insert s x) xs := rfl
    rw [e, ih, mem_set_insert]
    simp only [List.mem_cons]
    tauto

theorem mem_working_alphabet_fold (tr : transitions_t) : ∀ (s : List Str) (y : Str),
    y ∈ tr.foldl
        (fun letters transition =>
          set_insert_range (set_insert_range letters transition.1.2) transition.2.2.1) s
      ↔ y ∈ s ∨ ∃ t ∈ tr, y ∈ t.1.2 ∨ y ∈ t.2.2.1 := by
  induction tr with
  | nil => intro s y; simp
  | cons t tr ih =>
    intro s y
    rw [List.foldl_cons, ih, mem_set_insert_range, mem_set_insert_range]
    simp only [List.mem_cons, exists_eq_or_imp]
    generalize (∃ a ∈ tr, y ∈ a.1.2 ∨ y ∈ a.2.2.1) = P
    tauto

/-- Membership in the working alphabet: the input alphabet, the blank, and
the letters read or written by the transitions. -/
theorem mem_working_alphabet (hd : Header) (M : TuringMachine) (x : Str) :
    x ∈ M.working_alphabet hd
      ↔ x ∈ M.input_alphabet ∨ x = hd.BLANK
        ∨ ∃ t ∈ M.transitions, x ∈ t.1.2 ∨ x ∈ t.2.2.1 := by
  unfold TuringMachine.working_alphabet
  simp only []
  rw [mem_working_alphabet_fold, mem_set_insert, mem_set_insert_range]
  simp only [List.not_mem_nil, false_or]
  generalize (∃ t ∈ M.transitions, x ∈ t.1.2 ∨ x ∈ t.2.2.1) = P
  tauto

/-! ### The constructor assertions -/

theorem transition_asserts_one (hd : Header) (s x s1 y : Str) (d : Char) :
    transition_asserts hd 1 (make_in s x, make_out s1 y d) = true
      ↔ is_identifier s = true ∧ s ≠ hd.ACCEPTING_STATE ∧ s ≠ hd.REJECTING_STATE
        ∧ is_identifier s1 = true ∧ is_identifier x = true ∧ is_identifier y = true
        ∧ is_direction hd d = true := by
  simp [transition_asserts, make_in, make_out, List.range_succ]
  tauto

theorem transition_asserts_two {hd : Header} {t : Key × Val}
    (h : transition_asserts hd 2 t = true) :
    ∃ s a b n o1 o2 d1 d2, t = ((s, [a, b]), (n, [o1, o2], [d1, d2]))
      ∧ is_identifier s = true ∧ s ≠ hd.ACCEPTING_STATE ∧ s ≠ hd.REJECTING_STATE
      ∧ is_identifier n = true
      ∧ is_identifier a = true ∧ is_identifier b = true
      ∧ is_identifier o1 = true ∧ is_identifier o2 = true
      ∧ is_direction hd d1 = true ∧ is_direction hd d2 = true := by
  obtain ⟨⟨s, lb⟩, n, la, ds⟩ := t
  simp only [transition_asserts, Bool.and_eq_true, bne_iff_ne, ne_eq, beq_iff_eq,
    List.all_eq_true, List.mem_range] at h
  obtain ⟨⟨⟨⟨⟨h1, h2⟩, h3⟩, h4⟩, ⟨h5, h6⟩, h7⟩, h8⟩ := h
  have e2 : (2 : Int).toNat = 2 := rfl
  rw [e2] at h5 h6 h7 h8
  match lb, la, ds, h5, h6, h7 with
  | [a, b], [o1, o2], [d1, d2], _, _, _ =>
    have h80 := h8 0 (by norm_num)
    have h81 := h8 1 (by norm_num)
    simp only [List.get?_cons_zero, List.get?_cons_succ, Bool.and_eq_true] at h80 h81
    exact ⟨s, a, b, n, o1, o2, d1, d2, rfl, h1, h2, h3, h4, h80.1.1, h81.1.1, h80.1.2,
      h81.1.2, h80.2, h81.2⟩

/-! ### Generated names are identifiers -/

theorem Idents.of_valid : ∀ (s : Str), (∀ c ∈ s, is_valid_char c = true) → Idents s
  | [], _ => Idents.nil
  | c :: s, h =>
    Idents.char c s (h c (List.mem_cons_self _ _))
      (Idents.of_valid s (fun d hd => h d (List.mem_cons_of_mem _ hd)))

theorem Ident.wrap_succ (m : Nat) {body : Str} (hb : Idents body) (hne : body ≠ []) :
    Ident (List.replicate (m + 1) '(' ++ body ++ List.replicate (m + 1) ')') := by
  induction m with
  | zero => simpa using Ident.group hb hne
  | succ m ih =>
    have h := Ident.group ih.idents ih.ne_nil
    have e : List.replicate (m + 1 + 1) ')' = List.replicate (m + 1) ')' ++ [')'] := by
      rw [← List.replicate_succ']
    rw [List.replicate_succ (n := m + 1), e]
    simpa using h

theorem Ident.wrap {n : Int} (hn : 0 ≤ n) {body : Str} (hb : Idents body) (hne : body ≠ []) :
    Ident (wrap n body) := by
  obtain ⟨m, hm⟩ : ∃ m : Nat, (n + 1).toNat = m + 1 := by
    refine ⟨n.toNat, ?_⟩
    omega
  unfold TMReducer.wrap
  rw [hm]
  exact Ident.wrap_succ m hb hne

theorem Ident.logical_head {g : Globals} (hn : 0 ≤ g.NUMBER_OF_PARENTHESES) {x : Str}
    (hx : Idents x) : Ident (make_logical_head g x) :=
  Ident.wrap hn (hx.append (Idents.of_valid _ (by decide))) (by simp [str_head_mark])

theorem Ident.compose_state {s a b : Str} (hs : Ident s) (ha : Ident a) (hb : Ident b) :
    Idents (compose_state s a b) := by
  rw [compose_state_eq]
  refine hs.idents.append (Idents.char _ _ (by decide) ?_)
  have h1 : Idents ('(' :: (b ++ [')'])) := (Ident.group hb.idents hb.ne_nil).idents
  have h2 : Idents ('-' :: '(' :: (b ++ [')'])) := Idents.char _ _ (by decide) h1
  have := Idents.group a _ ha.idents ha.ne_nil h2
  simpa using this

theorem Ident.user_state {s p : Str} {t : Int} (hs : Idents s) (hp : Idents p)
    (ht : t = 1 ∨ t = 2) : Ident (make_user_state s p t) := by
  have h1 : Idents (to_string t) := by
    rcases ht with rfl | rfl <;> exact Idents.of_valid _ (by decide)
  have h2 : Idents ('U' :: '-' :: (s ++ '-' :: p) ++ '-' :: to_string t) := by
    refine Idents.char _ _ (by decide) (Idents.char _ _ (by decide) ?_)
    exact (hs.append (Idents.char _ _ (by decide) hp)).append (Idents.char _ _ (by decide) h1)
  have := Ident.group h2 (by simp)
  rw [make_user_state_eq]
  simpa using this

theorem make_user_state_generated (s p : Str) (t : Int) {x : Str} (hx : NotGenerated x) :
    make_user_state s p t ≠ x := by
  intro h
  apply hx.1
  rw [← h, make_user_state_eq]
  rfl

theorem Idents.extend {x : Str} (hx : Idents x) : Idents (extend_tape_with_letter x) :=
  (Idents.of_valid _ (by decide)).append hx

theorem Idents.back {x : Str} (hx : Idents x) : Idents (extend_tape_back_to_first_tape x) :=
  (Idents.of_valid _ (by decide)).append hx

/-! ### Every generated transition passes the constructor -/

theorem forall_mem_flatMap {α β : Type} {P : β → Prop} {l : List α} {f : α → List β} :
    (∀ e ∈ l.flatMap f, P e) ↔ ∀ a ∈ l, ∀ e ∈ f a, P e := by
  simp only [List.mem_flatMap]
  constructor
  · intro h a ha e he
    exact h e ⟨a, ha, he⟩
  · rintro h e ⟨a, ha, he⟩
    exact h a ha e he

theorem forall_mem_ite_nil {β : Type} {P : β → Prop} {c : Prop} [Decidable c] {l : List β} :
    (∀ e ∈ (if c then l else []), P e) ↔ (c → ∀ e ∈ l, P e) := by
  split <;> simp [*]

theorem is_identifier_user_state {s p : Str} {t : Int} (hs : Idents s) (hp : Idents p)
    (ht : t = 1 ∨ t = 2) : is_identifier (make_user_state s p t) = true :=
  (is_identifier_iff _).2 (Ident.user_state hs hp ht)

theorem is_identifier_logical_head {g : Globals} (hn : 0 ≤ g.NUMBER_OF_PARENTHESES) {x : Str}
    (hx : is_identifier x = true) : is_identifier (make_logical_head g x) = true :=
  (is_identifier_iff _).2 (Ident.logical_head hn ((is_identifier_iff _).1 hx).idents)

theorem idents_of_is_identifier {x : Str} (hx : is_identifier x = true) : Idents x :=
  ((is_identifier_iff _).1 hx).idents

theorem idents_compose_state {s a b : Str} (hs : is_identifier s = true)
    (ha : is_identifier a = true) (hb : is_identifier b = true) :
    Idents (compose_state s a b) :=
  Ident.compose_state ((is_identifier_iff _).1 hs) ((is_identifier_iff _).1 ha)
    ((is_identifier_iff _).1 hb)

theorem idents_phases : Idents MOVE_HEAD_RIGHT ∧ Idents MOVE_HEAD_LEFT ∧ Idents TO_SECOND_TAPE
    ∧ Idents EXT_TAPE_TAPE_BORDER ∧ Idents EXT_TAPE_TAPE_END ∧ Idents EXT_TAPE_MOVE_BACK :=
  ⟨Idents.of_valid _ (by decide), Idents.of_valid _ (by decide), Idents.of_valid _ (by decide),
    Idents.of_valid _ (by decide), Idents.of_valid _ (by decide), Idents.of_valid _ (by decide)⟩

theorem init_states_ident : is_identifier INIT_FIND_SECOND_TAPE = true
    ∧ is_identifier INIT_PUT_SECOND_HEAD = true
    ∧ is_identifier INIT_PUT_END_OF_SECOND_HEAD = true
    ∧ is_identifier INIT_BACK_TO_BORDER = true
    ∧ is_identifier INIT_BACK_TO_FRONT = true := by
  decide

theorem init_states_generated {x : Str} (hx : NotGenerated x) :
    INIT_FIND_SECOND_TAPE ≠ x ∧ INIT_PUT_SECOND_HEAD ≠ x ∧ INIT_PUT_END_OF_SECOND_HEAD ≠ x
      ∧ INIT_BACK_TO_BORDER ≠ x ∧ INIT_BACK_TO_FRONT ≠ x := by
  refine ⟨?_, ?_, ?_, ?_, ?_⟩ <;> (intro h; apply hx.2; rw [← h]; rfl)

theorem is_direction_heads (hd : Header) : is_direction hd hd.HEAD_LEFT = true
    ∧ is_direction hd hd.HEAD_RIGHT = true ∧ is_direction hd hd.HEAD_STAY = true := by
  simp [is_direction]

theorem transition_asserts_ite (hd : Header) (c : Prop) [Decidable c] (e1 e2 : Key × Val) :
    transition_asserts hd 1 (if c then e1 else e2) = true
      ↔ (c → transition_asserts hd 1 e1 = true) ∧ (¬ c → transition_asserts hd 1 e2 = true) := by
  split <;> simp [*]

/-- Every assignment of `make_one_tape_transitions_from_two` satisfies the
assertions that the constructor makes about a transition of a one-tape
machine. -/
theorem two_to_one_writes_good {hd : Header} (hh : hd.WellFormed) {g : Globals}
    (hg : 0 ≤ g.NUMBER_OF_PARENTHESES) (hgb : is_identifier g.TAPE_BORDER = true)
    (hge : is_identifier g.TAPE_END = true) {s n a b o1 o2 : Str} {W : List Str}
    (hs : is_identifier s = true) (hn : is_identifier n = true) (ha : is_identifier a = true)
    (hb : is_identifier b = true) (ho1 : is_identifier o1 = true)
    (ho2 : is_identifier o2 = true) (hW : ∀ x ∈ W, is_identifier x = true) (d1 d2 : Char) :
    ∀ e ∈ two_to_one_writes hd g s n a b o1 o2 d1 d2 W, transition_asserts hd 1 e = true := by
  have hcs := idents_compose_state hs ha hb
  have hcn : ∀ x y, is_identifier x = true → is_identifier y = true →
      Idents (compose_state n x y) := fun x y hx hy => idents_compose_state hn hx hy
  have hp := idents_phases
  have hi := init_states_ident
  have hia := init_states_generated hh.accepting_fresh
  have hir := init_states_generated hh.rejecting_fresh
  have hdir := is_direction_heads hd
  have hua : ∀ p t, make_user_state (compose_state s a b) p t ≠ hd.ACCEPTING_STATE :=
    fun p t => make_user_state_generated _ p t hh.accepting_fresh
  have hur : ∀ p t, make_user_state (compose_state s a b) p t ≠ hd.REJECTING_STATE :=
    fun p t => make_user_state_generated _ p t hh.rejecting_fresh
  have hlh : ∀ x, is_identifier x = true → is_identifier (make_logical_head g x) = true :=
    fun x hx => is_identifier_logical_head hg hx
  have hU : ∀ p t, Idents p → (t = 1 ∨ t = 2) →
      is_identifier (make_user_state (compose_state s a b) p t) = true :=
    fun p t hp ht => is_identifier_user_state hcs hp ht
  have hUn : ∀ x y, is_identifier x = true → is_identifier y = true →
      is_identifier (make_user_state (compose_state n x y) [] 1) = true :=
    fun x y hx hy => is_identifier_user_state (hcn x y hx hy) Idents.nil (Or.inl rfl)
  have hext : ∀ x, is_identifier x = true → Idents (extend_tape_with_letter x) :=
    fun x hx => (idents_of_is_identifier hx).extend
  have hback : ∀ x, is_identifier x = true → Idents (extend_tape_back_to_first_tape x) :=
    fun x hx => (idents_of_is_identifier hx).back
  have hUext : ∀ x ∈ W, ∀ t, (t = 1 ∨ t = 2) →
      is_identifier (make_user_state (compose_state s a b) (extend_tape_with_letter x) t)
        = true :=
    fun x hx t ht => hU _ t (hext x (hW x hx)) ht
  have hUextH : ∀ x ∈ W, ∀ t, (t = 1 ∨ t = 2) →
      is_identifier (make_user_state (compose_state s a b)
        (extend_tape_with_letter (make_logical_head g x)) t) = true :=
    fun x hx t ht => hU _ t (hext _ (hlh x (hW x hx))) ht
  have hUback : ∀ x ∈ W, ∀ t, (t = 1 ∨ t = 2) →
      is_identifier (make_user_state (compose_state s a b)
        (extend_tape_back_to_first_tape x) t) = true :=
    fun x hx t ht => hU _ t (hback x (hW x hx)) ht
  have hUo2 : ∀ t, (t = 1 ∨ t = 2) →
      is_identifier (make_user_state (compose_state s a b)
        (extend_tape_back_to_first_tape o2) t) = true :=
    fun t ht => hU _ t (hback o2 ho2) ht
  simp only [two_to_one_writes, writes_entry, writes_tape_1_left, writes_tape_1_right_move,
    writes_tape_1_extend, writes_tape_1_extend_back, writes_tape_1_right, writes_tape_1_stay,
    writes_to_second_tape, writes_tape_2_left, writes_tape_2_right, writes_tape_2_stay,
    writes_back_to_first_tape, writes_out, List.forall_mem_append, forall_mem_flatMap, forall_mem_ite_nil,
    List.forall_mem_map, List.forall_mem_cons, List.forall_mem_singleton, List.not_mem_nil,
    transition_asserts_ite, transition_asserts_one]
  generalize compose_state s a b = cs at *
  simp +contextual [hU, hUn, hlh, hua, hur, hdir, hia, hir, hi, hp, hW, hn, ha,
    hb, ho1, ho2, hgb, hge, hh.blank_ident, hh.accepting_ident, Idents.nil, hUext, hUextH,
    hUback, hUo2]

/-- Every assignment of `make_init_states` satisfies the assertions that the
constructor makes about a transition of a one-tape machine. -/
theorem make_init_states_writes_good {hd : Header} (hh : hd.WellFormed) {g : Globals}
    (hg : 0 ≤ g.NUMBER_OF_PARENTHESES) (hgb : is_identifier g.TAPE_BORDER = true)
    (hge : is_identifier g.TAPE_END = true) {ia : List Str}
    (hia : ∀ x ∈ ia, is_identifier x = true) :
    ∀ e ∈ make_init_states_writes hd g ia, transition_asserts hd 1 e = true := by
  have hi := init_states_ident
  have hina := init_states_generated hh.accepting_fresh
  have hinr := init_states_generated hh.rejecting_fresh
  have hdir := is_direction_heads hd
  have hlh : ∀ x, is_identifier x = true → is_identifier (make_logical_head g x) = true :=
    fun x hx => is_identifier_logical_head hg hx
  simp only [make_init_states_writes, List.forall_mem_append, List.forall_mem_map,
    List.forall_mem_cons, List.forall_mem_singleton, List.not_mem_nil, transition_asserts_one]
  simp +contextual [hlh, hdir, hina, hinr, hi, hia, hgb, hge, hh.blank_ident, hh.initial_ident,
    hh.initial_ne_accepting, hh.initial_ne_rejecting]

theorem make_one_tape_transitions_from_two_ok (hd : Header) (g : Globals) (W : List Str)
    (s a b n o1 o2 : Str) (d1 d2 : Char) :
    make_one_tape_transitions_from_two hd g (s, [a, b]) (n, [o1, o2], [d1, d2]) W
      = .ok (map_of_writes (two_to_one_writes hd g s n a b o1 o2 d1 d2 W)) := rfl

theorem block_of_eq (hd : Header) (g : Globals) (W : List Str)
    (s a b n o1 o2 : Str) (d1 d2 : Char) :
    block_of hd g W ((s, [a, b]), (n, [o1, o2], [d1, d2]))
      = map_of_writes (two_to_one_writes hd g s n a b o1 o2 d1 d2 W) := rfl

/-- The loop over the transitions of a two-tape machine does not fail. -/
theorem reduce_loop_ok (hd : Header) (g : Globals) (M : TuringMachine) :
    ∀ (ts : List (Key × Val)) (acc : transitions_t),
      (∀ t ∈ ts, transition_asserts hd 2 t = true) →
      reduce_loop hd g M ts acc
        = .ok (ts.foldl
            (fun acc t => map_insert_range acc (block_of hd g (M.working_alphabet hd) t)) acc) := by
  intro ts
  induction ts with
  | nil => intro acc _; rfl
  | cons t ts ih =>
    intro acc h
    obtain ⟨s, a, b, n, o1, o2, d1, d2, rfl, -⟩ :=
      transition_asserts_two (h t (List.mem_cons_self _ _))
    rw [reduce_loop, make_one_tape_transitions_from_two_ok]
    simp only [List.foldl_cons, block_of_eq]
    exact ih _ (fun t ht => h t (List.mem_cons_of_mem _ ht))

theorem mem_foldl_insert_range (hd : Header) (g : Globals) (W : List Str) :
    ∀ (ts : List (Key × Val)) (acc : transitions_t) (e : Key × Val),
      e ∈ ts.foldl (fun acc t => map_insert_range acc (block_of hd g W t)) acc →
      e ∈ acc ∨ ∃ t ∈ ts, e ∈ block_of hd g W t := by
  intro ts
  induction ts with
  | nil => intro acc e h; exact Or.inl h
  | cons t ts ih =>
    intro acc e h
    rw [List.foldl_cons] at h
    rcases ih _ _ h with h | ⟨t1, ht1, h⟩
    · rcases mem_map_insert_range _ _ _ h with h | h
      · exact Or.inl h
      · exact Or.inr ⟨t, List.mem_cons_self _ _, h⟩
    · exact Or.inr ⟨t1, List.mem_cons_of_mem _ ht1, h⟩

/-- Every entry of the merged table comes from the block of
`make_init_states` or from the block of a transition. -/
theorem mem_merged_table {hd : Header} {g : Globals} {M : TuringMachine} {e : Key × Val}
    (h : e ∈ merged_table hd g M) :
    e ∈ make_init_states hd g M.input_alphabet
      ∨ ∃ t ∈ M.transitions, e ∈ block_of hd g (M.working_alphabet hd) t := by
  rcases mem_foldl_insert_range hd g _ _ _ _ h with h | h
  · rcases mem_map_insert_range _ _ _ h with h | h
    · simp at h
    · exact Or.inl h
  · exact Or.inr h

theorem valid_parts {hd : Header} {M : TuringMachine} (hM : M.Valid hd) :
    0 < M.num_tapes ∧ M.input_alphabet ≠ []
      ∧ (∀ x ∈ M.input_alphabet, is_identifier x = true ∧ x ≠ hd.BLANK)
      ∧ ∀ t ∈ M.transitions, transition_asserts hd M.num_tapes t = true := by
  have h := hM.1
  simp only [constructor_asserts, Bool.and_eq_true, decide_eq_true_eq, Bool.not_eq_true',
    List.isEmpty_eq_false, List.all_eq_true, bne_iff_ne, ne_eq] at h
  obtain ⟨⟨⟨h1, h2⟩, h3⟩, h4⟩ := h
  exact ⟨h1, h2, h3, h4⟩

theorem working_alphabet_ident {hd : Header} (hh : hd.WellFormed) {M : TuringMachine}
    (hM : M.Valid hd) (h2 : M.num_tapes = 2) :
    ∀ x ∈ M.working_alphabet hd, is_identifier x = true := by
  obtain ⟨_, _, hia, htr⟩ := valid_parts hM
  rw [h2] at htr
  intro x hx
  rcases (mem_working_alphabet hd M x).1 hx with h | rfl | ⟨t, ht, h⟩
  · exact (hia x h).1
  · exact hh.blank_ident
  · obtain ⟨s, a, b, n, o1, o2, d1, d2, rfl, -, -, -, -, ha, hb, ho1, ho2, -⟩ :=
      transition_asserts_two (htr t ht)
    simp only [List.mem_cons, List.mem_singleton, List.not_mem_nil, or_false] at h
    rcases h with (rfl | rfl) | (rfl | rfl) <;> assumption

theorem blank_mem_working_alphabet (hd : Header) (M : TuringMachine) :
    hd.BLANK ∈ M.working_alphabet hd :=
  (mem_working_alphabet hd M _).2 (Or.inr (Or.inl rfl))

theorem setup_globals_nonneg (hd : Header) (M : TuringMachine) (g0 : Globals) :
    0 ≤ (setup_globals hd M g0).NUMBER_OF_PARENTHESES := by
  have h := (set_number_of_parentheses_ge (M.working_alphabet hd) g0).2 _
    (blank_mem_working_alphabet hd M)
  rw [setup_globals_number]
  rw [count_paren_eq] at h
  omega

theorem setup_globals_ident (hd : Header) (M : TuringMachine) (g0 : Globals) :
    is_identifier (setup_globals hd M g0).TAPE_BORDER = true
      ∧ is_identifier (setup_globals hd M g0).TAPE_END = true := by
  have h0 := setup_globals_nonneg hd M g0
  constructor
  · rw [setup_globals_border]
    exact (is_identifier_iff _).2
      (Ident.wrap h0 (Idents.of_valid _ (by decide)) (by simp [str_tape_border]))
  · rw [setup_globals_end]
    exact (is_identifier_iff _).2
      (Ident.wrap h0 (Idents.of_valid _ (by decide)) (by simp [str_tape_end]))

/-- Every entry of the merged table of a valid two-tape machine satisfies the
assertions of the constructor for a one-tape machine. -/
theorem merged_table_good {hd : Header} (hh : hd.WellFormed) {M : TuringMachine}
    (hM : M.Valid hd) (h2 : M.num_tapes = 2) (g0 : Globals) :
    ∀ e ∈ merged_table hd (setup_globals hd M g0) M, transition_asserts hd 1 e = true := by
  obtain ⟨_, _, hia, htr⟩ := valid_parts hM
  rw [h2] at htr
  have h0 := setup_globals_nonneg hd M g0
  obtain ⟨hgb, hge⟩ := setup_globals_ident hd M g0
  intro e he
  rcases mem_merged_table he with h | ⟨t, ht, h⟩
  · exact make_init_states_writes_good hh h0 hgb hge (fun x hx => (hia x hx).1) e
      (mem_map_of_writes h)
  · obtain ⟨s, a, b, n, o1, o2, d1, d2, rfl, hs, -, -, hn, ha, hb, ho1, ho2, -⟩ :=
      transition_asserts_two (htr t ht)
    rw [block_of_eq] at h
    exact two_to_one_writes_good hh h0 hgb hge hs hn ha hb ho1 ho2
      (working_alphabet_ident hh hM h2) d1 d2 e (mem_map_of_writes h)

/-- The reduction of a valid two-tape machine succeeds, and returns the
machine with one tape, the same input alphabet and the merged table. -/
theorem reduce_ok {hd : Header} (hh : hd.WellFormed) {M : TuringMachine}
    (hM : M.Valid hd) (h2 : M.num_tapes = 2) (g0 : Globals) :
    M.reduce_two_tapes_to_one hd g0
      = .ok (⟨1, M.input_alphabet, merged_table hd (setup_globals hd M g0) M⟩,
          setup_globals hd M g0) := by
  obtain ⟨_, hne, hia, htr⟩ := valid_parts hM
  rw [h2] at htr
  have hgood := merged_table_good hh hM h2 g0
  have hc : constructor_asserts hd 1 M.input_alphabet
      (merged_table hd (setup_globals hd M g0) M) = true := by
    simp only [constructor_asserts, Bool.and_eq_true, decide_eq_true_eq, Bool.not_eq_true',
      List.isEmpty_eq_false, List.all_eq_true, bne_iff_ne, ne_eq]
    exact ⟨⟨⟨by norm_num, hne⟩, hia⟩, hgood⟩
  unfold TuringMachine.reduce_two_tapes_to_one
  rw [if_neg (by simp [h2])]
  simp only []
  rw [reduce_loop_ok hd _ M M.transitions _ htr]
  simp only []
  have hcon : TuringMachine.construct hd 1 M.input_alphabet
      (merged_table hd (setup_globals hd M g0) M)
      = .ok ⟨1, M.input_alphabet, merged_table hd (setup_globals hd M g0) M⟩ := by
    simp [TuringMachine.construct, hc]
  unfold merged_table at hcon ⊢
  rw [hcon]

theorem scenario_machine_valid : scenario_machine.Valid stdHeader :=
  ⟨by decide, by decide⟩

theorem transition_asserts_one_elim {hd : Header} {e : Key × Val}
    (h : transition_asserts hd 1 e = true) :
    is_identifier e.1.1 = true ∧ e.1.1 ≠ hd.ACCEPTING_STATE ∧ e.1.1 ≠ hd.REJECTING_STATE
      ∧ is_identifier e.2.1 = true
      ∧ ∃ x y d, e.1.2 = [x] ∧ e.2.2.1 = [y] ∧ e.2.2.2 = [d]
        ∧ is_identifier x = true ∧ is_identifier y = true ∧ is_direction hd d = true := by
  obtain ⟨⟨s, lb⟩, n, la, ds⟩ := e
  simp only [transition_asserts, Bool.and_eq_true, bne_iff_ne, ne_eq, beq_iff_eq,
    List.all_eq_true, List.mem_range] at h
  obtain ⟨⟨⟨⟨⟨h1, h2⟩, h3⟩, h4⟩, ⟨h5, h6⟩, h7⟩, h8⟩ := h
  have e1 : (1 : Int).toNat = 1 := rfl
  rw [e1] at h5 h6 h7 h8
  match lb, la, ds, h5, h6, h7 with
  | [x], [y], [d], _, _, _ =>
    have h80 := h8 0 (by norm_num)
    simp only [List.get?_cons_zero, Bool.and_eq_true] at h80
    exact ⟨h1, h2, h3, h4, x, y, d, rfl, rfl, rfl, h80.1.1, h80.1.2, h80.2⟩

/-- C1: for every valid machine `M` with two tapes, `reduce_two_tapes_to_one`
returns a machine with `num_tapes = 1` and the input alphabet of `M` (same
letters, same order). -/
theorem reduce_tapes_and_alphabet (hd : Header) (hh : hd.WellFormed) (M : TuringMachine)
    (hM : M.Valid hd) (h2 : M.num_tapes = 2) (g0 : Globals) :
    ∃ M1 g1, M.reduce_two_tapes_to_one hd g0 = .ok (M1, g1)
      ∧ M1.num_tapes = 1 ∧ M1.input_alphabet = M.input_alphabet :=
  ⟨_, _, reduce_ok hh hM h2 g0, rfl, rfl⟩

theorem reduce_tapes_and_alphabet_witness :
    ∃ M1 g1, scenario_machine.reduce_two_tapes_to_one stdHeader Globals.initial = .ok (M1, g1)
      ∧ M1.num_tapes = 1 ∧ M1.input_alphabet = scenario_machine.input_alphabet :=
  reduce_tapes_and_alphabet stdHeader stdHeader_wellFormed scenario_machine
    scenario_machine_valid rfl Globals.initial

/-- C5: for every valid machine `M` with two tapes the reduction does not
fail.  The indexing in `make_one_tape_transitions_from_two` is in range for
every transition, and the generated table passes the assertions of the
constructor: every source state, target state and letter satisfies
`is_identifier`, every key and value carries exactly one letter and one
direction among `HEAD_LEFT`, `HEAD_RIGHT`, `HEAD_STAY`, and no key has
`ACCEPTING_STATE` or `REJECTING_STATE` as its state. -/
theorem reduce_does_not_fail (hd : Header) (hh : hd.WellFormed) (M : TuringMachine)
    (hM : M.Valid hd) (h2 : M.num_tapes = 2) (g0 : Globals) :
    (∀ t ∈ M.transitions, ∃ nt,
        make_one_tape_transitions_from_two hd (setup_globals hd M g0) t.1 t.2
          (M.working_alphabet hd) = .ok nt)
    ∧ ∃ M1 g1, M.reduce_two_tapes_to_one hd g0 = .ok (M1, g1)
      ∧ constructor_asserts hd M1.num_tapes M1.input_alphabet M1.transitions = true
      ∧ ∀ e ∈ M1.transitions,
          is_identifier e.1.1 = true ∧ e.1.1 ≠ hd.ACCEPTING_STATE
          ∧ e.1.1 ≠ hd.REJECTING_STATE ∧ is_identifier e.2.1 = true
          ∧ ∃ x y d, e.1.2 = [x] ∧ e.2.2.1 = [y] ∧ e.2.2.2 = [d]
            ∧ is_identifier x = true ∧ is_identifier y = true
            ∧ is_direction hd d = true := by
  obtain ⟨_, hne, hia, htr⟩ := valid_parts hM
  rw [h2] at htr
  have hgood := merged_table_good hh hM h2 g0
  refine ⟨?_, _, _, reduce_ok hh hM h2 g0, ?_, fun e he => transition_asserts_one_elim
    (hgood e he)⟩
  · intro t ht
    obtain ⟨s, a, b, n, o1, o2, d1, d2, rfl, -⟩ := transition_asserts_two (htr t ht)
    exact ⟨_, make_one_tape_transitions_from_two_ok _ _ _ _ _ _ _ _ _ _ _⟩
  · simp only [constructor_asserts, Bool.and_eq_true, decide_eq_true_eq, Bool.not_eq_true',
      List.isEmpty_eq_false, List.all_eq_true, bne_iff_ne, ne_eq]
    exact ⟨⟨⟨by norm_num, hne⟩, hia⟩, hgood⟩

theorem reduce_does_not_fail_witness :
    (∀ t ∈ scenario_machine.transitions, ∃ nt,
        make_one_tape_transitions_from_two stdHeader
          (setup_globals stdHeader scenario_machine Globals.initial) t.1 t.2
          (scenario_machine.working_alphabet stdHeader) = .ok nt)
    ∧ ∃ M1 g1, scenario_machine.reduce_two_tapes_to_one stdHeader Globals.initial = .ok (M1, g1)
      ∧ constructor_asserts stdHeader M1.num_tapes M1.input_alphabet M1.transitions = true
      ∧ ∀ e ∈ M1.transitions,
          is_identifier e.1.1 = true ∧ e.1.1 ≠ stdHeader.ACCEPTING_STATE
          ∧ e.1.1 ≠ stdHeader.REJECTING_STATE ∧ is_identifier e.2.1 = true
          ∧ ∃ x y d, e.1.2 = [x] ∧ e.2.2.1 = [y] ∧ e.2.2.2 = [d]
            ∧ is_identifier x = true ∧ is_identifier y = true
            ∧ is_direction stdHeader d = true :=
  reduce_does_not_fail stdHeader stdHeader_wellFormed scenario_machine
    scenario_machine_valid rfl Globals.initial

/-! ### The keys of the blocks -/

theorem pred_ite {β : Type} (P : β → Prop) (c : Prop) [Decidable c] (e1 e2 : β) :
    P (if c then e1 else e2) ↔ (c → P e1) ∧ (¬ c → P e2) := by
  split <;> simp [*]

theorem blockKey_user (hd : Header) (g : Globals) (s a b p x : Str) (t : Int)
    (ht : t = 1 ∨ t = 2) :
    BlockKey hd g s a b (make_in (make_user_state (compose_state s a b) p t) x) :=
  Or.inr ⟨p, t, ht, rfl⟩

theorem blockKey_init (hd : Header) (g : Globals) (a : Str) :
    BlockKey hd g hd.INITIAL_STATE a hd.BLANK
      (make_in INIT_BACK_TO_FRONT (make_logical_head g a)) :=
  Or.inl ⟨rfl, rfl, rfl⟩

/-- The keys assigned by `make_one_tape_transitions_from_two`. -/
theorem two_to_one_writes_keys (hd : Header) (g : Globals) (s n a b o1 o2 : Str)
    (d1 d2 : Char) (W : List Str) :
    ∀ e ∈ two_to_one_writes hd g s n a b o1 o2 d1 d2 W, BlockKey hd g s a b e.1 := by
  have h1 := fun p x => blockKey_user hd g s a b p x 1 (Or.inl rfl)
  have h2 := fun p x => blockKey_user hd g s a b p x 2 (Or.inr rfl)
  have h3 := blockKey_init hd g a
  simp only [two_to_one_writes, writes_entry, writes_tape_1_left, writes_tape_1_right_move,
    writes_tape_1_extend, writes_tape_1_extend_back, writes_tape_1_right, writes_tape_1_stay,
    writes_to_second_tape, writes_tape_2_left, writes_tape_2_right, writes_tape_2_stay,
    writes_back_to_first_tape, writes_out, List.forall_mem_append, forall_mem_flatMap, forall_mem_ite_nil,
    List.forall_mem_map, List.forall_mem_cons, List.forall_mem_singleton, List.not_mem_nil,
    pred_ite (fun e : Key × Val => BlockKey hd g s a b e.1)]
  simp +contextual [h1, h2, h3]

/-- The keys assigned by `make_init_states`. -/
theorem make_init_states_writes_keys (hd : Header) (g : Globals) (ia : List Str) :
    ∀ e ∈ make_init_states_writes hd g ia, InitKey hd ia e.1 := by
  simp only [make_init_states_writes, List.forall_mem_append, List.forall_mem_map,
    List.forall_mem_cons, List.forall_mem_singleton, List.not_mem_nil]
  simp +contextual [InitKey, make_in]

theorem make_user_state_take (s p : Str) (t : Int) :
    (make_user_state s p t).take 3 = "(U-".toList := by
  rw [make_user_state_eq]
  rfl

theorem make_user_state_ne_init (s p : Str) (t : Int) :
    make_user_state s p t ≠ INIT_FIND_SECOND_TAPE
      ∧ make_user_state s p t ≠ INIT_PUT_SECOND_HEAD
      ∧ make_user_state s p t ≠ INIT_PUT_END_OF_SECOND_HEAD
      ∧ make_user_state s p t ≠ INIT_BACK_TO_BORDER
      ∧ make_user_state s p t ≠ INIT_BACK_TO_FRONT := by
  have h := make_user_state_take s p t
  refine ⟨?_, ?_, ?_, ?_, ?_⟩ <;> (intro e; rw [e] at h; revert h; decide)

/-- Composite states built on the read pairs of two transitions coincide only
if the read pairs do. -/
theorem user_key_inj {s a b s1 a1 b1 : Str} (hs : is_identifier s = true)
    (ha : is_identifier a = true) (hb : is_identifier b = true)
    (hs1 : is_identifier s1 = true) (ha1 : is_identifier a1 = true)
    (hb1 : is_identifier b1 = true) {k : Key} (h : UserKey (compose_state s a b) k)
    (h1 : UserKey (compose_state s1 a1 b1) k) : s = s1 ∧ a = a1 ∧ b = b1 := by
  obtain ⟨p, t, ht, e⟩ := h
  obtain ⟨p1, t1, ht1, e1⟩ := h1
  rw [e] at e1
  have h0 : 0 ≤ t := by rcases ht with rfl | rfl <;> decide
  have h01 : 0 ≤ t1 := by rcases ht1 with rfl | rfl <;> decide
  obtain ⟨e2, -⟩ := make_user_state_cancel h0 h01 e1
  obtain ⟨r1, r2, r3, -⟩ := compose_state_cancel ((is_identifier_iff s).1 hs)
    ((is_identifier_iff a).1 ha) ((is_identifier_iff b).1 hb) ((is_identifier_iff s1).1 hs1)
    ((is_identifier_iff a1).1 ha1) ((is_identifier_iff b1).1 hb1) e2
  exact ⟨r1, r2, r3⟩

/-- The blocks of two transitions with different keys have no key in
common. -/
theorem blockKey_disjoint {hd : Header} {g : Globals} {s a b s1 a1 b1 : Str}
    (hs : is_identifier s = true) (ha : is_identifier a = true) (hb : is_identifier b = true)
    (hs1 : is_identifier s1 = true) (ha1 : is_identifier a1 = true)
    (hb1 : is_identifier b1 = true) {k : Key} (h : BlockKey hd g s a b k)
    (h1 : BlockKey hd g s1 a1 b1 k) : s = s1 ∧ a = a1 ∧ b = b1 := by
  rcases h with ⟨e, es, eb⟩ | h
  · rcases h1 with ⟨e1, es1, eb1⟩ | ⟨p, t, -, e1⟩
    · rw [e] at e1
      simp only [make_in, Prod.mk.injEq, List.cons.injEq, and_true, true_and] at e1
      exact ⟨es.trans es1.symm, make_logical_head_inj e1, eb.trans eb1.symm⟩
    · rw [e] at e1
      exact absurd e1.symm (make_user_state_ne_init _ p t).2.2.2.2
  · rcases h1 with ⟨e1, -, -⟩ | h1
    · obtain ⟨p, t, -, e⟩ := h
      rw [e1] at e
      exact absurd e.symm (make_user_state_ne_init _ p t).2.2.2.2
    · exact user_key_inj hs ha hb hs1 ha1 hb1 h h1

/-- The block of `make_init_states` and the block of a transition have no key
in common, provided the head markers are not letters of the input
alphabet. -/
theorem initKey_disjoint {hd : Header} (hh : hd.WellFormed) {g : Globals} {ia : List Str}
    (hfresh : ∀ x, make_logical_head g x ∉ ia) {s a b : Str} {k : Key}
    (h : InitKey hd ia k) (h1 : BlockKey hd g s a b k) : False := by
  have hif := init_states_generated hh.initial_fresh
  rcases h1 with ⟨e, -, -⟩ | ⟨p, t, -, e⟩
  · subst e
    rcases h with h | ⟨-, x, hx, e⟩
    · simp only [make_in, List.mem_cons, List.mem_singleton, List.not_mem_nil, or_false] at h
      rcases h with h | h | h | h | h
      · exact hif.2.2.2.2 h
      · revert h; decide
      · revert h; decide
      · revert h; decide
      · revert h; decide
    · simp only [make_in, List.cons.injEq, and_true] at e
      exact hfresh a (e ▸ hx)
  · rcases h with h | ⟨h, -⟩
    · rw [e] at h
      simp only [List.mem_cons, List.mem_singleton, List.not_mem_nil, or_false] at h
      have hn := make_user_state_ne_init (compose_state s a b) p t
      rcases h with h | h | h | h | h
      · exact make_user_state_generated _ p t hh.initial_fresh h
      · exact hn.1 h
      · exact hn.2.1 h
      · exact hn.2.2.1 h
      · exact hn.2.2.2.1 h
    · rw [e] at h
      exact (make_user_state_ne_init _ p t).2.2.2.2 h

/-! ### The merged table -/

theorem map_keys_assign_nodup {m : transitions_t} (k : Key) (v : Val)
    (hm : (map_keys m).Nodup) : (map_keys (map_assign m k v)).Nodup := by
  induction m with
  | nil => simp [map_assign, map_keys]
  | cons a m ih =>
    obtain ⟨k1, v1⟩ := a
    simp only [map_keys, List.map_cons, List.nodup_cons] at hm
    simp only [map_assign]
    split
    · rename_i h
      subst h
      simpa [map_keys] using hm
    · rename_i h
      simp only [map_keys, List.map_cons, List.nodup_cons]
      refine ⟨?_, ih hm.2⟩
      intro hmem
      simp only [List.mem_map] at hmem
      obtain ⟨e, he, hek⟩ := hmem
      rcases mem_map_assign he with rfl | he
      · exact h hek.symm
      · exact hm.1 (List.mem_map.2 ⟨e, he, hek⟩)

theorem map_keys_of_writes_nodup (ws : List (Key × Val)) :
    (map_keys (map_of_writes ws)).Nodup := by
  unfold map_of_writes
  suffices h : ∀ (acc : transitions_t), (map_keys acc).Nodup →
      (map_keys (ws.foldl (fun res e => map_assign res e.1 e.2) acc)).Nodup by
    exact h [] (by simp [map_keys])
  induction ws with
  | nil => intro acc h; exact h
  | cons w ws ih =>
    intro acc h
    exact ih _ (map_keys_assign_nodup _ _ h)

theorem map_find_foldl_insert_range (B : Key × Val → transitions_t) (k : Key) (v : Val) :
    ∀ (ts : List (Key × Val)) (acc : transitions_t),
      (∀ t ∈ ts, map_find (B t) k = none ∨ map_find (B t) k = some v) →
      (map_find acc k = some v
        ∨ (map_find acc k = none ∧ ∃ t ∈ ts, map_find (B t) k = some v)) →
      map_find (ts.foldl (fun acc t => map_insert_range acc (B t)) acc) k = some v := by
  intro ts
  induction ts with
  | nil =>
    intro acc _ h
    rcases h with h | ⟨_, t, ht, _⟩
    · exact h
    · simp at ht
  | cons t0 ts ih =>
    intro acc hB h
    rw [List.foldl_cons]
    apply ih _ (fun t ht => hB t (List.mem_cons_of_mem _ ht))
    rw [map_find_insert_range]
    rcases h with h | ⟨h, t, ht, htv⟩
    · left; simp [h]
    · simp only [List.mem_cons] at ht
      rcases hB t0 (List.mem_cons_self _ _) with h0 | h0
      · right
        refine ⟨by simp [h, h0], ?_⟩
        rcases ht with rfl | ht
        · rw [h0] at htv; exact absurd htv (by simp)
        · exact ⟨t, ht, htv⟩
      · left; simp [h, h0]

theorem merged_table_nodup (hd : Header) (g : Globals) (M : TuringMachine) :
    (map_keys (merged_table hd g M)).Nodup := by
  unfold merged_table
  suffices h : ∀ (ts : List (Key × Val)) (acc : transitions_t), (map_keys acc).Nodup →
      (map_keys (ts.foldl
        (fun acc t => map_insert_range acc (block_of hd g (M.working_alphabet hd) t))
        acc)).Nodup by
    exact h _ _ (map_keys_insert_range_nodup _ _ (by simp [map_keys]))
  intro ts
  induction ts with
  | nil => intro acc h; exact h
  | cons t ts ih =>
    intro acc h
    exact ih _ (map_keys_insert_range_nodup _ _ h)

theorem nodup_keys_eq {m : transitions_t} (hm : (map_keys m).Nodup) {e1 e2 : Key × Val}
    (h1 : e1 ∈ m) (h2 : e2 ∈ m) (hk : e1.1 = e2.1) : e1 = e2 := by
  have a1 := map_find_of_nodup hm (show (e1.1, e1.2) ∈ m from h1)
  have a2 := map_find_of_nodup hm (show (e2.1, e2.2) ∈ m from h2)
  rw [hk, a2] at a1
  simp only [Option.some.injEq] at a1
  exact Prod.ext hk a1.symm

/-- The keys of the block of a transition of a valid two-tape machine. -/
theorem block_of_keys {hd : Header} {M : TuringMachine} (hM : M.Valid hd)
    (h2 : M.num_tapes = 2) (g : Globals) {t : Key × Val} (ht : t ∈ M.transitions) :
    ∃ s a b, t.1 = (s, [a, b]) ∧ is_identifier s = true ∧ is_identifier a = true
      ∧ is_identifier b = true
      ∧ ∀ k, k ∈ map_keys (block_of hd g (M.working_alphabet hd) t) → BlockKey hd g s a b k := by
  obtain ⟨_, _, _, htr⟩ := valid_parts hM
  rw [h2] at htr
  obtain ⟨s, a, b, n, o1, o2, d1, d2, rfl, hs, -, -, -, ha, hb, -⟩ :=
    transition_asserts_two (htr t ht)
  refine ⟨s, a, b, rfl, hs, ha, hb, fun k hk => ?_⟩
  rw [block_of_eq] at hk
  obtain ⟨e, he, rfl⟩ := map_keys_of_writes hk
  exact two_to_one_writes_keys _ _ _ _ _ _ _ _ _ _ _ e he

theorem init_block_keys (hd : Header) (g : Globals) (ia : List Str) {k : Key}
    (hk : k ∈ map_keys (make_init_states hd g ia)) : InitKey hd ia k := by
  obtain ⟨e, he, rfl⟩ := map_keys_of_writes hk
  exact make_init_states_writes_keys _ _ _ e he

theorem head_not_mem_input (hd : Header) (M : TuringMachine) (g0 : Globals) (x : Str) :
    make_logical_head (setup_globals hd M g0) x ∉ M.input_alphabet := fun h =>
  (generated_letters_fresh_aux hd M g0).2.2 x ((mem_working_alphabet hd M _).2 (Or.inl h))

/-- The block of `make_init_states` shares no key with the block of a
transition. -/
theorem init_block_disjoint {hd : Header} (hh : hd.WellFormed) {M : TuringMachine}
    (hM : M.Valid hd) (h2 : M.num_tapes = 2) (g0 : Globals) {t : Key × Val}
    (ht : t ∈ M.transitions) {k : Key}
    (hk : k ∈ map_keys (make_init_states hd (setup_globals hd M g0) M.input_alphabet)) :
    k ∉ map_keys (block_of hd (setup_globals hd M g0) (M.working_alphabet hd) t) := by
  intro hk1
  obtain ⟨s, a, b, -, -, -, -, hkeys⟩ := block_of_keys hM h2 (setup_globals hd M g0) ht
  exact initKey_disjoint hh (head_not_mem_input hd M g0) (init_block_keys _ _ _ hk)
    (hkeys k hk1)

/-- The blocks of two distinct transitions share no key. -/
theorem blocks_disjoint {hd : Header} {M : TuringMachine}
    (hM : M.Valid hd) (h2 : M.num_tapes = 2) (g : Globals) {t1 t2 : Key × Val}
    (ht1 : t1 ∈ M.transitions) (ht2 : t2 ∈ M.transitions) (hne : t1 ≠ t2) {k : Key}
    (hk : k ∈ map_keys (block_of hd g (M.working_alphabet hd) t1)) :
    k ∉ map_keys (block_of hd g (M.working_alphabet hd) t2) := by
  intro hk2
  obtain ⟨s, a, b, e1, hs, ha, hb, hkeys⟩ := block_of_keys hM h2 g ht1
  obtain ⟨s1, a1, b1, e2, hs1, ha1, hb1, hkeys1⟩ := block_of_keys hM h2 g ht2
  obtain ⟨r1, r2, r3⟩ := blockKey_disjoint hs ha hb hs1 ha1 hb1 (hkeys k hk) (hkeys1 k hk2)
  apply hne
  apply nodup_keys_eq hM.2 ht1 ht2
  rw [e1, e2, r1, r2, r3]

theorem block_of_nodup (hd : Header) (g : Globals) (W : List Str) (t : Key × Val) :
    (map_keys (block_of hd g W t)).Nodup := by
  unfold block_of make_one_tape_transitions_from_two
  split
  · rename_i nt h
    split at h
    · simp only [Except.ok.injEq] at h
      rw [← h]
      exact map_keys_of_writes_nodup _
    · simp at h
  · simp [map_keys]

theorem block_of_of_ok {hd : Header} {g : Globals} {W : List Str} {t : Key × Val}
    {nt : transitions_t} (h : make_one_tape_transitions_from_two hd g t.1 t.2 W = .ok nt) :
    nt = block_of hd g W t := by
  unfold block_of
  rw [h]

/-- An entry of the block of `make_init_states` is the entry of the merged
table for its key. -/
theorem merged_table_find_init {hd : Header} (hh : hd.WellFormed) {M : TuringMachine}
    (hM : M.Valid hd) (h2 : M.num_tapes = 2) (g0 : Globals) {k : Key} {v : Val}
    (h : (k, v) ∈ make_init_states hd (setup_globals hd M g0) M.input_alphabet) :
    map_find (merged_table hd (setup_globals hd M g0) M) k = some v := by
  have hf : map_find (make_init_states hd (setup_globals hd M g0) M.input_alphabet) k
      = some v := map_find_of_nodup (map_keys_of_writes_nodup _) h
  have hk : k ∈ map_keys (make_init_states hd (setup_globals hd M g0) M.input_alphabet) :=
    List.mem_map.2 ⟨(k, v), h, rfl⟩
  apply map_find_foldl_insert_range
  · intro t ht
    exact Or.inl (map_find_eq_none.2 (init_block_disjoint hh hM h2 g0 ht hk))
  · left
    rw [map_find_insert_range, hf]
    simp [map_find]

/-- An entry of the block of a transition is the entry of the merged table
for its key. -/
theorem merged_table_find_block {hd : Header} (hh : hd.WellFormed) {M : TuringMachine}
    (hM : M.Valid hd) (h2 : M.num_tapes = 2) (g0 : Globals) {t : Key × Val}
    (ht : t ∈ M.transitions) {k : Key} {v : Val}
    (h : (k, v) ∈ block_of hd (setup_globals hd M g0) (M.working_alphabet hd) t) :
    map_find (merged_table hd (setup_globals hd M g0) M) k = some v := by
  have hf := map_find_of_nodup (block_of_nodup _ _ _ _) h
  have hk : k ∈ map_keys (block_of hd (setup_globals hd M g0) (M.working_alphabet hd) t) :=
    List.mem_map.2 ⟨(k, v), h, rfl⟩
  apply map_find_foldl_insert_range
  · intro t1 ht1
    by_cases e : t = t1
    · subst e
      exact Or.inr hf
    · exact Or.inl (map_find_eq_none.2 (blocks_disjoint hM h2 _ ht ht1 e hk))
  · right
    refine ⟨?_, t, ht, hf⟩
    rw [map_find_insert_range]
    have : map_find (make_init_states hd (setup_globals hd M g0) M.input_alphabet) k = none := by
      rw [map_find_eq_none]
      intro hk1
      exact init_block_disjoint hh hM h2 g0 ht hk1 hk
    simp [map_find, this]

/-- C3: for a valid two-tape machine the fragments that
`reduce_two_tapes_to_one` merges never disagree on a key.  The key set of the
block of `make_init_states` is disjoint from the key set of the block of every
transition, the blocks of two distinct transitions have disjoint key sets, and
the merged table has exactly one value per key and contains every entry that
any block emitted. -/
theorem merged_blocks_disjoint (hd : Header) (hh : hd.WellFormed) (M : TuringMachine)
    (hM : M.Valid hd) (h2 : M.num_tapes = 2) (g0 : Globals) :
    (∀ t ∈ M.transitions, ∀ nt,
        make_one_tape_transitions_from_two hd (setup_globals hd M g0) t.1 t.2
          (M.working_alphabet hd) = .ok nt →
        ∀ k ∈ map_keys (make_init_states hd (setup_globals hd M g0) M.input_alphabet),
          k ∉ map_keys nt)
    ∧ (∀ t1 ∈ M.transitions, ∀ t2 ∈ M.transitions, t1 ≠ t2 → ∀ nt1 nt2,
        make_one_tape_transitions_from_two hd (setup_globals hd M g0) t1.1 t1.2
          (M.working_alphabet hd) = .ok nt1 →
        make_one_tape_transitions_from_two hd (setup_globals hd M g0) t2.1 t2.2
          (M.working_alphabet hd) = .ok nt2 →
        ∀ k ∈ map_keys nt1, k ∉ map_keys nt2)
    ∧ ∃ M1 g1, M.reduce_two_tapes_to_one hd g0 = .ok (M1, g1)
      ∧ (map_keys M1.transitions).Nodup
      ∧ (∀ e ∈ make_init_states hd (setup_globals hd M g0) M.input_alphabet,
          e ∈ M1.transitions)
      ∧ (∀ t ∈ M.transitions, ∀ nt,
          make_one_tape_transitions_from_two hd (setup_globals hd M g0) t.1 t.2
            (M.working_alphabet hd) = .ok nt →
          ∀ e ∈ nt, e ∈ M1.transitions) := by
  refine ⟨?_, ?_, _, _, reduce_ok hh hM h2 g0, merged_table_nodup _ _ _, ?_, ?_⟩
  · intro t ht nt hnt k hk
    rw [block_of_of_ok hnt]
    exact init_block_disjoint hh hM h2 g0 ht hk
  · intro t1 ht1 t2 ht2 hne nt1 nt2 hnt1 hnt2 k hk
    rw [block_of_of_ok hnt1] at hk
    rw [block_of_of_ok hnt2]
    exact blocks_disjoint hM h2 _ ht1 ht2 hne hk
  · intro e he
    exact map_find_mem (merged_table_find_init hh hM h2 g0 (show (e.1, e.2) ∈ _ from he))
  · intro t ht nt hnt e he
    rw [block_of_of_ok hnt] at he
    exact map_find_mem (merged_table_find_block hh hM h2 g0 ht (show (e.1, e.2) ∈ _ from he))

theorem merged_blocks_disjoint_witness :
    (∀ t ∈ scenario_machine.transitions, ∀ nt,
        make_one_tape_transitions_from_two stdHeader
          (setup_globals stdHeader scenario_machine Globals.initial) t.1 t.2
          (scenario_machine.working_alphabet stdHeader) = .ok nt →
        ∀ k ∈ map_keys (make_init_states stdHeader
            (setup_globals stdHeader scenario_machine Globals.initial)
            scenario_machine.input_alphabet),
          k ∉ map_keys nt)
    ∧ (∀ t1 ∈ scenario_machine.transitions, ∀ t2 ∈ scenario_machine.transitions,
        t1 ≠ t2 → ∀ nt1 nt2,
        make_one_tape_transitions_from_two stdHeader
          (setup_globals stdHeader scenario_machine Globals.initial) t1.1 t1.2
          (scenario_machine.working_alphabet stdHeader) = .ok nt1 →
        make_one_tape_transitions_from_two stdHeader
          (setup_globals stdHeader scenario_machine Globals.initial) t2.1 t2.2
          (scenario_machine.working_alphabet stdHeader) = .ok nt2 →
        ∀ k ∈ map_keys nt1, k ∉ map_keys nt2)
    ∧ ∃ M1 g1, scenario_machine.reduce_two_tapes_to_one stdHeader Globals.initial
        = .ok (M1, g1)
      ∧ (map_keys M1.transitions).Nodup
      ∧ (∀ e ∈ make_init_states stdHeader
            (setup_globals stdHeader scenario_machine Globals.initial)
            scenario_machine.input_alphabet,
          e ∈ M1.transitions)
      ∧ (∀ t ∈ scenario_machine.transitions, ∀ nt,
          make_one_tape_transitions_from_two stdHeader
            (setup_globals stdHeader scenario_machine Globals.initial) t.1 t.2
            (scenario_machine.working_alphabet stdHeader) = .ok nt →
          ∀ e ∈ nt, e ∈ M1.transitions) :=
  merged_blocks_disjoint stdHeader stdHeader_wellFormed scenario_machine
    scenario_machine_valid rfl Globals.initial

/-! ### Lookups in a block -/

theorem make_in_inj {s x s1 x1 : Str} : make_in s x = make_in s1 x1 ↔ s = s1 ∧ x = x1 := by
  simp [make_in]

theorem user_state_inj (st p p1 : Str) {t t1 : Int} (ht : t = 1 ∨ t = 2)
    (ht1 : t1 = 1 ∨ t1 = 2) :
    make_user_state st p t = make_user_state st p1 t1 ↔ p = p1 ∧ t = t1 := by
  constructor
  · intro h
    have h0 : 0 ≤ t := by rcases ht with rfl | rfl <;> decide
    have h1 : 0 ≤ t1 := by rcases ht1 with rfl | rfl <;> decide
    obtain ⟨e, et⟩ := make_user_state_cancel h0 h1 h
    have := List.append_cancel_left e
    simp only [List.cons.injEq, true_and] at this
    exact ⟨this, et⟩
  · rintro ⟨rfl, rfl⟩
    rfl

theorem user_state_inj_11 (st p p1 : Str) :
    make_user_state st p 1 = make_user_state st p1 1 ↔ p = p1 := by
  simp [user_state_inj st p p1 (Or.inl rfl) (Or.inl rfl)]

theorem user_state_inj_22 (st p p1 : Str) :
    make_user_state st p 2 = make_user_state st p1 2 ↔ p = p1 := by
  simp [user_state_inj st p p1 (Or.inr rfl) (Or.inr rfl)]

theorem user_state_inj_12 (st p p1 : Str) :
    make_user_state st p 1 = make_user_state st p1 2 ↔ False := by
  simp [user_state_inj st p p1 (Or.inl rfl) (Or.inr rfl)]

theorem user_state_inj_21 (st p p1 : Str) :
    make_user_state st p 2 = make_user_state st p1 1 ↔ False := by
  simp [user_state_inj st p p1 (Or.inr rfl) (Or.inl rfl)]

theorem init_front_ne_user (st p : Str) (t : Int) :
    (INIT_BACK_TO_FRONT = make_user_state st p t ↔ False)
    ∧ (make_user_state st p t = INIT_BACK_TO_FRONT ↔ False) := by
  have h := (make_user_state_ne_init st p t).2.2.2.2
  exact ⟨⟨fun e => h e.symm, False.elim⟩, ⟨fun e => h e, False.elim⟩⟩

theorem ident_not_phase {x : Str} (hx : is_identifier x = true) :
    x ≠ ['t', 'a', 'p', 'e', 'B', 'o', 'r', 'd', 'e', 'r']
      ∧ x ≠ ['t', 'a', 'p', 'e', 'E', 'n', 'd']
      ∧ x ≠ ['m', 'o', 'v', 'e', 'B', 'a', 'c', 'k']
      ∧ ['t', 'a', 'p', 'e', 'B', 'o', 'r', 'd', 'e', 'r'] ≠ x
      ∧ ['t', 'a', 'p', 'e', 'E', 'n', 'd'] ≠ x
      ∧ ['m', 'o', 'v', 'e', 'B', 'a', 'c', 'k'] ≠ x := by
  refine ⟨?_, ?_, ?_, ?_, ?_, ?_⟩ <;> (rintro rfl; revert hx; decide)

set_option maxHeartbeats 40000000 in
theorem two_to_one_writes_consistent_aux {hd : Header} (hh : hd.WellFormed) {g : Globals}
    {W : List Str} (hF : Fresh g W) (s n a b o1 o2 : Str) (d1 d2 : Char)
    (ws : List (Key × Val)) (hws : ws = two_to_one_writes hd g s n a b o1 o2 d1 d2 W) :
    ∀ e1 ∈ two_to_one_writes hd g s n a b o1 o2 d1 d2 W,
    ∀ e2 ∈ ws, e1.1 = e2.1 → e1.2 = e2.2 := by
  have hp1 := fun x hx => (ident_not_phase (hF.letters_ident x hx))
  have hp2 := fun x hx => (ident_not_phase (hF.heads_ident x hx))
  have hb : ∀ x ∈ W, x ≠ g.TAPE_BORDER := fun x hx e => hF.border_not_mem (e ▸ hx)
  have hb1 : ∀ x ∈ W, g.TAPE_BORDER ≠ x := fun x hx e => hF.border_not_mem (e ▸ hx)
  have he : ∀ x ∈ W, x ≠ g.TAPE_END := fun x hx e => hF.end_not_mem (e ▸ hx)
  have he1 : ∀ x ∈ W, g.TAPE_END ≠ x := fun x hx e => hF.end_not_mem (e ▸ hx)
  have hh1 : ∀ x ∈ W, ∀ y, x ≠ make_logical_head g y := fun x hx y e =>
    hF.head_not_mem y (e ▸ hx)
  have hh2 : ∀ x ∈ W, ∀ y, make_logical_head g y ≠ x := fun x hx y e =>
    hF.head_not_mem y (e ▸ hx)
  have hhb := hF.head_ne_border
  have hhe := hF.head_ne_end
  have hhb1 : ∀ x, g.TAPE_BORDER ≠ make_logical_head g x := fun x e => hF.head_ne_border x e.symm
  have hhe1 : ∀ x, g.TAPE_END ≠ make_logical_head g x := fun x e => hF.head_ne_end x e.symm
  have hbe := hF.border_ne_end
  have hinj : ∀ x y, make_logical_head g x = make_logical_head g y ↔ x = y :=
    fun x y => ⟨make_logical_head_inj, fun e => e ▸ rfl⟩
  simp only [two_to_one_writes, writes_entry, writes_tape_1_left, writes_tape_1_right_move,
    writes_tape_1_extend, writes_tape_1_extend_back, writes_tape_1_right, writes_tape_1_stay,
    writes_to_second_tape, writes_tape_2_left, writes_tape_2_right, writes_tape_2_stay,
    writes_back_to_first_tape, writes_out, List.forall_mem_append, forall_mem_flatMap, forall_mem_ite_nil,
    List.forall_mem_map, List.forall_mem_cons, List.forall_mem_singleton, List.not_mem_nil,
    pred_ite (fun e1 : Key × Val => ∀ e2 ∈ ws, e1.1 = e2.1 → e1.2 = e2.2)]
  repeat' apply And.intro
  all_goals
    intros
    subst hws
    simp only [two_to_one_writes, writes_entry, writes_tape_1_left, writes_tape_1_right_move,
    writes_tape_1_extend, writes_tape_1_extend_back, writes_tape_1_right, writes_tape_1_stay,
    writes_to_second_tape, writes_tape_2_left, writes_tape_2_right, writes_tape_2_stay,
    writes_back_to_first_tape, writes_out, List.forall_mem_append, forall_mem_flatMap, forall_mem_ite_nil,
      List.forall_mem_map, List.forall_mem_cons, List.forall_mem_singleton, List.not_mem_nil,
      apply_ite Prod.fst, apply_ite Prod.snd, false_imp_iff, implies_true, and_true]
    generalize compose_state s a b = cs at *
    try subst d1
    try subst d2
    simp [make_in_inj, user_state_inj_11, user_state_inj_22, user_state_inj_12,
      user_state_inj_21, init_front_ne_user, MOVE_HEAD_RIGHT, MOVE_HEAD_LEFT, TO_SECOND_TAPE,
      EXT_TAPE_TAPE_BORDER, EXT_TAPE_TAPE_END, EXT_TAPE_MOVE_BACK, extend_tape_with_letter,
      extend_tape_back_to_first_tape, hh.left_ne_right,
      hh.left_ne_stay, hh.right_ne_stay, hh.left_ne_right.symm, hh.left_ne_stay.symm,
      hh.right_ne_stay.symm]
  all_goals simp +contextual [*, hbe.symm]

/-! ### Runs -/

theorem run_add (hd : Header) (M : TuringMachine) (a b : Nat) (c : Config) :
    run hd M (a + b) c = (run hd M a c).bind (run hd M b) := by
  induction a generalizing c with
  | zero => simp [run]
  | succ a ih =>
    have e : a + 1 + b = (a + b) + 1 := by omega
    rw [e, run, run]
    cases step hd M c with
    | none => rfl
    | some c1 => exact ih c1

theorem Reach.refl (hd : Header) (M : TuringMachine) (c : Config) : Reach hd M c c :=
  ⟨0, rfl⟩

theorem Reach.trans {hd : Header} {M : TuringMachine} {c c1 c2 : Config}
    (h1 : Reach hd M c c1) (h2 : Reach hd M c1 c2) : Reach hd M c c2 := by
  obtain ⟨a, ha⟩ := h1
  obtain ⟨b, hb⟩ := h2
  exact ⟨a + b, by rw [run_add, ha]; exact hb⟩

theorem reach_step {hd : Header} {M : TuringMachine} {c c1 : Config}
    (h : step hd M c = some c1) : Reach hd M c c1 :=
  ⟨1, by simp [run, h]⟩

theorem reach_head {hd : Header} {M : TuringMachine} {c c1 c2 : Config}
    (h : step hd M c = some c1) (h2 : Reach hd M c1 c2) : Reach hd M c c2 :=
  (reach_step h).trans h2

/-! ### Steps of a one-tape machine -/

theorem step_right {hd : Header} {M1 : TuringMachine} {st st1 c y : Str} {l r : List Str}
    (hne : hd.HEAD_LEFT ≠ hd.HEAD_RIGHT)
    (h : map_find M1.transitions (make_in st c) = some (make_out st1 y hd.HEAD_RIGHT)) :
    step hd M1 ⟨st, [⟨l, c, r⟩]⟩ = some ⟨st1, [tape_at hd (y :: l) r]⟩ := by
  simp only [make_in, make_out] at h
  simp only [step, List.map_cons, List.map_nil, h, write_move_all, Tape.write_move,
    if_neg hne.symm, if_true]
  cases r <;> rfl

theorem step_left {hd : Header} {M1 : TuringMachine} {st st1 c y x : Str} {l r : List Str}
    (h : map_find M1.transitions (make_in st c) = some (make_out st1 y hd.HEAD_LEFT)) :
    step hd M1 ⟨st, [⟨x :: l, c, r⟩]⟩ = some ⟨st1, [⟨l, x, y :: r⟩]⟩ := by
  simp only [make_in, make_out] at h
  simp only [step, List.map_cons, List.map_nil, h, write_move_all, Tape.write_move, if_true]

theorem step_left_edge {hd : Header} {M1 : TuringMachine} {st st1 c y : Str} {r : List Str}
    (h : map_find M1.transitions (make_in st c) = some (make_out st1 y hd.HEAD_LEFT)) :
    step hd M1 ⟨st, [⟨[], c, r⟩]⟩ = none := by
  simp only [make_in, make_out] at h
  simp only [step, List.map_cons, List.map_nil, h, write_move_all, Tape.write_move, if_true]

theorem step_stay {hd : Header} {M1 : TuringMachine} {st st1 c y : Str} {l r : List Str}
    (hl : hd.HEAD_LEFT ≠ hd.HEAD_STAY) (hr : hd.HEAD_RIGHT ≠ hd.HEAD_STAY)
    (h : map_find M1.transitions (make_in st c) = some (make_out st1 y hd.HEAD_STAY)) :
    step hd M1 ⟨st, [⟨l, c, r⟩]⟩ = some ⟨st1, [⟨l, y, r⟩]⟩ := by
  simp only [make_in, make_out] at h
  simp only [step, List.map_cons, List.map_nil, h, write_move_all, Tape.write_move,
    if_neg hl.symm, if_neg hr.symm]

theorem step_none {hd : Header} {M1 : TuringMachine} {st c : Str} {l r : List Str}
    (h : map_find M1.transitions (make_in st c) = none) :
    step hd M1 ⟨st, [⟨l, c, r⟩]⟩ = none := by
  simp only [make_in] at h
  simp only [step, List.map_cons, List.map_nil, h]

/-- Scanning to the right over the cells `ys`, each of which is passed
unchanged in state `st`. -/
theorem scan_right {hd : Header} {M1 : TuringMachine} {st : Str}
    (hne : hd.HEAD_LEFT ≠ hd.HEAD_RIGHT) (ys : List Str)
    (h : ∀ y ∈ ys, map_find M1.transitions (make_in st y) = some (make_out st y hd.HEAD_RIGHT)) :
    ∀ (l zs : List Str),
      Reach hd M1 ⟨st, [tape_at hd l (ys ++ zs)]⟩ ⟨st, [tape_at hd (ys.reverse ++ l) zs]⟩ := by
  induction ys with
  | nil => intro l zs; exact Reach.refl _ _ _
  | cons y ys ih =>
    intro l zs
    have h1 := h y (List.mem_cons_self _ _)
    have h2 := ih (fun z hz => h z (List.mem_cons_of_mem _ hz)) (y :: l) zs
    have e : (y :: ys).reverse ++ l = ys.reverse ++ (y :: l) := by simp
    rw [e]
    exact reach_head (step_right hne h1) h2

theorem step_left_at {hd : Header} {M1 : TuringMachine} {st st1 c y : Str} {ls r : List Str}
    (hls : ls ≠ [])
    (h : map_find M1.transitions (make_in st c) = some (make_out st1 y hd.HEAD_LEFT)) :
    step hd M1 ⟨st, [⟨ls, c, r⟩]⟩ = some ⟨st1, [tape_left_at hd ls (y :: r)]⟩ := by
  cases ls with
  | nil => exact absurd rfl hls
  | cons x l => exact step_left h

/-- Scanning to the left over the cells `ys`, each of which is passed
unchanged in state `st`, down to the cell `c`. -/
theorem scan_left {hd : Header} {M1 : TuringMachine} {st : Str} (ys : List Str)
    (h : ∀ y ∈ ys, map_find M1.transitions (make_in st y) = some (make_out st y hd.HEAD_LEFT)) :
    ∀ (c : Str) (l zs : List Str),
      Reach hd M1 ⟨st, [tape_left_at hd (ys ++ c :: l) zs]⟩ ⟨st, [⟨l, c, ys.reverse ++ zs⟩]⟩ := by
  induction ys with
  | nil => intro c l zs; exact Reach.refl _ _ _
  | cons y ys ih =>
    intro c l zs
    have h1 := h y (List.mem_cons_self _ _)
    have h2 := ih (fun z hz => h z (List.mem_cons_of_mem _ hz)) c l (y :: zs)
    have e : (y :: ys).reverse ++ zs = ys.reverse ++ (y :: zs) := by simp
    rw [e]
    exact reach_head (step_left_at (by simp) h1) h2

/-! ### Lookups in the table of the reduced machine -/

theorem fresh_setup {hd : Header} (hh : hd.WellFormed) {M : TuringMachine} (hM : M.Valid hd)
    (h2 : M.num_tapes = 2) (g0 : Globals) :
    Fresh (setup_globals hd M g0) (M.working_alphabet hd) := by
  obtain ⟨h1, h3, h4⟩ := generated_letters_fresh_aux hd M g0
  have hid := working_alphabet_ident hh hM h2
  have h0 := setup_globals_nonneg hd M g0
  refine ⟨h4, h1, h3, ?_, ?_, ?_, hid, fun x hx => is_identifier_logical_head h0 (hid x hx)⟩
  · intro x h
    rw [setup_globals_border] at h
    exact head_ne_border x (wrap_inj h)
  · intro x h
    rw [setup_globals_end] at h
    exact head_ne_end x (wrap_inj h)
  · intro h
    rw [setup_globals_border, setup_globals_end] at h
    have h1 : "tape-border".toList = "tape-end".toList := wrap_inj h
    simp [str_tape_border, str_tape_end] at h1

theorem two_to_one_writes_consistent {hd : Header} (hh : hd.WellFormed) {g : Globals}
    {W : List Str} (hF : Fresh g W) (s n a b o1 o2 : Str) (d1 d2 : Char) :
    ∀ e1 ∈ two_to_one_writes hd g s n a b o1 o2 d1 d2 W,
    ∀ e2 ∈ two_to_one_writes hd g s n a b o1 o2 d1 d2 W, e1.1 = e2.1 → e1.2 = e2.2 :=
  two_to_one_writes_consistent_aux hh hF s n a b o1 o2 d1 d2 _ rfl

theorem BlockCtx.letters {hd : Header} {M : TuringMachine} {s a b n o1 o2 : Str} {d1 d2 : Char}
    (X : BlockCtx hd M s a b n o1 o2 d1 d2) :
    a ∈ M.working_alphabet hd ∧ b ∈ M.working_alphabet hd ∧ o1 ∈ M.working_alphabet hd
      ∧ o2 ∈ M.working_alphabet hd := by
  have h : ∀ x, x ∈ [a, b] ∨ x ∈ [o1, o2] → x ∈ M.working_alphabet hd := fun x hx =>
    (mem_working_alphabet hd M x).2 (Or.inr (Or.inr ⟨_, X.mem, hx⟩))
  exact ⟨h a (by simp), h b (by simp), h o1 (by simp), h o2 (by simp)⟩

/-- An assignment of the block of a transition gives the entry of the reduced
machine for its key. -/
theorem reduced_find {hd : Header} {M : TuringMachine} {s a b n o1 o2 : Str} {d1 d2 : Char}
    (X : BlockCtx hd M s a b n o1 o2 d1 d2) (g0 : Globals) {k : Key} {v : Val}
    (h : (k, v) ∈ two_to_one_writes hd (setup_globals hd M g0) s n a b o1 o2 d1 d2
      (M.working_alphabet hd)) :
    map_find (reduced hd M g0).transitions k = some v := by
  apply merged_table_find_block X.wf X.valid X.two g0 X.mem
  rw [block_of_eq]
  apply map_find_mem
  apply map_find_of_writes h
  intro e he hk
  exact two_to_one_writes_consistent X.wf (fresh_setup X.wf X.valid X.two g0) _ _ _ _ _ _ _ _
    e he (k, v) h hk

theorem mem_writes_of_segment {hd : Header} {g : Globals} {s n a b o1 o2 : Str} {d1 d2 : Char}
    {W : List Str} {e : Key × Val}
    (h : e ∈ writes_entry hd g s (compose_state s a b) a b
      ∨ e ∈ writes_tape_1_left hd g (compose_state s a b) a o1 d1 W
      ∨ e ∈ writes_tape_1_right hd g (compose_state s a b) a o1 d1 W
      ∨ e ∈ writes_tape_1_stay hd g (compose_state s a b) a o1 d1
      ∨ e ∈ writes_to_second_tape hd g (compose_state s a b) W
      ∨ e ∈ writes_tape_2_left hd g (compose_state s a b) b o2 d2 W
      ∨ e ∈ writes_tape_2_right hd g (compose_state s a b) b o2 d2 W
      ∨ e ∈ writes_tape_2_stay hd g (compose_state s a b) b o2 d2
      ∨ e ∈ writes_back_to_first_tape hd g (compose_state s a b) W
      ∨ e ∈ writes_out hd g (compose_state s a b) n W) :
    e ∈ two_to_one_writes hd g s n a b o1 o2 d1 d2 W := by
  simp only [two_to_one_writes, List.mem_append]
  tauto

theorem find_entry {hd : Header} {M : TuringMachine} {a n o1 o2 : Str} {d1 d2 : Char}
    (X : BlockCtx hd M hd.INITIAL_STATE a hd.BLANK n o1 o2 d1 d2) (g0 : Globals) :
    map_find (reduced hd M g0).transitions
        (make_in INIT_BACK_TO_FRONT (make_logical_head (setup_globals hd M g0) a))
      = some (make_out (make_user_state (compose_state hd.INITIAL_STATE a hd.BLANK) [] 1)
          (make_logical_head (setup_globals hd M g0) a) hd.HEAD_STAY) := by
  apply reduced_find X g0
  apply mem_writes_of_segment
  left
  simp [writes_entry]

theorem find_tape_1_left {hd : Header} {M : TuringMachine} {s a b n o1 o2 : Str} {d2 : Char}
    (X : BlockCtx hd M s a b n o1 o2 hd.HEAD_LEFT d2) (g0 : Globals) :
    map_find (reduced hd M g0).transitions
        (make_in (make_user_state (compose_state s a b) [] 1)
          (make_logical_head (setup_globals hd M g0) a))
      = some (make_out (make_user_state (compose_state s a b) MOVE_HEAD_LEFT 1) o1 hd.HEAD_LEFT)
    ∧ ∀ z ∈ M.working_alphabet hd,
      map_find (reduced hd M g0).transitions
          (make_in (make_user_state (compose_state s a b) MOVE_HEAD_LEFT 1) z)
        = some (make_out (make_user_state (compose_state s a b) TO_SECOND_TAPE 1)
            (make_logical_head (setup_globals hd M g0) z) hd.HEAD_RIGHT) := by
  constructor
  · apply reduced_find X g0
    apply mem_writes_of_segment
    right; left
    simp [writes_tape_1_left]
  · intro z hz
    apply reduced_find X g0
    apply mem_writes_of_segment
    right; left
    rw [writes_tape_1_left, if_pos rfl]
    exact List.mem_append_right _ (List.mem_map.2 ⟨z, hz, rfl⟩)

theorem find_tape_1_right {hd : Header} {M : TuringMachine} {s a b n o1 o2 : Str} {d2 : Char}
    (X : BlockCtx hd M s a b n o1 o2 hd.HEAD_RIGHT d2) (g0 : Globals) :
    map_find (reduced hd M g0).transitions
        (make_in (make_user_state (compose_state s a b) [] 1)
          (make_logical_head (setup_globals hd M g0) a))
      = some (make_out (make_user_state (compose_state s a b) MOVE_HEAD_RIGHT 1) o1
          hd.HEAD_RIGHT)
    ∧ ∀ z ∈ M.working_alphabet hd,
      map_find (reduced hd M g0).transitions
          (make_in (make_user_state (compose_state s a b) MOVE_HEAD_RIGHT 1) z)
        = some (make_out (make_user_state (compose_state s a b) TO_SECOND_TAPE 1)
            (make_logical_head (setup_globals hd M g0) z) hd.HEAD_RIGHT) := by
  constructor
  · apply reduced_find X g0
    apply mem_writes_of_segment
    right; right; left
    simp [writes_tape_1_right, writes_tape_1_right_move]
  · intro z hz
    apply reduced_find X g0
    apply mem_writes_of_segment
    right; right; left
    rw [writes_tape_1_right, if_pos rfl]
    exact List.mem_append_left _ (List.mem_append_left _
      (List.mem_append_right _ (List.mem_map.2 ⟨z, hz, rfl⟩)))

theorem find_tape_1_stay {hd : Header} {M : TuringMachine} {s a b n o1 o2 : Str} {d2 : Char}
    (X : BlockCtx hd M s a b n o1 o2 hd.HEAD_STAY d2) (g0 : Globals) :
    map_find (reduced hd M g0).transitions
        (make_in (make_user_state (compose_state s a b) [] 1)
          (make_logical_head (setup_globals hd M g0) a))
      = some (make_out (make_user_state (compose_state s a b) TO_SECOND_TAPE 1)
          (make_logical_head (setup_globals hd M g0) o1) hd.HEAD_RIGHT) := by
  apply reduced_find X g0
  apply mem_writes_of_segment
  right; right; right; left
  simp [writes_tape_1_stay]

theorem mem_extend {hd : Header} {M : TuringMachine} {s a b n o1 o2 : Str} {d2 : Char}
    (X : BlockCtx hd M s a b n o1 o2 hd.HEAD_RIGHT d2) (g0 : Globals) {k : Key} {v : Val}
    (h : (k, v) ∈ writes_tape_1_extend hd (setup_globals hd M g0) (compose_state s a b)
        (M.working_alphabet hd)
      ∨ (k, v) ∈ writes_tape_1_extend_back hd (setup_globals hd M g0) (compose_state s a b)
        (M.working_alphabet hd)) :
    map_find (reduced hd M g0).transitions k = some v := by
  apply reduced_find X g0
  apply mem_writes_of_segment
  right; right; left
  rw [writes_tape_1_right, if_pos rfl]
  simp only [List.mem_append]
  tauto

/-- The transitions that shift the second tape one cell to the right. -/
theorem find_extend {hd : Header} {M : TuringMachine} {s a b n o1 o2 : Str} {d2 : Char}
    (X : BlockCtx hd M s a b n o1 o2 hd.HEAD_RIGHT d2) (g0 : Globals) :
    map_find (reduced hd M g0).transitions
        (make_in (make_user_state (compose_state s a b) MOVE_HEAD_RIGHT 1)
          (setup_globals hd M g0).TAPE_BORDER)
      = some (make_out (make_user_state (compose_state s a b) EXT_TAPE_TAPE_BORDER 1)
          hd.BLANK hd.HEAD_RIGHT)
    ∧ (∀ z ∈ M.working_alphabet hd,
      map_find (reduced hd M g0).transitions
          (make_in (make_user_state (compose_state s a b) EXT_TAPE_TAPE_BORDER 1) z)
        = some (make_out (make_user_state (compose_state s a b) (extend_tape_with_letter z) 1)
            (setup_globals hd M g0).TAPE_BORDER hd.HEAD_RIGHT)
      ∧ map_find (reduced hd M g0).transitions
          (make_in (make_user_state (compose_state s a b) EXT_TAPE_TAPE_BORDER 1)
            (make_logical_head (setup_globals hd M g0) z))
        = some (make_out (make_user_state (compose_state s a b)
              (extend_tape_with_letter (make_logical_head (setup_globals hd M g0) z)) 1)
            (setup_globals hd M g0).TAPE_BORDER hd.HEAD_RIGHT)
      ∧ map_find (reduced hd M g0).transitions
          (make_in (make_user_state (compose_state s a b) (extend_tape_with_letter z) 1)
            (setup_globals hd M g0).TAPE_END)
        = some (make_out (make_user_state (compose_state s a b) EXT_TAPE_TAPE_END 1) z
            hd.HEAD_RIGHT)
      ∧ map_find (reduced hd M g0).transitions
          (make_in (make_user_state (compose_state s a b)
              (extend_tape_with_letter (make_logical_head (setup_globals hd M g0) z)) 1)
            (setup_globals hd M g0).TAPE_END)
        = some (make_out (make_user_state (compose_state s a b) EXT_TAPE_TAPE_END 1)
            (make_logical_head (setup_globals hd M g0) z) hd.HEAD_RIGHT))
    ∧ (∀ z1 ∈ M.working_alphabet hd, ∀ z2 ∈ M.working_alphabet hd,
      map_find (reduced hd M g0).transitions
          (make_in (make_user_state (compose_state s a b) (extend_tape_with_letter z1) 1) z2)
        = some (make_out (make_user_state (compose_state s a b) (extend_tape_with_letter z2) 1)
            z1 hd.HEAD_RIGHT)
      ∧ map_find (reduced hd M g0).transitions
          (make_in (make_user_state (compose_state s a b) (extend_tape_with_letter z1) 1)
            (make_logical_head (setup_globals hd M g0) z2))
        = some (make_out (make_user_state (compose_state s a b)
              (extend_tape_with_letter (make_logical_head (setup_globals hd M g0) z2)) 1)
            z1 hd.HEAD_RIGHT)
      ∧ map_find (reduced hd M g0).transitions
          (make_in (make_user_state (compose_state s a b)
            (extend_tape_with_letter (make_logical_head (setup_globals hd M g0) z1)) 1) z2)
        = some (make_out (make_user_state (compose_state s a b) (extend_tape_with_letter z2) 1)
            (make_logical_head (setup_globals hd M g0) z1) hd.HEAD_RIGHT)) := by
  refine ⟨?_, fun z hz => ⟨?_, ?_, ?_, ?_⟩, fun z1 hz1 z2 hz2 => ⟨?_, ?_, ?_⟩⟩
  · exact mem_extend X g0 (Or.inl (by simp [writes_tape_1_extend]))
  · exact mem_extend X g0 (Or.inl (List.mem_append_right _
      (List.mem_flatMap.2 ⟨z, hz, by simp⟩)))
  · exact mem_extend X g0 (Or.inl (List.mem_append_right _
      (List.mem_flatMap.2 ⟨z, hz, by simp⟩)))
  · exact mem_extend X g0 (Or.inl (List.mem_append_right _
      (List.mem_flatMap.2 ⟨z, hz, by simp⟩)))
  · exact mem_extend X g0 (Or.inl (List.mem_append_right _
      (List.mem_flatMap.2 ⟨z, hz, by simp⟩)))
  · exact mem_extend X g0 (Or.inl (List.mem_append_right _
      (List.mem_flatMap.2 ⟨z1, hz1, List.mem_append_left _ (List.mem_append_right _
        (List.mem_flatMap.2 ⟨z2, hz2, by simp⟩))⟩)))
  · exact mem_extend X g0 (Or.inl (List.mem_append_right _
      (List.mem_flatMap.2 ⟨z1, hz1, List.mem_append_left _ (List.mem_append_right _
        (List.mem_flatMap.2 ⟨z2, hz2, by simp⟩))⟩)))
  · exact mem_extend X g0 (Or.inl (List.mem_append_right _
      (List.mem_flatMap.2 ⟨z1, hz1, List.mem_append_left _ (List.mem_append_right _
        (List.mem_flatMap.2 ⟨z2, hz2, by simp⟩))⟩)))

/-- The transitions that bring the head back after the shift. -/
theorem find_extend_back {hd : Header} {M : TuringMachine} {s a b n o1 o2 : Str} {d2 : Char}
    (X : BlockCtx hd M s a b n o1 o2 hd.HEAD_RIGHT d2) (g0 : Globals) :
    map_find (reduced hd M g0).transitions
        (make_in (make_user_state (compose_state s a b) EXT_TAPE_TAPE_END 1) hd.BLANK)
      = some (make_out (make_user_state (compose_state s a b) EXT_TAPE_MOVE_BACK 1)
          (setup_globals hd M g0).TAPE_END hd.HEAD_LEFT)
    ∧ (∀ z ∈ M.working_alphabet hd,
      map_find (reduced hd M g0).transitions
          (make_in (make_user_state (compose_state s a b) EXT_TAPE_MOVE_BACK 1) z)
        = some (make_out (make_user_state (compose_state s a b) EXT_TAPE_MOVE_BACK 1) z
            hd.HEAD_LEFT)
      ∧ map_find (reduced hd M g0).transitions
          (make_in (make_user_state (compose_state s a b) EXT_TAPE_MOVE_BACK 1)
            (make_logical_head (setup_globals hd M g0) z))
        = some (make_out (make_user_state (compose_state s a b) EXT_TAPE_MOVE_BACK 1)
            (make_logical_head (setup_globals hd M g0) z) hd.HEAD_LEFT))
    ∧ map_find (reduced hd M g0).transitions
        (make_in (make_user_state (compose_state s a b) EXT_TAPE_MOVE_BACK 1)
          (setup_globals hd M g0).TAPE_BORDER)
      = some (make_out (make_user_state (compose_state s a b) MOVE_HEAD_RIGHT 1)
          (setup_globals hd M g0).TAPE_BORDER hd.HEAD_LEFT) := by
  refine ⟨?_, fun z hz => ⟨?_, ?_⟩, ?_⟩
  · exact mem_extend X g0 (Or.inr (by simp [writes_tape_1_extend_back]))
  · exact mem_extend X g0 (Or.inr (List.mem_append_left _ (List.mem_append_right _
      (List.mem_flatMap.2 ⟨z, hz, by simp⟩))))
  · exact mem_extend X g0 (Or.inr (List.mem_append_left _ (List.mem_append_right _
      (List.mem_flatMap.2 ⟨z, hz, by simp⟩))))
  · exact mem_extend X g0 (Or.inr (by simp [writes_tape_1_extend_back]))

/-- The transitions that move the physical head to the second tape. -/
theorem find_to_second_tape {hd : Header} {M : TuringMachine} {s a b n o1 o2 : Str}
    {d1 d2 : Char} (X : BlockCtx hd M s a b n o1 o2 d1 d2) (g0 : Globals) :
    (∀ z ∈ M.working_alphabet hd,
      map_find (reduced hd M g0).transitions
          (make_in (make_user_state (compose_state s a b) TO_SECOND_TAPE 1) z)
        = some (make_out (make_user_state (compose_state s a b) TO_SECOND_TAPE 1) z
            hd.HEAD_RIGHT)
      ∧ map_find (reduced hd M g0).transitions
          (make_in (make_user_state (compose_state s a b) TO_SECOND_TAPE 2) z)
        = some (make_out (make_user_state (compose_state s a b) TO_SECOND_TAPE 2) z
            hd.HEAD_RIGHT))
    ∧ map_find (reduced hd M g0).transitions
        (make_in (make_user_state (compose_state s a b) TO_SECOND_TAPE 1)
          (setup_globals hd M g0).TAPE_BORDER)
      = some (make_out (make_user_state (compose_state s a b) TO_SECOND_TAPE 2)
          (setup_globals hd M g0).TAPE_BORDER hd.HEAD_RIGHT) := by
  have key : ∀ z ∈ M.working_alphabet hd, ∀ (k : Key) (v : Val),
      (k, v) ∈ [(make_in (make_user_state (compose_state s a b) TO_SECOND_TAPE 1) z,
          make_out (make_user_state (compose_state s a b) TO_SECOND_TAPE 1) z hd.HEAD_RIGHT),
        (make_in (make_user_state (compose_state s a b) TO_SECOND_TAPE 1)
            (setup_globals hd M g0).TAPE_BORDER,
          make_out (make_user_state (compose_state s a b) TO_SECOND_TAPE 2)
            (setup_globals hd M g0).TAPE_BORDER hd.HEAD_RIGHT),
        (make_in (make_user_state (compose_state s a b) TO_SECOND_TAPE 2) z,
          make_out (make_user_state (compose_state s a b) TO_SECOND_TAPE 2) z
            hd.HEAD_RIGHT)] →
      map_find (reduced hd M g0).transitions k = some v := by
    intro z hz k v h
    apply reduced_find X g0
    apply mem_writes_of_segment
    right; right; right; right; left
    exact List.mem_flatMap.2 ⟨z, hz, h⟩
  refine ⟨fun z hz => ⟨key z hz _ _ (by simp), key z hz _ _ (by simp)⟩, ?_⟩
  exact key _ (blank_mem_working_alphabet hd M) _ _ (by simp)

theorem find_tape_2_left {hd : Header} {M : TuringMachine} {s a b n o1 o2 : Str} {d1 : Char}
    (X : BlockCtx hd M s a b n o1 o2 d1 hd.HEAD_LEFT) (g0 : Globals) :
    map_find (reduced hd M g0).transitions
        (make_in (make_user_state (compose_state s a b) TO_SECOND_TAPE 2)
          (make_logical_head (setup_globals hd M g0) b))
      = some (make_out (make_user_state (compose_state s a b) MOVE_HEAD_LEFT 2) o2 hd.HEAD_LEFT)
    ∧ ∀ z ∈ M.working_alphabet hd,
      map_find (reduced hd M g0).transitions
          (make_in (make_user_state (compose_state s a b) MOVE_HEAD_LEFT 2) z)
        = some (make_out (make_user_state (compose_state s a b)
              (extend_tape_back_to_first_tape z) 2)
            (make_logical_head (setup_globals hd M g0) z) hd.HEAD_LEFT) := by
  constructor
  · apply reduced_find X g0
    apply mem_writes_of_segment
    right; right; right; right; right; left
    simp [writes_tape_2_left]
  · intro z hz
    apply reduced_find X g0
    apply mem_writes_of_segment
    right; right; right; right; right; left
    rw [writes_tape_2_left]
    simp only [if_pos]
    exact List.mem_append_right _ (List.mem_map.2 ⟨z, hz, rfl⟩)

theorem find_tape_2_right {hd : Header} {M : TuringMachine} {s a b n o1 o2 : Str} {d1 : Char}
    (X : BlockCtx hd M s a b n o1 o2 d1 hd.HEAD_RIGHT) (g0 : Globals) :
    map_find (reduced hd M g0).transitions
        (make_in (make_user_state (compose_state s a b) TO_SECOND_TAPE 2)
          (make_logical_head (setup_globals hd M g0) b))
      = some (make_out (make_user_state (compose_state s a b) MOVE_HEAD_RIGHT 2) o2
          hd.HEAD_RIGHT)
    ∧ (∀ z ∈ M.working_alphabet hd,
      map_find (reduced hd M g0).transitions
          (make_in (make_user_state (compose_state s a b) MOVE_HEAD_RIGHT 2) z)
        = some (make_out (make_user_state (compose_state s a b)
              (extend_tape_back_to_first_tape z) 2)
            (make_logical_head (setup_globals hd M g0) z) hd.HEAD_LEFT))
    ∧ map_find (reduced hd M g0).transitions
        (make_in (make_user_state (compose_state s a b) MOVE_HEAD_RIGHT 2)
          (setup_globals hd M g0).TAPE_END)
      = some (make_out (make_user_state (compose_state s a b) EXT_TAPE_TAPE_END 2) hd.BLANK
          hd.HEAD_RIGHT)
    ∧ map_find (reduced hd M g0).transitions
        (make_in (make_user_state (compose_state s a b) EXT_TAPE_TAPE_END 2) hd.BLANK)
      = some (make_out (make_user_state (compose_state s a b) MOVE_HEAD_RIGHT 2)
          (setup_globals hd M g0).TAPE_END hd.HEAD_LEFT) := by
  have key : ∀ (k : Key) (v : Val),
      (k, v) ∈ writes_tape_2_right hd (setup_globals hd M g0) (compose_state s a b) b o2
        hd.HEAD_RIGHT (M.working_alphabet hd) →
      map_find (reduced hd M g0).transitions k = some v := by
    intro k v h
    apply reduced_find X g0
    apply mem_writes_of_segment
    right; right; right; right; right; right; left
    exact h
  refine ⟨key _ _ (by simp [writes_tape_2_right]), fun z hz => ?_,
    key _ _ (by simp [writes_tape_2_right]), key _ _ (by simp [writes_tape_2_right])⟩
  apply key
  rw [writes_tape_2_right]
  simp only [if_pos]
  exact List.mem_append_left _ (List.mem_append_right _ (List.mem_map.2 ⟨z, hz, rfl⟩))

theorem find_tape_2_stay {hd : Header} {M : TuringMachine} {s a b n o1 o2 : Str} {d1 : Char}
    (X : BlockCtx hd M s a b n o1 o2 d1 hd.HEAD_STAY) (g0 : Globals) :
    map_find (reduced hd M g0).transitions
        (make_in (make_user_state (compose_state s a b) TO_SECOND_TAPE 2)
          (make_logical_head (setup_globals hd M g0) b))
      = some (make_out (make_user_state (compose_state s a b)
            (extend_tape_back_to_first_tape o2) 2)
          (make_logical_head (setup_globals hd M g0) o2) hd.HEAD_LEFT) := by
  apply reduced_find X g0
  apply mem_writes_of_segment
  right; right; right; right; right; right; right; left
  simp [writes_tape_2_stay]

/-- The transitions that move the physical head back to the first tape. -/
theorem find_back {hd : Header} {M : TuringMachine} {s a b n o1 o2 : Str}
    {d1 d2 : Char} (X : BlockCtx hd M s a b n o1 o2 d1 d2) (g0 : Globals) :
    ∀ z1 ∈ M.working_alphabet hd,
      (∀ z2 ∈ M.working_alphabet hd,
        map_find (reduced hd M g0).transitions
            (make_in (make_user_state (compose_state s a b)
              (extend_tape_back_to_first_tape z1) 2) z2)
          = some (make_out (make_user_state (compose_state s a b)
              (extend_tape_back_to_first_tape z1) 2) z2 hd.HEAD_LEFT)
        ∧ map_find (reduced hd M g0).transitions
            (make_in (make_user_state (compose_state s a b)
              (extend_tape_back_to_first_tape z1) 1) z2)
          = some (make_out (make_user_state (compose_state s a b)
              (extend_tape_back_to_first_tape z1) 1) z2 hd.HEAD_LEFT))
      ∧ map_find (reduced hd M g0).transitions
          (make_in (make_user_state (compose_state s a b)
            (extend_tape_back_to_first_tape z1) 2) (setup_globals hd M g0).TAPE_BORDER)
        = some (make_out (make_user_state (compose_state s a b)
            (extend_tape_back_to_first_tape z1) 1) (setup_globals hd M g0).TAPE_BORDER
            hd.HEAD_LEFT) := by
  intro z1 hz1
  have key : ∀ z2 ∈ M.working_alphabet hd, ∀ (k : Key) (v : Val),
      (k, v) ∈ [(make_in (make_user_state (compose_state s a b)
            (extend_tape_back_to_first_tape z1) 2) z2,
          make_out (make_user_state (compose_state s a b)
            (extend_tape_back_to_first_tape z1) 2) z2 hd.HEAD_LEFT),
        (make_in (make_user_state (compose_state s a b)
            (extend_tape_back_to_first_tape z1) 2) (setup_globals hd M g0).TAPE_BORDER,
          make_out (make_user_state (compose_state s a b)
            (extend_tape_back_to_first_tape z1) 1) (setup_globals hd M g0).TAPE_BORDER
            hd.HEAD_LEFT),
        (make_in (make_user_state (compose_state s a b)
            (extend_tape_back_to_first_tape z1) 1) z2,
          make_out (make_user_state (compose_state s a b)
            (extend_tape_back_to_first_tape z1) 1) z2 hd.HEAD_LEFT)] →
      map_find (reduced hd M g0).transitions k = some v := by
    intro z2 hz2 k v h
    apply reduced_find X g0
    apply mem_writes_of_segment
    right; right; right; right; right; right; right; right; left
    exact List.mem_flatMap.2 ⟨z1, hz1, List.mem_flatMap.2 ⟨z2, hz2, h⟩⟩
  refine ⟨fun z2 hz2 => ⟨key z2 hz2 _ _ (by simp), key z2 hz2 _ _ (by simp)⟩, ?_⟩
  exact key _ (blank_mem_working_alphabet hd M) _ _ (by simp)

/-- The transition that resumes the simulation, or accepts, once the
physical head is back on the logical head of the first tape. -/
theorem find_out {hd : Header} {M : TuringMachine} {s a b n o1 o2 : Str}
    {d1 d2 : Char} (X : BlockCtx hd M s a b n o1 o2 d1 d2) (g0 : Globals) :
    ∀ z1 ∈ M.working_alphabet hd, ∀ z2 ∈ M.working_alphabet hd,
      map_find (reduced hd M g0).transitions
          (make_in (make_user_state (compose_state s a b)
            (extend_tape_back_to_first_tape z1) 1)
            (make_logical_head (setup_globals hd M g0) z2))
        = some (make_out
            (if n = hd.ACCEPTING_STATE then hd.ACCEPTING_STATE
              else make_user_state (compose_state n z2 z1) [] 1)
            (make_logical_head (setup_globals hd M g0) z2) hd.HEAD_STAY) := by
  intro z1 hz1 z2 hz2
  apply reduced_find X g0
  apply mem_writes_of_segment
  right; right; right; right; right; right; right; right; right
  refine List.mem_flatMap.2 ⟨z1, hz1, List.mem_map.2 ⟨z2, hz2, ?_⟩⟩
  split <;> rfl

/-! ### The phases of one simulated step -/

theorem ReachPos.reach {hd : Header} {M : TuringMachine} {c c1 : Config}
    (h : ReachPos hd M c c1) : Reach hd M c c1 := by
  obtain ⟨c0, h0, h1⟩ := h
  exact reach_head h0 h1

theorem ReachPos.then_reach {hd : Header} {M : TuringMachine} {c c1 c2 : Config}
    (h : ReachPos hd M c c1) (h2 : Reach hd M c1 c2) : ReachPos hd M c c2 := by
  obtain ⟨c0, h0, h1⟩ := h
  exact ⟨c0, h0, h1.trans h2⟩

theorem reachPos_step {hd : Header} {M : TuringMachine} {c c1 : Config}
    (h : step hd M c = some c1) : ReachPos hd M c c1 :=
  ⟨c1, h, Reach.refl _ _ _⟩

theorem dropLast_getLastD (ys : List Str) : ∀ (p : Str),
    (p :: ys).dropLast ++ [ys.getLastD p] = p :: ys := by
  induction ys with
  | nil => intro p; rfl
  | cons y ys ih =>
    intro p
    have := ih y
    simp only [List.dropLast_cons₂, List.getLastD_cons, List.cons_append, List.cons.injEq,
      true_and]
    simpa using this

/-- The loop that shifts cells one position to the right: in state `st u`
the cell `u` is carried, and reading `v` it is written and `v` carried on. -/
theorem shift_right {hd : Header} {M1 : TuringMachine} {st : Str → Str}
    {Good : Str → Str → Prop} (hne : hd.HEAD_LEFT ≠ hd.HEAD_RIGHT)
    (h : ∀ u v, Good u v →
      map_find M1.transitions (make_in (st u) v) = some (make_out (st v) u hd.HEAD_RIGHT))
    (ys : List Str) :
    ∀ (p : Str) (l zs : List Str), List.Chain Good p ys →
      Reach hd M1 ⟨st p, [tape_at hd l (ys ++ zs)]⟩
        ⟨st (ys.getLastD p), [tape_at hd ((p :: ys).dropLast.reverse ++ l) zs]⟩ := by
  induction ys with
  | nil => intro p l zs _; exact Reach.refl _ _ _
  | cons y ys ih =>
    intro p l zs hc
    rw [List.chain_cons] at hc
    have h1 := step_right (l := l) (r := ys ++ zs) hne (h p y hc.1)
    have h2 := ih y (p :: l) zs hc.2
    have e : (p :: y :: ys).dropLast.reverse ++ l = (y :: ys).dropLast.reverse ++ (p :: l) := by
      simp
    rw [e, List.getLastD_cons]
    exact reach_head h1 h2

theorem chain_cells_plain {g : Globals} {W : List Str} : ∀ (ys : List Str) (p : Str),
    Cell g W p → (∀ y ∈ ys, y ∈ W) → List.Chain (CellPair g W) p ys := by
  intro ys
  induction ys with
  | nil => intro p _ _; exact List.Chain.nil
  | cons y ys ih =>
    intro p hp h
    have hy := h y (List.mem_cons_self _ _)
    exact List.Chain.cons (Or.inr ⟨hp, hy⟩)
      (ih y (Or.inl hy) (fun z hz => h z (List.mem_cons_of_mem _ hz)))

theorem chain_cells {g : Globals} {W : List Str} {y : Str} (hy : y ∈ W) (zs : List Str)
    (hzs : ∀ z ∈ zs, z ∈ W) : ∀ (xs : List Str) (p : Str), p ∈ W → (∀ x ∈ xs, x ∈ W) →
    List.Chain (CellPair g W) p (xs ++ make_logical_head g y :: zs) := by
  intro xs
  induction xs with
  | nil =>
    intro p hp _
    exact List.Chain.cons (Or.inl ⟨hp, Or.inr ⟨y, hy, rfl⟩⟩)
      (chain_cells_plain zs _ (Or.inr ⟨y, hy, rfl⟩) hzs)
  | cons x xs ih =>
    intro p hp h
    have hx := h x (List.mem_cons_self _ _)
    exact List.Chain.cons (Or.inl ⟨hp, Or.inl hx⟩)
      (ih x hx (fun z hz => h z (List.mem_cons_of_mem _ hz)))

/-- The cells of the second-tape region, as a first cell and a chain. -/
theorem region_cells {g : Globals} {W : List Str} {y : Str} (hy : y ∈ W) (L2 R2 : List Str)
    (hL : ∀ x ∈ L2, x ∈ W) (hR : ∀ x ∈ R2, x ∈ W) :
    ∃ c rest, L2.reverse ++ make_logical_head g y :: R2 = c :: rest ∧ Cell g W c
      ∧ List.Chain (CellPair g W) c rest ∧ ∀ x ∈ c :: rest, Cell g W x := by
  have hall : ∀ x ∈ L2.reverse ++ make_logical_head g y :: R2, Cell g W x := by
    intro x hx
    simp only [List.mem_append, List.mem_reverse, List.mem_cons] at hx
    rcases hx with hx | rfl | hx
    · exact Or.inl (hL x hx)
    · exact Or.inr ⟨y, hy, rfl⟩
    · exact Or.inl (hR x hx)
  cases h : L2.reverse with
  | nil =>
    rw [h] at hall
    exact ⟨_, _, rfl, Or.inr ⟨y, hy, rfl⟩,
      chain_cells_plain R2 _ (Or.inr ⟨y, hy, rfl⟩) hR, hall⟩
  | cons c xs =>
    rw [h] at hall
    have hc : c ∈ W := hL c (by
      have : c ∈ L2.reverse := by rw [h]; exact List.mem_cons_self _ _
      simpa using this)
    have hxs : ∀ x ∈ xs, x ∈ W := fun x hx => hL x (by
      have : x ∈ L2.reverse := by rw [h]; exact List.mem_cons_of_mem _ hx
      simpa using this)
    exact ⟨c, xs ++ make_logical_head g y :: R2, rfl, Or.inl hc,
      chain_cells hy R2 hR xs c hc hxs, hall⟩

/-- The transitions of the extension of the first tape, for cells. -/
theorem find_extend_cell {hd : Header} {M : TuringMachine} {s a b n o1 o2 : Str} {d2 : Char}
    (X : BlockCtx hd M s a b n o1 o2 hd.HEAD_RIGHT d2) (g0 : Globals) :
    (∀ c, Cell (setup_globals hd M g0) (M.working_alphabet hd) c →
      map_find (reduced hd M g0).transitions
          (make_in (make_user_state (compose_state s a b) EXT_TAPE_TAPE_BORDER 1) c)
        = some (make_out (make_user_state (compose_state s a b) (extend_tape_with_letter c) 1)
            (setup_globals hd M g0).TAPE_BORDER hd.HEAD_RIGHT)
      ∧ map_find (reduced hd M g0).transitions
          (make_in (make_user_state (compose_state s a b) (extend_tape_with_letter c) 1)
            (setup_globals hd M g0).TAPE_END)
        = some (make_out (make_user_state (compose_state s a b) EXT_TAPE_TAPE_END 1) c
            hd.HEAD_RIGHT)
      ∧ map_find (reduced hd M g0).transitions
          (make_in (make_user_state (compose_state s a b) EXT_TAPE_MOVE_BACK 1) c)
        = some (make_out (make_user_state (compose_state s a b) EXT_TAPE_MOVE_BACK 1) c
            hd.HEAD_LEFT))
    ∧ ∀ u v, CellPair (setup_globals hd M g0) (M.working_alphabet hd) u v →
      map_find (reduced hd M g0).transitions
          (make_in (make_user_state (compose_state s a b) (extend_tape_with_letter u) 1) v)
        = some (make_out (make_user_state (compose_state s a b) (extend_tape_with_letter v) 1)
            u hd.HEAD_RIGHT) := by
  obtain ⟨-, h1, h2⟩ := find_extend X g0
  obtain ⟨-, h3, -⟩ := find_extend_back X g0
  constructor
  · intro c hc
    rcases hc with hc | ⟨z, hz, rfl⟩
    · exact ⟨(h1 c hc).1, (h1 c hc).2.2.1, (h3 c hc).1⟩
    · exact ⟨(h1 z hz).2.1, (h1 z hz).2.2.2, (h3 z hz).2⟩
  · intro u v huv
    rcases huv with ⟨hu, hv | ⟨z, hz, rfl⟩⟩ | ⟨hu | ⟨z, hz, rfl⟩, hv⟩
    · exact (h2 u hu v hv).1
    · exact (h2 u hu z hz).2.1
    · exact (h2 u hu v hv).1
    · exact (h2 z hz v hv).2.2

/-- The extension of the first tape: with the physical head on the border in
state `headRight`, the second tape is shifted one cell to the right and the
physical head returns to the new blank cell in front of the border. -/
theorem phase_extend {hd : Header} {M : TuringMachine} {s a b n o1 o2 : Str} {d2 : Char}
    (X : BlockCtx hd M s a b n o1 o2 hd.HEAD_RIGHT d2) (g0 : Globals) (l : List Str)
    {y : Str} (hy : y ∈ M.working_alphabet hd) (L2 R2 : List Str)
    (hL : ∀ x ∈ L2, x ∈ M.working_alphabet hd) (hR : ∀ x ∈ R2, x ∈ M.working_alphabet hd) :
    Reach hd (reduced hd M g0)
      ⟨make_user_state (compose_state s a b) MOVE_HEAD_RIGHT 1,
        [⟨l, (setup_globals hd M g0).TAPE_BORDER,
          L2.reverse ++ make_logical_head (setup_globals hd M g0) y
            :: (R2 ++ [(setup_globals hd M g0).TAPE_END])⟩]⟩
      ⟨make_user_state (compose_state s a b) MOVE_HEAD_RIGHT 1,
        [⟨l, hd.BLANK, (setup_globals hd M g0).TAPE_BORDER ::
          (L2.reverse ++ make_logical_head (setup_globals hd M g0) y
            :: (R2 ++ [(setup_globals hd M g0).TAPE_END]))⟩]⟩ := by
  have hne := X.wf.left_ne_right
  obtain ⟨f1, -, -⟩ := find_extend X g0
  obtain ⟨f2, -, f3⟩ := find_extend_back X g0
  obtain ⟨fc, fp⟩ := find_extend_cell X g0
  obtain ⟨c, rest, hreg, hc, hchain, hall⟩ := region_cells
    (g := setup_globals hd M g0) hy L2 R2 hL hR
  have hreg' : L2.reverse ++ make_logical_head (setup_globals hd M g0) y
      :: (R2 ++ [(setup_globals hd M g0).TAPE_END])
      = c :: (rest ++ [(setup_globals hd M g0).TAPE_END]) := by
    have := congrArg (fun t => t ++ [(setup_globals hd M g0).TAPE_END]) hreg
    simpa using this
  rw [hreg']
  -- write the blank over the border, then the border over the first cell
  refine reach_head (step_right hne f1) ?_
  refine reach_head (step_right (l := hd.BLANK :: l) hne (fc c hc).1) ?_
  -- shift the remaining cells
  refine (shift_right hne fp rest c _ [(setup_globals hd M g0).TAPE_END] hchain).trans ?_
  have hlast : Cell (setup_globals hd M g0) (M.working_alphabet hd) (rest.getLastD c) := by
    have e := dropLast_getLastD rest c
    apply hall
    rw [← e]
    simp
  refine reach_head (step_right hne (fc _ hlast).2.1) ?_
  have e1 : rest.getLastD c :: ((c :: rest).dropLast.reverse
      ++ (setup_globals hd M g0).TAPE_BORDER :: hd.BLANK :: l)
      = (c :: rest).reverse ++ (setup_globals hd M g0).TAPE_BORDER :: hd.BLANK :: l := by
    have e := dropLast_getLastD rest c
    conv_rhs => rw [← e]
    simp
  rw [e1]
  -- put the end marker and go back to the border
  refine reach_head (step_left_at (by simp) f2) ?_
  have hscan := @scan_left hd (reduced hd M g0)
    (make_user_state (compose_state s a b) EXT_TAPE_MOVE_BACK 1) (c :: rest).reverse
    (fun x hx => (fc x (hall x (List.mem_reverse.1 hx))).2.2)
    (setup_globals hd M g0).TAPE_BORDER (hd.BLANK :: l) [(setup_globals hd M g0).TAPE_END]
  refine hscan.trans ?_
  rw [List.reverse_reverse]
  exact reach_step (step_left f3)

theorem BlockCtx.parts {hd : Header} {M : TuringMachine} {s a b n o1 o2 : Str} {d1 d2 : Char}
    (X : BlockCtx hd M s a b n o1 o2 d1 d2) :
    is_identifier s = true ∧ is_identifier n = true
      ∧ (d1 = hd.HEAD_LEFT ∨ d1 = hd.HEAD_RIGHT ∨ d1 = hd.HEAD_STAY)
      ∧ (d2 = hd.HEAD_LEFT ∨ d2 = hd.HEAD_RIGHT ∨ d2 = hd.HEAD_STAY) := by
  obtain ⟨_, _, _, htr⟩ := valid_parts X.valid
  rw [X.two] at htr
  obtain ⟨s1, a1, b1, n1, p1, p2, e1, e2, he, hs, -, -, hn, -, -, -, -, h1, h2⟩ :=
    transition_asserts_two (htr _ X.mem)
  simp only [Prod.mk.injEq, List.cons.injEq, and_true] at he
  obtain ⟨⟨rfl, -, -⟩, rfl, -, rfl, rfl⟩ := he
  simp only [is_direction, Bool.or_eq_true, beq_iff_eq] at h1 h2
  exact ⟨hs, hn, by tauto, by tauto⟩

theorem tape_over_write_move {hd : Header} {W : List Str} (hblank : hd.BLANK ∈ W) {T T1 : Tape}
    (hT : T.Over W) {o : Str} (ho : o ∈ W) {d : Char} (h : T.write_move hd o d = some T1) :
    T1.Over W := by
  obtain ⟨l, c, r⟩ := T
  obtain ⟨hl, -, hr⟩ := hT
  simp only at hl hr
  unfold Tape.write_move at h
  simp only at h
  split at h
  · cases l with
    | nil => simp at h
    | cons x l =>
      simp only [Option.some.injEq] at h
      subst h
      refine ⟨fun z hz => hl z (List.mem_cons_of_mem _ hz), hl x (List.mem_cons_self _ _), ?_⟩
      intro z hz
      simp only [List.mem_cons] at hz
      rcases hz with rfl | hz
      · exact ho
      · exact hr z hz
  · split at h
    · cases r with
      | nil =>
        simp only [Option.some.injEq] at h
        subst h
        refine ⟨?_, hblank, by simp⟩
        intro z hz
        simp only [List.mem_cons] at hz
        rcases hz with rfl | hz
        · exact ho
        · exact hl z hz
      | cons x r =>
        simp only [Option.some.injEq] at h
        subst h
        refine ⟨?_, hr x (List.mem_cons_self _ _), fun z hz => hr z (List.mem_cons_of_mem _ hz)⟩
        intro z hz
        simp only [List.mem_cons] at hz
        rcases hz with rfl | hz
        · exact ho
        · exact hl z hz
    · simp only [Option.some.injEq] at h
      subst h
      exact ⟨hl, ho, hr⟩

/-- The action on the first tape: from the entry state of the block, with the
physical head on the marked cell of the first tape, the letter is written, the
mark is moved (the second tape is shifted if the first one has to grow) and the
physical head ends one cell to the right of the new mark. -/
theorem phase_tape_1 {hd : Header} {M : TuringMachine} {s a b n o1 o2 : Str} {d1 d2 : Char}
    (X : BlockCtx hd M s a b n o1 o2 d1 d2) (g0 : Globals) {L1 R1 : List Str} {T1 : Tape}
    (hL1 : ∀ x ∈ L1, x ∈ M.working_alphabet hd) (hR1 : ∀ x ∈ R1, x ∈ M.working_alphabet hd)
    (hmove : Tape.write_move hd ⟨L1, a, R1⟩ o1 d1 = some T1)
    {y : Str} (hy : y ∈ M.working_alphabet hd) (L2 R2 : List Str)
    (hL : ∀ x ∈ L2, x ∈ M.working_alphabet hd) (hR : ∀ x ∈ R2, x ∈ M.working_alphabet hd) :
    ReachPos hd (reduced hd M g0)
      ⟨make_user_state (compose_state s a b) [] 1,
        [⟨L1, make_logical_head (setup_globals hd M g0) a,
          R1 ++ (setup_globals hd M g0).TAPE_BORDER ::
            (L2.reverse ++ make_logical_head (setup_globals hd M g0) y
              :: (R2 ++ [(setup_globals hd M g0).TAPE_END]))⟩]⟩
      ⟨make_user_state (compose_state s a b) TO_SECOND_TAPE 1,
        [tape_at hd (make_logical_head (setup_globals hd M g0) T1.cur :: T1.left)
          (T1.right ++ (setup_globals hd M g0).TAPE_BORDER ::
            (L2.reverse ++ make_logical_head (setup_globals hd M g0) y
              :: (R2 ++ [(setup_globals hd M g0).TAPE_END])))]⟩ := by
  have hne := X.wf.left_ne_right
  have hblank := blank_mem_working_alphabet hd M
  obtain ⟨-, -, hd1, -⟩ := X.parts
  unfold Tape.write_move at hmove
  simp only at hmove
  rcases hd1 with rfl | rfl | rfl
  · -- to the left
    obtain ⟨f1, f2⟩ := find_tape_1_left X g0
    rw [if_pos rfl] at hmove
    cases L1 with
    | nil => simp at hmove
    | cons x l =>
      simp only [Option.some.injEq] at hmove
      subst hmove
      refine ⟨_, step_left f1, ?_⟩
      exact reach_step (step_right hne (f2 x (hL1 x (List.mem_cons_self _ _))))
  · -- to the right
    obtain ⟨f1, f2⟩ := find_tape_1_right X g0
    rw [if_neg hne.symm, if_pos rfl] at hmove
    refine ⟨_, step_right hne f1, ?_⟩
    cases R1 with
    | nil =>
      simp only [Option.some.injEq] at hmove
      subst hmove
      simp only [List.nil_append, tape_at]
      refine (phase_extend X g0 (o1 :: L1) hy L2 R2 hL hR).trans ?_
      exact reach_step (step_right hne (f2 _ hblank))
    | cons x r =>
      simp only [Option.some.injEq] at hmove
      subst hmove
      exact reach_step (step_right hne (f2 x (hR1 x (List.mem_cons_self _ _))))
  · -- stay
    have f1 := find_tape_1_stay X g0
    rw [if_neg X.wf.left_ne_stay.symm, if_neg X.wf.right_ne_stay.symm] at hmove
    simp only [Option.some.injEq] at hmove
    subst hmove
    exact reachPos_step (step_right hne f1)

/-- The walk of the physical head from the first tape to the marked cell of
the second one. -/
theorem phase_to_second {hd : Header} {M : TuringMachine} {s a b n o1 o2 : Str} {d1 d2 : Char}
    (X : BlockCtx hd M s a b n o1 o2 d1 d2) (g0 : Globals) (P R1 L2 : List Str)
    (hR1 : ∀ x ∈ R1, x ∈ M.working_alphabet hd) (hL2 : ∀ x ∈ L2, x ∈ M.working_alphabet hd)
    (c : Str) (zs : List Str) :
    Reach hd (reduced hd M g0)
      ⟨make_user_state (compose_state s a b) TO_SECOND_TAPE 1,
        [tape_at hd P (R1 ++ (setup_globals hd M g0).TAPE_BORDER :: (L2.reverse ++ c :: zs))]⟩
      ⟨make_user_state (compose_state s a b) TO_SECOND_TAPE 2,
        [⟨L2 ++ (setup_globals hd M g0).TAPE_BORDER :: (R1.reverse ++ P), c, zs⟩]⟩ := by
  have hne := X.wf.left_ne_right
  obtain ⟨f1, f2⟩ := find_to_second_tape X g0
  have s1 := scan_right hne R1 (fun y hy => (f1 y (hR1 y hy)).1) P
    ((setup_globals hd M g0).TAPE_BORDER :: (L2.reverse ++ c :: zs))
  have s2 : step hd (reduced hd M g0)
      ⟨make_user_state (compose_state s a b) TO_SECOND_TAPE 1,
        [tape_at hd (R1.reverse ++ P)
          ((setup_globals hd M g0).TAPE_BORDER :: (L2.reverse ++ c :: zs))]⟩ = _ :=
    step_right hne f2
  have s3 := scan_right hne L2.reverse
    (fun y hy => (f1 y (hL2 y (List.mem_reverse.1 hy))).2)
    ((setup_globals hd M g0).TAPE_BORDER :: (R1.reverse ++ P)) (c :: zs)
  rw [List.reverse_reverse] at s3
  exact s1.trans (reach_head s2 s3)

/-- The action on the second tape: the letter is written, the mark is moved
(the end marker is pushed one cell to the right if the tape has to grow) and the
physical head ends one cell to the left of the new mark. -/
theorem phase_tape_2 {hd : Header} {M : TuringMachine} {s a b n o1 o2 : Str} {d1 d2 : Char}
    (X : BlockCtx hd M s a b n o1 o2 d1 d2) (g0 : Globals) {L2 R2 : List Str} {T2 : Tape}
    (hL2 : ∀ x ∈ L2, x ∈ M.working_alphabet hd) (hR2 : ∀ x ∈ R2, x ∈ M.working_alphabet hd)
    (hmove : Tape.write_move hd ⟨L2, b, R2⟩ o2 d2 = some T2) (q : Str) (Q : List Str) :
    Reach hd (reduced hd M g0)
      ⟨make_user_state (compose_state s a b) TO_SECOND_TAPE 2,
        [⟨L2 ++ q :: Q, make_logical_head (setup_globals hd M g0) b,
          R2 ++ [(setup_globals hd M g0).TAPE_END]⟩]⟩
      ⟨make_user_state (compose_state s a b) (extend_tape_back_to_first_tape T2.cur) 2,
        [tape_left_at hd (T2.left ++ q :: Q)
          (make_logical_head (setup_globals hd M g0) T2.cur
            :: (T2.right ++ [(setup_globals hd M g0).TAPE_END]))]⟩ := by
  have hne := X.wf.left_ne_right
  have hblank := blank_mem_working_alphabet hd M
  obtain ⟨-, -, -, hd2⟩ := X.parts
  unfold Tape.write_move at hmove
  simp only at hmove
  rcases hd2 with rfl | rfl | rfl
  · obtain ⟨f1, f2⟩ := find_tape_2_left X g0
    rw [if_pos rfl] at hmove
    cases L2 with
    | nil => simp at hmove
    | cons x l =>
      simp only [Option.some.injEq] at hmove
      subst hmove
      refine reach_head (step_left f1) ?_
      exact reach_step (step_left_at (by simp) (f2 x (hL2 x (List.mem_cons_self _ _))))
  · obtain ⟨f1, f2, f3, f4⟩ := find_tape_2_right X g0
    rw [if_neg hne.symm, if_pos rfl] at hmove
    refine reach_head (step_right hne f1) ?_
    cases R2 with
    | nil =>
      simp only [Option.some.injEq] at hmove
      subst hmove
      simp only [List.nil_append, tape_at]
      refine reach_head (step_right hne f3) ?_
      simp only [tape_at]
      refine reach_head (step_left f4) ?_
      exact reach_step (step_left (f2 _ hblank))
    | cons x r =>
      simp only [Option.some.injEq] at hmove
      subst hmove
      exact reach_step (step_left (f2 x (hR2 x (List.mem_cons_self _ _))))
  · have f1 := find_tape_2_stay X g0
    rw [if_neg X.wf.left_ne_stay.symm, if_neg X.wf.right_ne_stay.symm] at hmove
    simp only [Option.some.injEq] at hmove
    subst hmove
    exact reach_step (step_left_at (by simp) f1)

/-- The walk of the physical head back to the marked cell of the first
tape. -/
theorem phase_back {hd : Header} {M : TuringMachine} {s a b n o1 o2 : Str} {d1 d2 : Char}
    (X : BlockCtx hd M s a b n o1 o2 d1 d2) (g0 : Globals) {z : Str}
    (hz : z ∈ M.working_alphabet hd) (L2 R1 L1 : List Str)
    (hL2 : ∀ x ∈ L2, x ∈ M.working_alphabet hd) (hR1 : ∀ x ∈ R1, x ∈ M.working_alphabet hd)
    (c : Str) (zs : List Str) :
    Reach hd (reduced hd M g0)
      ⟨make_user_state (compose_state s a b) (extend_tape_back_to_first_tape z) 2,
        [tape_left_at hd (L2 ++ (setup_globals hd M g0).TAPE_BORDER :: (R1.reverse ++ c :: L1))
          zs]⟩
      ⟨make_user_state (compose_state s a b) (extend_tape_back_to_first_tape z) 1,
        [⟨L1, c, R1 ++ (setup_globals hd M g0).TAPE_BORDER :: (L2.reverse ++ zs)⟩]⟩ := by
  obtain ⟨f1, f2⟩ := find_back X g0 z hz
  have s1 := scan_left L2 (fun y hy => (f1 y (hL2 y hy)).1)
    ((setup_globals hd M g0).TAPE_BORDER) (R1.reverse ++ c :: L1) zs
  have s2 : step hd (reduced hd M g0)
      ⟨make_user_state (compose_state s a b) (extend_tape_back_to_first_tape z) 2,
        [⟨R1.reverse ++ c :: L1, (setup_globals hd M g0).TAPE_BORDER, L2.reverse ++ zs⟩]⟩ = _ :=
    step_left_at (by simp) f2
  have s3 := scan_left R1.reverse
    (fun y hy => (f1 y (hR1 y (List.mem_reverse.1 hy))).2) c L1
    ((setup_globals hd M g0).TAPE_BORDER :: (L2.reverse ++ zs))
  rw [List.reverse_reverse] at s3
  exact s1.trans (reach_head s2 s3)

/-- One step of the two-tape machine is simulated by the reduced machine: from
the entry state of the block of the transition that applies, on the encoding of
the two tapes, it reaches the encoding of the two tapes after the step, in the
accepting state or in the entry state for the new state and letters. -/
theorem simulate_step {hd : Header} {M : TuringMachine} {s a b n o1 o2 : Str} {d1 d2 : Char}
    (X : BlockCtx hd M s a b n o1 o2 d1 d2) (g0 : Globals) {T1 T2 U1 U2 : Tape}
    (h1 : T1.Over (M.working_alphabet hd)) (h2 : T2.Over (M.working_alphabet hd))
    (ha : T1.cur = a) (hb : T2.cur = b)
    (hm1 : T1.write_move hd o1 d1 = some U1) (hm2 : T2.write_move hd o2 d2 = some U2) :
    ReachPos hd (reduced hd M g0)
      ⟨make_user_state (compose_state s a b) [] 1, [encode_tapes (setup_globals hd M g0) T1 T2]⟩
      ⟨if n = hd.ACCEPTING_STATE then hd.ACCEPTING_STATE
          else make_user_state (compose_state n U1.cur U2.cur) [] 1,
        [encode_tapes (setup_globals hd M g0) U1 U2]⟩ := by
  obtain ⟨L1, c1, R1⟩ := T1
  obtain ⟨L2, c2, R2⟩ := T2
  simp only at ha hb
  subst ha hb
  obtain ⟨hL1, -, hR1⟩ := h1
  obtain ⟨hL2, hc2, hR2⟩ := h2
  simp only at hL1 hR1 hL2 hc2 hR2
  have hblank := blank_mem_working_alphabet hd M
  obtain ⟨hc1, -, ho1, ho2⟩ := X.letters
  have hU1 := tape_over_write_move hblank (T := ⟨L1, c1, R1⟩) ⟨hL1, hc1, hR1⟩ ho1 hm1
  have hU2 := tape_over_write_move hblank (T := ⟨L2, c2, R2⟩) ⟨hL2, hc2, hR2⟩ ho2 hm2
  have pA := phase_tape_1 X g0 hL1 hR1 hm1 hc2 L2 R2 hL2 hR2
  have pB := phase_to_second X g0 (make_logical_head (setup_globals hd M g0) U1.cur :: U1.left)
    U1.right L2 hU1.2.2 hL2 (make_logical_head (setup_globals hd M g0) c2)
    (R2 ++ [(setup_globals hd M g0).TAPE_END])
  have pC := phase_tape_2 X g0 hL2 hR2 hm2 (setup_globals hd M g0).TAPE_BORDER
    (U1.right.reverse ++ make_logical_head (setup_globals hd M g0) U1.cur :: U1.left)
  have pD := phase_back X g0 hU2.2.1 U2.left U1.right U1.left hU2.1 hU1.2.2
    (make_logical_head (setup_globals hd M g0) U1.cur)
    (make_logical_head (setup_globals hd M g0) U2.cur
      :: (U2.right ++ [(setup_globals hd M g0).TAPE_END]))
  have pE : step hd (reduced hd M g0)
      ⟨make_user_state (compose_state s c1 c2) (extend_tape_back_to_first_tape U2.cur) 1,
        [⟨U1.left, make_logical_head (setup_globals hd M g0) U1.cur,
          U1.right ++ (setup_globals hd M g0).TAPE_BORDER ::
            (U2.left.reverse ++ make_logical_head (setup_globals hd M g0) U2.cur
              :: (U2.right ++ [(setup_globals hd M g0).TAPE_END]))⟩]⟩ = _ :=
    step_stay X.wf.left_ne_stay X.wf.right_ne_stay (find_out X g0 _ hU2.2.1 _ hU1.2.1)
  exact ((pA.then_reach pB).then_reach (pC.trans pD)).then_reach (reach_step pE)

/-- Where an entry of the table of the reduced machine comes from. -/
theorem reduced_entry {hd : Header} {M : TuringMachine} (hM : M.Valid hd)
    (h2 : M.num_tapes = 2) (g0 : Globals) {k : Key} {v : Val}
    (h : (k, v) ∈ (reduced hd M g0).transitions) :
    InitKey hd M.input_alphabet k
      ∨ ∃ s a b n o1 o2 d1 d2, ((s, [a, b]), (n, [o1, o2], [d1, d2])) ∈ M.transitions
        ∧ (k, v) ∈ two_to_one_writes hd (setup_globals hd M g0) s n a b o1 o2 d1 d2
            (M.working_alphabet hd) := by
  rcases mem_merged_table h with h | ⟨t, ht, h⟩
  · exact Or.inl (make_init_states_writes_keys _ _ _ _ (mem_map_of_writes h))
  · right
    obtain ⟨_, _, _, htr⟩ := valid_parts hM
    rw [h2] at htr
    obtain ⟨s, a, b, n, o1, o2, d1, d2, rfl, -⟩ := transition_asserts_two (htr t ht)
    rw [block_of_eq] at h
    exact ⟨s, a, b, n, o1, o2, d1, d2, ht, mem_map_of_writes h⟩

theorem mem_keys_of_mem {m : transitions_t} {k : Key} {v : Val} (h : (k, v) ∈ m) :
    k ∈ map_keys m :=
  List.mem_map.2 ⟨(k, v), h, rfl⟩

/-- The reduced machine has no transition for a key of the block of a
transition that the two-tape machine does not have. -/
theorem reduced_find_none {hd : Header} (hh : hd.WellFormed) {M : TuringMachine}
    (hM : M.Valid hd) (h2 : M.num_tapes = 2) (g0 : Globals) {q x y : Str}
    (hq : is_identifier q = true) (hx : is_identifier x = true) (hy : is_identifier y = true)
    (hnone : map_find M.transitions (q, [x, y]) = none) {k : Key}
    (hk : BlockKey hd (setup_globals hd M g0) q x y k) :
    map_find (reduced hd M g0).transitions k = none := by
  cases hf : map_find (reduced hd M g0).transitions k with
  | none => rfl
  | some v =>
    exfalso
    rcases reduced_entry hM h2 g0 (map_find_mem hf) with h | ⟨s, a, b, n, o1, o2, d1, d2, ht, h⟩
    · exact initKey_disjoint hh (head_not_mem_input hd M g0) h hk
    · have X : BlockCtx hd M s a b n o1 o2 d1 d2 := ⟨hh, hM, h2, ht⟩
      obtain ⟨hs, -, -, -⟩ := X.parts
      obtain ⟨ha, hb, -, -⟩ := X.letters
      have hid := working_alphabet_ident hh hM h2
      obtain ⟨rfl, rfl, rfl⟩ := blockKey_disjoint hs (hid a ha) (hid b hb) hq hx hy
        (two_to_one_writes_keys _ _ _ _ _ _ _ _ _ _ _ _ h) hk
      exact map_find_eq_none.1 hnone (mem_keys_of_mem ht)

/-- No transition of the reduced machine leaves the accepting state. -/
theorem reduced_find_accepting {hd : Header} (hh : hd.WellFormed) {M : TuringMachine}
    (hM : M.Valid hd) (h2 : M.num_tapes = 2) (g0 : Globals) (ls : List Str) :
    map_find (reduced hd M g0).transitions (hd.ACCEPTING_STATE, ls) = none := by
  cases hf : map_find (reduced hd M g0).transitions (hd.ACCEPTING_STATE, ls) with
  | none => rfl
  | some v =>
    exfalso
    have hacc := hh.accepting_fresh
    have key : ∀ s a b, ¬ BlockKey hd (setup_globals hd M g0) s a b (hd.ACCEPTING_STATE, ls) := by
      intro s a b hk
      rcases hk with ⟨hk, -, -⟩ | ⟨p, t, -, hk⟩
      · simp only [make_in, Prod.mk.injEq] at hk
        exact hacc.2 (by rw [hk.1]; rfl)
      · simp only at hk
        exact hacc.1 (by rw [hk]; exact make_user_state_take _ _ _)
    rcases reduced_entry hM h2 g0 (map_find_mem hf) with h | ⟨s, a, b, n, o1, o2, d1, d2, ht, h⟩
    · rcases h with h | ⟨h, -⟩
      · simp only [List.mem_cons, List.mem_singleton, List.not_mem_nil, or_false] at h
        rcases h with h | h | h | h | h
        · exact hh.initial_ne_accepting h.symm
        all_goals exact hacc.2 (by rw [h]; rfl)
      · simp only at h
        exact hacc.2 (by rw [h]; rfl)
    · exact key _ _ _ (two_to_one_writes_keys _ _ _ _ _ _ _ _ _ _ _ _ h)

/-- In the block of a transition that moves the second head to the left there
is no assignment for the state after the move reading the border. -/
theorem two_to_one_writes_left_border {hd : Header} (hh : hd.WellFormed) {g : Globals}
    {W : List Str} (hF : Fresh g W) (s n a b o1 o2 : Str) (d1 : Char) :
    ∀ e ∈ two_to_one_writes hd g s n a b o1 o2 d1 hd.HEAD_LEFT W,
      e.1 ≠ make_in (make_user_state (compose_state s a b) MOVE_HEAD_LEFT 2) g.TAPE_BORDER := by
  have hp1 := fun x hx => (ident_not_phase (hF.letters_ident x hx))
  have hb : ∀ x ∈ W, x ≠ g.TAPE_BORDER := fun x hx e => hF.border_not_mem (e ▸ hx)
  have hhb := hF.head_ne_border
  have hbe := hF.border_ne_end
  simp only [two_to_one_writes, writes_entry, writes_tape_1_left, writes_tape_1_right_move,
    writes_tape_1_extend, writes_tape_1_extend_back, writes_tape_1_right, writes_tape_1_stay,
    writes_to_second_tape, writes_tape_2_left, writes_tape_2_right, writes_tape_2_stay,
    writes_back_to_first_tape, writes_out, List.forall_mem_append, forall_mem_flatMap, forall_mem_ite_nil,
    List.forall_mem_map, List.forall_mem_cons, List.forall_mem_singleton, List.not_mem_nil,
    apply_ite Prod.fst, apply_ite Prod.snd, false_imp_iff, implies_true, and_true]
  generalize compose_state s a b = cs at *
  simp [make_in_inj, user_state_inj_11, user_state_inj_22, user_state_inj_12,
      user_state_inj_21, init_front_ne_user, MOVE_HEAD_RIGHT, MOVE_HEAD_LEFT, TO_SECOND_TAPE,
      EXT_TAPE_TAPE_BORDER, EXT_TAPE_TAPE_END, EXT_TAPE_MOVE_BACK, extend_tape_with_letter,
      extend_tape_back_to_first_tape, hh.left_ne_right,
      hh.left_ne_stay, hh.right_ne_stay, hh.left_ne_right.symm, hh.left_ne_stay.symm,
      hh.right_ne_stay.symm]
  simp +contextual [*, hbe.symm]

theorem find_tape_2_left_border {hd : Header} {M : TuringMachine} {s a b n o1 o2 : Str}
    {d1 : Char} (X : BlockCtx hd M s a b n o1 o2 d1 hd.HEAD_LEFT) (g0 : Globals) :
    map_find (reduced hd M g0).transitions
        (make_in (make_user_state (compose_state s a b) MOVE_HEAD_LEFT 2)
          (setup_globals hd M g0).TAPE_BORDER) = none := by
  cases hf : map_find (reduced hd M g0).transitions
      (make_in (make_user_state (compose_state s a b) MOVE_HEAD_LEFT 2)
        (setup_globals hd M g0).TAPE_BORDER) with
  | none => rfl
  | some v =>
    exfalso
    have hk : BlockKey hd (setup_globals hd M g0) s a b
        (make_in (make_user_state (compose_state s a b) MOVE_HEAD_LEFT 2)
          (setup_globals hd M g0).TAPE_BORDER) :=
      Or.inr ⟨MOVE_HEAD_LEFT, 2, Or.inr rfl, rfl⟩
    have hid := working_alphabet_ident X.wf X.valid X.two
    obtain ⟨hs, -, -, -⟩ := X.parts
    obtain ⟨ha, hb, -, -⟩ := X.letters
    rcases reduced_entry X.valid X.two g0 (map_find_mem hf) with
      h | ⟨s1, a1, b1, n1, p1, p2, e1, e2, ht, h⟩
    · exact initKey_disjoint X.wf (head_not_mem_input hd M g0) h hk
    · have X1 : BlockCtx hd M s1 a1 b1 n1 p1 p2 e1 e2 := ⟨X.wf, X.valid, X.two, ht⟩
      obtain ⟨hs1, -, -, -⟩ := X1.parts
      obtain ⟨ha1, hb1, -, -⟩ := X1.letters
      obtain ⟨rfl, rfl, rfl⟩ := blockKey_disjoint hs1 (hid _ ha1) (hid _ hb1) hs (hid _ ha)
        (hid _ hb) (two_to_one_writes_keys _ _ _ _ _ _ _ _ _ _ _ _ h) hk
      have e := nodup_keys_eq X.valid.2 ht X.mem rfl
      simp only [Prod.mk.injEq, List.cons.injEq, and_true, true_and] at e
      obtain ⟨rfl, ⟨rfl, rfl⟩, rfl, rfl⟩ := e
      exact two_to_one_writes_left_border X.wf (fresh_setup X.wf X.valid X.two g0)
        _ _ _ _ _ _ _ _ h rfl

/-- When the second head cannot move to the left, the reduced machine gets
stuck on the border in a state that is not accepting. -/
theorem phase_tape_2_stuck {hd : Header} {M : TuringMachine} {s a b n o1 o2 : Str} {d1 : Char}
    (X : BlockCtx hd M s a b n o1 o2 d1 hd.HEAD_LEFT) (g0 : Globals) (Q R2 : List Str) :
    ∃ d, Reach hd (reduced hd M g0)
      ⟨make_user_state (compose_state s a b) TO_SECOND_TAPE 2,
        [⟨(setup_globals hd M g0).TAPE_BORDER :: Q,
          make_logical_head (setup_globals hd M g0) b, R2⟩]⟩ d
      ∧ step hd (reduced hd M g0) d = none ∧ d.state ≠ hd.ACCEPTING_STATE := by
  obtain ⟨f1, -⟩ := find_tape_2_left X g0
  refine ⟨_, reach_step (step_left f1), step_none (find_tape_2_left_border X g0), ?_⟩
  intro e
  exact X.wf.accepting_fresh.1 (by rw [← e]; exact make_user_state_take _ _ _)

theorem make_init_states_writes_consistent {hd : Header} (hh : hd.WellFormed) {g : Globals}
    {ia : List Str} (hia : ∀ x ∈ ia, x ≠ hd.BLANK)
    (hhb : ∀ x, make_logical_head g x ≠ g.TAPE_BORDER) :
    ∀ e1 ∈ make_init_states_writes hd g ia, ∀ e2 ∈ make_init_states_writes hd g ia,
      e1.1 = e2.1 → e1.2 = e2.2 := by
  have h6 : hd.INITIAL_STATE.take 6 ≠ "(init-".toList := hh.initial_fresh.2
  have i1 : hd.INITIAL_STATE ≠ INIT_FIND_SECOND_TAPE := fun e => h6 (by rw [e]; rfl)
  have i2 : hd.INITIAL_STATE ≠ INIT_PUT_SECOND_HEAD := fun e => h6 (by rw [e]; rfl)
  have i3 : hd.INITIAL_STATE ≠ INIT_PUT_END_OF_SECOND_HEAD := fun e => h6 (by rw [e]; rfl)
  have i4 : hd.INITIAL_STATE ≠ INIT_BACK_TO_BORDER := fun e => h6 (by rw [e]; rfl)
  have i5 : hd.INITIAL_STATE ≠ INIT_BACK_TO_FRONT := fun e => h6 (by rw [e]; rfl)
  have c1 : INIT_FIND_SECOND_TAPE ≠ INIT_PUT_SECOND_HEAD := by decide
  have c2 : INIT_FIND_SECOND_TAPE ≠ INIT_PUT_END_OF_SECOND_HEAD := by decide
  have c3 : INIT_FIND_SECOND_TAPE ≠ INIT_BACK_TO_BORDER := by decide
  have c4 : INIT_FIND_SECOND_TAPE ≠ INIT_BACK_TO_FRONT := by decide
  have c5 : INIT_PUT_SECOND_HEAD ≠ INIT_PUT_END_OF_SECOND_HEAD := by decide
  have c6 : INIT_PUT_SECOND_HEAD ≠ INIT_BACK_TO_BORDER := by decide
  have c7 : INIT_PUT_SECOND_HEAD ≠ INIT_BACK_TO_FRONT := by decide
  have c8 : INIT_PUT_END_OF_SECOND_HEAD ≠ INIT_BACK_TO_BORDER := by decide
  have c9 : INIT_PUT_END_OF_SECOND_HEAD ≠ INIT_BACK_TO_FRONT := by decide
  have c10 : INIT_BACK_TO_BORDER ≠ INIT_BACK_TO_FRONT := by decide
  have hia1 : ∀ x ∈ ia, hd.BLANK ≠ x := fun x hx e => hia x hx e.symm
  have hhb1 : ∀ x, g.TAPE_BORDER ≠ make_logical_head g x := fun x e => hhb x e.symm
  simp only [make_init_states_writes, List.forall_mem_append, List.forall_mem_map,
    List.forall_mem_cons, List.forall_mem_singleton, List.not_mem_nil, false_imp_iff,
    implies_true, and_true]
  simp +contextual [make_in_inj, i1, i2, i3, i4, i5, c1, c2, c3, c4, c5, c6, c7, c8, c9, c10,
    i1.symm, i2.symm, i3.symm, i4.symm, i5.symm, c1.symm, c2.symm, c3.symm, c4.symm, c5.symm,
    c6.symm, c7.symm, c8.symm, c9.symm, c10.symm, hia, hia1, hhb, hhb1]

/-- An assignment of `make_init_states` gives the entry of the reduced
machine for its key. -/
theorem reduced_find_init {hd : Header} (hh : hd.WellFormed) {M : TuringMachine}
    (hM : M.Valid hd) (h2 : M.num_tapes = 2) (g0 : Globals) {k : Key} {v : Val}
    (h : (k, v) ∈ make_init_states_writes hd (setup_globals hd M g0) M.input_alphabet) :
    map_find (reduced hd M g0).transitions k = some v := by
  apply merged_table_find_init hh hM h2 g0
  apply map_find_mem
  apply map_find_of_writes h
  intro e he hk
  have hF := fresh_setup hh hM h2 g0
  exact make_init_states_writes_consistent hh (fun x hx => ((valid_parts hM).2.2.1 x hx).2)
    hF.head_ne_border
    e he (k, v) h hk

/-- The run of the initialisation block, for any one-tape machine whose
table holds the assignments of `make_init_states`: started on the word `w` it
marks the first cell, puts the border, a marked blank and the end marker after
the word and stops on the first cell in the state `INIT_BACK_TO_FRONT`. -/
theorem init_block_run {hd : Header} (hne : hd.HEAD_LEFT ≠ hd.HEAD_RIGHT) {M1 : TuringMachine}
    {g : Globals} {A : List Str}
    (f : ∀ k v, (k, v) ∈ make_init_states_writes hd g A →
      map_find M1.transitions k = some v)
    {w : List Str} (hw : ∀ x ∈ w, x ∈ A) :
    Reach hd M1 ⟨hd.INITIAL_STATE, [Tape.initial hd w]⟩
      ⟨INIT_BACK_TO_FRONT,
        [encode_tapes g (Tape.initial hd w) (Tape.initial hd [])]⟩ := by
  have key : ∀ (x : Str) (r : List Str), (x ∈ A ∨ x = hd.BLANK) →
      (∀ y ∈ r, y ∈ A) →
      Reach hd M1 ⟨hd.INITIAL_STATE, [⟨[], x, r⟩]⟩
        ⟨INIT_BACK_TO_FRONT,
          [⟨[], make_logical_head g x,
            r ++ g.TAPE_BORDER ::
              [make_logical_head g hd.BLANK,
                g.TAPE_END]⟩]⟩ := by
    intro x r hx hr
    have f1 : map_find M1.transitions (make_in hd.INITIAL_STATE x)
        = some (make_out INIT_FIND_SECOND_TAPE (make_logical_head g x)
            hd.HEAD_RIGHT) := by
      apply f
      rcases hx with hx | rfl
      · simp only [make_init_states_writes, List.mem_append, List.mem_map]
        exact Or.inl (Or.inl (Or.inl (Or.inl ⟨x, hx, rfl⟩)))
      · simp [make_init_states_writes]
    have f2 : ∀ y ∈ A,
        map_find M1.transitions (make_in INIT_FIND_SECOND_TAPE y)
          = some (make_out INIT_FIND_SECOND_TAPE y hd.HEAD_RIGHT) := by
      intro y hy
      apply f
      simp only [make_init_states_writes, List.mem_append, List.mem_map]
      exact Or.inl (Or.inl (Or.inr ⟨y, hy, rfl⟩))
    have m3 : ∀ k v, (k, v) ∈ [(make_in INIT_FIND_SECOND_TAPE hd.BLANK,
          make_out INIT_PUT_SECOND_HEAD g.TAPE_BORDER hd.HEAD_RIGHT),
        (make_in INIT_PUT_SECOND_HEAD hd.BLANK,
          make_out INIT_PUT_END_OF_SECOND_HEAD
            (make_logical_head g hd.BLANK) hd.HEAD_RIGHT),
        (make_in INIT_PUT_END_OF_SECOND_HEAD hd.BLANK,
          make_out INIT_BACK_TO_BORDER g.TAPE_END hd.HEAD_LEFT),
        (make_in INIT_BACK_TO_BORDER (make_logical_head g hd.BLANK),
          make_out INIT_BACK_TO_BORDER (make_logical_head g hd.BLANK)
            hd.HEAD_LEFT),
        (make_in INIT_BACK_TO_BORDER g.TAPE_BORDER,
          make_out INIT_BACK_TO_FRONT g.TAPE_BORDER hd.HEAD_LEFT)] →
        map_find M1.transitions k = some v := by
      intro k v h
      apply f
      simp only [make_init_states_writes, List.mem_append]
      exact Or.inl (Or.inr h)
    have g1 : map_find M1.transitions (make_in INIT_FIND_SECOND_TAPE hd.BLANK)
        = some (make_out INIT_PUT_SECOND_HEAD g.TAPE_BORDER
            hd.HEAD_RIGHT) := m3 _ _ (by simp)
    have g2 : map_find M1.transitions (make_in INIT_PUT_SECOND_HEAD hd.BLANK)
        = some (make_out INIT_PUT_END_OF_SECOND_HEAD
            (make_logical_head g hd.BLANK) hd.HEAD_RIGHT) :=
      m3 _ _ (by simp)
    have g3 : map_find M1.transitions
          (make_in INIT_PUT_END_OF_SECOND_HEAD hd.BLANK)
        = some (make_out INIT_BACK_TO_BORDER g.TAPE_END hd.HEAD_LEFT) :=
      m3 _ _ (by simp)
    have g4 : map_find M1.transitions
          (make_in INIT_BACK_TO_BORDER (make_logical_head g hd.BLANK))
        = some (make_out INIT_BACK_TO_BORDER
            (make_logical_head g hd.BLANK) hd.HEAD_LEFT) :=
      m3 _ _ (by simp)
    have g5 : map_find M1.transitions
          (make_in INIT_BACK_TO_BORDER g.TAPE_BORDER)
        = some (make_out INIT_BACK_TO_FRONT g.TAPE_BORDER
            hd.HEAD_LEFT) := m3 _ _ (by simp)
    have f4 : ∀ y ∈ A,
        map_find M1.transitions (make_in INIT_BACK_TO_FRONT y)
          = some (make_out INIT_BACK_TO_FRONT y hd.HEAD_LEFT) := by
      intro y hy
      apply f
      simp only [make_init_states_writes, List.mem_append, List.mem_map]
      exact Or.inr ⟨y, hy, rfl⟩
    have s1 : step hd M1 ⟨hd.INITIAL_STATE, [⟨[], x, r⟩]⟩ = _ :=
      step_right hne f1
    have s2 := scan_right hne r (fun y hy => f2 y (hr y hy)) [make_logical_head g x] []
    rw [List.append_nil] at s2
    have s3 : step hd M1
        ⟨INIT_FIND_SECOND_TAPE,
          [⟨r.reverse ++ [make_logical_head g x], hd.BLANK, []⟩]⟩ = _ :=
      step_right hne g1
    have s4 : step hd M1
        ⟨INIT_PUT_SECOND_HEAD,
          [⟨g.TAPE_BORDER
            :: (r.reverse ++ [make_logical_head g x]), hd.BLANK, []⟩]⟩ = _ :=
      step_right hne g2
    have s5 : step hd M1
        ⟨INIT_PUT_END_OF_SECOND_HEAD,
          [⟨make_logical_head g hd.BLANK
            :: g.TAPE_BORDER
            :: (r.reverse ++ [make_logical_head g x]), hd.BLANK, []⟩]⟩ = _ :=
      step_left g3
    have s6 : step hd M1
        ⟨INIT_BACK_TO_BORDER,
          [⟨g.TAPE_BORDER
            :: (r.reverse ++ [make_logical_head g x]),
            make_logical_head g hd.BLANK,
            [g.TAPE_END]⟩]⟩ = _ :=
      step_left g4
    have s7 : step hd M1
        ⟨INIT_BACK_TO_BORDER,
          [⟨r.reverse ++ [make_logical_head g x],
            g.TAPE_BORDER,
            [make_logical_head g hd.BLANK,
              g.TAPE_END]⟩]⟩ = _ :=
      step_left_at (by simp) g5
    have s8 := scan_left r.reverse (fun y hy => f4 y (hr y (List.mem_reverse.1 hy)))
      (make_logical_head g x) []
      (g.TAPE_BORDER ::
        [make_logical_head g hd.BLANK, g.TAPE_END])
    rw [List.reverse_reverse] at s8
    refine reach_head s1 (s2.trans ?_)
    exact reach_head s3 (reach_head s4 (reach_head s5 (reach_head s6 (reach_head s7 s8))))
  cases w with
  | nil => exact key hd.BLANK [] (Or.inr rfl) (by simp)
  | cons x r =>
    exact key x r (Or.inl (hw x (List.mem_cons_self _ _)))
      (fun y hy => hw y (List.mem_cons_of_mem _ hy))

/-- The initialisation of the reduced machine: started on the word `w` it
lays out the encoding of the two start tapes and stops on the marked first
cell in the state `INIT_BACK_TO_FRONT`. -/
theorem init_run {hd : Header} (hh : hd.WellFormed) {M : TuringMachine}
    (hM : M.Valid hd) (h2 : M.num_tapes = 2) (g0 : Globals) {w : List Str}
    (hw : ∀ x ∈ w, x ∈ M.input_alphabet) :
    Reach hd (reduced hd M g0) (initial_config hd (reduced hd M g0) w)
      ⟨INIT_BACK_TO_FRONT,
        [encode_tapes (setup_globals hd M g0) (Tape.initial hd w) (Tape.initial hd [])]⟩ :=
  init_block_run hh.left_ne_right (fun _ _ h => reduced_find_init hh hM h2 g0 h) hw

/-- A step of a valid two-tape machine: either no transition applies, or the
transition for the state and the two letters under the heads writes and moves
on both tapes. -/
theorem step_two {hd : Header} (hh : hd.WellFormed) {M : TuringMachine} (hM : M.Valid hd)
    (h2 : M.num_tapes = 2) (q : Str) (T1 T2 : Tape) :
    (map_find M.transitions (q, [T1.cur, T2.cur]) = none ∧ step hd M ⟨q, [T1, T2]⟩ = none)
      ∨ ∃ n o1 o2 d1 d2, BlockCtx hd M q T1.cur T2.cur n o1 o2 d1 d2
        ∧ step hd M ⟨q, [T1, T2]⟩
          = match T1.write_move hd o1 d1, T2.write_move hd o2 d2 with
            | some U1, some U2 => some ⟨n, [U1, U2]⟩
            | _, _ => none := by
  cases hf : map_find M.transitions (q, [T1.cur, T2.cur]) with
  | none =>
    left
    refine ⟨rfl, ?_⟩
    simp only [step, List.map_cons, List.map_nil, hf]
  | some v =>
    right
    have hmem := map_find_mem hf
    obtain ⟨_, _, _, htr⟩ := valid_parts hM
    rw [h2] at htr
    obtain ⟨s, a, b, n, o1, o2, d1, d2, he, -⟩ := transition_asserts_two (htr _ hmem)
    simp only [Prod.mk.injEq, List.cons.injEq, and_true] at he
    obtain ⟨⟨rfl, rfl, rfl⟩, rfl⟩ := he
    refine ⟨n, o1, o2, d1, d2, ⟨hh, hM, h2, hmem⟩, ?_⟩
    simp only [step, List.map_cons, List.map_nil, hf, write_move_all]
    cases T1.write_move hd o1 d1 <;> cases T2.write_move hd o2 d2 <;> rfl

theorem reach_trans_pos {hd : Header} {M : TuringMachine} {c c1 c2 : Config}
    (h : Reach hd M c c1) (h2 : ReachPos hd M c1 c2) : ReachPos hd M c c2 := by
  obtain ⟨n, hn⟩ := h
  cases n with
  | zero =>
    simp only [run, Option.some.injEq] at hn
    subst hn
    exact h2
  | succ n =>
    rw [run] at hn
    cases hs : step hd M c with
    | none => rw [hs] at hn; cases hn
    | some c0 =>
      rw [hs] at hn
      exact ⟨c0, hs, Reach.trans ⟨n, hn⟩ h2.reach⟩

/-- From a configuration that simulates one in which the transition of the
block applies, the reduced machine reaches the entry state of the block on the
same tape. -/
theorem reach_entry {hd : Header} {M : TuringMachine} {s n o1 o2 : Str} {d1 d2 : Char}
    {T1 T2 : Tape} (X : BlockCtx hd M s T1.cur T2.cur n o1 o2 d1 d2) (g0 : Globals) {st : Str}
    (hst : st = make_user_state (compose_state s T1.cur T2.cur) [] 1
      ∨ (s = hd.INITIAL_STATE ∧ T2.cur = hd.BLANK ∧ st = INIT_BACK_TO_FRONT)) :
    Reach hd (reduced hd M g0) ⟨st, [encode_tapes (setup_globals hd M g0) T1 T2]⟩
      ⟨make_user_state (compose_state s T1.cur T2.cur) [] 1,
        [encode_tapes (setup_globals hd M g0) T1 T2]⟩ := by
  rcases hst with rfl | ⟨rfl, hb, rfl⟩
  · exact Reach.refl _ _ _
  · obtain ⟨L2, c2, R2⟩ := T2
    simp only at hb
    subst hb
    exact reach_step (step_stay X.wf.left_ne_stay X.wf.right_ne_stay (find_entry X g0))

/-- Forward simulation: a step of the two-tape machine is matched by at least
one step of the reduced machine, ending in the accepting state if the
two-tape machine has entered it and in a simulating configuration otherwise. -/
theorem simulates_step {hd : Header} (hh : hd.WellFormed) {M : TuringMachine}
    (hM : M.Valid hd) (h2 : M.num_tapes = 2) (g0 : Globals) {c c1 e : Config}
    (hsim : Simulates hd M g0 c e) (hstep : step hd M c = some c1) :
    ∃ e1, ReachPos hd (reduced hd M g0) e e1
      ∧ ((c1.state = hd.ACCEPTING_STATE ∧ e1.state = hd.ACCEPTING_STATE)
        ∨ (c1.state ≠ hd.ACCEPTING_STATE ∧ Simulates hd M g0 c1 e1)) := by
  obtain ⟨q, ts⟩ := c
  obtain ⟨est, ets⟩ := e
  obtain ⟨T1, T2, ht, hT1, hT2, hq, het, hst⟩ := hsim
  simp only at ht hq het hst
  subst ht het
  rcases step_two hh hM h2 q T1 T2 with ⟨-, h⟩ | ⟨n, o1, o2, d1, d2, X, h⟩
  · rw [h] at hstep; cases hstep
  · rw [h] at hstep
    cases hm1 : T1.write_move hd o1 d1 with
    | none => rw [hm1] at hstep; cases hstep
    | some U1 =>
      cases hm2 : T2.write_move hd o2 d2 with
      | none => rw [hm1, hm2] at hstep; cases hstep
      | some U2 =>
        rw [hm1, hm2] at hstep
        simp only [Option.some.injEq] at hstep
        subst hstep
        have hblank := blank_mem_working_alphabet hd M
        obtain ⟨-, -, ho1, ho2⟩ := X.letters
        have hU1 := tape_over_write_move hblank hT1 ho1 hm1
        have hU2 := tape_over_write_move hblank hT2 ho2 hm2
        refine ⟨_, reach_trans_pos (reach_entry X g0 hst)
          (simulate_step X g0 hT1 hT2 rfl rfl hm1 hm2), ?_⟩
        by_cases hn : n = hd.ACCEPTING_STATE
        · left
          exact ⟨hn, by simp only [if_pos hn]⟩
        · right
          refine ⟨hn, U1, U2, rfl, hU1, hU2, X.parts.2.1, rfl, Or.inl ?_⟩
          simp only [if_neg hn]

theorem write_move_none {hd : Header} {T : Tape} {o : Str} {d : Char}
    (h : T.write_move hd o d = none) : d = hd.HEAD_LEFT ∧ T.left = [] := by
  unfold Tape.write_move at h
  split at h
  · next hd1 =>
    refine ⟨hd1, ?_⟩
    cases hl : T.left with
    | nil => rfl
    | cons x l => rw [hl] at h; cases h
  · split at h
    · split at h <;> cases h
    · cases h

theorem user_state_ne_accepting {hd : Header} (hh : hd.WellFormed) (st p : Str) (t : Int) :
    make_user_state st p t ≠ hd.ACCEPTING_STATE := fun e =>
  hh.accepting_fresh.1 (by rw [← e]; exact make_user_state_take _ _ _)

/-- When the two-tape machine cannot make a step, the reduced machine halts
in a state that is not accepting. -/
theorem simulates_halt {hd : Header} (hh : hd.WellFormed) {M : TuringMachine}
    (hM : M.Valid hd) (h2 : M.num_tapes = 2) (g0 : Globals) {c e : Config}
    (hsim : Simulates hd M g0 c e) (hstep : step hd M c = none) :
    ∃ d, Reach hd (reduced hd M g0) e d ∧ step hd (reduced hd M g0) d = none
      ∧ d.state ≠ hd.ACCEPTING_STATE := by
  obtain ⟨q, ts⟩ := c
  obtain ⟨est, ets⟩ := e
  obtain ⟨T1, T2, ht, hT1, hT2, hq, het, hst⟩ := hsim
  simp only at ht hq het hst
  subst ht het
  have hid := working_alphabet_ident hh hM h2
  rcases step_two hh hM h2 q T1 T2 with ⟨hnone, -⟩ | ⟨n, o1, o2, d1, d2, X, h⟩
  · refine ⟨_, Reach.refl _ _ _, ?_, ?_⟩
    · refine step_none (c := make_logical_head (setup_globals hd M g0) T1.cur)
        (reduced_find_none hh hM h2 g0 hq (hid _ hT1.2.1) (hid _ hT2.2.1) hnone ?_)
      rcases hst with rfl | ⟨rfl, hb, rfl⟩
      · exact Or.inr ⟨[], 1, Or.inl rfl, rfl⟩
      · exact Or.inl ⟨rfl, rfl, hb⟩
    · rcases hst with rfl | ⟨-, -, rfl⟩
      · exact user_state_ne_accepting hh _ _ _
      · exact fun e => hh.accepting_fresh.2 (by rw [← e]; rfl)
  · rw [h] at hstep
    have hentry := reach_entry X g0 hst
    obtain ⟨L1, c1, R1⟩ := T1
    obtain ⟨L2, c2, R2⟩ := T2
    simp only at X hentry
    cases hm1 : Tape.write_move hd ⟨L1, c1, R1⟩ o1 d1 with
    | none =>
      obtain ⟨rfl, hl⟩ := write_move_none hm1
      simp only at hl
      subst hl
      exact ⟨_, hentry, step_left_edge (find_tape_1_left X g0).1,
        user_state_ne_accepting hh _ _ _⟩
    | some U1 =>
      cases hm2 : Tape.write_move hd ⟨L2, c2, R2⟩ o2 d2 with
      | none =>
        obtain ⟨rfl, hl⟩ := write_move_none hm2
        simp only at hl
        subst hl
        have hblank := blank_mem_working_alphabet hd M
        have hU1 := tape_over_write_move hblank hT1 X.letters.2.2.1 hm1
        have pA := phase_tape_1 X g0 hT1.1 hT1.2.2 hm1 hT2.2.1 [] R2 (by simp) hT2.2.2
        have pB := phase_to_second X g0
          (make_logical_head (setup_globals hd M g0) U1.cur :: U1.left)
          U1.right [] hU1.2.2 (by simp) (make_logical_head (setup_globals hd M g0) c2)
          (R2 ++ [(setup_globals hd M g0).TAPE_END])
        obtain ⟨d, hd1, hd2, hd3⟩ := phase_tape_2_stuck X g0
          (U1.right.reverse ++ make_logical_head (setup_globals hd M g0) U1.cur :: U1.left)
          (R2 ++ [(setup_globals hd M g0).TAPE_END])
        exact ⟨d, hentry.trans (pA.reach.trans (pB.trans hd1)), hd2, hd3⟩
      | some U2 =>
        rw [hm1, hm2] at hstep
        cases hstep

/-! ### The equivalence -/

theorem run_succ_of_halted {hd : Header} {M : TuringMachine} {c : Config}
    (h : step hd M c = none) (n : Nat) : run hd M (n + 1) c = none := by
  rw [run, h]

/-- A run that has reached a configuration without successor is not longer
than that. -/
theorem run_le_of_halted {hd : Header} {M : TuringMachine} {c a d : Config} {N t : Nat}
    (hN : run hd M N c = some a) (ha : step hd M a = none) (ht : run hd M t c = some d) :
    t ≤ N := by
  by_contra hlt
  obtain ⟨m, rfl⟩ : ∃ m, t = N + (m + 1) := ⟨t - N - 1, by omega⟩
  rw [run_add, hN, Option.some_bind, run_succ_of_halted ha] at ht
  cases ht

theorem run_sub {hd : Header} {M : TuringMachine} {c a d : Config} {N t : Nat}
    (hN : run hd M N c = some a) (ht : run hd M t c = some d) (hle : t ≤ N) :
    run hd M (N - t) d = some a := by
  obtain ⟨m, rfl⟩ : ∃ m, N = t + m := ⟨N - t, by omega⟩
  rw [run_add, ht, Option.some_bind] at hN
  simpa using hN

theorem step_accepting {hd : Header} (hh : hd.WellFormed) {M : TuringMachine}
    (hM : M.Valid hd) (h2 : M.num_tapes = 2) (g0 : Globals) {c : Config}
    (hc : c.state = hd.ACCEPTING_STATE) : step hd (reduced hd M g0) c = none := by
  simp only [step, hc, reduced_find_accepting hh hM h2 g0]

/-- If the two-tape machine reaches the accepting state, so does the reduced
machine from any configuration that simulates the start. -/
theorem accepts_forward {hd : Header} (hh : hd.WellFormed) {M : TuringMachine}
    (hM : M.Valid hd) (h2 : M.num_tapes = 2) (g0 : Globals) :
    ∀ (k : Nat) (c c1 e : Config), Simulates hd M g0 c e → c.state ≠ hd.ACCEPTING_STATE →
      run hd M k c = some c1 → c1.state = hd.ACCEPTING_STATE →
      ∃ n e1, run hd (reduced hd M g0) n e = some e1 ∧ e1.state = hd.ACCEPTING_STATE := by
  intro k
  induction k with
  | zero =>
    intro c c1 e _ hne hrun hacc
    simp only [run, Option.some.injEq] at hrun
    subst hrun
    exact absurd hacc hne
  | succ k ih =>
    intro c c1 e hsim _ hrun hacc
    rw [run] at hrun
    cases hs : step hd M c with
    | none => rw [hs] at hrun; cases hrun
    | some c0 =>
      rw [hs] at hrun
      obtain ⟨e0, hreach, h | ⟨hne0, hsim0⟩⟩ := simulates_step hh hM h2 g0 hsim hs
      · obtain ⟨n, hn⟩ := hreach.reach
        exact ⟨n, e0, hn, h.2⟩
      · obtain ⟨n, e1, hn, he1⟩ := ih c0 c1 e0 hsim0 hne0 hrun hacc
        obtain ⟨e2, he2⟩ := (hreach.reach.trans ⟨n, hn⟩)
        exact ⟨e2, e1, he2, he1⟩

/-- If the reduced machine reaches the accepting state from a configuration
that simulates one of the two-tape machine, the two-tape machine reaches the
accepting state from there. -/
theorem accepts_backward {hd : Header} (hh : hd.WellFormed) {M : TuringMachine}
    (hM : M.Valid hd) (h2 : M.num_tapes = 2) (g0 : Globals) :
    ∀ (N : Nat) (c e e1 : Config), Simulates hd M g0 c e →
      run hd (reduced hd M g0) N e = some e1 → e1.state = hd.ACCEPTING_STATE →
      ∃ k c1, run hd M k c = some c1 ∧ c1.state = hd.ACCEPTING_STATE := by
  intro N
  induction N using Nat.strong_induction_on with
  | _ N ih =>
    intro c e e1 hsim hrun hacc
    have hhalt := step_accepting hh hM h2 g0 hacc
    cases hs : step hd M c with
    | none =>
      exfalso
      obtain ⟨d, ⟨t, ht⟩, hd1, hd2⟩ := simulates_halt hh hM h2 g0 hsim hs
      have hle := run_le_of_halted hrun hhalt ht
      have hsub := run_sub hrun ht hle
      cases hm : N - t with
      | zero =>
        rw [hm] at hsub
        simp only [run, Option.some.injEq] at hsub
        exact hd2 (hsub ▸ hacc)
      | succ m =>
        rw [hm, run_succ_of_halted hd1] at hsub
        cases hsub
    | some c0 =>
      obtain ⟨e0, ⟨e9, hstep9, t, ht⟩, h | ⟨-, hsim0⟩⟩ := simulates_step hh hM h2 g0 hsim hs
      · exact ⟨1, c0, by simp [run, hs], h.1⟩
      · have ht1 : run hd (reduced hd M g0) (t + 1) e = some e0 := by
          rw [run, hstep9]; exact ht
        have hle := run_le_of_halted hrun hhalt ht1
        have hsub := run_sub hrun ht1 hle
        obtain ⟨k, c1, hk, hc1⟩ := ih (N - (t + 1)) (by omega) c0 e0 e1 hsim0 hsub hacc
        exact ⟨k + 1, c1, by rw [run, hs]; exact hk, hc1⟩

/-- The start configuration of the two-tape machine is simulated by the
configuration that the initialisation of the reduced machine produces. -/
theorem simulates_initial {hd : Header} (hh : hd.WellFormed) {M : TuringMachine}
    (h2 : M.num_tapes = 2) (g0 : Globals) {w : List Str}
    (hw : ∀ x ∈ w, x ∈ M.input_alphabet) :
    Simulates hd M g0 (initial_config hd M w)
      ⟨INIT_BACK_TO_FRONT,
        [encode_tapes (setup_globals hd M g0) (Tape.initial hd w) (Tape.initial hd [])]⟩ := by
  have hblank := blank_mem_working_alphabet hd M
  have hsub : ∀ x ∈ M.input_alphabet, x ∈ M.working_alphabet hd := fun x hx =>
    (mem_working_alphabet hd M x).2 (Or.inl hx)
  refine ⟨Tape.initial hd w, Tape.initial hd [], ?_, ?_, ?_, hh.initial_ident, rfl,
    Or.inr ⟨rfl, rfl, rfl⟩⟩
  · simp only [initial_config, h2]
    rfl
  · cases w with
    | nil => exact ⟨by simp [Tape.initial], hblank, by simp [Tape.initial]⟩
    | cons x r =>
      exact ⟨by simp [Tape.initial], hsub x (hw x (List.mem_cons_self _ _)),
        fun y hy => hsub y (hw y (List.mem_cons_of_mem _ hy))⟩
  · exact ⟨by simp [Tape.initial], hblank, by simp [Tape.initial]⟩

/-- The equivalence for the variant of the step semantics in which a move to
the left from the first cell of a tape is not possible and halts the machine
(`step`, `accepts`): for every valid two-tape machine `M` and every word `w`
over the input alphabet of `M`, the reduction returns a machine `M1`, and `M`
reaches `ACCEPTING_STATE` on `w` if and only if `M1` does. -/
theorem reduce_equivalent_halting (hd : Header) (hh : hd.WellFormed) (M : TuringMachine)
    (hM : M.Valid hd) (h2 : M.num_tapes = 2) (g0 : Globals) (w : List Str)
    (hw : ∀ x ∈ w, x ∈ M.input_alphabet) :
    ∃ M1 g1, M.reduce_two_tapes_to_one hd g0 = .ok (M1, g1)
      ∧ (accepts hd M w ↔ accepts hd M1 w) := by
  refine ⟨_, _, reduce_ok hh hM h2 g0, ?_⟩
  have hsim := simulates_initial hh h2 g0 hw
  have hinit : Reach hd (reduced hd M g0) (initial_config hd (reduced hd M g0) w) _ :=
    init_run hh hM h2 g0 hw
  have hne : (initial_config hd M w).state ≠ hd.ACCEPTING_STATE := hh.initial_ne_accepting
  constructor
  · rintro ⟨k, c1, hk, hc1⟩
    obtain ⟨n, e1, hn, he1⟩ := accepts_forward hh hM h2 g0 k _ c1 _ hsim hne hk hc1
    obtain ⟨m, hm⟩ := hinit.trans ⟨n, hn⟩
    exact ⟨m, e1, hm, he1⟩
  · rintro ⟨N, e1, hN, he1⟩
    obtain ⟨t, ht⟩ := hinit
    have hN1 : run hd (reduced hd M g0) N (initial_config hd (reduced hd M g0) w) = some e1 := hN
    have hle := run_le_of_halted hN1 (step_accepting hh hM h2 g0 he1) ht
    exact accepts_backward hh hM h2 g0 _ _ _ e1 hsim (run_sub hN1 ht hle) he1

theorem is_valid_char_iff (c : Char) : is_valid_char c = true ↔ SpecChar c := by
  simp only [is_valid_char, SpecChar, Bool.or_eq_true, Bool.and_eq_true, decide_eq_true_eq,
    beq_iff_eq]
  tauto

theorem Idents.split_parts {w : Str} (h : Idents w) :
    ∃ parts : List Str, (∀ p ∈ parts, CodeId p) ∧ w = parts.flatten := by
  induction h with
  | nil => exact ⟨[], by simp, rfl⟩
  | char c v hc _ ih =>
    obtain ⟨ps, hps, rfl⟩ := ih
    refine ⟨[c] :: ps, ?_, by simp⟩
    intro p hp
    rcases List.mem_cons.1 hp with rfl | hp
    · exact CodeId.char c ((is_valid_char_iff c).1 hc)
    · exact hps p hp
  | group w v _ hne _ ihw ihv =>
    obtain ⟨ps, hps, rfl⟩ := ihw
    obtain ⟨qs, hqs, rfl⟩ := ihv
    refine ⟨('(' :: ps.flatten ++ [')']) :: qs, ?_, by simp⟩
    intro p hp
    rcases List.mem_cons.1 hp with rfl | hp
    · exact CodeId.group ps (by rintro rfl; exact hne rfl) hps
    · exact hqs p hp

theorem CodeId.ident {s : Str} (h : CodeId s) : Ident s := by
  induction h with
  | char c hc => exact Or.inl ⟨c, (is_valid_char_iff c).2 hc, rfl⟩
  | group parts hne hparts ih =>
    clear hparts
    right
    refine ⟨parts.flatten, ?_, ?_, rfl⟩
    · clear hne
      induction parts with
      | nil => exact Idents.nil
      | cons p ps ihp =>
        rw [List.flatten_cons]
        exact Idents.append (Ident.idents (ih p (List.mem_cons_self _ _)))
          (ihp (fun q hq => ih q (List.mem_cons_of_mem _ hq)))
    · cases parts with
      | nil => exact absurd rfl hne
      | cons p ps =>
        rw [List.flatten_cons]
        intro e
        exact Ident.ne_nil (ih p (List.mem_cons_self _ _)) (List.append_eq_nil.1 e).1

theorem Ident.codeId {s : Str} (h : Ident s) : CodeId s := by
  rcases h with ⟨c, hc, rfl⟩ | ⟨w, hw, hne, rfl⟩
  · exact CodeId.char c ((is_valid_char_iff c).1 hc)
  · obtain ⟨ps, hps, rfl⟩ := hw.split_parts
    exact CodeId.group ps (by rintro rfl; exact hne rfl) hps

theorem CodeId.specId {s : Str} (h : CodeId s) : SpecId s := by
  induction h with
  | char c hc => exact SpecId.token [c] (by simp) (by simpa using hc)
  | group parts hne _ ih => exact SpecId.group parts hne ih

/-- C11, the claim as stated fails: the two-letter token `ab` belongs to the
language `Id` of the claim, and `is_identifier` rejects it. -/
theorem is_identifier_counterexample :
    SpecId "ab".toList ∧ is_identifier "ab".toList = false := by
  refine ⟨SpecId.token _ (by decide) ?_, by decide⟩
  intro c hc
  simp only [String.toList, List.mem_cons, List.mem_singleton, List.not_mem_nil, or_false] at hc
  rcases hc with rfl | rfl <;> simp [SpecChar]

/-- C11, amended: `is_identifier(s)` is true if and only if `s` belongs to the
language in which a token is a single character among `A-Z`, `a-z`, `0-9`, `_`
and `-`, and an identifier is such a token or `(` followed by one or more
identifiers followed by `)`.  Every string that `is_identifier` accepts belongs
to the language `Id` of the claim. -/
theorem is_identifier_language (s : Str) :
    (is_identifier s = true ↔ CodeId s) ∧ (is_identifier s = true → SpecId s) := by
  have h : is_identifier s = true ↔ CodeId s :=
    (is_identifier_iff s).trans ⟨Ident.codeId, CodeId.ident⟩
  exact ⟨h, fun hs => (h.1 hs).specId⟩

/-- C12: for every machine `M` and every string `x`, `x` occurs in
`M.working_alphabet()` if and only if `x` is in the input alphabet of `M`, or
`x` is `BLANK`, or `x` is a letter read or a letter written by some transition
of `M`. -/
theorem working_alphabet_members (hd : Header) (M : TuringMachine) (x : Str) :
    x ∈ M.working_alphabet hd
      ↔ x ∈ M.input_alphabet ∨ x = hd.BLANK
        ∨ (∃ t ∈ M.transitions, x ∈ t.1.2) ∨ (∃ t ∈ M.transitions, x ∈ t.2.2.1) := by
  rw [mem_working_alphabet]
  constructor
  · rintro (h | h | ⟨t, ht, h | h⟩)
    · exact Or.inl h
    · exact Or.inr (Or.inl h)
    · exact Or.inr (Or.inr (Or.inl ⟨t, ht, h⟩))
    · exact Or.inr (Or.inr (Or.inr ⟨t, ht, h⟩))
  · rintro (h | h | ⟨t, ht, h⟩ | ⟨t, ht, h⟩)
    · exact Or.inl h
    · exact Or.inr (Or.inl h)
    · exact Or.inr (Or.inr ⟨t, ht, Or.inl h⟩)
    · exact Or.inr (Or.inr ⟨t, ht, Or.inr h⟩)

/-- C17, the claim as stated fails: the letter `((a)(b))` is a valid
identifier of nesting depth 2, and after `set_number_of_parentheses` the
counter is 3. -/
theorem number_of_parentheses_counterexample :
    is_identifier "((a)(b))".toList = true
      ∧ max_nesting_depth ["((a)(b))".toList] = 2
      ∧ (set_number_of_parentheses Globals.initial ["((a)(b))".toList]).NUMBER_OF_PARENTHESES
          = 3 := by
  decide

theorem foldl_max_attained (f : Str → Int) (W : List Str) : ∀ (a : Int),
    W.foldl (fun d x => max d (f x)) a = a
      ∨ ∃ x ∈ W, f x = W.foldl (fun d x => max d (f x)) a := by
  induction W with
  | nil => intro a; exact Or.inl rfl
  | cons y W ih =>
    intro a
    simp only [List.foldl_cons]
    rcases ih (max a (f y)) with h | ⟨x, hx, h⟩
    · rw [h]
      rcases le_total a (f y) with hle | hle
      · exact Or.inr ⟨y, List.mem_cons_self _ _, by rw [max_eq_right hle]⟩
      · exact Or.inl (max_eq_left hle)
    · exact Or.inr ⟨x, List.mem_cons_of_mem _ hx, h⟩

/-- C17, amended: after `set_number_of_parentheses(W)` starting from
`NUMBER_OF_PARENTHESES = 0`, the counter equals the maximum number of `(`
characters in a letter of `W`; this is at least the maximum
parenthesis-nesting depth among the letters of `W`. -/
theorem number_of_parentheses_counts (W : List Str) :
    (set_number_of_parentheses Globals.initial W).NUMBER_OF_PARENTHESES = max_count_paren W
      ∧ (∀ x ∈ W, count_paren x ≤ max_count_paren W)
      ∧ (W ≠ [] → ∃ x ∈ W, count_paren x = max_count_paren W)
      ∧ max_nesting_depth W ≤ max_count_paren W := by
  have h1 : (set_number_of_parentheses Globals.initial W).NUMBER_OF_PARENTHESES
      = max_count_paren W := set_number_of_parentheses_eq W Globals.initial
  have h2 : ∀ x ∈ W, count_paren x ≤ max_count_paren W := by
    intro x hx
    rw [← h1]
    exact (set_number_of_parentheses_ge W Globals.initial).2 x hx
  refine ⟨h1, h2, ?_, foldl_max_mono _ _ nesting_depth_le_count W 0 0 le_rfl⟩
  intro hne
  rcases foldl_max_attained count_paren W 0 with h | h
  · cases W with
    | nil => exact absurd rfl hne
    | cons y W =>
      refine ⟨y, List.mem_cons_self _ _, le_antisymm (h2 y (List.mem_cons_self _ _)) ?_⟩
      have h3 : max_count_paren (y :: W) = 0 := h
      rw [h3, count_paren_eq]
      exact Int.ofNat_nonneg _
  · exact h

/-- A transition of a valid two-tape machine has two letters to read, two to
write and two directions. -/
theorem transition_shape {hd : Header} (hh : hd.WellFormed) {M : TuringMachine}
    (hM : M.Valid hd) (h2 : M.num_tapes = 2) {s a b n : Str} {outs : List Str} {dirs : Str}
    (ht : ((s, [a, b]), (n, outs, dirs)) ∈ M.transitions) :
    ∃ o1 o2 d1 d2, outs = [o1, o2] ∧ dirs = [d1, d2] ∧ BlockCtx hd M s a b n o1 o2 d1 d2 := by
  obtain ⟨_, _, _, htr⟩ := valid_parts hM
  rw [h2] at htr
  obtain ⟨s1, a1, b1, n1, o1, o2, d1, d2, he, -⟩ := transition_asserts_two (htr _ ht)
  simp only [Prod.mk.injEq, List.cons.injEq, and_true] at he
  obtain ⟨⟨rfl, rfl, rfl⟩, rfl, rfl, rfl⟩ := he
  exact ⟨o1, o2, d1, d2, rfl, rfl, hh, hM, h2, ht⟩

/-- C18: for every valid two-tape machine `M` with working alphabet `W`, every
transition `(s, [a, b]) -> (ACCEPTING_STATE, outs, dirs)` of `M` and all
letters `x`, `y` in `W`, the table of `reduce_two_tapes_to_one(M)` maps the key
`(make_user_state(s-(a)-(b), "backToFirstTape-" + y, 1), make_logical_head(x))`
to `(ACCEPTING_STATE, make_logical_head(x), HEAD_STAY)`. -/
theorem accepting_out_transition (hd : Header) (hh : hd.WellFormed) (M : TuringMachine)
    (hM : M.Valid hd) (h2 : M.num_tapes = 2) (g0 : Globals) (s a b : Str) (outs : List Str)
    (dirs : Str) (ht : ((s, [a, b]), (hd.ACCEPTING_STATE, outs, dirs)) ∈ M.transitions)
    (x y : Str) (hx : x ∈ M.working_alphabet hd) (hy : y ∈ M.working_alphabet hd) :
    ∃ M1 g1, M.reduce_two_tapes_to_one hd g0 = .ok (M1, g1)
      ∧ map_find M1.transitions
          (make_user_state (s ++ "-(".toList ++ a ++ ")-(".toList ++ b ++ ")".toList)
            ("backToFirstTape-".toList ++ y) 1, [make_logical_head g1 x])
        = some (hd.ACCEPTING_STATE, [make_logical_head g1 x], [hd.HEAD_STAY]) := by
  obtain ⟨o1, o2, d1, d2, rfl, rfl, X⟩ := transition_shape hh hM h2 ht
  refine ⟨_, _, reduce_ok hh hM h2 g0, ?_⟩
  have h := find_out X g0 y hy x hx
  rw [if_pos rfl] at h
  exact h

theorem accepting_out_transition_witness :
    ∃ M1 g1, scenario_machine.reduce_two_tapes_to_one stdHeader Globals.initial = .ok (M1, g1)
      ∧ map_find M1.transitions
          (make_user_state ("(start)".toList ++ "-(".toList ++ "_".toList ++ ")-(".toList
              ++ "_".toList ++ ")".toList)
            ("backToFirstTape-".toList ++ "_".toList) 1, [make_logical_head g1 "0".toList])
        = some (stdHeader.ACCEPTING_STATE, [make_logical_head g1 "0".toList],
            [stdHeader.HEAD_STAY]) :=
  accepting_out_transition stdHeader stdHeader_wellFormed scenario_machine
    scenario_machine_valid rfl Globals.initial "(start)".toList "_".toList "_".toList
    ["_".toList, "_".toList] ['-', '-'] (by decide) "0".toList "_".toList (by decide)
    (by decide)

/-- C19: for every valid two-tape machine `M` with working alphabet `W`, every
transition `(s, [a, b]) -> (n, outs, dirs)` of `M` with `n` different from
`ACCEPTING_STATE`, and all letters `x`, `y` in `W`, the table of
`reduce_two_tapes_to_one(M)` maps the key
`(make_user_state(s-(a)-(b), "backToFirstTape-" + y, 1), make_logical_head(x))`
to `(make_user_state(n + "-(" + x + ")-(" + y + ")", "", 1),
make_logical_head(x), HEAD_STAY)`; and whenever `M` has a transition keyed
`(n, [x, y])`, that target state with the letter `make_logical_head(x)` is a key
of the table: the entry of the block compiled for that transition. -/
theorem resuming_out_transition (hd : Header) (hh : hd.WellFormed) (M : TuringMachine)
    (hM : M.Valid hd) (h2 : M.num_tapes = 2) (g0 : Globals) (s a b n : Str) (outs : List Str)
    (dirs : Str) (ht : ((s, [a, b]), (n, outs, dirs)) ∈ M.transitions)
    (hn : n ≠ hd.ACCEPTING_STATE)
    (x y : Str) (hx : x ∈ M.working_alphabet hd) (hy : y ∈ M.working_alphabet hd) :
    ∃ M1 g1, M.reduce_two_tapes_to_one hd g0 = .ok (M1, g1)
      ∧ map_find M1.transitions
          (make_user_state (s ++ "-(".toList ++ a ++ ")-(".toList ++ b ++ ")".toList)
            ("backToFirstTape-".toList ++ y) 1, [make_logical_head g1 x])
        = some (make_user_state (n ++ "-(".toList ++ x ++ ")-(".toList ++ y ++ ")".toList) [] 1,
            [make_logical_head g1 x], [hd.HEAD_STAY])
      ∧ ((n, [x, y]) ∈ map_keys M.transitions →
          (make_user_state (n ++ "-(".toList ++ x ++ ")-(".toList ++ y ++ ")".toList) [] 1,
            [make_logical_head g1 x]) ∈ map_keys M1.transitions) := by
  obtain ⟨o1, o2, d1, d2, rfl, rfl, X⟩ := transition_shape hh hM h2 ht
  refine ⟨_, _, reduce_ok hh hM h2 g0, ?_, ?_⟩
  · have h := find_out X g0 y hy x hx
    rw [if_neg hn] at h
    exact h
  · intro hk
    obtain ⟨⟨k, n1, outs1, dirs1⟩, hmem, he⟩ := List.mem_map.1 hk
    simp only at he
    subst he
    obtain ⟨p1, p2, e1, e2, rfl, rfl, Y⟩ := transition_shape hh hM h2 hmem
    obtain ⟨-, -, hd1, -⟩ := Y.parts
    rcases hd1 with rfl | rfl | rfl
    · exact mem_keys_of_mem (map_find_mem (find_tape_1_left Y g0).1)
    · exact mem_keys_of_mem (map_find_mem (find_tape_1_right Y g0).1)
    · exact mem_keys_of_mem (map_find_mem (find_tape_1_stay Y g0))

theorem resuming_out_transition_witness :
    ∃ M1 g1, scenario_machine.reduce_two_tapes_to_one stdHeader Globals.initial = .ok (M1, g1)
      ∧ map_find M1.transitions
          (make_user_state ("(start)".toList ++ "-(".toList ++ "0".toList ++ ")-(".toList
              ++ "_".toList ++ ")".toList)
            ("backToFirstTape-".toList ++ "_".toList) 1, [make_logical_head g1 "0".toList])
        = some (make_user_state ("(start)".toList ++ "-(".toList ++ "0".toList
              ++ ")-(".toList ++ "_".toList ++ ")".toList) [] 1,
            [make_logical_head g1 "0".toList], [stdHeader.HEAD_STAY])
      ∧ (("(start)".toList, ["0".toList, "_".toList]) ∈ map_keys scenario_machine.transitions →
          (make_user_state ("(start)".toList ++ "-(".toList ++ "0".toList ++ ")-(".toList
              ++ "_".toList ++ ")".toList) [] 1,
            [make_logical_head g1 "0".toList]) ∈ map_keys M1.transitions) :=
  resuming_out_transition stdHeader stdHeader_wellFormed scenario_machine
    scenario_machine_valid rfl Globals.initial "(start)".toList "0".toList "_".toList
    "(start)".toList ["1".toList, "_".toList] ['>', '-'] (by decide) (by decide)
    "0".toList "_".toList (by decide) (by decide)

/-- C20: for every valid two-tape machine `M` and every letter `x`, the table
of `reduce_two_tapes_to_one(M)` has a key
`(INIT_BACK_TO_FRONT, make_logical_head(x))` if and only if `M` has a
transition keyed `(INITIAL_STATE, [x, BLANK])`; when it has, the key maps to
`(make_user_state(INITIAL_STATE + "-(" + x + ")-(" + BLANK + ")", "", 1),
make_logical_head(x), HEAD_STAY)`. -/
theorem entry_transition (hd : Header) (hh : hd.WellFormed) (M : TuringMachine)
    (hM : M.Valid hd) (h2 : M.num_tapes = 2) (g0 : Globals) (x : Str) :
    ∃ M1 g1, M.reduce_two_tapes_to_one hd g0 = .ok (M1, g1)
      ∧ ((INIT_BACK_TO_FRONT, [make_logical_head g1 x]) ∈ map_keys M1.transitions
          ↔ (hd.INITIAL_STATE, [x, hd.BLANK]) ∈ map_keys M.transitions)
      ∧ ((hd.INITIAL_STATE, [x, hd.BLANK]) ∈ map_keys M.transitions →
          map_find M1.transitions (INIT_BACK_TO_FRONT, [make_logical_head g1 x])
            = some (make_user_state
                (hd.INITIAL_STATE ++ "-(".toList ++ x ++ ")-(".toList ++ hd.BLANK
                  ++ ")".toList) [] 1,
              [make_logical_head g1 x], [hd.HEAD_STAY])) := by
  refine ⟨_, _, reduce_ok hh hM h2 g0, ?_⟩
  have hfind : (hd.INITIAL_STATE, [x, hd.BLANK]) ∈ map_keys M.transitions →
      map_find (reduced hd M g0).transitions
          (INIT_BACK_TO_FRONT, [make_logical_head (setup_globals hd M g0) x])
        = some (make_user_state
            (hd.INITIAL_STATE ++ "-(".toList ++ x ++ ")-(".toList ++ hd.BLANK ++ ")".toList)
              [] 1,
          [make_logical_head (setup_globals hd M g0) x], [hd.HEAD_STAY]) := by
    intro hk
    obtain ⟨⟨k, n1, outs1, dirs1⟩, hmem, he⟩ := List.mem_map.1 hk
    simp only at he
    subst he
    obtain ⟨p1, p2, e1, e2, rfl, rfl, Y⟩ := transition_shape hh hM h2 hmem
    exact find_entry Y g0
  refine ⟨⟨?_, fun hk => mem_keys_of_mem (map_find_mem (hfind hk))⟩, hfind⟩
  intro hk
  obtain ⟨⟨k, v⟩, hmem, he⟩ := List.mem_map.1 hk
  simp only at he
  subst he
  rcases reduced_entry hM h2 g0 hmem with h | ⟨s, a, b, n, o1, o2, d1, d2, ht, h⟩
  · exfalso
    rcases h with h | ⟨-, y, hy, h⟩
    · simp only [List.mem_cons, List.mem_singleton, List.not_mem_nil, or_false] at h
      rcases h with h | h | h | h | h
      · exact hh.initial_fresh.2 (by rw [← h]; rfl)
      all_goals revert h; decide
    · simp only [List.cons.injEq, and_true] at h
      exact head_not_mem_input hd M g0 x (h ▸ hy)
  · rcases two_to_one_writes_keys _ _ _ _ _ _ _ _ _ _ _ _ h with ⟨hk1, rfl, rfl⟩ | ⟨p, t, -, hk1⟩
    · simp only [make_in, Prod.mk.injEq, List.cons.injEq, and_true, true_and] at hk1
      rw [make_logical_head_inj hk1]
      exact mem_keys_of_mem ht
    · exact absurd hk1 (fun e => (init_front_ne_user _ _ _).1.1 e)

theorem entry_transition_witness :
    ∃ M1 g1, scenario_machine.reduce_two_tapes_to_one stdHeader Globals.initial = .ok (M1, g1)
      ∧ ((INIT_BACK_TO_FRONT, [make_logical_head g1 "0".toList]) ∈ map_keys M1.transitions
          ↔ (stdHeader.INITIAL_STATE, ["0".toList, stdHeader.BLANK])
              ∈ map_keys scenario_machine.transitions)
      ∧ ((stdHeader.INITIAL_STATE, ["0".toList, stdHeader.BLANK])
            ∈ map_keys scenario_machine.transitions →
          map_find M1.transitions (INIT_BACK_TO_FRONT, [make_logical_head g1 "0".toList])
            = some (make_user_state
                (stdHeader.INITIAL_STATE ++ "-(".toList ++ "0".toList ++ ")-(".toList
                  ++ stdHeader.BLANK ++ ")".toList) [] 1,
              [make_logical_head g1 "0".toList], [stdHeader.HEAD_STAY])) :=
  entry_transition stdHeader stdHeader_wellFormed scenario_machine scenario_machine_valid rfl
    Globals.initial "0".toList

theorem parenthesis_machine_valid : parenthesis_machine.Valid stdHeader :=
  ⟨by decide, by decide⟩

theorem foldl_max_init (f : Str → Int) (W : List Str) : ∀ (a b : Int),
    W.foldl (fun d x => max d (f x)) (max a b) = max a (W.foldl (fun d x => max d (f x)) b) := by
  induction W with
  | nil => intro a b; rfl
  | cons y W ih =>
    intro a b
    simp only [List.foldl_cons]
    rw [max_assoc, ih]

theorem max_count_paren_nonneg (W : List Str) : 0 ≤ max_count_paren W := by
  have h := set_number_of_parentheses_eq W Globals.initial
  have h1 := (set_number_of_parentheses_ge W Globals.initial).1
  rw [h] at h1
  exact h1

/-- The counter after `set_number_of_parentheses`: the larger of the counter
before and the maximum number of `(` in a letter. -/
theorem set_number_of_parentheses_max (W : List Str) (g : Globals)
    (hg : 0 ≤ g.NUMBER_OF_PARENTHESES) :
    (set_number_of_parentheses g W).NUMBER_OF_PARENTHESES
      = max g.NUMBER_OF_PARENTHESES (max_count_paren W) := by
  rw [set_number_of_parentheses_eq, max_count_paren, ← foldl_max_init, max_eq_left hg]

theorem setup_globals_eq {hd : Header} {M : TuringMachine} {g g1 : Globals}
    (h : (set_number_of_parentheses g (M.working_alphabet hd)).NUMBER_OF_PARENTHESES
      = (set_number_of_parentheses g1 (M.working_alphabet hd)).NUMBER_OF_PARENTHESES) :
    setup_globals hd M g = setup_globals hd M g1 := by
  have e : ∀ g2 : Globals, setup_globals hd M g2
      = ⟨(set_number_of_parentheses g2 (M.working_alphabet hd)).NUMBER_OF_PARENTHESES,
        wrap (set_number_of_parentheses g2 (M.working_alphabet hd)).NUMBER_OF_PARENTHESES
          "tape-border".toList,
        wrap (set_number_of_parentheses g2 (M.working_alphabet hd)).NUMBER_OF_PARENTHESES
          "tape-end".toList⟩ := fun _ => rfl
  rw [e g, e g1, h]

set_option maxRecDepth 100000 in
/-- C14, the claim as stated fails: after the reduction of a machine whose
alphabet has the letter `(a)`, the counter is 1, and the reduction of the
scenario machine, whose letters have no parenthesis, then uses safety depth 1
and the border `((tape-border))`, where the reduction from the initial state
uses 0 and `(tape-border)`; the two tables differ. -/
theorem reduce_state_counterexample :
    ∃ M1 g1 M2 g2 M3 g3,
      parenthesis_machine.reduce_two_tapes_to_one stdHeader Globals.initial = .ok (M1, g1)
      ∧ scenario_machine.reduce_two_tapes_to_one stdHeader g1 = .ok (M2, g2)
      ∧ scenario_machine.reduce_two_tapes_to_one stdHeader Globals.initial = .ok (M3, g3)
      ∧ g2.NUMBER_OF_PARENTHESES = 1 ∧ g3.NUMBER_OF_PARENTHESES = 0
      ∧ g2.TAPE_BORDER = "((tape-border))".toList ∧ g3.TAPE_BORDER = "(tape-border)".toList
      ∧ map_find M2.transitions (INIT_FIND_SECOND_TAPE, ["_".toList])
          = some (INIT_PUT_SECOND_HEAD, ["((tape-border))".toList], ['>'])
      ∧ map_find M3.transitions (INIT_FIND_SECOND_TAPE, ["_".toList])
          = some (INIT_PUT_SECOND_HEAD, ["(tape-border)".toList], ['>']) :=
  ⟨_, _, _, _, _, _,
    reduce_ok stdHeader_wellFormed parenthesis_machine_valid rfl Globals.initial,
    reduce_ok stdHeader_wellFormed scenario_machine_valid rfl _,
    reduce_ok stdHeader_wellFormed scenario_machine_valid rfl Globals.initial,
    by decide, by decide, by decide, by decide, by decide, by decide⟩

/-- C14, amended: the result of `reduce_two_tapes_to_one` depends on the
machine and on the value of the counter `NUMBER_OF_PARENTHESES` at the call,
which is never reset.  For all valid two-tape machines `M0` and `M`, reducing
`M` after having reduced `M0` from the initial state uses as safety depth the
larger of the maximum number of `(` in a letter of the working alphabet of
`M0` and of `M`; it yields the same machine and the same globals as reducing
`M` from the initial state whenever no letter of `M0` has more `(` than the
maximum for `M`. -/
theorem reduce_after_reduce (hd : Header) (hh : hd.WellFormed) (M0 M : TuringMachine)
    (hM0 : M0.Valid hd) (h20 : M0.num_tapes = 2) (hM : M.Valid hd) (h2 : M.num_tapes = 2) :
    ∃ M1 g1 M2 g2,
      M0.reduce_two_tapes_to_one hd Globals.initial = .ok (M1, g1)
      ∧ M.reduce_two_tapes_to_one hd g1 = .ok (M2, g2)
      ∧ g2.NUMBER_OF_PARENTHESES
          = max (max_count_paren (M0.working_alphabet hd)) (max_count_paren (M.working_alphabet hd))
      ∧ (max_count_paren (M0.working_alphabet hd) ≤ max_count_paren (M.working_alphabet hd) →
          M.reduce_two_tapes_to_one hd Globals.initial = .ok (M2, g2)) := by
  have hn0 : (setup_globals hd M0 Globals.initial).NUMBER_OF_PARENTHESES
      = max_count_paren (M0.working_alphabet hd) :=
    set_number_of_parentheses_eq _ Globals.initial
  have hn : (setup_globals hd M (setup_globals hd M0 Globals.initial)).NUMBER_OF_PARENTHESES
      = max (max_count_paren (M0.working_alphabet hd))
          (max_count_paren (M.working_alphabet hd)) := by
    rw [setup_globals_number, set_number_of_parentheses_max _ _
      (by rw [hn0]; exact max_count_paren_nonneg _), hn0]
  refine ⟨_, _, _, _, reduce_ok hh hM0 h20 Globals.initial, reduce_ok hh hM h2 _, hn, ?_⟩
  intro hle
  have e : setup_globals hd M (setup_globals hd M0 Globals.initial)
      = setup_globals hd M Globals.initial := by
    apply setup_globals_eq
    have h3 := hn
    rw [setup_globals_number, max_eq_right hle] at h3
    rw [h3]
    exact (set_number_of_parentheses_eq _ Globals.initial).symm
  rw [reduce_ok hh hM h2 Globals.initial, e]

theorem reduce_after_reduce_witness :
    ∃ M1 g1 M2 g2,
      scenario_machine.reduce_two_tapes_to_one stdHeader Globals.initial = .ok (M1, g1)
      ∧ parenthesis_machine.reduce_two_tapes_to_one stdHeader g1 = .ok (M2, g2)
      ∧ g2.NUMBER_OF_PARENTHESES = 1
      ∧ parenthesis_machine.reduce_two_tapes_to_one stdHeader Globals.initial
          = .ok (M2, g2) := by
  obtain ⟨M1, g1, M2, g2, h1, h2, h3, h4⟩ :=
    reduce_after_reduce stdHeader stdHeader_wellFormed scenario_machine parenthesis_machine
      scenario_machine_valid rfl parenthesis_machine_valid rfl
  exact ⟨M1, g1, M2, g2, h1, h2, h3.trans (by decide), h4 (by decide)⟩

/-- C16: for every input alphabet `A` of non-blank letters and every word `w`
over `A`, the one-tape machine whose table is exactly `make_init_states(A)`,
started in `INITIAL_STATE` with `w` on the tape and the head on the first cell,
halts after finitely many steps in state `INIT_BACK_TO_FRONT` with the head on
cell 0 and the tape holding `make_logical_head(w1), w2, ..., wn, TAPE_BORDER,
make_logical_head(BLANK), TAPE_END` (for the empty word the first cell holds
`make_logical_head(BLANK)`); no transition applies there.  The globals are
those after the setup calls of `reduce_two_tapes_to_one` for an alphabet `W`
that contains `A`. -/
theorem init_block_halts (hd : Header) (hh : hd.WellFormed) (g0 : Globals) (W A : List Str)
    (hA : ∀ x ∈ A, x ≠ hd.BLANK) (hAW : ∀ x ∈ A, x ∈ W) (w : List Str)
    (hw : ∀ x ∈ w, x ∈ A) (g : Globals)
    (hg : g = set_tape_end (set_tape_border (set_number_of_parentheses g0 W))) :
    ∃ n, run hd (init_machine hd g A) n (initial_config hd (init_machine hd g A) w)
        = some ⟨INIT_BACK_TO_FRONT,
            [⟨[], make_logical_head g (w.headD hd.BLANK),
              w.tail ++ [g.TAPE_BORDER, make_logical_head g hd.BLANK, g.TAPE_END]⟩]⟩
      ∧ map_find (init_machine hd g A).transitions
          (INIT_BACK_TO_FRONT, [make_logical_head g (w.headD hd.BLANK)]) = none
      ∧ step hd (init_machine hd g A)
          ⟨INIT_BACK_TO_FRONT,
            [⟨[], make_logical_head g (w.headD hd.BLANK),
              w.tail ++ [g.TAPE_BORDER, make_logical_head g hd.BLANK, g.TAPE_END]⟩]⟩
          = none := by
  have hN : g.NUMBER_OF_PARENTHESES = (set_number_of_parentheses g0 W).NUMBER_OF_PARENTHESES := by
    rw [hg]; rfl
  have hB : g.TAPE_BORDER = wrap g.NUMBER_OF_PARENTHESES "tape-border".toList := by
    rw [hg]; rfl
  have hhb : ∀ x, make_logical_head g x ≠ g.TAPE_BORDER := by
    intro x e
    rw [hB] at e
    exact head_ne_border x (wrap_inj e)
  have hfresh : ∀ x, make_logical_head g x ∉ A := by
    intro x hx
    refine wrap_not_mem (W := W) (fun y hy => ?_) _ (hAW _ hx)
    rw [hN]
    exact (set_number_of_parentheses_ge W g0).2 y hy
  have f : ∀ k v, (k, v) ∈ make_init_states_writes hd g A →
      map_find (init_machine hd g A).transitions k = some v := by
    intro k v h
    refine map_find_of_writes h (fun e he hk => ?_)
    exact make_init_states_writes_consistent hh hA hhb e he (k, v) h hk
  have hnone : map_find (init_machine hd g A).transitions
      (INIT_BACK_TO_FRONT, [make_logical_head g (w.headD hd.BLANK)]) = none := by
    refine map_find_of_writes_none (fun e he hk => ?_)
    rcases make_init_states_writes_keys hd g A e he with h | ⟨-, y, hy, h⟩
    · rw [hk] at h
      simp only [List.mem_cons, List.mem_singleton, List.not_mem_nil, or_false] at h
      rcases h with h | h | h | h | h
      · exact hh.initial_fresh.2 (by rw [← h]; rfl)
      all_goals revert h; decide
    · rw [hk] at h
      simp only [List.cons.injEq, and_true] at h
      exact hfresh _ (h ▸ hy)
  obtain ⟨n, hn⟩ := init_block_run hh.left_ne_right f hw
  have e : encode_tapes g (Tape.initial hd w) (Tape.initial hd [])
      = ⟨[], make_logical_head g (w.headD hd.BLANK),
          w.tail ++ [g.TAPE_BORDER, make_logical_head g hd.BLANK, g.TAPE_END]⟩ := by
    cases w <;> rfl
  rw [e] at hn
  exact ⟨n, hn, hnone, step_none hnone⟩

theorem init_block_halts_witness :
    ∃ n, run stdHeader
          (init_machine stdHeader
            (set_tape_end (set_tape_border (set_number_of_parentheses Globals.initial
              ["0".toList, "1".toList, "_".toList]))) ["0".toList, "1".toList]) n
          ⟨"(start)".toList, [⟨[], "0".toList, ["1".toList]⟩]⟩
        = some ⟨"(init-backToFront)".toList,
            [⟨[], "(0-H)".toList,
              ["1".toList, "(tape-border)".toList, "(_-H)".toList, "(tape-end)".toList]⟩]⟩
      ∧ step stdHeader
          (init_machine stdHeader
            (set_tape_end (set_tape_border (set_number_of_parentheses Globals.initial
              ["0".toList, "1".toList, "_".toList]))) ["0".toList, "1".toList])
          ⟨"(init-backToFront)".toList,
            [⟨[], "(0-H)".toList,
              ["1".toList, "(tape-border)".toList, "(_-H)".toList, "(tape-end)".toList]⟩]⟩
          = none := by
  obtain ⟨n, h1, -, h3⟩ := init_block_halts stdHeader stdHeader_wellFormed Globals.initial
    ["0".toList, "1".toList, "_".toList] ["0".toList, "1".toList] (by decide) (by decide)
    ["0".toList, "1".toList] (by decide) _ rfl
  exact ⟨n, h1, h3⟩

/-! ### The reader on a text without comments -/

theorem get_next_char_of_stream (c : Char) (s : List Char) (hs : s.head? ≠ some '#') :
    (Reader.of_stream (c :: s)).get_next_char = (some c, Reader.of_stream s) := by
  cases s with
  | nil => rfl
  | cons d s =>
    have hd : d ≠ '#' := fun e => hs (by rw [e]; rfl)
    simp [Reader.get_next_char, Reader.of_stream, fgetc, hd]

theorem skip_spaces_of_stream (s : List Char)
    (hs : s.head? ≠ some ' ' ∧ s.head? ≠ some '\t') :
    (Reader.of_stream s).skip_spaces = .ok (Reader.of_stream s) := by
  simp only [Reader.skip_spaces, Reader.skip_spaces_loop, Reader.of_stream]
  rw [if_neg (by simp [hs.1, hs.2])]

theorem skip_spaces_of_stream_space (s : List Char)
    (hs : s.head? ≠ some ' ' ∧ s.head? ≠ some '\t' ∧ s.head? ≠ some '#') :
    (Reader.of_stream (' ' :: s)).skip_spaces = .ok (Reader.of_stream s) := by
  have h1 : (Reader.of_stream (' ' :: s)).input.length + 2 = (s.length + 1) + 1 := rfl
  have h2 : (Reader.of_stream (' ' :: s)).next_char = some ' ' := rfl
  rw [Reader.skip_spaces, h1, Reader.skip_spaces_loop, if_pos (Or.inl h2),
    get_next_char_of_stream _ _ hs.2.2, Reader.skip_spaces_loop,
    if_neg (by simp [Reader.of_stream, hs.1, hs.2.1])]

theorem head_token_char {t : Str} (ht : Token t) (s : List Char) :
    ∃ c, (t ++ s).head? = some c ∧ TokenChar c := by
  obtain ⟨hne, hc⟩ := ht
  cases t with
  | nil => exact absurd rfl hne
  | cons c t => exact ⟨c, rfl, hc c (List.mem_cons_self _ _)⟩

theorem next_token_loop_of_stream (t : Str) (ht : ∀ c ∈ t, TokenChar c) (s : List Char)
    (hs : s = [] ∨ s.head? = some ' ' ∨ s.head? = some '\t' ∨ s.head? = some '\n') :
    ∀ (fuel : Nat) (res : Str), t.length + 1 ≤ fuel →
      Reader.next_token_loop fuel (Reader.of_stream (t ++ s)) res
        = .ok (res ++ t, Reader.of_stream s) := by
  induction t with
  | nil =>
    intro fuel res hf
    obtain ⟨f, rfl⟩ : ∃ f, fuel = f + 1 := ⟨fuel - 1, by simp at hf; omega⟩
    rw [Reader.next_token_loop]
    rcases hs with rfl | hs
    · simp [Reader.of_stream]
    · cases s with
      | nil => simp [Reader.of_stream]
      | cons d s =>
        simp only [List.head?_cons, Option.some.injEq] at hs
        simp only [List.nil_append, Reader.of_stream, List.head?_cons, List.append_nil]
        rw [if_pos (by tauto)]
  | cons c t ih =>
    intro fuel res hf
    obtain ⟨f, rfl⟩ : ∃ f, fuel = f + 1 := ⟨fuel - 1, by simp at hf; omega⟩
    have hc := ht c (List.mem_cons_self _ _)
    have hnext : (t ++ s).head? ≠ some '#' := by
      cases t with
      | nil =>
        rcases hs with rfl | hs | hs | hs
        · simp
        all_goals simp only [List.nil_append, hs]; decide
      | cons d t =>
        have := (ht d (List.mem_cons_of_mem _ (List.mem_cons_self _ _))).2.2.2
        simpa using this
    rw [Reader.next_token_loop]
    have e : (Reader.of_stream (c :: t ++ s)).next_char = some c := rfl
    simp only [e]
    rw [if_neg (by simp [hc.1, hc.2.1, hc.2.2.1])]
    rw [List.cons_append, get_next_char_of_stream _ _ hnext,
      ih (fun d hd => ht d (List.mem_cons_of_mem _ hd)) f (res ++ [c])
        (by simp at hf ⊢; omega)]
    simp

theorem available_of_token {t : Str} (ht : Token t) (s : List Char) :
    (Reader.of_stream (t ++ s)).is_next_token_available = true := by
  obtain ⟨c, hc, hcc⟩ := head_token_char ht s
  simp [Reader.is_next_token_available, Reader.of_stream, hc, hcc.2.2.1]

theorem available_of_newline (s : List Char) :
    (Reader.of_stream ('\n' :: s)).is_next_token_available = false := rfl

theorem available_of_nil : (Reader.of_stream []).is_next_token_available = false := rfl

theorem join_tokens_cons (t : Str) (ts : List Str) (s : Str) :
    join_tokens (t :: ts) s = t ++ (if ts = [] then s else ' ' :: join_tokens ts s) := by
  cases ts <;> simp [join_tokens]

theorem available_join_tokens {w : List Str} (hts : ∀ t ∈ w, Token t) (s : List Char) :
    (Reader.of_stream (join_tokens w ('\n' :: s))).is_next_token_available = !w.isEmpty := by
  cases w with
  | nil => rfl
  | cons t w =>
    rw [join_tokens_cons]
    exact available_of_token (hts t (List.mem_cons_self _ _)) _

/-- Reading a token of a line written with single spaces. -/
theorem next_token_join_tokens {t : Str} {w : List Str} (ht : Token t)
    (hts : ∀ u ∈ w, Token u) (s : List Char) :
    (Reader.of_stream (join_tokens (t :: w) ('\n' :: s))).next_token
      = .ok (t, Reader.of_stream (join_tokens w ('\n' :: s))) := by
  have hav := available_of_token ht (if w = [] then '\n' :: s else ' ' :: join_tokens w ('\n' :: s))
  rw [← join_tokens_cons] at hav
  have hfuel : t.length + 1
      ≤ (Reader.of_stream (join_tokens (t :: w) ('\n' :: s))).input.length + 2 := by
    rw [join_tokens_cons]
    simp only [Reader.of_stream, List.length_tail, List.length_append]
    omega
  rw [Reader.next_token, hav]
  simp only [Bool.not_true, Bool.false_eq_true, if_false]
  cases w with
  | nil =>
    have h := next_token_loop_of_stream t ht.2 ('\n' :: s) (Or.inr (Or.inr (Or.inr rfl)))
      _ [] hfuel
    simp only [join_tokens] at h ⊢
    rw [h]
    simp only [List.nil_append]
    rw [skip_spaces_of_stream _ (by simp)]
  | cons u w =>
    have hu := hts u (List.mem_cons_self _ _)
    have h := next_token_loop_of_stream t ht.2 (' ' :: join_tokens (u :: w) ('\n' :: s))
      (Or.inr (Or.inl rfl)) _ [] hfuel
    simp only [join_tokens] at h ⊢
    rw [h]
    simp only [List.nil_append]
    obtain ⟨c, hc, hcc⟩ := head_token_char hu
      (if w = [] then '\n' :: s else ' ' :: join_tokens w ('\n' :: s))
    rw [← join_tokens_cons] at hc
    rw [skip_spaces_of_stream_space _ (by
      rw [hc]
      simp [hcc.1, hcc.2.1, hcc.2.2.2])]

/-- Going to the next line from the end of a line, when the next line starts
with a token or the file ends. -/
theorem go_to_next_line_of_stream (s : List Char)
    (hs : s = [] ∨ ∃ c, s.head? = some c ∧ TokenChar c) :
    (Reader.of_stream ('\n' :: s)).go_to_next_line = .ok (Reader.of_stream s) := by
  have h1 : s.head? ≠ some '#' ∧ s.head? ≠ some ' ' ∧ s.head? ≠ some '\t'
      ∧ s.head? ≠ some '\n' := by
    rcases hs with rfl | ⟨c, hc, hcc⟩
    · simp
    · rw [hc]
      simp [hcc.1, hcc.2.1, hcc.2.2.1, hcc.2.2.2]
  have h2 : (Reader.of_stream ('\n' :: s)).input.length + 2 = (s.length + 1) + 1 := rfl
  have h3 : (Reader.of_stream ('\n' :: s)).next_char = some '\n' := rfl
  rw [Reader.go_to_next_line, available_of_newline]
  simp only [Bool.false_eq_true, if_false]
  rw [h2, Reader.go_to_next_line_loop, if_pos h3, get_next_char_of_stream _ _ h1.1,
    skip_spaces_of_stream _ ⟨h1.2.1, h1.2.2.1⟩]
  simp only []
  rw [Reader.go_to_next_line_loop, if_neg (by simpa [Reader.of_stream] using h1.2.2.2)]

theorem create_of_stream {t : Str} (ht : Token t) (s : List Char) :
    Reader.create (t ++ s) = .ok (Reader.of_stream (t ++ s)) := by
  obtain ⟨c, hc, hcc⟩ := head_token_char ht s
  have e : (Reader.get_next_char ⟨t ++ s, none⟩).2 = Reader.of_stream (t ++ s) := by
    obtain ⟨hne, -⟩ := ht
    cases t with
    | nil => exact absurd rfl hne
    | cons d t =>
      simp only [List.cons_append, List.head?_cons, Option.some.injEq] at hc
      subst hc
      simp [Reader.get_next_char, Reader.of_stream, fgetc, hcc.2.2.2]
  rw [Reader.create, e, skip_spaces_of_stream _ (by rw [hc]; simp [hcc.1, hcc.2.1])]
  simp only [available_of_token ht, Bool.not_true, Bool.false_eq_true, if_false]

/-! ### Identifiers, numbers and directions as tokens -/

theorem token_char_of_valid {c : Char} (h : is_valid_char c = true ∨ c = '(' ∨ c = ')') :
    TokenChar c := by
  refine ⟨?_, ?_, ?_, ?_⟩ <;>
  · rintro rfl
    revert h
    decide

theorem Idents.chars {w : Str} (h : Idents w) :
    ∀ c ∈ w, is_valid_char c = true ∨ c = '(' ∨ c = ')' := by
  induction h with
  | nil => intro c hc; cases hc
  | char c v hc _ ih =>
    intro d hd
    rcases List.mem_cons.1 hd with rfl | hd
    · exact Or.inl hc
    · exact ih d hd
  | group w v _ _ _ ihw ihv =>
    intro d hd
    simp only [List.mem_cons, List.mem_append] at hd
    rcases hd with (rfl | hd) | rfl | hd
    · exact Or.inr (Or.inl rfl)
    · exact ihw d hd
    · exact Or.inr (Or.inr rfl)
    · exact ihv d hd

theorem token_of_identifier {s : Str} (h : is_identifier s = true) : Token s := by
  have hi := (is_identifier_iff s).1 h
  exact ⟨hi.ne_nil, fun c hc => token_char_of_valid (hi.idents.chars c hc)⟩

theorem read_identifier_join_tokens {t : Str} {w : List Str} (ht : is_identifier t = true)
    (hts : ∀ u ∈ w, Token u) (s : List Char) :
    read_identifier (Reader.of_stream (join_tokens (t :: w) ('\n' :: s)))
      = .ok (t, Reader.of_stream (join_tokens w ('\n' :: s))) := by
  have htok := token_of_identifier ht
  have hav := available_join_tokens (w := t :: w) (by
    intro u hu
    rcases List.mem_cons.1 hu with rfl | hu
    · exact htok
    · exact hts u hu) s
  rw [read_identifier, hav, next_token_join_tokens htok hts]
  simp [ht]

theorem read_identifiers_join_tokens (ls : List Str) (hls : ∀ l ∈ ls, is_identifier l = true)
    {w : List Str} (hts : ∀ u ∈ w, Token u) (s : List Char) :
    read_identifiers ls.length (Reader.of_stream (join_tokens (ls ++ w) ('\n' :: s)))
      = .ok (ls, Reader.of_stream (join_tokens w ('\n' :: s))) := by
  induction ls with
  | nil => rfl
  | cons l ls ih =>
    have h1 := read_identifier_join_tokens (hls l (List.mem_cons_self _ _)) (w := ls ++ w)
      (by
        intro u hu
        rcases List.mem_append.1 hu with hu | hu
        · exact token_of_identifier (hls u (List.mem_cons_of_mem _ hu))
        · exact hts u hu) s
    simp only [List.length_cons, read_identifiers, List.cons_append, h1,
      ih (fun u hu => hls u (List.mem_cons_of_mem _ hu))]

theorem read_directions_join_tokens {hd : Header} (hlex : hd.Lexical) (ds : Str)
    (hds : ∀ d ∈ ds, is_direction hd d = true)
    {w : List Str} (hts : ∀ u ∈ w, Token u) (s : List Char) :
    read_directions hd ds.length
        (Reader.of_stream (join_tokens (ds.map (fun d => [d]) ++ w) ('\n' :: s)))
      = .ok (ds, Reader.of_stream (join_tokens w ('\n' :: s))) := by
  have hdir : ∀ d, is_direction hd d = true → Token [d] := by
    intro d h
    simp only [is_direction, Bool.or_eq_true, beq_iff_eq] at h
    refine ⟨by simp, fun c hc => ?_⟩
    rw [List.mem_singleton.1 hc]
    rcases h with (rfl | rfl) | rfl
    · exact hlex.left
    · exact hlex.right
    · exact hlex.stay
  induction ds with
  | nil => rfl
  | cons d ds ih =>
    have hd1 := hds d (List.mem_cons_self _ _)
    have hrest : ∀ u ∈ ds.map (fun d => [d]) ++ w, Token u := by
      intro u hu
      rcases List.mem_append.1 hu with hu | hu
      · obtain ⟨e, he, rfl⟩ := List.mem_map.1 hu
        exact hdir e (hds e (List.mem_cons_of_mem _ he))
      · exact hts u hu
    have hav := available_join_tokens (w := [d] :: (ds.map (fun d => [d]) ++ w)) (by
      intro u hu
      rcases List.mem_cons.1 hu with rfl | hu
      · exact hdir d hd1
      · exact hrest u hu) s
    simp only [List.length_cons, read_directions, List.map_cons, List.cons_append, hav,
      next_token_join_tokens (hdir d hd1) hrest, hd1,
      ih (fun u hu => hds u (List.mem_cons_of_mem _ hu))]
    simp

theorem read_input_alphabet_join_tokens (hd : Header) (ia : List Str)
    (hia : ∀ l ∈ ia, is_identifier l = true ∧ l ≠ hd.BLANK) (s : List Char) :
    ∀ (fuel : Nat) (acc : List Str), ia.length + 1 ≤ fuel →
      read_input_alphabet hd fuel (Reader.of_stream (join_tokens ia ('\n' :: s))) acc
        = .ok (acc ++ ia, Reader.of_stream ('\n' :: s)) := by
  induction ia with
  | nil =>
    intro fuel acc hf
    obtain ⟨f, rfl⟩ : ∃ f, fuel = f + 1 := ⟨fuel - 1, by simp at hf; omega⟩
    simp [read_input_alphabet, join_tokens, available_of_newline]
  | cons l ia ih =>
    intro fuel acc hf
    obtain ⟨f, rfl⟩ : ∃ f, fuel = f + 1 := ⟨fuel - 1, by simp at hf; omega⟩
    have hrest : ∀ u ∈ ia, Token u := fun u hu =>
      token_of_identifier (hia u (List.mem_cons_of_mem _ hu)).1
    have hl := hia l (List.mem_cons_self _ _)
    have hav := available_join_tokens (w := l :: ia) (by
      intro u hu
      rcases List.mem_cons.1 hu with rfl | hu
      · exact token_of_identifier hl.1
      · exact hrest u hu) s
    rw [read_input_alphabet, hav]
    simp only [List.isEmpty_cons, Bool.not_false, if_true, read_identifier_join_tokens hl.1 hrest,
      if_neg hl.2]
    rw [ih (fun u hu => hia u (List.mem_cons_of_mem _ hu)) f (acc ++ [l])
      (by simp at hf ⊢; omega)]
    simp

theorem digitChar_digit (k : Nat) (hk : k < 10) : is_digit (Nat.digitChar k) = true := by
  interval_cases k <;> decide

theorem toDigitsCore_digits (f : Nat) : ∀ (n : Nat), n < f →
    Nat.toDigitsCore 10 f n [] ≠ []
    ∧ ∀ c ∈ Nat.toDigitsCore 10 f n [], is_digit c = true := by
  induction f with
  | zero => intro n h; omega
  | succ f ih =>
    intro n h
    have hd := digitChar_digit (n % 10) (Nat.mod_lt _ (by norm_num))
    simp only [Nat.toDigitsCore]
    split
    · refine ⟨by simp, fun c hc => ?_⟩
      simp only [List.mem_singleton] at hc
      rw [hc]; exact hd
    · rename_i h0
      have hlt : n / 10 < f := by omega
      obtain ⟨-, h2⟩ := ih (n / 10) hlt
      rw [toDigitsCore_append]
      refine ⟨by simp, fun c hc => ?_⟩
      simp only [List.mem_append, List.mem_singleton] at hc
      rcases hc with hc | hc
      · exact h2 c hc
      · rw [hc]; exact hd

theorem to_string_digits (t : Int) (ht : 0 ≤ t) :
    to_string t ≠ [] ∧ ∀ c ∈ to_string t, is_digit c = true := by
  have h := toDigitsCore_digits (t.toNat + 1) t.toNat (Nat.lt_succ_self _)
  have e : to_string t = Nat.toDigitsCore 10 (t.toNat + 1) t.toNat [] := by
    simp [to_string, Nat.toDigits, not_lt.mpr ht]
  rw [e]
  exact h

theorem token_char_of_digit {c : Char} (h : is_digit c = true) : TokenChar c := by
  refine ⟨?_, ?_, ?_, ?_⟩ <;>
  · rintro rfl
    revert h
    decide

theorem takeWhile_all {p : Char → Bool} : ∀ {s : Str}, (∀ c ∈ s, p c = true) →
    s.takeWhile p = s := by
  intro s
  induction s with
  | nil => intro _; rfl
  | cons c s ih =>
    intro h
    rw [List.takeWhile_cons, h c (List.mem_cons_self _ _)]
    simp only [if_true]
    rw [ih (fun d hd => h d (List.mem_cons_of_mem _ hd))]

/-- `stoi` reads back the decimal numeral of a non-negative `int`. -/
theorem stoi_to_string (t : Int) (ht : 0 ≤ t) (hmax : t ≤ 2147483647) :
    stoi (to_string t) = some (t, (to_string t).length) := by
  obtain ⟨hne, hdig⟩ := to_string_digits t ht
  obtain ⟨hval, -⟩ := to_string_value t ht
  obtain ⟨c, s, e⟩ : ∃ c s, to_string t = c :: s := by
    cases h : to_string t with
    | nil => exact absurd h hne
    | cons c s => exact ⟨c, s, rfl⟩
  have hc : is_digit c = true := hdig c (by rw [e]; exact List.mem_cons_self _ _)
  have h1 : (to_string t).dropWhile is_space = to_string t := by
    rw [e, List.dropWhile_cons]
    have : is_space c = false := by
      cases hs : is_space c with
      | false => rfl
      | true =>
        exfalso
        simp only [is_space, Bool.or_eq_true, decide_eq_true_eq] at hs
        rcases hs with ((((rfl | rfl) | rfl) | rfl) | rfl) | rfl <;> revert hc <;> decide
    simp [this]
  have h2 : (to_string t).head? ≠ some '-' ∧ (to_string t).head? ≠ some '+' := by
    rw [e]
    constructor <;>
    · intro h
      simp only [List.head?_cons, Option.some.injEq] at h
      subst h
      revert hc
      decide
  have hv : ((decimal_value (to_string t) : Nat) : Int) = t := by
    rw [hval]
    exact Int.toNat_of_nonneg ht
  simp only [stoi, h1, h2.1, h2.2, or_self, if_false, takeWhile_all hdig, hne, decide_False,
    Bool.false_eq_true, hv]
  rw [if_neg (by omega)]
  simp

/-! ### The text that `save_to_file` writes -/

theorem join_tokens_append (ts : List Str) (s r : Str) :
    join_tokens ts s ++ r = join_tokens ts (s ++ r) := by
  induction ts with
  | nil => rfl
  | cons t ts ih =>
    rw [join_tokens_cons, join_tokens_cons]
    by_cases h : ts = []
    · simp [h]
    · simp [h, ih]

theorem output_vector_append (u v : List Str) :
    output_vector (u ++ v) = output_vector u ++ output_vector v := by
  simp [output_vector, List.flatMap_append]

theorem output_vector_join_tokens (t : Str) (ts : List Str) (s : Str) :
    t ++ output_vector ts ++ s = join_tokens (t :: ts) s := by
  induction ts generalizing t with
  | nil => simp [output_vector, join_tokens]
  | cons u ts ih =>
    have h := ih u
    simp only [output_vector, List.flatMap_cons, join_tokens] at h ⊢
    rw [← h]
    simp

theorem save_transition_eq {num_tapes : Int} {t : Key × Val}
    (h : t.2.2.2.length = num_tapes.toNat) (rest : Str) :
    ∃ line, save_transition num_tapes t = .ok line
      ∧ line ++ rest = join_tokens (line_tokens t) ('\n' :: rest) := by
  refine ⟨_, by rw [save_transition, if_neg (by omega)], ?_⟩
  have e1 : (t.2.2.2.take num_tapes.toNat).flatMap (fun d => [' ', d])
      = output_vector (t.2.2.2.map (fun d => [d])) := by
    rw [← h, List.take_length]
    simp [output_vector, List.flatMap_map]
  rw [e1, line_tokens, ← output_vector_join_tokens]
  simp only [List.append_assoc, List.cons_append, List.nil_append,
    output_vector, List.flatMap_cons, List.flatMap_nil, List.append_nil, List.flatMap_append]

theorem save_transitions_eq {num_tapes : Int} :
    ∀ (ts : transitions_t), (∀ t ∈ ts, t.2.2.2.length = num_tapes.toNat) →
      save_transitions num_tapes ts = .ok (lines_text ts) := by
  intro ts
  induction ts with
  | nil => intro _; rfl
  | cons t ts ih =>
    intro h
    obtain ⟨line, h1, h2⟩ := save_transition_eq (h t (List.mem_cons_self _ _)) (lines_text ts)
    rw [save_transitions, h1, ih (fun u hu => h u (List.mem_cons_of_mem _ hu))]
    simp only [lines_text, h2]

theorem save_to_file_eq {M : TuringMachine}
    (h : ∀ t ∈ M.transitions, t.2.2.2.length = M.num_tapes.toNat) :
    M.save_to_file
      = .ok (join_tokens ["num-tapes:".toList, to_string M.num_tapes]
          ('\n' :: join_tokens ("input-alphabet:".toList :: M.input_alphabet)
            ('\n' :: lines_text M.transitions))) := by
  rw [TuringMachine.save_to_file, save_transitions_eq _ h]
  simp only [← output_vector_join_tokens, join_tokens]
  simp

/-! ### Reading the saved text -/

theorem map_assign_new {m : transitions_t} {k : Key} (h : k ∉ map_keys m) (v : Val) :
    map_assign m k v = m ++ [(k, v)] := by
  induction m with
  | nil => rfl
  | cons a m ih =>
    obtain ⟨k1, v1⟩ := a
    simp only [map_keys, List.map_cons, List.mem_cons, not_or] at h
    simp only [map_assign, if_neg (Ne.symm h.1), List.cons_append]
    rw [ih h.2]

/-- What the constructor has checked of a transition, for `n` tapes, and what
`read_tm_from_file` checks of its source state. -/
theorem transition_tokens {hd : Header} (hlex : hd.Lexical) {n : Int} {t : Key × Val}
    (h : transition_asserts hd n t = true) :
    is_identifier t.1.1 = true ∧ t.1.1 ≠ "(accept)".toList ∧ t.1.1 ≠ "(reject)".toList
      ∧ is_identifier t.2.1 = true
      ∧ t.1.2.length = n.toNat ∧ t.2.2.1.length = n.toNat ∧ t.2.2.2.length = n.toNat
      ∧ (∀ l ∈ t.1.2, is_identifier l = true) ∧ (∀ l ∈ t.2.2.1, is_identifier l = true)
      ∧ ∀ d ∈ t.2.2.2, is_direction hd d = true := by
  simp only [transition_asserts, Bool.and_eq_true, bne_iff_ne, ne_eq, beq_iff_eq,
    List.all_eq_true, List.mem_range] at h
  obtain ⟨⟨⟨⟨⟨h1, h2⟩, h3⟩, h4⟩, ⟨h5, h6⟩, h7⟩, h8⟩ := h
  rw [hlex.accepting] at h2
  rw [hlex.rejecting] at h3
  have key : ∀ a, a < n.toNat → ∃ x y d, t.1.2.get? a = some x ∧ t.2.2.1.get? a = some y
      ∧ t.2.2.2.get? a = some d ∧ is_identifier x = true ∧ is_identifier y = true
      ∧ is_direction hd d = true := by
    intro a ha
    have h := h8 a ha
    split at h
    · rename_i x y d e1 e2 e3
      simp only [Bool.and_eq_true] at h
      exact ⟨x, y, d, e1, e2, e3, h.1.1, h.1.2, h.2⟩
    · cases h
  refine ⟨h1, h2, h3, h4, h5, h6, h7, ?_, ?_, ?_⟩
  · intro l hl
    obtain ⟨a, ha⟩ := List.mem_iff_get?.1 hl
    have hlt : a < n.toNat := by
      rw [← h5]
      exact (List.get?_eq_some.1 ha).1
    obtain ⟨x, y, d, e1, -, -, hx, -, -⟩ := key a hlt
    rw [ha] at e1
    cases e1
    exact hx
  · intro l hl
    obtain ⟨a, ha⟩ := List.mem_iff_get?.1 hl
    have hlt : a < n.toNat := by
      rw [← h6]
      exact (List.get?_eq_some.1 ha).1
    obtain ⟨x, y, d, -, e2, -, -, hy, -⟩ := key a hlt
    rw [ha] at e2
    cases e2
    exact hy
  · intro l hl
    obtain ⟨a, ha⟩ := List.mem_iff_get?.1 hl
    have hlt : a < n.toNat := by
      rw [← h7]
      exact (List.get?_eq_some.1 ha).1
    obtain ⟨x, y, d, -, -, e3, -, -, hdir⟩ := key a hlt
    rw [ha] at e3
    cases e3
    exact hdir

theorem line_tokens_token {hd : Header} (hlex : hd.Lexical) {n : Int} {t : Key × Val}
    (h : transition_asserts hd n t = true) : ∀ u ∈ line_tokens t, Token u := by
  obtain ⟨h1, -, -, h4, -, -, -, h8, h9, h10⟩ := transition_tokens hlex h
  intro u hu
  simp only [line_tokens, List.mem_cons, List.mem_append, List.mem_map] at hu
  rcases hu with rfl | hu | rfl | hu | ⟨d, hd, rfl⟩
  · exact token_of_identifier h1
  · exact token_of_identifier (h8 u hu)
  · exact token_of_identifier h4
  · exact token_of_identifier (h9 u hu)
  · have h := h10 d hd
    simp only [is_direction, Bool.or_eq_true, beq_iff_eq] at h
    refine ⟨by simp, fun c hc => ?_⟩
    rw [List.mem_singleton.1 hc]
    rcases h with (rfl | rfl) | rfl
    · exact hlex.left
    · exact hlex.right
    · exact hlex.stay

theorem lines_text_head {hd : Header} (hlex : hd.Lexical) {n : Int} (ts : transitions_t)
    (h : ∀ t ∈ ts, transition_asserts hd n t = true) :
    lines_text ts = [] ∨ ∃ c, (lines_text ts).head? = some c ∧ TokenChar c := by
  cases ts with
  | nil => exact Or.inl rfl
  | cons t ts =>
    right
    have ht := line_tokens_token hlex (h t (List.mem_cons_self _ _))
    have h1 : Token t.1.1 := ht _ (by simp [line_tokens])
    rw [lines_text, line_tokens, join_tokens_cons]
    exact head_token_char h1 _

/-- The loop of `read_tm_from_file` reads the lines that `save_to_file` has
written for the transitions `ts` and appends them to the table. -/
theorem read_transitions_lines {hd : Header} (hlex : hd.Lexical) {n : Int} :
    ∀ (ts : transitions_t), (∀ t ∈ ts, transition_asserts hd n t = true) →
    ∀ (fuel : Nat) (acc : transitions_t), ts.length + 1 ≤ fuel →
      (map_keys (acc ++ ts)).Nodup →
      read_transitions hd n.toNat fuel (Reader.of_stream (lines_text ts)) acc
        = .ok (acc ++ ts) := by
  intro ts
  induction ts with
  | nil =>
    intro _ fuel acc hf _
    obtain ⟨f, rfl⟩ : ∃ f, fuel = f + 1 := ⟨fuel - 1, by simp at hf; omega⟩
    simp [read_transitions, lines_text, available_of_nil]
  | cons t ts ih =>
    intro hts fuel acc hf hnd
    obtain ⟨f, rfl⟩ : ∃ f, fuel = f + 1 := ⟨fuel - 1, by simp at hf; omega⟩
    have hta := hts t (List.mem_cons_self _ _)
    obtain ⟨h1, h2, h3, h4, h5, h6, h7, h8, h9, h10⟩ := transition_tokens hlex hta
    have htok := line_tokens_token hlex hta
    obtain ⟨⟨sb, lb⟩, sa, la, dirs⟩ := t
    simp only at h1 h2 h3 h4 h5 h6 h7 h8 h9 h10
    simp only [line_tokens, List.mem_cons, List.mem_append, List.mem_map] at htok
    have hrest := ih (fun u hu => hts u (List.mem_cons_of_mem _ hu))
    have hkey : (sb, lb) ∉ map_keys acc := by
      intro hk
      simp only [map_keys, List.map_append, List.map_cons] at hnd
      have := (List.nodup_append.1 hnd).2.2
      exact this hk (List.mem_cons_self _ _)
    have hfind : map_find acc (sb, lb) = none := map_find_eq_none.2 hkey
    have hav := available_join_tokens (w := line_tokens ((sb, lb), sa, la, dirs))
      (line_tokens_token hlex hta) (lines_text ts)
    have e1 := read_identifier_join_tokens h1
      (w := lb ++ sa :: (la ++ dirs.map (fun d => [d])))
      (fun u hu => htok u (Or.inr (by simpa using hu))) (lines_text ts)
    have e2 := read_identifiers_join_tokens lb h8
      (w := sa :: (la ++ dirs.map (fun d => [d])))
      (fun u hu => htok u (Or.inr (Or.inr (by simpa using hu)))) (lines_text ts)
    have e3 := read_identifier_join_tokens h4 (w := la ++ dirs.map (fun d => [d]))
      (fun u hu => htok u (Or.inr (Or.inr (Or.inr (by simpa using hu))))) (lines_text ts)
    have e4 := read_identifiers_join_tokens la h9 (w := dirs.map (fun d => [d]))
      (fun u hu => htok u (Or.inr (Or.inr (Or.inr (Or.inr (by simpa using hu))))))
      (lines_text ts)
    have e5 := read_directions_join_tokens hlex dirs h10 (w := [])
      (fun u hu => absurd hu (List.not_mem_nil u)) (lines_text ts)
    rw [List.append_nil] at e5
    rw [h5] at e2
    rw [h6] at e4
    rw [h7] at e5
    have e6 := go_to_next_line_of_stream (lines_text ts)
      (lines_text_head hlex ts (fun u hu => hts u (List.mem_cons_of_mem _ hu)))
    rw [read_transitions, lines_text, hav]
    simp only [line_tokens, List.isEmpty_cons, Bool.not_false, Bool.not_true,
      Bool.false_eq_true, if_false, e1, h2, h3, or_self, e2, hfind, Option.isSome_none, e3, e4,
      e5, join_tokens, available_of_newline, e6]
    rw [map_assign_new hkey, hrest f (acc ++ [((sb, lb), sa, la, dirs)])
      (by simp at hf ⊢; omega) (by simpa using hnd)]
    simp

theorem join_tokens_length (ts : List Str) (hts : ∀ t ∈ ts, Token t) (s : Str) :
    ts.length + s.length ≤ (join_tokens ts s).length := by
  induction ts with
  | nil => simp [join_tokens]
  | cons t ts ih =>
    have h1 := ih (fun u hu => hts u (List.mem_cons_of_mem _ hu))
    have h2 : 1 ≤ t.length := by
      have := (hts t (List.mem_cons_self _ _)).1
      cases t with
      | nil => exact absurd rfl this
      | cons c t => simp
    rw [join_tokens_cons]
    by_cases h : ts = []
    · subst h
      simp only [if_true, List.length_append, List.length_cons, List.length_nil]
      omega
    · simp only [h, if_false, List.length_append, List.length_cons]
      omega

theorem lines_text_length {hd : Header} (hlex : hd.Lexical) {n : Int} (ts : transitions_t)
    (h : ∀ t ∈ ts, transition_asserts hd n t = true) :
    ts.length ≤ (lines_text ts).length := by
  induction ts with
  | nil => simp
  | cons t ts ih =>
    have h1 := ih (fun u hu => h u (List.mem_cons_of_mem _ hu))
    have h2 := join_tokens_length (line_tokens t)
      (line_tokens_token hlex (h t (List.mem_cons_self _ _))) ('\n' :: lines_text ts)
    have h3 : 1 ≤ (line_tokens t).length := by simp [line_tokens]
    simp only [lines_text, List.length_cons] at h2 ⊢
    omega

/-- C15: with files modelled as character strings, for every machine `M` that
satisfies the invariants of the `TuringMachine` constructor (and whose
`num_tapes` is in the range of `int`), `save_to_file` writes a text, and
`read_tm_from_file` applied to that text succeeds without a syntax error and
returns a machine with the same `num_tapes`, the same input alphabet and the
same transitions as `M`.  The accepting and the rejecting state of the header are
the literals `(accept)` and `(reject)` that `read_tm_from_file` compares with, and
the directions are token characters. -/
theorem save_read_round_trip (hd : Header) (hlex : hd.Lexical) (M : TuringMachine)
    (hM : M.Valid hd) (hint : M.num_tapes ≤ 2147483647) :
    ∃ text, M.save_to_file = .ok text ∧ read_tm_from_file hd text = .ok M := by
  obtain ⟨hpos, hne, hia, htr⟩ := valid_parts hM
  have hlen : ∀ t ∈ M.transitions, t.2.2.2.length = M.num_tapes.toNat := fun t ht =>
    (transition_tokens hlex (htr t ht)).2.2.2.2.2.2.1
  refine ⟨_, save_to_file_eq hlen, ?_⟩
  have hNT : Token "num-tapes:".toList := by
    refine ⟨by decide, ?_⟩
    simp [TokenChar]
  have hIA : Token "input-alphabet:".toList := by
    refine ⟨by decide, ?_⟩
    simp [TokenChar]
  have hnum : Token (to_string M.num_tapes) :=
    ⟨(to_string_digits _ (le_of_lt hpos)).1,
      fun c hc => token_char_of_digit ((to_string_digits _ (le_of_lt hpos)).2 c hc)⟩
  have hiat : ∀ u ∈ M.input_alphabet, Token u := fun u hu => token_of_identifier (hia u hu).1
  have hline1 : ∀ u ∈ ["num-tapes:".toList, to_string M.num_tapes], Token u := by
    intro u hu
    simp only [List.mem_cons, List.mem_singleton, List.not_mem_nil, or_false] at hu
    rcases hu with rfl | rfl
    · exact hNT
    · exact hnum
  have hline2 : ∀ u ∈ "input-alphabet:".toList :: M.input_alphabet, Token u := by
    intro u hu
    rcases List.mem_cons.1 hu with rfl | hu
    · exact hIA
    · exact hiat u hu
  generalize hr2 : lines_text M.transitions = r2
  generalize hr1 : join_tokens ("input-alphabet:".toList :: M.input_alphabet) ('\n' :: r2) = r1
  have c1 : Reader.create (join_tokens ["num-tapes:".toList, to_string M.num_tapes] ('\n' :: r1))
      = .ok (Reader.of_stream
          (join_tokens ["num-tapes:".toList, to_string M.num_tapes] ('\n' :: r1))) := by
    rw [join_tokens_cons]
    exact create_of_stream hNT _
  have a1 : (Reader.of_stream (join_tokens ["num-tapes:".toList, to_string M.num_tapes]
      ('\n' :: r1))).is_next_token_available = true := available_join_tokens hline1 r1
  have t1 := next_token_join_tokens hNT (w := [to_string M.num_tapes])
    (fun u hu => hline1 u (List.mem_cons_of_mem _ hu)) r1
  have a2 : (Reader.of_stream (join_tokens [to_string M.num_tapes]
      ('\n' :: r1))).is_next_token_available = true :=
    available_join_tokens (w := [to_string M.num_tapes])
      (fun u hu => hline1 u (List.mem_cons_of_mem _ hu)) r1
  have t2 : (Reader.of_stream (join_tokens [to_string M.num_tapes] ('\n' :: r1))).next_token
      = .ok (to_string M.num_tapes, Reader.of_stream ('\n' :: r1)) :=
    next_token_join_tokens hnum (w := []) (fun u hu => absurd hu (List.not_mem_nil u)) r1
  have s1 := stoi_to_string M.num_tapes (le_of_lt hpos) hint
  have g1 : (Reader.of_stream ('\n' :: r1)).go_to_next_line = .ok (Reader.of_stream r1) := by
    apply go_to_next_line_of_stream
    right
    rw [← hr1, join_tokens_cons]
    exact head_token_char hIA _
  have a3 : (Reader.of_stream r1).is_next_token_available = true := by
    rw [← hr1]
    exact available_join_tokens hline2 r2
  have t3 : (Reader.of_stream r1).next_token
      = .ok ("input-alphabet:".toList,
          Reader.of_stream (join_tokens M.input_alphabet ('\n' :: r2))) := by
    rw [← hr1]
    exact next_token_join_tokens hIA hiat r2
  have i1 : read_input_alphabet hd
        ((Reader.of_stream (join_tokens M.input_alphabet ('\n' :: r2))).input.length + 2)
        (Reader.of_stream (join_tokens M.input_alphabet ('\n' :: r2))) []
      = .ok (M.input_alphabet, Reader.of_stream ('\n' :: r2)) :=
    read_input_alphabet_join_tokens hd M.input_alphabet hia r2
    ((Reader.of_stream (join_tokens M.input_alphabet ('\n' :: r2))).input.length + 2) [] (by
      have := join_tokens_length M.input_alphabet hiat ('\n' :: r2)
      simp only [Reader.of_stream, List.length_tail, List.length_cons] at this ⊢
      omega)
  have g2 : (Reader.of_stream ('\n' :: r2)).go_to_next_line = .ok (Reader.of_stream r2) := by
    apply go_to_next_line_of_stream
    rw [← hr2]
    exact lines_text_head hlex _ htr
  have r3 : read_transitions hd M.num_tapes.toNat ((Reader.of_stream r2).input.length + 2)
        (Reader.of_stream (lines_text M.transitions)) [] = .ok M.transitions :=
    read_transitions_lines hlex M.transitions htr
    ((Reader.of_stream r2).input.length + 2) [] (by
      have := lines_text_length hlex M.transitions htr
      rw [hr2] at this
      simp only [Reader.of_stream, List.length_tail]
      omega) (by simpa using hM.2)
  rw [hr2] at r3
  have hcon : TuringMachine.construct hd M.num_tapes M.input_alphabet M.transitions = .ok M := by
    rw [TuringMachine.construct, if_pos hM.1]
  have hemp : M.input_alphabet.isEmpty = false := by
    cases h : M.input_alphabet with
    | nil => exact absurd h hne
    | cons a l => rfl
  simp only [read_tm_from_file, c1, a1, t1, a2, t2, s1, available_of_newline, g1,
    a3, t3, i1, g2, r3, hcon, hemp, Bool.not_false,
    Bool.not_true, Bool.false_eq_true, if_false, ne_eq, not_true_eq_false, not_le.mpr hpos,
    or_self]

theorem stdHeader_lexical : stdHeader.Lexical :=
  ⟨rfl, rfl, by simp [TokenChar, stdHeader], by simp [TokenChar, stdHeader],
    by simp [TokenChar, stdHeader]⟩

theorem save_read_round_trip_witness :
    scenario_machine.save_to_file
        = .ok ("num-tapes: 2\ninput-alphabet: 0 1\n".toList
            ++ "(start) 0 _ (start) 1 _ > -\n(start) _ _ (accept) _ _ - -\n".toList)
      ∧ read_tm_from_file stdHeader ("num-tapes: 2\ninput-alphabet: 0 1\n".toList
            ++ "(start) 0 _ (start) 1 _ > -\n(start) _ _ (accept) _ _ - -\n".toList)
          = .ok scenario_machine := by
  obtain ⟨text, h1, h2⟩ := save_read_round_trip stdHeader stdHeader_lexical scenario_machine
    scenario_machine_valid (by decide)
  have e : scenario_machine.save_to_file
      = .ok ("num-tapes: 2\ninput-alphabet: 0 1\n".toList
          ++ "(start) 0 _ (start) 1 _ > -\n(start) _ _ (accept) _ _ - -\n".toList) := rfl
  rw [e] at h1
  cases h1
  exact ⟨e, h2⟩

/-- C22: for every string `s`, `is_identifier(s)` is true if and only if `s` is
a single character among `A-Z`, `a-z`, `0-9`, `_` and `-`, or `s` is `(`
followed by the concatenation of one or more strings that each satisfy
`is_identifier`, followed by `)`.  In particular the bare tokens `ab` and `q0`
are not accepted, while `(ab)` and `(q0)` are. -/
theorem is_identifier_cases (s : Str) :
    (is_identifier s = true
      ↔ (∃ c, SpecChar c ∧ s = [c])
        ∨ ∃ parts : List Str, parts ≠ [] ∧ (∀ p ∈ parts, is_identifier p = true)
            ∧ s = '(' :: parts.flatten ++ [')'])
    ∧ is_identifier "ab".toList = false ∧ is_identifier "q0".toList = false
    ∧ is_identifier "(ab)".toList = true ∧ is_identifier "(q0)".toList = true := by
  have hcode : ∀ p : Str, is_identifier p = true ↔ CodeId p := fun p =>
    (is_identifier_iff p).trans ⟨Ident.codeId, CodeId.ident⟩
  refine ⟨⟨fun h => ?_, fun h => ?_⟩, by decide, by decide, by decide, by decide⟩
  · rcases (is_identifier_iff s).1 h with ⟨c, hc, rfl⟩ | ⟨w, hw, hne, rfl⟩
    · exact Or.inl ⟨c, (is_valid_char_iff c).1 hc, rfl⟩
    · obtain ⟨ps, hps, rfl⟩ := hw.split_parts
      exact Or.inr ⟨ps, by rintro rfl; exact hne rfl, fun p hp => (hcode p).2 (hps p hp), rfl⟩
  · rcases h with ⟨c, hc, rfl⟩ | ⟨ps, hne, hps, rfl⟩
    · exact (hcode _).2 (CodeId.char c hc)
    · exact (hcode _).2 (CodeId.group ps hne (fun p hp => (hcode p).1 (hps p hp)))

/-! ### The target states of the reduced machine -/

theorem generatedTarget_user (hd : Header) (st p l : Str) (t : Int) (d : Char) :
    GeneratedTarget hd (make_out (make_user_state st p t) l d).1 :=
  Or.inr (Or.inl (make_user_state_take st p t))

theorem generatedTarget_accepting (hd : Header) (l : Str) (d : Char) :
    GeneratedTarget hd (make_out hd.ACCEPTING_STATE l d).1 :=
  Or.inl rfl

/-- The target states assigned by `make_one_tape_transitions_from_two`. -/
theorem two_to_one_writes_targets (hd : Header) (g : Globals) (s n a b o1 o2 : Str)
    (d1 d2 : Char) (W : List Str) :
    ∀ e ∈ two_to_one_writes hd g s n a b o1 o2 d1 d2 W, GeneratedTarget hd e.2.1 := by
  have h1 := generatedTarget_user hd
  have h2 := generatedTarget_accepting hd
  simp only [two_to_one_writes, writes_entry, writes_tape_1_left, writes_tape_1_right_move,
    writes_tape_1_extend, writes_tape_1_extend_back, writes_tape_1_right, writes_tape_1_stay,
    writes_to_second_tape, writes_tape_2_left, writes_tape_2_right, writes_tape_2_stay,
    writes_back_to_first_tape, writes_out, List.forall_mem_append, forall_mem_flatMap, forall_mem_ite_nil,
    List.forall_mem_map, List.forall_mem_cons, List.forall_mem_singleton, List.not_mem_nil,
    pred_ite (fun e : Key × Val => GeneratedTarget hd e.2.1)]
  simp +contextual [h1, h2]

/-- The target states assigned by `make_init_states`. -/
theorem make_init_states_writes_targets (hd : Header) (g : Globals) (ia : List Str) :
    ∀ e ∈ make_init_states_writes hd g ia, GeneratedTarget hd e.2.1 := by
  have h : ∀ x : Str, x.take 6 = "(init-".toList → GeneratedTarget hd x :=
    fun x hx => Or.inr (Or.inr hx)
  have i1 := h INIT_FIND_SECOND_TAPE rfl
  have i2 := h INIT_PUT_SECOND_HEAD rfl
  have i3 := h INIT_PUT_END_OF_SECOND_HEAD rfl
  have i4 := h INIT_BACK_TO_BORDER rfl
  have i5 := h INIT_BACK_TO_FRONT rfl
  simp only [make_init_states_writes, List.forall_mem_append, List.forall_mem_map,
    List.forall_mem_cons, List.forall_mem_singleton, List.not_mem_nil]
  simp +contextual [make_out, i1, i2, i3, i4, i5]

/-- Every target state in the table of the reduced machine is the accepting
state or a generated name. -/
theorem reduced_targets {hd : Header} {M : TuringMachine} (hM : M.Valid hd)
    (h2 : M.num_tapes = 2) (g0 : Globals) :
    ∀ e ∈ (reduced hd M g0).transitions, GeneratedTarget hd e.2.1 := by
  intro e he
  rcases mem_merged_table he with h | ⟨t, ht, h⟩
  · exact make_init_states_writes_targets _ _ _ _ (mem_map_of_writes h)
  · obtain ⟨_, _, _, htr⟩ := valid_parts hM
    rw [h2] at htr
    obtain ⟨s, a, b, n, o1, o2, d1, d2, rfl, -⟩ := transition_asserts_two (htr t ht)
    rw [block_of_eq] at h
    exact two_to_one_writes_targets _ _ _ _ _ _ _ _ _ _ _ _ (mem_map_of_writes h)

theorem generatedTarget_ne_rejecting {hd : Header} (hh : hd.WellFormed)
    (hne : hd.ACCEPTING_STATE ≠ hd.REJECTING_STATE) {x : Str} (hx : GeneratedTarget hd x) :
    x ≠ hd.REJECTING_STATE := by
  rintro rfl
  rcases hx with h | h | h
  · exact hne h.symm
  · exact hh.rejecting_fresh.1 h
  · exact hh.rejecting_fresh.2 h

theorem step_state {hd : Header} {M : TuringMachine} {c c1 : Config}
    (h : step hd M c = some c1) : ∃ e ∈ M.transitions, c1.state = e.2.1 := by
  unfold step at h
  split at h
  · cases h
  · rename_i st ls ds hf
    split at h
    · cases h
    · simp only [Option.some.injEq] at h
      subst h
      exact ⟨_, map_find_mem hf, rfl⟩

theorem run_state {hd : Header} {M : TuringMachine} {P : Str → Prop}
    (hP : ∀ e ∈ M.transitions, P e.2.1) :
    ∀ (n : Nat) (c c1 : Config), P c.state → run hd M n c = some c1 → P c1.state := by
  intro n
  induction n with
  | zero =>
    intro c c1 hc h
    simp only [run, Option.some.injEq] at h
    exact h ▸ hc
  | succ n ih =>
    intro c c1 _ h
    rw [run] at h
    cases hs : step hd M c with
    | none => rw [hs] at h; cases h
    | some c0 =>
      rw [hs] at h
      obtain ⟨e, he, hst⟩ := step_state hs
      exact ih c0 c1 (hst ▸ hP e he) h

theorem rejecting_machine_valid : rejecting_machine.Valid stdHeader :=
  ⟨by decide, by decide⟩

/-- C21: for every valid two-tape machine `M`, no transition in the table of
`reduce_two_tapes_to_one(M)` has `REJECTING_STATE` as its target state, also when
`M` itself has transitions into `REJECTING_STATE`: every target is
`ACCEPTING_STATE` or a generated name starting with `(U-` or `(init-`.  Hence
the reduced machine, started on any word, never enters `REJECTING_STATE`: it
rejects only by halting in a state with no applicable transition.  The
accepting and the rejecting state of the header are different. -/
theorem no_rejecting_target (hd : Header) (hh : hd.WellFormed)
    (hne : hd.ACCEPTING_STATE ≠ hd.REJECTING_STATE) (M : TuringMachine)
    (hM : M.Valid hd) (h2 : M.num_tapes = 2) (g0 : Globals) :
    ∃ M1 g1, M.reduce_two_tapes_to_one hd g0 = .ok (M1, g1)
      ∧ (∀ e ∈ M1.transitions, e.2.1 ≠ hd.REJECTING_STATE
          ∧ (e.2.1 = hd.ACCEPTING_STATE ∨ e.2.1.take 3 = "(U-".toList
            ∨ e.2.1.take 6 = "(init-".toList))
      ∧ ∀ (w : List Str) (n : Nat) (c : Config),
          run hd M1 n (initial_config hd M1 w) = some c → c.state ≠ hd.REJECTING_STATE := by
  have ht := reduced_targets hM h2 g0
  refine ⟨_, _, reduce_ok hh hM h2 g0, fun e he => ?_, fun w n c hrun => ?_⟩
  · exact ⟨generatedTarget_ne_rejecting hh hne (ht e he), ht e he⟩
  · exact run_state (M := reduced hd M g0) (P := fun x => x ≠ hd.REJECTING_STATE)
      (fun e he => generatedTarget_ne_rejecting hh hne (ht e he)) n _ c
      hh.initial_ne_rejecting hrun

theorem no_rejecting_target_witness :
    (∃ t ∈ rejecting_machine.transitions, t.2.1 = stdHeader.REJECTING_STATE)
      ∧ ∃ M1 g1, rejecting_machine.reduce_two_tapes_to_one stdHeader Globals.initial
          = .ok (M1, g1)
        ∧ (∀ e ∈ M1.transitions, e.2.1 ≠ stdHeader.REJECTING_STATE
            ∧ (e.2.1 = stdHeader.ACCEPTING_STATE ∨ e.2.1.take 3 = "(U-".toList
              ∨ e.2.1.take 6 = "(init-".toList))
        ∧ ∀ (w : List Str) (n : Nat) (c : Config),
            run stdHeader M1 n (initial_config stdHeader M1 w) = some c →
              c.state ≠ stdHeader.REJECTING_STATE :=
  ⟨by decide,
    no_rejecting_target stdHeader stdHeader_wellFormed (by decide) rejecting_machine
      rejecting_machine_valid rfl Globals.initial⟩

/-! ### Parsing an input word -/

/-- With the budget of `parse_input`, `check_identifier` reads exactly the
identifier that a string starts with. -/
theorem check_identifier_prefix {u : Str} (hu : Ident u) (rest : Str) :
    check_identifier (2 * (u ++ rest).length + 1) (u ++ rest) = some (some rest) := by
  obtain ⟨f, hf⟩ := check_identifier_complete hu rest
  obtain ⟨x, hx⟩ := (check_identifier_total (u ++ rest).length (u ++ rest) le_rfl).1
  rcases le_total f (2 * (u ++ rest).length + 1) with hle | hle
  · exact check_identifier_mono hle hf
  · have := check_identifier_mono hle hx
    rw [hf] at this
    rw [hx, this]

theorem flatten_length_ge (w : List Str) (hw : ∀ x ∈ w, x ≠ []) :
    w.length ≤ w.flatten.length := by
  induction w with
  | nil => simp
  | cons x w ih =>
    have h1 := ih (fun y hy => hw y (List.mem_cons_of_mem _ hy))
    have h2 : 1 ≤ x.length := by
      have := hw x (List.mem_cons_self _ _)
      cases x with
      | nil => exact absurd rfl this
      | cons c x => simp
    simp only [List.flatten_cons, List.length_append, List.length_cons]
    omega

theorem parse_input_loop_flatten {A : List Str} (hA : ∀ x ∈ A, is_identifier x = true) :
    ∀ (w : List Str), (∀ x ∈ w, x ∈ A) → ∀ (fuel : Nat) (res : List Str), w.length + 1 ≤ fuel →
      parse_input_loop A fuel w.flatten res = some (res ++ w) := by
  intro w
  induction w with
  | nil =>
    intro _ fuel res hf
    obtain ⟨f, rfl⟩ : ∃ f, fuel = f + 1 := ⟨fuel - 1, by simp at hf; omega⟩
    simp [parse_input_loop]
  | cons x w ih =>
    intro hw fuel res hf
    obtain ⟨f, rfl⟩ : ∃ f, fuel = f + 1 := ⟨fuel - 1, by simp at hf; omega⟩
    have hxA := hw x (List.mem_cons_self _ _)
    have hx := (is_identifier_iff x).1 (hA x hxA)
    have hne : (x ++ w.flatten).length ≠ 0 := by
      have := hx.ne_nil
      cases x with
      | nil => exact absurd rfl this
      | cons c x => simp
    have htake : (x ++ w.flatten).take ((x ++ w.flatten).length - w.flatten.length) = x := by
      have e : (x ++ w.flatten).length - w.flatten.length = x.length := by
        simp
      rw [e, List.take_left']
      rfl
    rw [List.flatten_cons, parse_input_loop, if_neg hne, check_identifier_prefix hx]
    simp only [htake, if_pos hxA]
    rw [ih (fun y hy => hw y (List.mem_cons_of_mem _ hy)) f (res ++ [x])
      (by simp at hf ⊢; omega)]
    simp

/-- C23: for every machine `M` that satisfies the invariants of the
`TuringMachine` constructor and every list `w` of letters taken from the input
alphabet of `M`, `M.parse_input` applied to the concatenation of the letters of
`w` returns exactly `w`; the split of an input string into input-alphabet
letters is unique. -/
theorem parse_input_concat (hd : Header) (M : TuringMachine) (hM : M.Valid hd)
    (w : List Str) (hw : ∀ x ∈ w, x ∈ M.input_alphabet) :
    M.parse_input w.flatten = some w
      ∧ ∀ w1 : List Str, (∀ x ∈ w1, x ∈ M.input_alphabet) → w1.flatten = w.flatten →
          w1 = w := by
  have hA : ∀ x ∈ M.input_alphabet, is_identifier x = true := fun x hx =>
    ((valid_parts hM).2.2.1 x hx).1
  have key : ∀ v : List Str, (∀ x ∈ v, x ∈ M.input_alphabet) →
      M.parse_input v.flatten = some v := by
    intro v hv
    have hlen := flatten_length_ge v
      (fun x hx => ((is_identifier_iff x).1 (hA x (hv x hx))).ne_nil)
    have h := parse_input_loop_flatten hA v hv (v.flatten.length + 1) [] (by omega)
    simpa [TuringMachine.parse_input] using h
  refine ⟨key w hw, fun w1 hw1 e => ?_⟩
  have h1 := key w1 hw1
  rw [e, key w hw] at h1
  exact (Option.some.inj h1).symm

theorem parse_input_concat_witness :
    scenario_machine.parse_input "0010".toList
        = some ["0".toList, "0".toList, "1".toList, "0".toList]
      ∧ ∀ w1 : List Str, (∀ x ∈ w1, x ∈ scenario_machine.input_alphabet) →
          w1.flatten = "0010".toList →
          w1 = ["0".toList, "0".toList, "1".toList, "0".toList] :=
  parse_input_concat stdHeader scenario_machine scenario_machine_valid
    ["0".toList, "0".toList, "1".toList, "0".toList] (by decide)

/-! ### Steps that are always made -/

theorem write_move_free_eq (e : LeftEdge) {hd : Header} {T U : Tape} {o : Str} {d : Char}
    (h : T.write_move hd o d = some U) : T.write_move_free e hd o d = U := by
  unfold Tape.write_move at h
  unfold Tape.write_move_free
  split at h
  · next hd1 =>
    rw [if_pos hd1]
    cases hl : T.left with
    | nil => rw [hl] at h; cases h
    | cons x l =>
      rw [hl] at h
      simpa using h
  · next hd1 =>
    rw [if_neg hd1]
    split at h
    · next hd2 =>
      rw [if_pos hd2]
      cases hr : T.right with
      | nil => rw [hr] at h; simpa using h
      | cons x r => rw [hr] at h; simpa using h
    · next hd2 =>
      rw [if_neg hd2]
      simpa using h

theorem write_move_some_of (e : LeftEdge) {hd : Header} {T : Tape} {o : Str} {d : Char}
    (h : d = hd.HEAD_LEFT → T.left ≠ []) :
    T.write_move hd o d = some (T.write_move_free e hd o d) := by
  cases hm : T.write_move hd o d with
  | some U => rw [write_move_free_eq e hm]
  | none =>
    exfalso
    unfold Tape.write_move at hm
    split at hm
    · next hd1 =>
      cases hl : T.left with
      | nil => exact h hd1 hl
      | cons x l => rw [hl] at hm; cases hm
    · split at hm
      · split at hm <;> cases hm
      · cases hm

theorem write_move_all_free_eq (e : LeftEdge) {hd : Header} :
    ∀ {ts : List Tape} {letters : List Str} {dirs : Str} {us : List Tape},
      write_move_all hd ts letters dirs = some us →
      write_move_all_free e hd ts letters dirs = us
  | [], [], [], us, h => by
    simp only [write_move_all, Option.some.injEq] at h
    subst h
    rfl
  | t :: ts, letter :: letters, dir :: dirs, us, h => by
    simp only [write_move_all] at h
    cases h1 : t.write_move hd letter dir with
    | none => rw [h1] at h; cases h
    | some t1 =>
      cases h2 : write_move_all hd ts letters dirs with
      | none => rw [h1, h2] at h; cases h
      | some ts1 =>
        rw [h1, h2] at h
        simp only [Option.some.injEq] at h
        subst h
        simp only [write_move_all_free, write_move_free_eq e h1, write_move_all_free_eq e h2]
  | [], _ :: _, _, us, h => by simp [write_move_all] at h
  | [], [], _ :: _, us, h => by simp [write_move_all] at h
  | _ :: _, [], _, us, h => by simp [write_move_all] at h
  | _ :: _, _ :: _, [], us, h => by simp [write_move_all] at h

/-- A step of the variant that halts at the left edge is a step of every
variant that does not. -/
theorem step_free_of_step (e : LeftEdge) {hd : Header} {M : TuringMachine} {c c1 : Config}
    (h : step hd M c = some c1) : step_free e hd M c = some c1 := by
  unfold step at h
  unfold step_free
  cases hf : map_find M.transitions (c.state, c.tapes.map Tape.cur) with
  | none => rw [hf] at h; cases h
  | some v =>
    obtain ⟨state, letters, directions⟩ := v
    rw [hf] at h
    simp only at h ⊢
    cases hw : write_move_all hd c.tapes letters directions with
    | none => rw [hw] at h; cases h
    | some us =>
      rw [hw] at h
      simp only [Option.some.injEq] at h
      subst h
      rw [write_move_all_free_eq e hw]

theorem run_free_of_run (e : LeftEdge) {hd : Header} {M : TuringMachine} :
    ∀ (n : Nat) {c c1 : Config}, run hd M n c = some c1 → run_free e hd M n c = some c1
  | 0, c, c1, h => h
  | n + 1, c, c1, h => by
    rw [run] at h
    rw [run_free]
    cases hs : step hd M c with
    | none => rw [hs] at h; cases h
    | some c0 =>
      rw [hs] at h
      rw [step_free_of_step e hs]
      exact run_free_of_run e n h

theorem reach_free (e : LeftEdge) {hd : Header} {M : TuringMachine} {c c1 : Config}
    (h : Reach hd M c c1) : ReachFree e hd M c c1 := by
  obtain ⟨n, hn⟩ := h
  exact ⟨n, run_free_of_run e n hn⟩

theorem reachPos_free (e : LeftEdge) {hd : Header} {M : TuringMachine} {c c1 : Config}
    (h : ReachPos hd M c c1) : ReachPosFree e hd M c c1 := by
  obtain ⟨c0, h0, h1⟩ := h
  exact ⟨c0, step_free_of_step e h0, reach_free e h1⟩

theorem run_free_add (e : LeftEdge) (hd : Header) (M : TuringMachine) (a b : Nat) (c : Config) :
    run_free e hd M (a + b) c = (run_free e hd M a c).bind (run_free e hd M b) := by
  induction a generalizing c with
  | zero => simp [run_free]
  | succ a ih =>
    have e1 : a + 1 + b = (a + b) + 1 := by omega
    rw [e1, run_free, run_free]
    cases step_free e hd M c with
    | none => rfl
    | some c1 => exact ih c1

theorem reachFree_trans {e : LeftEdge} {hd : Header} {M : TuringMachine} {c c1 c2 : Config}
    (h1 : ReachFree e hd M c c1) (h2 : ReachFree e hd M c1 c2) : ReachFree e hd M c c2 := by
  obtain ⟨a, ha⟩ := h1
  obtain ⟨b, hb⟩ := h2
  exact ⟨a + b, by rw [run_free_add, ha]; exact hb⟩

theorem reachFree_step {e : LeftEdge} {hd : Header} {M : TuringMachine} {c c1 : Config}
    (h : step_free e hd M c = some c1) : ReachFree e hd M c c1 :=
  ⟨1, by simp [run_free, h]⟩

theorem reachPosFree_reach {e : LeftEdge} {hd : Header} {M : TuringMachine} {c c1 : Config}
    (h : ReachPosFree e hd M c c1) : ReachFree e hd M c c1 := by
  obtain ⟨c0, h0, h1⟩ := h
  exact reachFree_trans (reachFree_step h0) h1

theorem reachPosFree_then {e : LeftEdge} {hd : Header} {M : TuringMachine} {c c1 c2 : Config}
    (h : ReachPosFree e hd M c c1) (h2 : ReachFree e hd M c1 c2) : ReachPosFree e hd M c c2 := by
  obtain ⟨c0, h0, h1⟩ := h
  exact ⟨c0, h0, reachFree_trans h1 h2⟩

theorem reachFree_then_pos {e : LeftEdge} {hd : Header} {M : TuringMachine} {c c1 c2 : Config}
    (h : ReachFree e hd M c c1) (h2 : ReachPosFree e hd M c1 c2) : ReachPosFree e hd M c c2 := by
  obtain ⟨n, hn⟩ := h
  cases n with
  | zero =>
    simp only [run_free, Option.some.injEq] at hn
    subst hn
    exact h2
  | succ n =>
    rw [run_free] at hn
    cases hs : step_free e hd M c with
    | none => rw [hs] at hn; cases hn
    | some c0 =>
      rw [hs] at hn
      exact ⟨c0, hs, reachFree_trans ⟨n, hn⟩ (reachPosFree_reach h2)⟩

theorem run_free_succ_of_halted {e : LeftEdge} {hd : Header} {M : TuringMachine} {c : Config}
    (h : step_free e hd M c = none) (n : Nat) : run_free e hd M (n + 1) c = none := by
  rw [run_free, h]

/-- A run that has reached a configuration without successor is not longer
than that. -/
theorem run_free_le_of_halted {e : LeftEdge} {hd : Header} {M : TuringMachine} {c a d : Config}
    {N t : Nat} (hN : run_free e hd M N c = some a) (ha : step_free e hd M a = none)
    (ht : run_free e hd M t c = some d) : t ≤ N := by
  by_contra hlt
  obtain ⟨m, rfl⟩ : ∃ m, t = N + (m + 1) := ⟨t - N - 1, by omega⟩
  rw [run_free_add, hN, Option.some_bind, run_free_succ_of_halted ha] at ht
  cases ht

theorem run_free_sub {e : LeftEdge} {hd : Header} {M : TuringMachine} {c a d : Config}
    {N t : Nat} (hN : run_free e hd M N c = some a) (ht : run_free e hd M t c = some d)
    (hle : t ≤ N) : run_free e hd M (N - t) d = some a := by
  obtain ⟨m, rfl⟩ : ∃ m, N = t + m := ⟨N - t, by omega⟩
  rw [run_free_add, ht, Option.some_bind] at hN
  simpa using hN

/-- The steps of a one-tape machine at the left edge of its tape. -/
theorem step_free_left_edge (e : LeftEdge) {hd : Header} {M1 : TuringMachine}
    {st st1 c y : Str} {r : List Str}
    (h : map_find M1.transitions (make_in st c) = some (make_out st1 y hd.HEAD_LEFT)) :
    step_free e hd M1 ⟨st, [⟨[], c, r⟩]⟩
      = some ⟨st1, [Tape.write_move_free e hd ⟨[], c, r⟩ y hd.HEAD_LEFT]⟩ := by
  simp only [make_in, make_out] at h
  simp only [step_free, List.map_cons, List.map_nil, h, write_move_all_free]

theorem step_free_none (e : LeftEdge) {hd : Header} {M : TuringMachine} {c : Config}
    (h : map_find M.transitions (c.state, c.tapes.map Tape.cur) = none) :
    step_free e hd M c = none := by
  simp only [step_free, h]

theorem step_free_eq_none {e : LeftEdge} {hd : Header} {M : TuringMachine} {c : Config}
    (h : step_free e hd M c = none) :
    map_find M.transitions (c.state, c.tapes.map Tape.cur) = none := by
  unfold step_free at h
  cases hf : map_find M.transitions (c.state, c.tapes.map Tape.cur) with
  | none => rfl
  | some v => rw [hf] at h; cases h

theorem tape_over_write_move_free (e : LeftEdge) {hd : Header} {W : List Str}
    (hblank : hd.BLANK ∈ W) {T : Tape} (hT : T.Over W) {o : Str} (ho : o ∈ W) (d : Char) :
    (T.write_move_free e hd o d).Over W := by
  by_cases h : d = hd.HEAD_LEFT → T.left ≠ []
  · exact tape_over_write_move hblank hT ho (write_move_some_of e h)
  · simp only [Classical.not_imp, not_not] at h
    obtain ⟨hd1, hl⟩ := h
    obtain ⟨l, c, r⟩ := T
    simp only at hl
    subst hl hd1
    obtain ⟨-, -, hr⟩ := hT
    simp only at hr
    cases e with
    | stay_put =>
      simp only [Tape.write_move_free, if_true]
      exact ⟨by simp, ho, hr⟩
    | two_way =>
      simp only [Tape.write_move_free, if_true]
      refine ⟨by simp, hblank, ?_⟩
      intro z hz
      simp only [List.mem_cons] at hz
      rcases hz with rfl | hz
      · exact ho
      · exact hr z hz

theorem write_move_free_left_nil (e : LeftEdge) (hd : Header) (c o : Str) (r : List Str) :
    (Tape.write_move_free e hd ⟨[], c, r⟩ o hd.HEAD_LEFT).left = [] := by
  cases e <;> simp [Tape.write_move_free]

/-- The action on the first tape when its head is moved to the left from the
first cell: the letter is written, the physical head makes the move that the
reading of the left edge prescribes, the cell it is on then is marked, and the
physical head ends one cell to the right of the new mark. -/
theorem phase_tape_1_edge (e : LeftEdge) {hd : Header} {M : TuringMachine}
    {s a b n o1 o2 : Str} {d2 : Char}
    (X : BlockCtx hd M s a b n o1 o2 hd.HEAD_LEFT d2) (g0 : Globals) (R1 zs : List Str) :
    ReachPosFree e hd (reduced hd M g0)
      ⟨make_user_state (compose_state s a b) [] 1,
        [⟨[], make_logical_head (setup_globals hd M g0) a, R1 ++ zs⟩]⟩
      ⟨make_user_state (compose_state s a b) TO_SECOND_TAPE 1,
        [tape_at hd
          [make_logical_head (setup_globals hd M g0)
            (Tape.write_move_free e hd ⟨[], a, R1⟩ o1 hd.HEAD_LEFT).cur]
          ((Tape.write_move_free e hd ⟨[], a, R1⟩ o1 hd.HEAD_LEFT).right ++ zs)]⟩ := by
  have hne := X.wf.left_ne_right
  have hblank := blank_mem_working_alphabet hd M
  obtain ⟨-, -, ho1, -⟩ := X.letters
  obtain ⟨f1, f2⟩ := find_tape_1_left X g0
  refine ⟨_, step_free_left_edge e f1, ?_⟩
  cases e with
  | stay_put =>
    simp only [Tape.write_move_free, if_true]
    exact reachFree_step (step_free_of_step _ (step_right hne (f2 o1 ho1)))
  | two_way =>
    simp only [Tape.write_move_free, if_true]
    exact reachFree_step (step_free_of_step _ (step_right hne (f2 _ hblank)))

/-- The part of a simulated step that follows the action on the first
tape. -/
theorem simulate_rest {hd : Header} {M : TuringMachine} {s a b n o1 o2 : Str} {d1 d2 : Char}
    (X : BlockCtx hd M s a b n o1 o2 d1 d2) (g0 : Globals) {U1 T2 U2 : Tape}
    (hU1 : U1.Over (M.working_alphabet hd)) (h2 : T2.Over (M.working_alphabet hd))
    (hb : T2.cur = b) (hm2 : T2.write_move hd o2 d2 = some U2) :
    Reach hd (reduced hd M g0)
      ⟨make_user_state (compose_state s a b) TO_SECOND_TAPE 1,
        [tape_at hd (make_logical_head (setup_globals hd M g0) U1.cur :: U1.left)
          (U1.right ++ (setup_globals hd M g0).TAPE_BORDER ::
            (T2.left.reverse ++ make_logical_head (setup_globals hd M g0) T2.cur
              :: (T2.right ++ [(setup_globals hd M g0).TAPE_END])))]⟩
      ⟨if n = hd.ACCEPTING_STATE then hd.ACCEPTING_STATE
          else make_user_state (compose_state n U1.cur U2.cur) [] 1,
        [encode_tapes (setup_globals hd M g0) U1 U2]⟩ := by
  obtain ⟨L2, c2, R2⟩ := T2
  simp only at hb
  subst hb
  obtain ⟨hL2, hc2, hR2⟩ := h2
  simp only at hL2 hc2 hR2
  have hblank := blank_mem_working_alphabet hd M
  obtain ⟨-, -, -, ho2⟩ := X.letters
  have hU2 := tape_over_write_move hblank (T := ⟨L2, c2, R2⟩) ⟨hL2, hc2, hR2⟩ ho2 hm2
  have pB := phase_to_second X g0 (make_logical_head (setup_globals hd M g0) U1.cur :: U1.left)
    U1.right L2 hU1.2.2 hL2 (make_logical_head (setup_globals hd M g0) c2)
    (R2 ++ [(setup_globals hd M g0).TAPE_END])
  have pC := phase_tape_2 X g0 hL2 hR2 hm2 (setup_globals hd M g0).TAPE_BORDER
    (U1.right.reverse ++ make_logical_head (setup_globals hd M g0) U1.cur :: U1.left)
  have pD := phase_back X g0 hU2.2.1 U2.left U1.right U1.left hU2.1 hU1.2.2
    (make_logical_head (setup_globals hd M g0) U1.cur)
    (make_logical_head (setup_globals hd M g0) U2.cur
      :: (U2.right ++ [(setup_globals hd M g0).TAPE_END]))
  have pE : step hd (reduced hd M g0)
      ⟨make_user_state (compose_state s a c2) (extend_tape_back_to_first_tape U2.cur) 1,
        [⟨U1.left, make_logical_head (setup_globals hd M g0) U1.cur,
          U1.right ++ (setup_globals hd M g0).TAPE_BORDER ::
            (U2.left.reverse ++ make_logical_head (setup_globals hd M g0) U2.cur
              :: (U2.right ++ [(setup_globals hd M g0).TAPE_END]))⟩]⟩ = _ :=
    step_stay X.wf.left_ne_stay X.wf.right_ne_stay (find_out X g0 _ hU2.2.1 _ hU1.2.1)
  exact (pB.trans (pC.trans pD)).trans (reach_step pE)

/-- One step of the two-tape machine that does not move the head of the second
tape to the left from its first cell is simulated by the reduced machine,
whatever the reading of the left edge. -/
theorem simulate_step_free (e : LeftEdge) {hd : Header} {M : TuringMachine}
    {s a b n o1 o2 : Str} {d1 d2 : Char}
    (X : BlockCtx hd M s a b n o1 o2 d1 d2) (g0 : Globals) {T1 T2 : Tape}
    (h1 : T1.Over (M.working_alphabet hd)) (h2 : T2.Over (M.working_alphabet hd))
    (ha : T1.cur = a) (hb : T2.cur = b) (hedge : d2 = hd.HEAD_LEFT → T2.left ≠ []) :
    ReachPosFree e hd (reduced hd M g0)
      ⟨make_user_state (compose_state s a b) [] 1, [encode_tapes (setup_globals hd M g0) T1 T2]⟩
      ⟨if n = hd.ACCEPTING_STATE then hd.ACCEPTING_STATE
          else make_user_state (compose_state n (T1.write_move_free e hd o1 d1).cur
            (T2.write_move_free e hd o2 d2).cur) [] 1,
        [encode_tapes (setup_globals hd M g0) (T1.write_move_free e hd o1 d1)
          (T2.write_move_free e hd o2 d2)]⟩ := by
  have hblank := blank_mem_working_alphabet hd M
  have hm2 := write_move_some_of e (o := o2) hedge
  by_cases hc : d1 = hd.HEAD_LEFT → T1.left ≠ []
  · exact reachPos_free e (simulate_step X g0 h1 h2 ha hb (write_move_some_of e hc) hm2)
  · simp only [Classical.not_imp, not_not] at hc
    obtain ⟨hd1, hl⟩ := hc
    obtain ⟨L1, c1, R1⟩ := T1
    simp only at hl ha
    subst hl hd1 ha
    have hU1 := tape_over_write_move_free e hblank h1 X.letters.2.2.1 hd.HEAD_LEFT
    have pA := phase_tape_1_edge e X g0 R1
      ((setup_globals hd M g0).TAPE_BORDER ::
        (T2.left.reverse ++ make_logical_head (setup_globals hd M g0) T2.cur
          :: (T2.right ++ [(setup_globals hd M g0).TAPE_END])))
    have pR := simulate_rest X g0 hU1 h2 hb hm2
    rw [write_move_free_left_nil] at pR
    exact reachPosFree_then pA (reach_free e pR)

/-- A step of a valid two-tape machine that is always made: either no
transition applies, or the transition for the state and the two letters under
the heads writes and moves on both tapes. -/
theorem step_two_free (e : LeftEdge) {hd : Header} (hh : hd.WellFormed) {M : TuringMachine}
    (hM : M.Valid hd) (h2 : M.num_tapes = 2) (q : Str) (T1 T2 : Tape) :
    (map_find M.transitions (q, [T1.cur, T2.cur]) = none
        ∧ step_free e hd M ⟨q, [T1, T2]⟩ = none)
      ∨ ∃ n o1 o2 d1 d2, BlockCtx hd M q T1.cur T2.cur n o1 o2 d1 d2
        ∧ step_free e hd M ⟨q, [T1, T2]⟩
          = some ⟨n, [T1.write_move_free e hd o1 d1, T2.write_move_free e hd o2 d2]⟩
        ∧ second_head_leaves hd M ⟨q, [T1, T2]⟩
          = (decide (d2 = hd.HEAD_LEFT) && T2.left.isEmpty) := by
  cases hf : map_find M.transitions (q, [T1.cur, T2.cur]) with
  | none =>
    left
    refine ⟨rfl, ?_⟩
    simp only [step_free, List.map_cons, List.map_nil, hf]
  | some v =>
    right
    have hmem := map_find_mem hf
    obtain ⟨_, _, _, htr⟩ := valid_parts hM
    rw [h2] at htr
    obtain ⟨s, a, b, n, o1, o2, d1, d2, he, -⟩ := transition_asserts_two (htr _ hmem)
    simp only [Prod.mk.injEq, List.cons.injEq, and_true] at he
    obtain ⟨⟨rfl, rfl, rfl⟩, rfl⟩ := he
    refine ⟨n, o1, o2, d1, d2, ⟨hh, hM, h2, hmem⟩, ?_, ?_⟩
    · simp only [step_free, List.map_cons, List.map_nil, hf, write_move_all_free]
    · simp [second_head_leaves, hf]

/-- Forward simulation for the steps that are always made: a step of the
two-tape machine that does not move the head of the second tape to the left
from its first cell is matched by at least one step of the reduced machine. -/
theorem simulates_step_free (e : LeftEdge) {hd : Header} (hh : hd.WellFormed)
    {M : TuringMachine} (hM : M.Valid hd) (h2 : M.num_tapes = 2) (g0 : Globals)
    {c c1 e0 : Config} (hsim : Simulates hd M g0 c e0) (hstep : step_free e hd M c = some c1)
    (hsafe : second_head_leaves hd M c = false) :
    ∃ e1, ReachPosFree e hd (reduced hd M g0) e0 e1
      ∧ ((c1.state = hd.ACCEPTING_STATE ∧ e1.state = hd.ACCEPTING_STATE)
        ∨ (c1.state ≠ hd.ACCEPTING_STATE ∧ Simulates hd M g0 c1 e1)) := by
  obtain ⟨q, ts⟩ := c
  obtain ⟨est, ets⟩ := e0
  obtain ⟨T1, T2, ht, hT1, hT2, hq, het, hst⟩ := hsim
  simp only at ht hq het hst
  subst ht het
  rcases step_two_free e hh hM h2 q T1 T2 with ⟨-, h⟩ | ⟨n, o1, o2, d1, d2, X, h, hl⟩
  · rw [h] at hstep; cases hstep
  · rw [h] at hstep
    simp only [Option.some.injEq] at hstep
    subst hstep
    rw [hl] at hsafe
    have hedge : d2 = hd.HEAD_LEFT → T2.left ≠ [] := by
      intro hd2 hnil
      simp [hd2, hnil] at hsafe
    have hblank := blank_mem_working_alphabet hd M
    obtain ⟨-, -, ho1, ho2⟩ := X.letters
    have hU1 := tape_over_write_move_free e hblank hT1 ho1 d1
    have hU2 := tape_over_write_move_free e hblank hT2 ho2 d2
    refine ⟨_, reachFree_then_pos (reach_free e (reach_entry X g0 hst))
      (simulate_step_free e X g0 hT1 hT2 rfl rfl hedge), ?_⟩
    by_cases hn : n = hd.ACCEPTING_STATE
    · left
      exact ⟨hn, by simp only [if_pos hn]⟩
    · right
      refine ⟨hn, _, _, rfl, hU1, hU2, X.parts.2.1, rfl, Or.inl ?_⟩
      simp only [if_neg hn]

/-- When no transition of the two-tape machine applies, none of the reduced
machine does, and its state is not the accepting one. -/
theorem simulates_halt_free (e : LeftEdge) {hd : Header} (hh : hd.WellFormed)
    {M : TuringMachine} (hM : M.Valid hd) (h2 : M.num_tapes = 2) (g0 : Globals)
    {c e0 : Config} (hsim : Simulates hd M g0 c e0) (hstep : step_free e hd M c = none) :
    step_free e hd (reduced hd M g0) e0 = none ∧ e0.state ≠ hd.ACCEPTING_STATE := by
  obtain ⟨q, ts⟩ := c
  obtain ⟨est, ets⟩ := e0
  obtain ⟨T1, T2, ht, hT1, hT2, hq, het, hst⟩ := hsim
  simp only at ht hq het hst
  subst ht het
  have hid := working_alphabet_ident hh hM h2
  rcases step_two_free e hh hM h2 q T1 T2 with ⟨hnone, -⟩ | ⟨n, o1, o2, d1, d2, X, h, -⟩
  · constructor
    · apply step_free_none
      have hk : map_find (reduced hd M g0).transitions
          (make_in est (make_logical_head (setup_globals hd M g0) T1.cur)) = none := by
        refine reduced_find_none hh hM h2 g0 hq (hid _ hT1.2.1) (hid _ hT2.2.1) hnone ?_
        rcases hst with rfl | ⟨rfl, hb, rfl⟩
        · exact Or.inr ⟨[], 1, Or.inl rfl, rfl⟩
        · exact Or.inl ⟨rfl, rfl, hb⟩
      simpa [make_in, encode_tapes] using hk
    · rcases hst with rfl | ⟨-, -, rfl⟩
      · exact user_state_ne_accepting hh _ _ _
      · exact fun e => hh.accepting_fresh.2 (by rw [← e]; rfl)
  · rw [h] at hstep
    cases hstep

theorem step_free_accepting (e : LeftEdge) {hd : Header} (hh : hd.WellFormed)
    {M : TuringMachine} (hM : M.Valid hd) (h2 : M.num_tapes = 2) (g0 : Globals) {c : Config}
    (hc : c.state = hd.ACCEPTING_STATE) : step_free e hd (reduced hd M g0) c = none := by
  simp only [step_free, hc, reduced_find_accepting hh hM h2 g0]

theorem secondHeadStays_here {e : LeftEdge} {hd : Header} {M : TuringMachine} {c : Config}
    (h : SecondHeadStays e hd M c) : second_head_leaves hd M c = false :=
  h 0 c rfl

theorem secondHeadStays_step {e : LeftEdge} {hd : Header} {M : TuringMachine} {c c0 : Config}
    (h : SecondHeadStays e hd M c) (hs : step_free e hd M c = some c0) :
    SecondHeadStays e hd M c0 := by
  intro n c1 hn
  apply h (n + 1) c1
  rw [run_free, hs]
  exact hn

/-- If the two-tape machine reaches the accepting state on a run that never
moves the head of the second tape to the left from its first cell, so does the
reduced machine from any configuration that simulates the start. -/
theorem accepts_forward_free (e : LeftEdge) {hd : Header} (hh : hd.WellFormed)
    {M : TuringMachine} (hM : M.Valid hd) (h2 : M.num_tapes = 2) (g0 : Globals) :
    ∀ (k : Nat) (c c1 e0 : Config), Simulates hd M g0 c e0 → SecondHeadStays e hd M c →
      c.state ≠ hd.ACCEPTING_STATE →
      run_free e hd M k c = some c1 → c1.state = hd.ACCEPTING_STATE →
      ∃ n e1, run_free e hd (reduced hd M g0) n e0 = some e1
        ∧ e1.state = hd.ACCEPTING_STATE := by
  intro k
  induction k with
  | zero =>
    intro c c1 e0 _ _ hne hrun hacc
    simp only [run_free, Option.some.injEq] at hrun
    subst hrun
    exact absurd hacc hne
  | succ k ih =>
    intro c c1 e0 hsim hsafe _ hrun hacc
    rw [run_free] at hrun
    cases hs : step_free e hd M c with
    | none => rw [hs] at hrun; cases hrun
    | some c0 =>
      rw [hs] at hrun
      obtain ⟨e9, hreach, h | ⟨hne0, hsim0⟩⟩ :=
        simulates_step_free e hh hM h2 g0 hsim hs (secondHeadStays_here hsafe)
      · obtain ⟨n, hn⟩ := reachPosFree_reach hreach
        exact ⟨n, e9, hn, h.2⟩
      · obtain ⟨n, e1, hn, he1⟩ :=
          ih c0 c1 e9 hsim0 (secondHeadStays_step hsafe hs) hne0 hrun hacc
        obtain ⟨m, hm⟩ := reachFree_trans (reachPosFree_reach hreach) ⟨n, hn⟩
        exact ⟨m, e1, hm, he1⟩

theorem secondHeadStays_of_within {e : LeftEdge} {hd : Header} {M : TuringMachine} :
    ∀ (n : Nat) {c : Config}, second_head_stays_within e hd M n c = true →
      SecondHeadStays e hd M c
  | 0, c, h => by simp [second_head_stays_within] at h
  | n + 1, c, h => by
    simp only [second_head_stays_within, Bool.and_eq_true, Bool.not_eq_true'] at h
    obtain ⟨h1, h2⟩ := h
    intro k c1 hk
    cases k with
    | zero =>
      simp only [run_free, Option.some.injEq] at hk
      subst hk
      exact h1
    | succ k =>
      rw [run_free] at hk
      cases hs : step_free e hd M c with
      | none => rw [hs] at hk; cases hk
      | some c0 =>
        rw [hs] at hk h2
        exact secondHeadStays_of_within n h2 k c1 hk

/-- A machine without a transition that moves the head of the second tape to
the left never moves that head to the left from the first cell. -/
theorem second_head_leaves_of_directions {hd : Header} {M : TuringMachine}
    (h : ∀ t ∈ M.transitions, t.2.2.2.get? 1 ≠ some hd.HEAD_LEFT) (c : Config) :
    second_head_leaves hd M c = false := by
  unfold second_head_leaves
  cases hf : map_find M.transitions (c.state, c.tapes.map Tape.cur) with
  | none => rfl
  | some v =>
    obtain ⟨n, letters, directions⟩ := v
    have hm := h _ (map_find_mem hf)
    simp only at hm
    cases c.tapes.get? 1 with
    | none => rfl
    | some T2 =>
      have hm1 : ¬ directions[1]? = some hd.HEAD_LEFT := by simpa using hm
      simp [hm1]

/-- A run of the reduced machine that halts in a state other than the
accepting one: the word is not accepted. -/
theorem not_accepts_free_of_halted (e : LeftEdge) {hd : Header} (hh : hd.WellFormed)
    {M : TuringMachine} (hM : M.Valid hd) (h2 : M.num_tapes = 2) (g0 : Globals)
    {w : List Str} {N : Nat} {d : Config}
    (hN : run_free e hd (reduced hd M g0) N (initial_config hd (reduced hd M g0) w) = some d)
    (hd1 : step_free e hd (reduced hd M g0) d = none) (hd2 : d.state ≠ hd.ACCEPTING_STATE) :
    ¬ accepts_free e hd (reduced hd M g0) w := by
  rintro ⟨n, c, hn, hacc⟩
  have h1 := run_free_le_of_halted hN hd1 hn
  have h3 := run_free_le_of_halted hn (step_free_accepting e hh hM h2 g0 hacc) hN
  have e1 : n = N := by omega
  subst e1
  rw [hN] at hn
  simp only [Option.some.injEq] at hn
  exact hd2 (hn ▸ hacc)

theorem left_edge_machine_valid : left_edge_machine.Valid stdHeader :=
  ⟨by decide, by decide⟩

theorem valid_find_accepting {hd : Header} {M : TuringMachine} (hM : M.Valid hd)
    (ls : List Str) : map_find M.transitions (hd.ACCEPTING_STATE, ls) = none := by
  cases hf : map_find M.transitions (hd.ACCEPTING_STATE, ls) with
  | none => rfl
  | some v =>
    exfalso
    obtain ⟨_, _, _, htr⟩ := valid_parts hM
    have h := htr _ (map_find_mem hf)
    simp only [transition_asserts, Bool.and_eq_true, bne_iff_ne, ne_eq] at h
    exact h.1.1.1.1.2 trivial

theorem second_head_leaves_of_none {hd : Header} {M : TuringMachine} {c : Config}
    (h : map_find M.transitions (c.state, c.tapes.map Tape.cur) = none) :
    second_head_leaves hd M c = false := by
  simp only [second_head_leaves, h]

theorem secondHeadStays_of_halted {e : LeftEdge} {hd : Header} {M : TuringMachine} {c : Config}
    (h : step_free e hd M c = none) : SecondHeadStays e hd M c := by
  intro n c1 hn
  cases n with
  | zero =>
    simp only [run_free, Option.some.injEq] at hn
    subst hn
    exact second_head_leaves_of_none (step_free_eq_none h)
  | succ n =>
    rw [run_free_succ_of_halted h] at hn
    cases hn

theorem secondHeadStays_cons {e : LeftEdge} {hd : Header} {M : TuringMachine} {c c0 : Config}
    (h : second_head_leaves hd M c = false) (hs : step_free e hd M c = some c0)
    (h0 : SecondHeadStays e hd M c0) : SecondHeadStays e hd M c := by
  intro n c1 hn
  cases n with
  | zero =>
    simp only [run_free, Option.some.injEq] at hn
    subst hn
    exact h
  | succ n =>
    rw [run_free, hs] at hn
    exact h0 n c1 hn

/-- The action on the first tape, whatever the reading of the left edge. -/
theorem phase_tape_1_free (e : LeftEdge) {hd : Header} {M : TuringMachine}
    {s a b n o1 o2 : Str} {d1 d2 : Char}
    (X : BlockCtx hd M s a b n o1 o2 d1 d2) (g0 : Globals) {T1 : Tape}
    (h1 : T1.Over (M.working_alphabet hd)) (ha : T1.cur = a)
    {y : Str} (hy : y ∈ M.working_alphabet hd) (L2 R2 : List Str)
    (hL : ∀ x ∈ L2, x ∈ M.working_alphabet hd) (hR : ∀ x ∈ R2, x ∈ M.working_alphabet hd) :
    ReachPosFree e hd (reduced hd M g0)
      ⟨make_user_state (compose_state s a b) [] 1,
        [⟨T1.left, make_logical_head (setup_globals hd M g0) a,
          T1.right ++ (setup_globals hd M g0).TAPE_BORDER ::
            (L2.reverse ++ make_logical_head (setup_globals hd M g0) y
              :: (R2 ++ [(setup_globals hd M g0).TAPE_END]))⟩]⟩
      ⟨make_user_state (compose_state s a b) TO_SECOND_TAPE 1,
        [tape_at hd (make_logical_head (setup_globals hd M g0)
            (T1.write_move_free e hd o1 d1).cur :: (T1.write_move_free e hd o1 d1).left)
          ((T1.write_move_free e hd o1 d1).right ++ (setup_globals hd M g0).TAPE_BORDER ::
            (L2.reverse ++ make_logical_head (setup_globals hd M g0) y
              :: (R2 ++ [(setup_globals hd M g0).TAPE_END])))]⟩ := by
  obtain ⟨L1, c1, R1⟩ := T1
  simp only at ha
  subst ha
  by_cases hc : d1 = hd.HEAD_LEFT → L1 ≠ []
  · have hm1 : Tape.write_move hd ⟨L1, c1, R1⟩ o1 d1 = some _ :=
      write_move_some_of e (T := ⟨L1, c1, R1⟩) hc
    exact reachPos_free e (phase_tape_1 X g0 h1.1 h1.2.2 hm1 hy L2 R2 hL hR)
  · simp only [Classical.not_imp, not_not] at hc
    obtain ⟨hd1, hl⟩ := hc
    subst hl hd1
    have pA := phase_tape_1_edge e X g0 R1
      ((setup_globals hd M g0).TAPE_BORDER ::
        (L2.reverse ++ make_logical_head (setup_globals hd M g0) y
          :: (R2 ++ [(setup_globals hd M g0).TAPE_END])))
    rw [write_move_free_left_nil]
    exact pA

/-- When the transition that applies moves the head of the second tape to the
left from its first cell, the reduced machine halts on the border between the
two tape regions, in a state that is not accepting: the block has no key for the
border in the state that follows the move. -/
theorem simulates_stuck_free (e : LeftEdge) {hd : Header} (hh : hd.WellFormed)
    {M : TuringMachine} (hM : M.Valid hd) (h2 : M.num_tapes = 2) (g0 : Globals)
    {c e0 : Config} (hsim : Simulates hd M g0 c e0)
    (hleaves : second_head_leaves hd M c = true) :
    ∃ d, ReachFree e hd (reduced hd M g0) e0 d ∧ step_free e hd (reduced hd M g0) d = none
      ∧ d.state ≠ hd.ACCEPTING_STATE := by
  obtain ⟨q, ts⟩ := c
  obtain ⟨est, ets⟩ := e0
  obtain ⟨T1, T2, ht, hT1, hT2, hq, het, hst⟩ := hsim
  simp only at ht hq het hst
  subst ht het
  rcases step_two_free e hh hM h2 q T1 T2 with ⟨hnone, -⟩ | ⟨n, o1, o2, d1, d2, X, -, hl⟩
  · rw [second_head_leaves_of_none (by simpa using hnone)] at hleaves
    cases hleaves
  · rw [hl] at hleaves
    simp only [Bool.and_eq_true, decide_eq_true_eq, List.isEmpty_iff] at hleaves
    obtain ⟨hd2, hnil⟩ := hleaves
    subst hd2
    have hblank := blank_mem_working_alphabet hd M
    have hU1 := tape_over_write_move_free e hblank hT1 X.letters.2.2.1 d1
    have hentry := reach_free e (reach_entry X g0 hst)
    obtain ⟨L2, c2, R2⟩ := T2
    simp only at hnil
    subst hnil
    have pA := phase_tape_1_free e X g0 hT1 rfl hT2.2.1 [] R2 (by simp) hT2.2.2
    have pB := phase_to_second X g0
      (make_logical_head (setup_globals hd M g0) (T1.write_move_free e hd o1 d1).cur
        :: (T1.write_move_free e hd o1 d1).left)
      (T1.write_move_free e hd o1 d1).right [] hU1.2.2 (by simp)
      (make_logical_head (setup_globals hd M g0) c2)
      (R2 ++ [(setup_globals hd M g0).TAPE_END])
    have pC : step hd (reduced hd M g0)
        ⟨make_user_state (compose_state q T1.cur c2) TO_SECOND_TAPE 2,
          [⟨(setup_globals hd M g0).TAPE_BORDER ::
              ((T1.write_move_free e hd o1 d1).right.reverse ++
                make_logical_head (setup_globals hd M g0) (T1.write_move_free e hd o1 d1).cur
                  :: (T1.write_move_free e hd o1 d1).left),
            make_logical_head (setup_globals hd M g0) c2,
            R2 ++ [(setup_globals hd M g0).TAPE_END]⟩]⟩ = _ :=
      step_left (find_tape_2_left X g0).1
    refine ⟨_, reachFree_trans hentry (reachFree_trans (reachPosFree_reach pA)
      (reach_free e (pB.trans (reach_step pC)))), ?_, user_state_ne_accepting hh _ _ _⟩
    apply step_free_none
    simpa [make_in] using find_tape_2_left_border X g0

/-- If the reduced machine reaches the accepting state from a configuration
that simulates one of the two-tape machine, the two-tape machine reaches the
accepting state from there, on a run that never moves the head of the second
tape to the left from its first cell. -/
theorem accepts_backward_free (e : LeftEdge) {hd : Header} (hh : hd.WellFormed)
    {M : TuringMachine} (hM : M.Valid hd) (h2 : M.num_tapes = 2) (g0 : Globals) :
    ∀ (N : Nat) (c e0 e1 : Config), Simulates hd M g0 c e0 →
      run_free e hd (reduced hd M g0) N e0 = some e1 → e1.state = hd.ACCEPTING_STATE →
      (∃ k c1, run_free e hd M k c = some c1 ∧ c1.state = hd.ACCEPTING_STATE)
        ∧ SecondHeadStays e hd M c := by
  intro N
  induction N using Nat.strong_induction_on with
  | _ N ih =>
    intro c e0 e1 hsim hrun hacc
    have hhalt := step_free_accepting e hh hM h2 g0 hacc
    have stuck : ∀ d, ReachFree e hd (reduced hd M g0) e0 d →
        step_free e hd (reduced hd M g0) d = none → d.state ≠ hd.ACCEPTING_STATE → False := by
      rintro d ⟨t, ht⟩ hd1 hd2
      have hle := run_free_le_of_halted hrun hhalt ht
      have hsub := run_free_sub hrun ht hle
      cases hm : N - t with
      | zero =>
        rw [hm] at hsub
        simp only [run_free, Option.some.injEq] at hsub
        exact hd2 (hsub ▸ hacc)
      | succ m =>
        rw [hm, run_free_succ_of_halted hd1] at hsub
        cases hsub
    cases hl : second_head_leaves hd M c with
    | true =>
      exfalso
      obtain ⟨d, hreach, hd1, hd2⟩ := simulates_stuck_free e hh hM h2 g0 hsim hl
      exact stuck d hreach hd1 hd2
    | false =>
      cases hs : step_free e hd M c with
      | none =>
        exfalso
        obtain ⟨hd1, hd2⟩ := simulates_halt_free e hh hM h2 g0 hsim hs
        exact stuck e0 ⟨0, rfl⟩ hd1 hd2
      | some c0 =>
        obtain ⟨e9, ⟨e8, hstep8, t, ht⟩, h | ⟨-, hsim0⟩⟩ :=
          simulates_step_free e hh hM h2 g0 hsim hs hl
        · refine ⟨⟨1, c0, by simp [run_free, hs], h.1⟩, secondHeadStays_cons hl hs ?_⟩
          apply secondHeadStays_of_halted
          apply step_free_none
          rw [h.1]
          exact valid_find_accepting hM _
        · have ht1 : run_free e hd (reduced hd M g0) (t + 1) e0 = some e9 := by
            rw [run_free, hstep8]; exact ht
          have hle := run_free_le_of_halted hrun hhalt ht1
          have hsub := run_free_sub hrun ht1 hle
          obtain ⟨⟨k, c1, hk, hc1⟩, hst⟩ :=
            ih (N - (t + 1)) (by omega) c0 e9 e1 hsim0 hsub hacc
          exact ⟨⟨k + 1, c1, by rw [run_free, hs]; exact hk, hc1⟩,
            secondHeadStays_cons hl hs hst⟩

/-! ### The equivalence, with moves to the left of the first cell -/

set_option maxRecDepth 100000 in
/-- C2, the claim as stated fails: `left_edge_machine` is a valid two-tape
machine, and on the empty word its only step, `(start) _ _ -> (accept) _ _ - <`,
moves the head of tape 2 to the left from the first cell and accepts, whether
the head stays there or moves to a new blank cell.  The reduced machine does
not accept the empty word: after ten steps it is in the state
`(U-(start)-(_)-(_)-headLeft-2)` on the border between the two tape regions,
where it has no transition. -/
theorem reduce_equivalent_counterexample :
    left_edge_machine.Valid stdHeader ∧ left_edge_machine.num_tapes = 2
      ∧ ∃ M1 g1,
        left_edge_machine.reduce_two_tapes_to_one stdHeader Globals.initial = .ok (M1, g1)
        ∧ ¬ (accepts_free .stay_put stdHeader left_edge_machine []
              ↔ accepts_free .stay_put stdHeader M1 [])
        ∧ ¬ (accepts_free .two_way stdHeader left_edge_machine []
              ↔ accepts_free .two_way stdHeader M1 [])
        ∧ run_free .stay_put stdHeader left_edge_machine 1
            (initial_config stdHeader left_edge_machine [])
          = some ⟨"(accept)".toList, [⟨[], "_".toList, []⟩, ⟨[], "_".toList, []⟩]⟩
        ∧ run_free .two_way stdHeader left_edge_machine 1
            (initial_config stdHeader left_edge_machine [])
          = some ⟨"(accept)".toList,
              [⟨[], "_".toList, []⟩, ⟨[], "_".toList, ["_".toList]⟩]⟩
        ∧ run_free .stay_put stdHeader M1 10 (initial_config stdHeader M1 [])
          = some ⟨"(U-(start)-(_)-(_)-headLeft-2)".toList,
              [⟨["(_-H)".toList], "(tape-border)".toList,
                ["_".toList, "(tape-end)".toList]⟩]⟩
        ∧ run_free .two_way stdHeader M1 10 (initial_config stdHeader M1 [])
          = some ⟨"(U-(start)-(_)-(_)-headLeft-2)".toList,
              [⟨["(_-H)".toList], "(tape-border)".toList,
                ["_".toList, "(tape-end)".toList]⟩]⟩
        ∧ map_find M1.transitions
            ("(U-(start)-(_)-(_)-headLeft-2)".toList, ["(tape-border)".toList]) = none := by
  have hv := left_edge_machine_valid
  have hwf := stdHeader_wellFormed
  have a1 : run_free .stay_put stdHeader left_edge_machine 1
      (initial_config stdHeader left_edge_machine [])
      = some ⟨"(accept)".toList, [⟨[], "_".toList, []⟩, ⟨[], "_".toList, []⟩]⟩ := by decide
  have a2 : run_free .two_way stdHeader left_edge_machine 1
      (initial_config stdHeader left_edge_machine [])
      = some ⟨"(accept)".toList,
          [⟨[], "_".toList, []⟩, ⟨[], "_".toList, ["_".toList]⟩]⟩ := by decide
  have b1 : run_free .stay_put stdHeader (reduced stdHeader left_edge_machine Globals.initial) 10
      (initial_config stdHeader (reduced stdHeader left_edge_machine Globals.initial) [])
      = some ⟨"(U-(start)-(_)-(_)-headLeft-2)".toList,
          [⟨["(_-H)".toList], "(tape-border)".toList,
            ["_".toList, "(tape-end)".toList]⟩]⟩ := by decide
  have b2 : run_free .two_way stdHeader (reduced stdHeader left_edge_machine Globals.initial) 10
      (initial_config stdHeader (reduced stdHeader left_edge_machine Globals.initial) [])
      = some ⟨"(U-(start)-(_)-(_)-headLeft-2)".toList,
          [⟨["(_-H)".toList], "(tape-border)".toList,
            ["_".toList, "(tape-end)".toList]⟩]⟩ := by decide
  have k : map_find (reduced stdHeader left_edge_machine Globals.initial).transitions
      ("(U-(start)-(_)-(_)-headLeft-2)".toList, ["(tape-border)".toList]) = none := by decide
  have hne : "(U-(start)-(_)-(_)-headLeft-2)".toList ≠ stdHeader.ACCEPTING_STATE := by decide
  refine ⟨hv, rfl, _, _, reduce_ok hwf hv rfl Globals.initial, ?_, ?_, a1, a2, b1, b2, k⟩
  · intro h
    exact not_accepts_free_of_halted .stay_put hwf hv rfl Globals.initial b1
      (step_free_none _ k) hne (h.1 ⟨1, _, a1, rfl⟩)
  · intro h
    exact not_accepts_free_of_halted .two_way hwf hv rfl Globals.initial b2
      (step_free_none _ k) hne (h.1 ⟨1, _, a2, rfl⟩)

/-- C2, amended: behavioural equivalence of the reduction up to moves of the
head of tape 2 to the left from its first cell.  The step semantics is the
usual deterministic one (blank-filled tapes, heads on the first cell, start in
`INITIAL_STATE`, halt when and only when no transition applies), with either
reading `e` of a move to the left from the first cell of a tape: the head stays
there, or the tape is infinite to the left as well.  For every valid two-tape
machine `M` and every word `w` over the input alphabet of `M`, the reduction
returns a machine `M1`, and `M1` started on `w` reaches `ACCEPTING_STATE` if
and only if `M` started on `w` (tape 2 empty) reaches `ACCEPTING_STATE` and no
configuration on the run of `M` on `w` applies a transition that moves the head
of tape 2 to the left while it is on the first cell.  In particular, for the
words on which `M` never makes such a move, `M` reaches `ACCEPTING_STATE` if
and only if `M1` does. -/
theorem reduce_equivalent (e : LeftEdge) (hd : Header) (hh : hd.WellFormed)
    (M : TuringMachine) (hM : M.Valid hd) (h2 : M.num_tapes = 2) (g0 : Globals) (w : List Str)
    (hw : ∀ x ∈ w, x ∈ M.input_alphabet) :
    ∃ M1 g1, M.reduce_two_tapes_to_one hd g0 = .ok (M1, g1)
      ∧ (accepts_free e hd M1 w ↔
          accepts_free e hd M w
            ∧ ∀ n c, run_free e hd M n (initial_config hd M w) = some c →
                second_head_leaves hd M c = false)
      ∧ ((∀ n c, run_free e hd M n (initial_config hd M w) = some c →
            second_head_leaves hd M c = false) →
          (accepts_free e hd M w ↔ accepts_free e hd M1 w)) := by
  have hsim := simulates_initial hh h2 g0 hw
  have hinit : ReachFree e hd (reduced hd M g0) (initial_config hd (reduced hd M g0) w) _ :=
    reach_free e (init_run hh hM h2 g0 hw)
  have hne : (initial_config hd M w).state ≠ hd.ACCEPTING_STATE := hh.initial_ne_accepting
  have key : accepts_free e hd (reduced hd M g0) w ↔
      accepts_free e hd M w
        ∧ ∀ n c, run_free e hd M n (initial_config hd M w) = some c →
            second_head_leaves hd M c = false := by
    constructor
    · rintro ⟨N, e1, hN, he1⟩
      obtain ⟨t, ht⟩ := hinit
      have hle := run_free_le_of_halted hN (step_free_accepting e hh hM h2 g0 he1) ht
      exact accepts_backward_free e hh hM h2 g0 _ _ _ e1 hsim (run_free_sub hN ht hle) he1
    · rintro ⟨⟨k, c1, hk, hc1⟩, hedge⟩
      obtain ⟨n, e1, hn, he1⟩ :=
        accepts_forward_free e hh hM h2 g0 k _ c1 _ hsim hedge hne hk hc1
      obtain ⟨m, hm⟩ := reachFree_trans hinit ⟨n, hn⟩
      exact ⟨m, e1, hm, he1⟩
  exact ⟨_, _, reduce_ok hh hM h2 g0, key,
    fun hedge => ⟨fun h => key.2 ⟨h, hedge⟩, fun h => (key.1 h).1⟩⟩

set_option maxRecDepth 100000 in
theorem reduce_equivalent_witness :
    ((∀ x ∈ ["0".toList, "0".toList], x ∈ scenario_machine.input_alphabet)
      ∧ ∃ M1 g1,
        scenario_machine.reduce_two_tapes_to_one stdHeader Globals.initial = .ok (M1, g1)
        ∧ (accepts_free .two_way stdHeader M1 ["0".toList, "0".toList] ↔
            accepts_free .two_way stdHeader scenario_machine ["0".toList, "0".toList]
              ∧ ∀ n c, run_free .two_way stdHeader scenario_machine n
                    (initial_config stdHeader scenario_machine ["0".toList, "0".toList])
                  = some c →
                  second_head_leaves stdHeader scenario_machine c = false)
        ∧ (accepts_free .two_way stdHeader scenario_machine ["0".toList, "0".toList]
            ↔ accepts_free .two_way stdHeader M1 ["0".toList, "0".toList])
        ∧ run_free .two_way stdHeader scenario_machine 3
            (initial_config stdHeader scenario_machine ["0".toList, "0".toList])
          = some ⟨"(accept)".toList,
              [⟨["1".toList, "1".toList], "_".toList, []⟩, ⟨[], "_".toList, []⟩]⟩
        ∧ run_free .two_way stdHeader M1 32
            (initial_config stdHeader M1 ["0".toList, "0".toList])
          = some ⟨"(accept)".toList,
              [⟨["1".toList, "1".toList], "(_-H)".toList,
                ["(tape-border)".toList, "(_-H)".toList, "(tape-end)".toList]⟩]⟩)
    ∧ ((∀ x ∈ ["0".toList], x ∈ left_edge_machine.input_alphabet)
      ∧ ∃ M1 g1,
        left_edge_machine.reduce_two_tapes_to_one stdHeader Globals.initial = .ok (M1, g1)
        ∧ (accepts_free .stay_put stdHeader M1 ["0".toList] ↔
            accepts_free .stay_put stdHeader left_edge_machine ["0".toList]
              ∧ ∀ n c, run_free .stay_put stdHeader left_edge_machine n
                    (initial_config stdHeader left_edge_machine ["0".toList]) = some c →
                  second_head_leaves stdHeader left_edge_machine c = false)
        ∧ (accepts_free .stay_put stdHeader left_edge_machine ["0".toList]
            ↔ accepts_free .stay_put stdHeader M1 ["0".toList])
        ∧ run_free .stay_put stdHeader left_edge_machine 2
            (initial_config stdHeader left_edge_machine ["0".toList])
          = some ⟨"(accept)".toList,
              [⟨[], "1".toList, []⟩, ⟨[], "_".toList, ["_".toList]⟩]⟩
        ∧ run_free .stay_put stdHeader M1 24 (initial_config stdHeader M1 ["0".toList])
          = some ⟨"(accept)".toList,
              [⟨[], "(1-H)".toList,
                ["(tape-border)".toList, "(_-H)".toList, "_".toList,
                  "(tape-end)".toList]⟩]⟩)
    ∧ (∃ M1 g1,
        left_edge_machine.reduce_two_tapes_to_one stdHeader Globals.initial = .ok (M1, g1)
        ∧ (accepts_free .two_way stdHeader M1 ["0".toList] ↔
            accepts_free .two_way stdHeader left_edge_machine ["0".toList]
              ∧ ∀ n c, run_free .two_way stdHeader left_edge_machine n
                    (initial_config stdHeader left_edge_machine ["0".toList]) = some c →
                  second_head_leaves stdHeader left_edge_machine c = false)
        ∧ (accepts_free .two_way stdHeader left_edge_machine ["0".toList]
            ↔ accepts_free .two_way stdHeader M1 ["0".toList])
        ∧ run_free .two_way stdHeader left_edge_machine 2
            (initial_config stdHeader left_edge_machine ["0".toList])
          = some ⟨"(accept)".toList,
              [⟨[], "_".toList, ["1".toList]⟩, ⟨[], "_".toList, ["_".toList]⟩]⟩
        ∧ run_free .two_way stdHeader M1 28 (initial_config stdHeader M1 ["0".toList])
          = some ⟨"(accept)".toList,
              [⟨[], "(_-H)".toList,
                ["1".toList, "(tape-border)".toList, "(_-H)".toList, "_".toList,
                  "(tape-end)".toList]⟩]⟩) := by
  have hw : ∀ x ∈ ["0".toList, "0".toList], x ∈ scenario_machine.input_alphabet := by decide
  have hw1 : ∀ x ∈ ["0".toList], x ∈ left_edge_machine.input_alphabet := by decide
  have s0 : ∀ n c, run_free .two_way stdHeader scenario_machine n
      (initial_config stdHeader scenario_machine ["0".toList, "0".toList]) = some c →
      second_head_leaves stdHeader scenario_machine c = false :=
    fun _ c _ => second_head_leaves_of_directions (by decide) c
  have s1 : ∀ n c, run_free .stay_put stdHeader left_edge_machine n
      (initial_config stdHeader left_edge_machine ["0".toList]) = some c →
      second_head_leaves stdHeader left_edge_machine c = false :=
    secondHeadStays_of_within 3 (by decide)
  have s2 : ∀ n c, run_free .two_way stdHeader left_edge_machine n
      (initial_config stdHeader left_edge_machine ["0".toList]) = some c →
      second_head_leaves stdHeader left_edge_machine c = false :=
    secondHeadStays_of_within 3 (by decide)
  obtain ⟨M0, g0, h0, k0, i0⟩ := reduce_equivalent .two_way stdHeader stdHeader_wellFormed
    scenario_machine scenario_machine_valid rfl Globals.initial ["0".toList, "0".toList] hw
  obtain ⟨M1, g1, h1, k1, i1⟩ := reduce_equivalent .stay_put stdHeader stdHeader_wellFormed
    left_edge_machine left_edge_machine_valid rfl Globals.initial ["0".toList] hw1
  obtain ⟨M2, g2, h2, k2, i2⟩ := reduce_equivalent .two_way stdHeader stdHeader_wellFormed
    left_edge_machine left_edge_machine_valid rfl Globals.initial ["0".toList] hw1
  have e0 := reduce_ok stdHeader_wellFormed scenario_machine_valid rfl Globals.initial
  have e1 := reduce_ok stdHeader_wellFormed left_edge_machine_valid rfl Globals.initial
  rw [e0] at h0
  rw [e1] at h1 h2
  simp only [Except.ok.injEq, Prod.mk.injEq] at h0 h1 h2
  obtain ⟨rfl, rfl⟩ := h0
  obtain ⟨rfl, rfl⟩ := h1
  obtain ⟨rfl, -⟩ := h2
  exact ⟨⟨hw, _, _, e0, k0, i0 s0, by decide, by decide⟩,
    ⟨hw1, _, _, e1, k1, i1 s1, by decide, by decide⟩,
    ⟨_, _, e1, k2, i2 s2, by decide, by decide⟩⟩

end TMReducer
